import Mathlib

set_option maxHeartbeats 1000000

namespace Refa

/-!
A shallow embedding of the NFA core (`nfa.ts`).  JS node objects live on a global
heap of adjacency maps, keyed by `NodeRef`; `NodeList` and `SubList` are passed and
returned as values; every operation that can `throw` returns `Except Err`.  JS
numbers (code points, `maxCharacter`) are modelled by `ℚ`.
-/

/-- Modelled from the spec: `char-set.ts` is not under `src/`.  Per §4.1 a `CharSet`
is a value object — a sorted sequence of disjoint closed intervals plus the stored
alphabet `maximum`; such a sequence denotes exactly a set of code points, so we
represent the value by that set together with `maximum`. -/
structure CharSet where
  maximum : ℚ
  chars : Finset ℚ
deriving DecidableEq

/-- `CharSet.isEmpty`. -/
def CharSet.isEmpty (s : CharSet) : Bool := decide (s.chars = ∅)

/-- `CharSet.has(cp)`. -/
def CharSet.has (s : CharSet) (cp : ℚ) : Bool := decide (cp ∈ s.chars)

/-- `CharSet.union(other)` for a `CharSet` argument. -/
def CharSet.union (s t : CharSet) : CharSet := ⟨s.maximum, s.chars ∪ t.chars⟩

/-- `CharSet.intersect(other)`. -/
def CharSet.intersect (s t : CharSet) : CharSet := ⟨s.maximum, s.chars ∩ t.chars⟩

/-- `CharSet.empty(maximum)`. -/
def CharSet.empty (maximum : ℚ) : CharSet := ⟨maximum, ∅⟩

/-- `CharSet.empty(maximum).union([{ min: c, max: c }])`, the singleton set built by
`fromWords`. -/
def CharSet.singletonRange (maximum c : ℚ) : CharSet := ⟨maximum, {c}⟩

/-- A reference to an NFA node: the id of the owning `NodeList` (`node.list`, made
unique by `NodeList._counter`) and the node's own id within that list. -/
structure NodeRef where
  list : Nat
  id : Nat
deriving DecidableEq, Repr

/-- The error kinds the source throws (spec §7). -/
inductive Err where
  | crossListLink
  | wrongList
  | emptyLabel
  | missingEdge
  | initialRemoval
  | invalidCodepointMax
  | invalidCodepointInt
  | alphabetMismatch
  | invalidRange
  | unsupportedConstruct
  | notIndexed
deriving DecidableEq, Repr

/-- `map.get k` of a JS `Map` modelled as an insertion-ordered association list. -/
def lookupA (m : List (NodeRef × CharSet)) (k : NodeRef) : Option CharSet :=
  (m.find? (fun e => decide (e.1 = k))).map (fun e => e.2)

/-- `map.set k v`: replace in place when the key exists, else append. -/
def setA (m : List (NodeRef × CharSet)) (k : NodeRef) (v : CharSet) :
    List (NodeRef × CharSet) :=
  if (lookupA m k).isSome then m.map (fun e => if e.1 = k then (k, v) else e)
  else m ++ [(k, v)]

/-- `map.delete k`. -/
def removeA (m : List (NodeRef × CharSet)) (k : NodeRef) : List (NodeRef × CharSet) :=
  m.filter (fun e => decide (e.1 ≠ k))

/-- The `add` helper inside `linkNodes`: merge into an existing entry by
`current.union(characters)`, or append a new entry. -/
def addA (m : List (NodeRef × CharSet)) (b : NodeRef) (characters : CharSet) :
    List (NodeRef × CharSet) :=
  match lookupA m b with
  | none => m ++ [(b, characters)]
  | some current => setA m b (current.union characters)

/-- The JS heap of node objects: each node's `out` and `in` adjacency maps (`in` is a
Lean keyword, so the field is named `inn`). -/
structure Heap where
  out : NodeRef → List (NodeRef × CharSet)
  inn : NodeRef → List (NodeRef × CharSet)

/-- Overwrite one node's `out` map. -/
def Heap.setOut (h : Heap) (n : NodeRef) (m : List (NodeRef × CharSet)) : Heap :=
  ⟨fun x => if x = n then m else h.out x, h.inn⟩

/-- Overwrite one node's `in` map. -/
def Heap.setInn (h : Heap) (n : NodeRef) (m : List (NodeRef × CharSet)) : Heap :=
  ⟨h.out, fun x => if x = n then m else h.inn x⟩

/-- The heap before any node exists. -/
def Heap.emptyH : Heap := ⟨fun _ => [], fun _ => []⟩

/-- The targets of a node's outgoing edges (`node.out.keys()`). -/
def succOut (h : Heap) (n : NodeRef) : List NodeRef := (h.out n).map (fun e => e.1)

/-- The sources of a node's incoming edges (`node.in.keys()`). -/
def succInn (h : Heap) (n : NodeRef) : List NodeRef := (h.inn n).map (fun e => e.1)

/-- A `NodeList` value: its unique id, its `_nodeCounter`, and its `final` set (a JS
`Set`, modelled as a duplicate-free list in insertion order). -/
structure NodeList where
  listId : Nat
  nodeCounter : Nat
  final : List NodeRef
deriving DecidableEq, Repr

/-- The initial node: created first in the `NodeList` constructor, so it has id `0`. -/
def NodeList.initial (nl : NodeList) : NodeRef := ⟨nl.listId, 0⟩

/-- `createNode()`: a fresh node with the next id and empty `in`/`out` maps. -/
def createNode (nl : NodeList) (h : Heap) : NodeRef × NodeList × Heap :=
  let node : NodeRef := ⟨nl.listId, nl.nodeCounter⟩
  (node, { nl with nodeCounter := nl.nodeCounter + 1 },
    (h.setOut node []).setInn node [])

/-- `new NodeList()`: empty final set, then `initial = this.createNode()`. -/
def NodeList.new (listId : Nat) (h : Heap) : NodeList × Heap :=
  let s := createNode ⟨listId, 0, []⟩ h
  (s.2.1, s.2.2)

/-- `linkNodes(from, to, characters)`. -/
def linkNodes (nl : NodeList) (h : Heap) (a b : NodeRef) (characters : CharSet) :
    Except Err Heap :=
  if a.list ≠ b.list then .error .crossListLink
  else if a.list ≠ nl.listId then .error .wrongList
  else if characters.isEmpty then .error .emptyLabel
  else .ok ((h.setOut a (addA (h.out a) b characters)).setInn b
      (addA (h.inn b) a characters))

/-- `unlinkNodes(from, to)`. -/
def unlinkNodes (nl : NodeList) (h : Heap) (a b : NodeRef) : Except Err Heap :=
  if a.list ≠ b.list then .error .crossListLink
  else if a.list ≠ nl.listId then .error .wrongList
  else if (lookupA (h.out a) b).isNone then .error .missingEdge
  else .ok ((h.setOut a (removeA (h.out a) b)).setInn b (removeA (h.inn b) a))

/-- A `SubList` view: `{ initial, final }` into some `NodeList`. -/
structure SubList where
  initial : NodeRef
  final : List NodeRef
deriving DecidableEq, Repr

/-- `set.add n` of a JS `Set`: keep insertion order, ignore duplicates. -/
def addFinal (s : List NodeRef) (n : NodeRef) : List NodeRef :=
  if n ∈ s then s else s ++ [n]

/-- `set.delete n`. -/
def delFinal (s : List NodeRef) (n : NodeRef) : List NodeRef :=
  s.filter (fun x => decide (x ≠ n))

/-- Reachability through a successor function (the transitive closure a `DFS`
traversal visits). -/
inductive ReachL {α : Type} (next : α → List α) : α → α → Prop
  | refl (n : α) : ReachL next n n
  | tail {a b c : α} : ReachL next a b → c ∈ next b → ReachL next a c

/-- One closure round: append every yet-unseen successor, preserving first-seen
order. -/
def closStep {α : Type} [DecidableEq α] (next : α → List α) (cur : List α) : List α :=
  (cur.flatMap next).foldl (fun acc m => if m ∈ acc then acc else acc ++ [m]) cur

/-- Modelled from the spec: `DFS` lives in `util.ts`, which is not under `src/`.
Each use in `nfa.ts` only consumes the set of visited nodes (or drives per-node
effects whose combined result does not depend on the traversal order), so the
traversal is modelled as a bounded round-based closure; the fuel passed at every
use is large enough to reach the fixpoint. -/
def closIter {α : Type} [DecidableEq α] (next : α → List α) :
    Nat → List α → List α
  | 0, cur => cur
  | fuel + 1, cur => closIter next fuel (closStep next cur)

/-- Position of an element in a list (used to name the nodes a cached translator
creates, in first-call order). -/
def idxA {α : Type} [DecidableEq α] : List α → α → Nat
  | [], _ => 0
  | x :: xs, n => if x = n then 0 else idxA xs n + 1

/-- `removeNode` inside `removeUnreachable`: guard the initial node, drop the node
from `final`, unlink every outgoing edge, then every incoming edge. -/
def removeNode (nl : NodeList) (h : Heap) (node : NodeRef) :
    Except Err (NodeList × Heap) :=
  if node = nl.initial then .error .initialRemoval
  else do
    let nl2 : NodeList := { nl with final := delFinal nl.final node }
    let h ← (succOut h node).foldlM (fun h2 t => unlinkNodes nl2 h2 node t) h
    let h ← (succInn h node).foldlM (fun h2 s => unlinkNodes nl2 h2 s node) h
    .ok (nl2, h)

/-- The `makeEmpty` closure inside `removeUnreachable`: clear `final` and the
initial node's own adjacency maps. -/
def makeEmpty (nl : NodeList) (h : Heap) : NodeList × Heap :=
  ({ nl with final := [] }, (h.setInn nl.initial []).setOut nl.initial [])

/-- `removeUnreachable()`. -/
def removeUnreachable (nl : NodeList) (h : Heap) : Except Err (NodeList × Heap) :=
  if nl.final = [] then .ok (makeEmpty nl h)
  else
    let allNodes := (closIter (fun n => succInn h n ++ succOut h n) nl.nodeCounter
        [nl.initial]).foldl addFinal nl.final
    let reachableFromInitial := closIter (succOut h) nl.nodeCounter [nl.initial]
    do
    let s ← allNodes.foldlM (fun (s : NodeList × Heap) n =>
        if n ∈ reachableFromInitial then .ok s else removeNode s.1 s.2 n) (nl, h)
    if s.1.final = [] then .ok (makeEmpty s.1 s.2)
    else
      let canReachFinal := closIter (succInn s.2) nl.nodeCounter s.1.final
      reachableFromInitial.foldlM (fun (s2 : NodeList × Heap) n =>
          if n ∈ canReachFinal then .ok s2 else removeNode s2.1 s2.2 n) s

/-- One layer of the `[Symbol.iterator]` breadth-first enumeration. -/
def bfsAux (h : Heap) : Nat → List NodeRef → List NodeRef → List NodeRef
  | 0, _, visited => visited
  | fuel + 1, toVisit, visited =>
      let p := toVisit.foldl
        (fun (p : List NodeRef × List NodeRef) n =>
          if n ∈ p.1 then p else (p.1 ++ [n], p.2 ++ succOut h n))
        (visited, ([] : List NodeRef))
      if p.2 = [] then p.1 else bfsAux h fuel p.2 p.1

/-- `[Symbol.iterator]`: the nodes reachable from the initial node, breadth first,
in insertion order. -/
def nodesBFS (nl : NodeList) (h : Heap) : List NodeRef :=
  bfsAux h (nl.nodeCounter + 1) [nl.initial] []

/-- `NFAOptions`. -/
structure NFAOptions where
  maxCharacter : ℚ
deriving DecidableEq, Repr

/-- An `NFA` value: its `NodeList` plus its options (the heap is passed alongside). -/
structure NFA where
  nodes : NodeList
  options : NFAOptions
deriving DecidableEq, Repr

/-- The inner `match` of `NFA.test`: the `index`-based recursion walks the word, so
it is structural recursion on the remaining word. -/
def matchW (h : Heap) (final : List NodeRef) : List ℚ → NodeRef → Bool
  | [], node => decide (node ∈ final)
  | cp :: rest, node =>
      (h.out node).any (fun e => e.2.has cp && matchW h final rest e.1)
  termination_by w => w.length

/-- `test(word)`. -/
def NFA.test (A : NFA) (h : Heap) (word : List ℚ) : Bool :=
  matchW h A.nodes.final word A.nodes.initial

/-- A labelled path through the heap: the successive edge `CharSet`s contain the
successive code points of the word. -/
inductive PathW (h : Heap) : NodeRef → List ℚ → NodeRef → Prop
  | nil (n : NodeRef) : PathW h n [] n
  | cons {a b c : NodeRef} {cp : ℚ} {w : List ℚ} {cs : CharSet} :
      (b, cs) ∈ h.out a → cs.has cp → PathW h b w c → PathW h a (cp :: w) c

/-- `checkOptionsCompatibility`. -/
def checkOptionsCompatibility (a b : NFAOptions) : Except Err Unit :=
  if a.maxCharacter ≠ b.maxCharacter then .error .alphabetMismatch else .ok ()

/-- `baseMakeEmpty(base)`: detach every outgoing edge of `base.initial`, clear
`base.final`. -/
def baseMakeEmpty (nl : NodeList) (h : Heap) (base : SubList) :
    Except Err (Heap × SubList) := do
  let h ← (succOut h base.initial).foldlM
      (fun h2 t => unlinkNodes nl h2 base.initial t) h
  .ok (h, { base with final := [] })

/-- `baseReplaceWith(base, replacement)`. -/
def baseReplaceWith (nl : NodeList) (h : Heap) (base replacement : SubList) :
    Except Err (Heap × SubList) := do
  let (h, base) ← baseMakeEmpty nl h base
  let base := { base with final :=
      (replacement.final.foldl
        (fun acc f => addFinal acc (if f = replacement.initial then base.initial else f))
        base.final) }
  let h ← (h.out replacement.initial).foldlM (fun h2 e => do
      let h3 ← linkNodes nl h2 base.initial e.1 e.2
      unlinkNodes nl h3 replacement.initial e.1) h
  .ok (h, base)

/-- `baseConcat(base, after)`. -/
def baseConcat (nl : NodeList) (h : Heap) (base after : SubList) :
    Except Err (Heap × SubList) :=
  if base.final = [] then .ok (h, base)
  else if after.final = [] then baseMakeEmpty nl h base
  else do
    let initialEdges := h.out after.initial
    let h ← base.final.foldlM (fun h2 f =>
        initialEdges.foldlM (fun h3 e => linkNodes nl h3 f e.1 e.2) h2) h
    let h ← initialEdges.foldlM (fun h2 e => unlinkNodes nl h2 after.initial e.1) h
    let base := if after.initial ∈ after.final then base else { base with final := [] }
    let base := { base with final :=
        (after.final.foldl (fun acc n => if n = after.initial then acc else addFinal acc n)
          base.final) }
    .ok (h, base)

/-- `baseOptimizationReuseFinalStates(base)`. -/
def baseOptimizationReuseFinalStates (nl : NodeList) (h : Heap) (base : SubList) :
    Except Err (Heap × SubList) :=
  let reusable := base.final.filter
      (fun f => decide (f ≠ base.initial) && decide (h.out f = []))
  if reusable.length ≤ 1 then .ok (h, base)
  else
    match reusable.getLast? with
    | none => .ok (h, base)
    | some masterFinal =>
        reusable.dropLast.foldlM (fun (s : Heap × SubList) toRemove => do
            let base2 := { s.2 with final := delFinal s.2.final toRemove }
            let h2 ← (s.1.inn toRemove).foldlM (fun h3 e => do
                let h4 ← linkNodes nl h3 e.1 masterFinal e.2
                unlinkNodes nl h4 e.1 toRemove) s.1
            .ok (h2, base2)) (h, base)

/-- `baseUnion(base, alternative)`. -/
def baseUnion (nl : NodeList) (h : Heap) (base alternative : SubList) :
    Except Err (Heap × SubList) := do
  let base := { base with final :=
      (alternative.final.foldl
        (fun acc n => addFinal acc (if n = alternative.initial then base.initial else n))
        base.final) }
  let h ← (h.out alternative.initial).foldlM (fun h2 e => do
      let h3 ← linkNodes nl h2 base.initial e.1 e.2
      unlinkNodes nl h3 alternative.initial e.1) h
  baseOptimizationReuseFinalStates nl h base

/-- `basePlus(base)`: copy every outgoing edge of the initial state onto every
non-initial final state. -/
def basePlus (nl : NodeList) (h : Heap) (base : SubList) : Except Err Heap :=
  base.final.foldlM (fun h2 f =>
      if f = base.initial then .ok h2
      else (h2.out base.initial).foldlM (fun h3 e => linkNodes nl h3 f e.1 e.2) h2) h

/-- `localCopy(nodeList, toCopy)`.  The source drives a `cachedFunc` translator by
`DFS` (both in `util.ts`, not under `src/`).  Modelled from the spec: a depth-first
clone of the sub-automaton into the same `NodeList`, preserving edge labels, the
clone's initial newly created.  Only the ids of the fresh nodes depend on the
traversal order; we enumerate the sub-automaton with the round-based closure and
assign fresh ids by position (the clone's initial first), resetting each fresh
node's maps exactly as `createNode` does. -/
def localCopy (nl : NodeList) (h : Heap) (toCopy : SubList) :
    Except Err (SubList × NodeList × Heap) := do
  let visited := closIter (succOut h) nl.nodeCounter [toCopy.initial]
  let start := nl.nodeCounter
  let tr : NodeRef → NodeRef := fun n => ⟨nl.listId, start + idxA visited n⟩
  let nl := { nl with nodeCounter := start + visited.length }
  let h := (List.range visited.length).foldl
      (fun h2 i => ((h2.setOut ⟨nl.listId, start + i⟩ []).setInn ⟨nl.listId, start + i⟩ []))
      h
  let final := (visited.filter (fun n => decide (n ∈ toCopy.final))).map tr
  let h ← visited.foldlM (fun h2 n =>
      (h2.out n).foldlM (fun h3 e => linkNodes nl h3 (tr n) (tr e.1) e.2) h2) h
  .ok (⟨tr toCopy.initial, final⟩, nl, h)

/-- The `times - 2` intermediate concatenations in `baseRepeat` (plain branch):
each round concatenates `base` with a fresh copy of the original copy. -/
def baseRepeatLoop :
    Nat → NodeList → Heap → SubList → SubList → Except Err (NodeList × Heap × SubList)
  | 0, nl, h, base, _ => .ok (nl, h, base)
  | k + 1, nl, h, base, copy => do
      let (c, nl1, h1) ← localCopy nl h copy
      let (h2, base2) ← baseConcat nl1 h1 base c
      baseRepeatLoop k nl1 h2 base2 copy

/-- The same loop in the branch where the initial state was final: additionally
accumulate the final states of every stage into the `realFinal` set. -/
def baseRepeatLoopAcc :
    Nat → NodeList → Heap → SubList → SubList → List NodeRef →
      Except Err (NodeList × Heap × SubList × List NodeRef)
  | 0, nl, h, base, _, realFinal => .ok (nl, h, base, realFinal)
  | k + 1, nl, h, base, copy, realFinal => do
      let (c, nl1, h1) ← localCopy nl h copy
      let (h2, base2) ← baseConcat nl1 h1 base c
      baseRepeatLoopAcc k nl1 h2 base2 copy (base2.final.foldl addFinal realFinal)

/-- `baseRepeat(base, times)`. -/
def baseRepeat (nl : NodeList) (h : Heap) (base : SubList) (times : Nat) :
    Except Err (NodeList × Heap × SubList) :=
  if times = 0 then do
    let (h1, base1) ← baseMakeEmpty nl h base
    .ok (nl, h1, { base1 with final := addFinal base1.final base1.initial })
  else if times = 1 then .ok (nl, h, base)
  else if base.final.length = 1 ∧ base.initial ∈ base.final then .ok (nl, h, base)
  else if base.final = [] then .ok (nl, h, base)
  else if base.initial ∉ base.final then do
    let (copy, nl1, h1) ← localCopy nl h base
    let (nl2, h2, base2) ← baseRepeatLoop (times - 2) nl1 h1 base copy
    let (h3, base3) ← baseConcat nl2 h2 base2 copy
    .ok (nl2, h3, base3)
  else do
    let realFinal := base.final
    let base := { base with final := delFinal base.final base.initial }
    let (copy, nl1, h1) ← localCopy nl h base
    let (nl2, h2, base2, realFinal2) ← baseRepeatLoopAcc (times - 2) nl1 h1 base copy realFinal
    let (h3, base3) ← baseConcat nl2 h2 base2 copy
    let realFinal3 := base3.final.foldl addFinal realFinal2
    .ok (nl2, h3, { base3 with final := realFinal3 })

/-- `baseQuantify(base, min, max)`: `max = none` models `Infinity`. -/
def baseQuantify (nl : NodeList) (h : Heap) (base : SubList) (min : Nat)
    (max : Option Nat) : Except Err (NodeList × Heap × SubList) :=
  if max = some 0 then do
    let (h1, base1) ← baseMakeEmpty nl h base
    .ok (nl, h1, { base1 with final := addFinal base1.final base1.initial })
  else
    let min2 := if base.initial ∈ base.final then 0 else min
    let base := if base.initial ∈ base.final then base
        else if min = 0 then { base with final := addFinal base.final base.initial }
        else base
    if max = some 1 then .ok (nl, h, base)
    else if some min2 = max then baseRepeat nl h base min2
    else
      match max with
      | some m => do
          let (copy, nl1, h1) ← localCopy nl h base
          let copy := { copy with final := addFinal copy.final copy.initial }
          let (nl2, h2, copy2) ← baseRepeat nl1 h1 copy (m - min2)
          let (nl3, h3, base3) ← baseRepeat nl2 h2 base min2
          let (h4, base4) ← baseConcat nl3 h3 base3 copy2
          .ok (nl3, h4, base4)
      | none =>
          if min2 > 1 then do
            let (copy, nl1, h1) ← localCopy nl h base
            let h2 ← basePlus nl1 h1 copy
            let (nl2, h3, base2) ← baseRepeat nl1 h2 base (min2 - 1)
            let (h4, base3) ← baseConcat nl2 h3 base2 copy
            .ok (nl2, h4, base3)
          else do
            let h1 ← basePlus nl h base
            .ok (nl, h1, base)

/-- The `min > max` part of the `quantify` validation (integrality and
non-negativity hold by the `Nat` types; `max = none` is `Infinity`). -/
def minGtMax (min : Nat) (max : Option Nat) : Bool :=
  match max with
  | some m => decide (min > m)
  | none => false

/-- `quantify(min, max)`. -/
def NFA.quantify (A : NFA) (h : Heap) (min : Nat) (max : Option Nat) :
    Except Err (NFA × Heap) :=
  if minGtMax min max then .error .invalidRange
  else do
    let (nl, h1, base) ← baseQuantify A.nodes h ⟨A.nodes.initial, A.nodes.final⟩ min max
    .ok ({ A with nodes := { nl with final := base.final } }, h1)

/-- `union(nfa)`.  JS object identity `nfa === this` is modelled by equality of the
globally unique `NodeList` ids. -/
def NFA.union (A B : NFA) (h : Heap) : Except Err (NFA × Heap) :=
  if B.nodes.listId = A.nodes.listId then .ok (A, h)
  else do
    let _ ← checkOptionsCompatibility A.options B.options
    let (copySub, nl1, h1) ← localCopy A.nodes h ⟨B.nodes.initial, B.nodes.final⟩
    let (h2, base2) ← baseUnion nl1 h1 ⟨nl1.initial, nl1.final⟩ copySub
    .ok ({ A with nodes := { nl1 with final := base2.final } }, h2)

/-- `concat(nfa)` exactly as the source has it: when `nfa !== this`, it passes
`nfa.nodes` itself to `baseConcat` (no `localCopy`). -/
def NFA.concat (A B : NFA) (h : Heap) : Except Err (NFA × Heap) :=
  if B.nodes.listId = A.nodes.listId then NFA.quantify A h 2 (some 2)
  else do
    let _ ← checkOptionsCompatibility A.options B.options
    let (h1, base) ← baseConcat A.nodes h ⟨A.nodes.initial, A.nodes.final⟩
        ⟨B.nodes.initial, B.nodes.final⟩
    .ok ({ A with nodes := { A.nodes with final := base.final } }, h1)

/-- `copy()`: a fresh NFA (its fresh `NodeList` id, drawn from the global counter
in JS, is passed as `freshId`) unioned with `this`. -/
def NFA.copy (A : NFA) (h : Heap) (freshId : Nat) : Except Err (NFA × Heap) :=
  let s := NodeList.new freshId h
  NFA.union ⟨s.1, A.options⟩ A s.2

/-- `Number.isInteger`. -/
def isIntQ (q : ℚ) : Bool := decide (q.den = 1)

/-- `getNext` inside `fromWords`. -/
def getNext (maxCharacter : ℚ) (nl : NodeList) (h : Heap) (node : NodeRef) (char : ℚ) :
    Except Err (NodeRef × NodeList × Heap) :=
  if char > maxCharacter then .error .invalidCodepointMax
  else if isIntQ char then
    match (h.out node).find? (fun e => e.2.has char) with
    | some e => .ok (e.1, nl, h)
    | none => do
        let (newNode, nl1, h1) := createNode nl h
        let charSet := CharSet.singletonRange maxCharacter char
        let h2 ← linkNodes nl1 h1 node newNode charSet
        .ok (newNode, nl1, h2)
  else .error .invalidCodepointInt

/-- `NFA.fromWords(words, options)`. -/
def NFA.fromWords (words : List (List ℚ)) (options : NFAOptions) (listId : Nat)
    (h : Heap) : Except Err (NFA × Heap) := do
  let (nl, h) := NodeList.new listId h
  let (nl, h) ← words.foldlM (fun (s : NodeList × Heap) word => do
      let t ← word.foldlM
          (fun (t : NodeRef × NodeList × Heap) charCode =>
            getNext options.maxCharacter t.2.1 t.2.2 t.1 charCode)
          (s.1.initial, s.1, s.2)
      .ok ({ t.2.1 with final := addFinal t.2.1.final t.1 }, t.2.2)) (nl, h)
  let (h, base) ← baseOptimizationReuseFinalStates nl h ⟨nl.initial, nl.final⟩
  .ok (⟨{ nl with final := base.final }, options⟩, h)

/-- The `indexTranslator`, a `cachedFunc` keyed by the combined index (modelled from
the spec: `cachedFunc`, from `util.ts` which is not under `src/`, creates one node
per new key and caches it; the cache is pre-seeded with `0 ↦ initial`). -/
def translateIdx (key : Nat) (cache : List (Nat × NodeRef)) (nl : NodeList) (h : Heap) :
    NodeRef × List (Nat × NodeRef) × NodeList × Heap :=
  match cache.find? (fun e => decide (e.1 = key)) with
  | some e => (e.2, cache, nl, h)
  | none =>
      let (n, nl1, h1) := createNode nl h
      (n, cache ++ [(key, n)], nl1, h1)

/-- The `translate` closure of `intersect`: look both nodes up in the index maps
(`undefined` throws) and feed `thisIndex * otherIndexMap.size + otherIndex` to the
cached translator. -/
def translatePair (leftList rightList : List NodeRef) (a b : NodeRef)
    (cache : List (Nat × NodeRef)) (nl : NodeList) (h : Heap) :
    Except Err (NodeRef × List (Nat × NodeRef) × NodeList × Heap) :=
  if a ∈ leftList ∧ b ∈ rightList then
    .ok (translateIdx (idxA leftList a * rightList.length + idxA rightList b) cache nl h)
  else .error .notIndexed

/-- `NFA.intersect(left, right)` (the fresh `NodeList` id is `freshId`). -/
def NFA.intersect (left right : NFA) (h : Heap) (freshId : Nat) :
    Except Err (NFA × Heap) := do
  let _ ← checkOptionsCompatibility left.options right.options
  let (nl, h) := NodeList.new freshId h
  let leftList := nodesBFS left.nodes h
  let rightList := nodesBFS right.nodes h
  let cache : List (Nat × NodeRef) := [(0, nl.initial)]
  let (cache, nl, h) ← left.nodes.final.foldlM
      (fun (s : List (Nat × NodeRef) × NodeList × Heap) tf =>
        right.nodes.final.foldlM (fun s of2 => do
            let (n, cache1, nl1, h1) ← translatePair leftList rightList tf of2 s.1 s.2.1 s.2.2
            .ok (cache1, { nl1 with final := addFinal nl1.final n }, h1)) s)
      (cache, nl, h)
  let (_, nl, h) ← leftList.foldlM
      (fun (s : List (Nat × NodeRef) × NodeList × Heap) a =>
        rightList.foldlM (fun s b => do
            let (fromN, cache1, nl1, h1) ← translatePair leftList rightList a b s.1 s.2.1 s.2.2
            (h1.out a).foldlM
              (fun (s2 : List (Nat × NodeRef) × NodeList × Heap) eA =>
                (s2.2.2.out b).foldlM (fun s3 eB => do
                    let transition := eA.2.intersect eB.2
                    if transition.isEmpty then .ok s3
                    else do
                      let (toN, cache2, nl2, h2) ←
                        translatePair leftList rightList eA.1 eB.1 s3.1 s3.2.1 s3.2.2
                      let h3 ← linkNodes nl2 h2 fromN toN transition
                      .ok (cache2, nl2, h3)) s2)
              (cache1, nl1, h1)) s)
      (cache, nl, h)
  let (nl, h) ← removeUnreachable nl h
  let (h, base) ← baseOptimizationReuseFinalStates nl h ⟨nl.initial, nl.final⟩
  .ok (⟨{ nl with final := base.final }, left.options⟩, h)

/-- The regex AST (spec §6): an `Element` is an Alternation, Quantifier,
CharacterClass or Assertion; a `Concatenation` is its `elements` list; an
alternatives list is a list of concatenations. -/
inductive Element where
  | characterClass (characters : CharSet)
  | alternation (alternatives : List (List Element))
  | quantifier (alternatives : List (List Element)) (min : Nat) (max : Option Nat)
  | assertion

mutual

/-- `handleAlternation` inside `createNodeList`. -/
def handleAlternation (opts : NFAOptions) (alternatives : List (List Element))
    (nl : NodeList) (h : Heap) : Except Err (SubList × NodeList × Heap) :=
  match alternatives with
  | [] =>
      let (n, nl1, h1) := createNode nl h
      .ok (⟨n, []⟩, nl1, h1)
  | c :: rest => do
      let (base, nl1, h1) ← handleConcatenation opts c nl h
      handleAlternationRest opts rest base nl1 h1
  termination_by (sizeOf alternatives, 3)

/-- The `for` loop of `handleAlternation` over the remaining alternatives. -/
def handleAlternationRest (opts : NFAOptions) (alternatives : List (List Element))
    (base : SubList) (nl : NodeList) (h : Heap) : Except Err (SubList × NodeList × Heap) :=
  match alternatives with
  | [] => .ok (base, nl, h)
  | c :: rest => do
      let (sub, nl1, h1) ← handleConcatenation opts c nl h
      let (h2, base2) ← baseUnion nl1 h1 base sub
      handleAlternationRest opts rest base2 nl1 h2
  termination_by (sizeOf alternatives, 2)

/-- `handleConcatenation`: start with a fresh initial that is also final. -/
def handleConcatenation (opts : NFAOptions) (elements : List Element)
    (nl : NodeList) (h : Heap) : Except Err (SubList × NodeList × Heap) := do
  let (n, nl1, h1) := createNode nl h
  handleConcatElements opts elements ⟨n, [n]⟩ nl1 h1
  termination_by (sizeOf elements, 2)

/-- The element loop of `handleConcatenation`, with the early `break` once the
final set is empty. -/
def handleConcatElements (opts : NFAOptions) (elements : List Element)
    (base : SubList) (nl : NodeList) (h : Heap) : Except Err (SubList × NodeList × Heap) :=
  match elements with
  | [] => .ok (base, nl, h)
  | e :: rest =>
      if base.final = [] then .ok (base, nl, h)
      else do
        let (base1, nl1, h1) ← handleElement opts e base nl h
        handleConcatElements opts rest base1 nl1 h1
  termination_by (sizeOf elements, 1)

/-- `handleElement`. -/
def handleElement (opts : NFAOptions) (element : Element) (base : SubList)
    (nl : NodeList) (h : Heap) : Except Err (SubList × NodeList × Heap) :=
  match element with
  | .alternation alts => do
      let (sub, nl1, h1) ← handleAlternation opts alts nl h
      let (h2, base2) ← baseConcat nl1 h1 base sub
      .ok (base2, nl1, h2)
  | .assertion => .error .unsupportedConstruct
  | .characterClass chars =>
      if chars.maximum ≠ opts.maxCharacter then .error .alphabetMismatch
      else if chars.isEmpty then do
        let (h1, base1) ← baseMakeEmpty nl h base
        .ok (base1, nl, h1)
      else do
        let (sNode, nl1, h1) := createNode nl h
        let h2 ← base.final.foldlM (fun hh f => linkNodes nl1 hh f sNode chars) h1
        .ok ({ base with final := [sNode] }, nl1, h2)
  | .quantifier alts mn mx => do
      let (sub, nl1, h1) ← handleQuantifier opts alts mn mx nl h
      let (h2, base2) ← baseConcat nl1 h1 base sub
      .ok (base2, nl1, h2)
  termination_by (sizeOf element, 4)

/-- `handleQuantifier`. -/
def handleQuantifier (opts : NFAOptions) (alternatives : List (List Element))
    (mn : Nat) (mx : Option Nat) (nl : NodeList) (h : Heap) :
    Except Err (SubList × NodeList × Heap) := do
  let (base, nl1, h1) ← handleAlternation opts alternatives nl h
  let (nl2, h2, base2) ← baseQuantify nl1 h1 base mn mx
  .ok (base2, nl2, h2)
  termination_by (sizeOf alternatives, 4)

end

/-- `createNodeList(expression, options)`. -/
def createNodeList (expression : List (List Element)) (options : NFAOptions)
    (listId : Nat) (h : Heap) : Except Err (NodeList × Heap) := do
  let (nl, h) := NodeList.new listId h
  let (sub, nl, h) ← handleAlternation options expression nl h
  let (h, base) ← baseReplaceWith nl h ⟨nl.initial, nl.final⟩ sub
  .ok ({ nl with final := base.final }, h)

/-- `NFA.fromRegex` (the alternatives-list entry point; the `Expression` and single
`Concatenation` overloads funnel into the same call). -/
def NFA.fromRegex (alternatives : List (List Element)) (options : NFAOptions)
    (listId : Nat) (h : Heap) : Except Err (NFA × Heap) := do
  let (nl, h) ← createNodeList alternatives options listId h
  .ok (⟨nl, options⟩, h)

/-- Modelled from the spec (§4.7, §6): the external `DFA` is a black box; all that
`fromDFA` consumes is, per DFA state, the inverted transition map computed by
`invertCharMap` (from `char-util.ts`, not under `src/`): target state → accumulated
`CharSet`.  We model a DFA state by a `Nat` id and give the inverted maps directly,
plus a bound on the number of states for the traversal fuel. -/
structure DFAModel where
  initialD : Nat
  outD : Nat → List (Nat × CharSet)
  stateBound : Nat
  maxCharacter : ℚ

/-- `NFA.fromDFA(dfa)`: mirror the DFA's transition graph (the source transfers no
final states). -/
def NFA.fromDFA (dfa : DFAModel) (listId : Nat) (h : Heap) : Except Err (NFA × Heap) := do
  let (nl, h) := NodeList.new listId h
  let visited := closIter (fun s => (dfa.outD s).map (fun e => e.1)) dfa.stateBound
      [dfa.initialD]
  let rest := visited.filter (fun x => decide (x ≠ dfa.initialD))
  let tr : Nat → NodeRef := fun s =>
    if s = dfa.initialD then nl.initial else ⟨listId, 1 + idxA rest s⟩
  let nl := { nl with nodeCounter := 1 + rest.length }
  let h := (List.range rest.length).foldl
      (fun h2 i => ((h2.setOut ⟨listId, 1 + i⟩ []).setInn ⟨listId, 1 + i⟩ [])) h
  let h ← visited.foldlM (fun h2 s =>
      (dfa.outD s).foldlM (fun h3 e => linkNodes nl h3 (tr s) (tr e.1) e.2) h2) h
  .ok (⟨nl, ⟨dfa.maxCharacter⟩⟩, h)

/-- The literal `match(index, node)` recursion of `test` with an explicit recursion
budget: `index` walks the fixed `characters` array and each recursive call uses
`index + 1`; `none` means the budget ran out before the recursion bottomed out. -/
def matchFuel (h : Heap) (final : List NodeRef) (characters : List ℚ) :
    Nat → Nat → NodeRef → Option Bool
  | 0, _, _ => none
  | fuel + 1, index, node =>
      if characters.length ≤ index then some (decide (node ∈ final))
      else
        match characters.get? index with
        | none => some false
        | some cp =>
            (h.out node).foldl (fun acc e =>
              match acc with
              | none => none
              | some true => some true
              | some false =>
                  if e.2.has cp then matchFuel h final characters fuel (index + 1) e.1
                  else some false) (some false)

/-- Whether an `Except` result is a success. -/
def isOkE {α : Type} : Except Err α → Bool
  | .ok _ => true
  | .error _ => false

/-- Adjacency symmetry over the whole heap: `a.out[b] = S` iff `b.in[a] = S`. -/
def SymH (h : Heap) : Prop :=
  ∀ a b : NodeRef, lookupA (h.out a) b = lookupA (h.inn b) a

/-- The §3 normalization invariant at a node `i` (the initial node of some
`NodeList`): `i` has no incoming edges — its `in` map is empty and no `out` map
points at it. -/
def Normalized (i : NodeRef) (h : Heap) : Prop :=
  h.inn i = [] ∧ ∀ x : NodeRef, lookupA (h.out x) i = none

/-- The invariant threaded through `intersect`'s translation cache and product
heap: the product list keeps its id and a positive counter, the product initial
node stays normalized, the cache maps the product initial node only to the
combined key `0`, adjacency rows of nodes outside the product list are exactly
as in the original heap, and rows of product nodes only target product nodes. -/
def IntersectInv (freshId : Nat) (hOrig : Heap) (cache : List (Nat × NodeRef))
    (nl : NodeList) (h : Heap) : Prop :=
  nl.listId = freshId ∧ 1 ≤ nl.nodeCounter ∧
    Normalized (⟨freshId, 0⟩ : NodeRef) h ∧
    (∀ kv ∈ cache, kv.2 = (⟨freshId, 0⟩ : NodeRef) → kv.1 = 0) ∧
    (∀ x : NodeRef, x.list ≠ freshId → h.out x = hOrig.out x) ∧
    (∀ x : NodeRef, x.list = freshId → ∀ e ∈ h.out x, e.1.list = freshId)

/-- The language of a sub-automaton: the words labelling a path from
`base.initial` to some final node. -/
def AcceptsSub (h : Heap) (base : SubList) (w : List ℚ) : Prop :=
  ∃ f ∈ base.final, PathW h base.initial w f

/-- Concatenation of two languages. -/
def WordCat (M N : List ℚ → Prop) (w : List ℚ) : Prop :=
  ∃ u v, w = u ++ v ∧ M u ∧ N v

/-- The `n`-fold concatenation of a language (`L⁰ = {ε}`). -/
def WordPow (L : List ℚ → Prop) : Nat → List ℚ → Prop
  | 0, w => w = []
  | n + 1, w => WordCat L (WordPow L n) w

/-- One labelled step of the edge relation: some `out` entry of `a` leads to `b`
and its `CharSet` contains `cp`. -/
def EdgeCh (h : Heap) (a b : NodeRef) (cp : ℚ) : Prop :=
  ∃ e ∈ h.out a, e.1 = b ∧ e.2.has cp = true

/-- Bounds on a heap relative to a `NodeList`: rows of nodes outside the
allocated ids are empty, every edge targets an allocated node, and every row's
keys are duplicate-free (the JS rows are `Map`s). -/
def Tidy (nl : NodeList) (h : Heap) : Prop :=
  (∀ x : NodeRef, ¬ (x.list = nl.listId ∧ x.id < nl.nodeCounter) → h.out x = []) ∧
  (∀ x : NodeRef, ∀ e ∈ h.out x, e.1.list = nl.listId ∧ e.1.id < nl.nodeCounter) ∧
  (∀ x : NodeRef, ((h.out x).map (fun e => e.1)).Nodup)

/-- The invariant carried through `baseRepeat`'s concatenation loops: fixed list
id, a fully-allocated closed and untouched copy segment `[c0, c1)`, a tidy heap,
`base` confined to the allocated ids outside that segment, no edges into the
segment from outside, normalization of the copy's initial node, and the two
languages. -/
def RepInv (lid c0 c1 : Nat) (copy : SubList) (L M : List ℚ → Prop)
    (nl : NodeList) (h : Heap) (base : SubList) : Prop :=
  nl.listId = lid ∧ c1 ≤ nl.nodeCounter ∧ c0 ≤ c1 ∧ Tidy nl h ∧
  (base.initial.list = lid ∧ base.initial.id < nl.nodeCounter ∧
    ¬ (c0 ≤ base.initial.id ∧ base.initial.id < c1)) ∧
  (∀ f ∈ base.final, f.list = lid ∧ f.id < nl.nodeCounter ∧
    ¬ (c0 ≤ f.id ∧ f.id < c1)) ∧
  (∀ x : NodeRef, ¬ (c0 ≤ x.id ∧ x.id < c1) → ∀ e ∈ h.out x,
    ¬ (c0 ≤ e.1.id ∧ e.1.id < c1)) ∧
  (copy.initial.list = lid ∧ c0 ≤ copy.initial.id ∧ copy.initial.id < c1) ∧
  (∀ f ∈ copy.final, f.list = lid ∧ c0 ≤ f.id ∧ f.id < c1) ∧
  (∀ x : NodeRef, c0 ≤ x.id → x.id < c1 → ∀ e ∈ h.out x,
    c0 ≤ e.1.id ∧ e.1.id < c1) ∧
  (∀ x : NodeRef, lookupA (h.out x) copy.initial = none) ∧
  base.final.Nodup ∧
  (∀ w, AcceptsSub h base w ↔ M w) ∧
  (∀ w, AcceptsSub h copy w ↔ L w)

/-- `{ε} ∪ L ∪ L² ∪ … ∪ Lⁿ`, the language accumulated by the real-finals branch
of `baseRepeat`. -/
def AccLang (L : List ℚ → Prop) (n : Nat) (w : List ℚ) : Prop :=
  w = [] ∨ ∃ m, 1 ≤ m ∧ m ≤ n ∧ WordPow L m w

/-- The node ids a `NodeList` has handed out. -/
def Alloc (nl : NodeList) (n : NodeRef) : Prop :=
  n.list = nl.listId ∧ n.id < nl.nodeCounter

/-- The §3 data-structure invariants for one `NodeList`, over its allocated nodes:
finals are allocated and duplicate-free, adjacency entries point at allocated
nodes, no empty edge labels, adjacency maps have duplicate-free keys, and the two
adjacency directions agree. -/
structure WF (nl : NodeList) (h : Heap) : Prop where
  finalAlloc : ∀ f ∈ nl.final, Alloc nl f
  finalNodup : nl.final.Nodup
  outAlloc : ∀ n, Alloc nl n → ∀ e ∈ h.out n, Alloc nl e.1
  innAlloc : ∀ n, Alloc nl n → ∀ e ∈ h.inn n, Alloc nl e.1
  outLabel : ∀ n, Alloc nl n → ∀ e ∈ h.out n, e.2.isEmpty = false
  innLabel : ∀ n, Alloc nl n → ∀ e ∈ h.inn n, e.2.isEmpty = false
  outNodup : ∀ n, Alloc nl n → ((h.out n).map (fun e => e.1)).Nodup
  innNodup : ∀ n, Alloc nl n → ((h.inn n).map (fun e => e.1)).Nodup
  sym : ∀ a b, Alloc nl a → Alloc nl b → lookupA (h.out a) b = lookupA (h.inn b) a

/-- The combined index `thisIndex * otherIndexMap.size + otherIndex` that
`intersect` feeds to its cached node translator. -/
def pairKey (LL RR : List NodeRef) (a b : NodeRef) : Nat :=
  idxA LL a * RR.length + idxA RR b

/-- The invariant of `intersect`'s product-construction phases: list identity and
a positive counter, cache well-formedness (allocated values, duplicate-free keys
and values, the pre-seeded initial entry, keys decoding to indexed pairs),
adjacency rows outside the product list exactly as in the original heap,
unallocated product rows empty, `WF` of the product list, and per-code-point
soundness of every product edge. -/
structure ProdInv (freshId : Nat) (hOrig : Heap) (LL RR : List NodeRef)
    (C : List (Nat × NodeRef)) (nl : NodeList) (h : Heap) : Prop where
  lid : nl.listId = freshId
  cpos : 1 ≤ nl.nodeCounter
  valsAlloc : ∀ kv ∈ C, kv.2.list = freshId ∧ kv.2.id < nl.nodeCounter
  keysNodup : (C.map (fun kv => kv.1)).Nodup
  valsNodup : (C.map (fun kv => kv.2)).Nodup
  initMem : (0, (⟨freshId, 0⟩ : NodeRef)) ∈ C
  keysDecode : ∀ kv ∈ C, ∃ a ∈ LL, ∃ b ∈ RR, kv.1 = pairKey LL RR a b
  oldOut : ∀ x : NodeRef, x.list ≠ freshId → h.out x = hOrig.out x
  junk : ∀ x : NodeRef, x.list = freshId → nl.nodeCounter ≤ x.id →
    h.out x = [] ∧ h.inn x = []
  wf : WF nl h
  soundRows : ∀ v : NodeRef, v.list = freshId → ∀ e ∈ h.out v, ∀ cp : ℚ,
    e.2.has cp = true →
    ∃ a b a2 b2, a ∈ LL ∧ b ∈ RR ∧ a2 ∈ LL ∧ b2 ∈ RR ∧
      (pairKey LL RR a b, v) ∈ C ∧ (pairKey LL RR a2 b2, e.1) ∈ C ∧
      EdgeCh hOrig a a2 cp ∧ EdgeCh hOrig b b2 cp

/-- Monotone evolution of `intersect`'s fold state: the cache and the final set
only grow, the node counter is monotone, and existing product edges persist with
labels that only grow. -/
def ProdExt (s s2 : List (Nat × NodeRef) × NodeList × Heap) : Prop :=
  (∀ kv ∈ s.1, kv ∈ s2.1) ∧ s.2.1.nodeCounter ≤ s2.2.1.nodeCounter ∧
  (∀ f ∈ s.2.1.final, f ∈ s2.2.1.final) ∧
  (∀ (v : NodeRef) (e : NodeRef × CharSet), e ∈ s.2.2.out v →
    ∃ cs, (e.1, cs) ∈ s2.2.2.out v ∧
      ∀ cp : ℚ, e.2.has cp = true → cs.has cp = true)

-- ====================  theorems  ====================

section Theorems

/-! Basic facts about the association-list and heap primitives. -/

@[simp]
theorem setOut_out (h : Heap) (n : NodeRef) (m : List (NodeRef × CharSet)) (x : NodeRef) :
    (h.setOut n m).out x = if x = n then m else h.out x := rfl

@[simp]
theorem setOut_inn (h : Heap) (n : NodeRef) (m : List (NodeRef × CharSet)) :
    (h.setOut n m).inn = h.inn := rfl

@[simp]
theorem setInn_inn (h : Heap) (n : NodeRef) (m : List (NodeRef × CharSet)) (x : NodeRef) :
    (h.setInn n m).inn x = if x = n then m else h.inn x := rfl

@[simp]
theorem setInn_out (h : Heap) (n : NodeRef) (m : List (NodeRef × CharSet)) :
    (h.setInn n m).out = h.out := rfl

@[simp]
theorem lookupA_nil (k : NodeRef) : lookupA [] k = none := rfl

theorem lookupA_cons (e : NodeRef × CharSet) (m : List (NodeRef × CharSet)) (k : NodeRef) :
    lookupA (e :: m) k = if e.1 = k then some e.2 else lookupA m k := by
  by_cases hek : e.1 = k <;> simp [lookupA, List.find?_cons, hek]

theorem lookupA_append (m m' : List (NodeRef × CharSet)) (k : NodeRef) :
    lookupA (m ++ m') k = ((lookupA m k).or (lookupA m' k)) := by
  induction m with
  | nil => simp
  | cons e m ih =>
      by_cases hek : e.1 = k <;> simp [lookupA_cons, hek, ih]

theorem lookupA_mapReplace_self (m : List (NodeRef × CharSet)) (k : NodeRef)
    (v : CharSet) (hs : (lookupA m k).isSome = true) :
    lookupA (m.map (fun e => if e.1 = k then (k, v) else e)) k = some v := by
  induction m with
  | nil => simp [lookupA] at hs
  | cons e m ih =>
      by_cases hek : e.1 = k
      · simp [lookupA_cons, hek]
      · rw [lookupA_cons] at hs
        simp only [hek, if_false] at hs
        simp only [List.map_cons, if_neg hek]
        rw [lookupA_cons]
        simp only [hek, if_false]
        exact ih hs

theorem lookupA_mapReplace_ne (m : List (NodeRef × CharSet)) (k k' : NodeRef)
    (v : CharSet) (hne : k' ≠ k) :
    lookupA (m.map (fun e => if e.1 = k then (k, v) else e)) k' = lookupA m k' := by
  induction m with
  | nil => rfl
  | cons e m ih =>
      by_cases hek : e.1 = k
      · have he' : e.1 ≠ k' := by rw [hek]; exact Ne.symm hne
        simp only [List.map_cons, if_pos hek]
        rw [lookupA_cons, lookupA_cons]
        simp only [he', if_false]
        simp only [Ne.symm hne, if_false]
        exact ih
      · simp only [List.map_cons, if_neg hek]
        rw [lookupA_cons, lookupA_cons]
        by_cases hek' : e.1 = k'
        · simp [hek']
        · simp only [hek', if_false]
          exact ih

theorem lookupA_setA_self (m : List (NodeRef × CharSet)) (k : NodeRef) (v : CharSet) :
    lookupA (setA m k v) k = some v := by
  unfold setA
  by_cases hs : (lookupA m k).isSome = true
  · rw [if_pos hs]
    exact lookupA_mapReplace_self m k v hs
  · rw [if_neg hs, lookupA_append]
    rw [Option.not_isSome_iff_eq_none] at hs
    rw [hs]
    simp [lookupA_cons]

theorem lookupA_setA_ne (m : List (NodeRef × CharSet)) (k k' : NodeRef) (v : CharSet)
    (hne : k' ≠ k) : lookupA (setA m k v) k' = lookupA m k' := by
  unfold setA
  by_cases hs : (lookupA m k).isSome = true
  · rw [if_pos hs]
    exact lookupA_mapReplace_ne m k k' v hne
  · rw [if_neg hs, lookupA_append]
    cases hl : lookupA m k' with
    | some v0 => simp
    | none => simp [lookupA_cons, Ne.symm hne]

theorem lookupA_addA_self (m : List (NodeRef × CharSet)) (k : NodeRef) (v : CharSet) :
    lookupA (addA m k v) k =
      some (match lookupA m k with | none => v | some c => c.union v) := by
  unfold addA
  cases hl : lookupA m k with
  | none => rw [lookupA_append]; simp [hl, lookupA_cons]
  | some c => simp [lookupA_setA_self]

theorem lookupA_addA_ne (m : List (NodeRef × CharSet)) (k k' : NodeRef) (v : CharSet)
    (hne : k' ≠ k) : lookupA (addA m k v) k' = lookupA m k' := by
  unfold addA
  cases hl : lookupA m k with
  | none =>
      rw [lookupA_append]
      cases hl' : lookupA m k' with
      | some v0 => simp
      | none => simp [lookupA_cons, Ne.symm hne]
  | some c => exact lookupA_setA_ne m k k' _ hne

theorem lookupA_removeA_self (m : List (NodeRef × CharSet)) (k : NodeRef) :
    lookupA (removeA m k) k = none := by
  induction m with
  | nil => rfl
  | cons e m ih =>
      rw [removeA, List.filter_cons]
      by_cases hek : e.1 = k
      · have hd : decide (e.1 ≠ k) = false := by simp [hek]
        rw [hd]
        simpa [removeA] using ih
      · have hd : decide (e.1 ≠ k) = true := by simp [hek]
        rw [hd]
        simp only [if_true]
        rw [lookupA_cons]
        simp only [hek, if_false]
        simpa [removeA] using ih

theorem lookupA_removeA_ne (m : List (NodeRef × CharSet)) (k k' : NodeRef)
    (hne : k' ≠ k) : lookupA (removeA m k) k' = lookupA m k' := by
  induction m with
  | nil => rfl
  | cons e m ih =>
      rw [removeA, List.filter_cons]
      by_cases hek : e.1 = k
      · have hd : decide (e.1 ≠ k) = false := by simp [hek]
        have he' : e.1 ≠ k' := by rw [hek]; exact Ne.symm hne
        rw [hd]
        simp only [Bool.false_eq_true, if_false]
        rw [lookupA_cons]
        simp only [he', if_false]
        simpa [removeA] using ih
      · have hd : decide (e.1 ≠ k) = true := by simp [hek]
        rw [hd]
        simp only [if_true]
        rw [lookupA_cons, lookupA_cons]
        by_cases hek' : e.1 = k'
        · simp [hek']
        · simp only [hek', if_false]
          simpa [removeA] using ih

/-- Unfolding `linkNodes` when it succeeds. -/
theorem linkNodes_ok_iff (nl : NodeList) (h : Heap) (a b : NodeRef) (cs : CharSet)
    (h2 : Heap) :
    linkNodes nl h a b cs = .ok h2 ↔
      (a.list = b.list ∧ a.list = nl.listId ∧ cs.isEmpty = false ∧
        h2 = (h.setOut a (addA (h.out a) b cs)).setInn b (addA (h.inn b) a cs)) := by
  unfold linkNodes
  split_ifs with h1 h2c h3
  · constructor
    · intro hc; cases hc
    · rintro ⟨ha, -⟩; exact absurd ha h1
  · constructor
    · intro hc; cases hc
    · rintro ⟨-, ha, -⟩; exact absurd ha h2c
  · constructor
    · intro hc; cases hc
    · rintro ⟨-, -, he, -⟩; rw [h3] at he; cases he
  · push_neg at h1 h2c
    constructor
    · intro hc
      refine ⟨h1, h2c, ?_, (Except.ok.inj hc).symm⟩
      simp only [Bool.not_eq_true] at h3
      exact h3
    · rintro ⟨-, -, -, rfl⟩; rfl

/-- Unfolding `unlinkNodes` when it succeeds. -/
theorem unlinkNodes_ok_iff (nl : NodeList) (h : Heap) (a b : NodeRef) (h2 : Heap) :
    unlinkNodes nl h a b = .ok h2 ↔
      (a.list = b.list ∧ a.list = nl.listId ∧ (lookupA (h.out a) b).isSome = true ∧
        h2 = (h.setOut a (removeA (h.out a) b)).setInn b (removeA (h.inn b) a)) := by
  unfold unlinkNodes
  split_ifs with h1 h2c h3
  · constructor
    · intro hc; cases hc
    · rintro ⟨ha, -⟩; exact absurd ha h1
  · constructor
    · intro hc; cases hc
    · rintro ⟨-, ha, -⟩; exact absurd ha h2c
  · constructor
    · intro hc; cases hc
    · rintro ⟨-, -, he, -⟩
      rw [Option.isNone_iff_eq_none] at h3
      rw [h3] at he
      cases he
  · push_neg at h1 h2c
    constructor
    · intro hc
      refine ⟨h1, h2c, ?_, (Except.ok.inj hc).symm⟩
      cases hcase : lookupA (h.out a) b with
      | none => rw [hcase] at h3; exact absurd rfl h3
      | some v => rfl
    · rintro ⟨-, -, -, rfl⟩; rfl

/-! Claim C7: the `linkNodes` contract. -/

/-- C7: `linkNodes(from, to, chars)` fails exactly when `from` and `to` belong to
different `NodeList`s or not to the called `NodeList` (cross-list-link) or `chars`
is an empty `CharSet` (empty-label); on success, if an edge from `from` to `to`
already existed with label `L`, the edge's label becomes `L ∪ chars`, otherwise a
new edge labelled `chars` is created, and in both cases `from.out` and `to.in` are
updated to agree (given that, per invariant 4 of §3, they agreed on this pair
beforehand). -/
theorem C7_linkNodes_contract (nl : NodeList) (h : Heap) (a b : NodeRef) (cs : CharSet)
    (hsym : lookupA (h.inn b) a = lookupA (h.out a) b) :
    ((∃ e, linkNodes nl h a b cs = .error e) ↔
      (a.list ≠ b.list ∨ a.list ≠ nl.listId ∨ cs.isEmpty = true)) ∧
    (∀ h2, linkNodes nl h a b cs = .ok h2 →
      lookupA (h2.out a) b =
        some (match lookupA (h.out a) b with
          | none => cs
          | some current => current.union cs) ∧
      lookupA (h2.inn b) a = lookupA (h2.out a) b) := by
  constructor
  · constructor
    · rintro ⟨e, he⟩
      by_contra hcon
      push_neg at hcon
      obtain ⟨h1, h2, h3⟩ := hcon
      rw [linkNodes, if_neg (by simpa using h1), if_neg (by simpa using h2),
        if_neg (by simp [h3])] at he
      cases he
    · intro hc
      unfold linkNodes
      rcases hc with h1 | h2 | h3
      · rw [if_pos h1]; exact ⟨_, rfl⟩
      · by_cases h1 : a.list ≠ b.list
        · rw [if_pos h1]; exact ⟨_, rfl⟩
        · rw [if_neg h1, if_pos h2]; exact ⟨_, rfl⟩
      · by_cases h1 : a.list ≠ b.list
        · rw [if_pos h1]; exact ⟨_, rfl⟩
        · by_cases h2 : a.list ≠ nl.listId
          · rw [if_neg h1, if_pos h2]; exact ⟨_, rfl⟩
          · rw [if_neg h1, if_neg h2, if_pos h3]; exact ⟨_, rfl⟩
  · intro h2 hok
    rw [linkNodes_ok_iff] at hok
    obtain ⟨-, -, -, rfl⟩ := hok
    constructor
    · simp only [setInn_out, setOut_out, eq_self_iff_true, if_true]
      rw [lookupA_addA_self]
    · simp only [setInn_inn, setInn_out, setOut_out, setOut_inn, eq_self_iff_true,
        if_true]
      rw [lookupA_addA_self, lookupA_addA_self, hsym]

/-- Witness for C7 at a concrete input: linking two fresh nodes of list `0` with the
label `{1}` (alphabet maximum `3`) succeeds and creates the edge in both maps. -/
theorem C7_linkNodes_contract_witness :
    (linkNodes ⟨0, 2, []⟩ Heap.emptyH ⟨0, 0⟩ ⟨0, 1⟩ ⟨3, {1}⟩).toOption.map
        (fun h2 => lookupA (h2.out ⟨0, 0⟩) ⟨0, 1⟩) = some (some ⟨3, {1}⟩) ∧
    (linkNodes ⟨0, 2, []⟩ Heap.emptyH ⟨0, 0⟩ ⟨0, 1⟩ ⟨3, {1}⟩).toOption.map
        (fun h2 => lookupA (h2.inn ⟨0, 1⟩) ⟨0, 0⟩) = some (some ⟨3, {1}⟩) := by
  have happ := (C7_linkNodes_contract ⟨0, 2, []⟩ Heap.emptyH ⟨0, 0⟩ ⟨0, 1⟩ ⟨3, {1}⟩ rfl).2
  constructor
  · exact congrArg some ((happ _ rfl).1)
  · exact congrArg some (((happ _ rfl).2).trans ((happ _ rfl).1))

/-! Claim C5: `test` against the path semantics. -/

theorem matchW_iff_path (h : Heap) (final : List NodeRef) (w : List ℚ) (n : NodeRef) :
    matchW h final w n = true ↔ ∃ f ∈ final, PathW h n w f := by
  induction w generalizing n with
  | nil =>
      constructor
      · intro hm
        exact ⟨n, by simpa [matchW] using hm, PathW.nil n⟩
      · rintro ⟨f, hf, hp⟩
        cases hp
        simpa [matchW] using hf
  | cons cp rest ih =>
      rw [matchW, List.any_eq_true]
      constructor
      · rintro ⟨e, he, hcond⟩
        rw [Bool.and_eq_true] at hcond
        obtain ⟨f, hf, hp⟩ := (ih e.1).mp hcond.2
        refine ⟨f, hf, PathW.cons ?_ hcond.1 hp⟩
        simpa using he
      · rintro ⟨f, hf, hp⟩
        cases hp with
        | cons hmem hhas hp2 =>
            exact ⟨_, hmem, by
              rw [Bool.and_eq_true]
              exact ⟨hhas, (ih _).mpr ⟨f, hf, hp2⟩⟩⟩

/-- C5: `test(w)` returns true iff there is a path from the initial node to some
final node whose successive edge `CharSet`s contain the successive code points of
`w`; in particular `test` of the empty word returns true exactly when the initial
node is in the final set. -/
theorem C5_test_iff_path (A : NFA) (h : Heap) (w : List ℚ) :
    (A.test h w = true ↔ ∃ f ∈ A.nodes.final, PathW h A.nodes.initial w f) ∧
    (A.test h [] = true ↔ A.nodes.initial ∈ A.nodes.final) := by
  constructor
  · exact matchW_iff_path h A.nodes.final w A.nodes.initial
  · rw [NFA.test, matchW]
    simp

/-! Claim C10: the `test` recursion is total within an index-bounded budget. -/

theorem matchFuel_fold (h : Heap) (final : List NodeRef) (chars : List ℚ)
    (fuel index : Nat) (cp : ℚ)
    (hrec : ∀ m : NodeRef, matchFuel h final chars fuel (index + 1) m =
      some (matchW h final (chars.drop (index + 1)) m)) :
    ∀ (l : List (NodeRef × CharSet)) (acc : Bool),
      l.foldl (fun acc e =>
          match acc with
          | none => none
          | some true => some true
          | some false =>
              if e.2.has cp then matchFuel h final chars fuel (index + 1) e.1
              else some false) (some acc) =
        some (acc || l.any (fun e => e.2.has cp && matchW h final (chars.drop (index + 1)) e.1)) := by
  intro l
  induction l with
  | nil => intro acc; simp
  | cons e l ihl =>
      intro acc
      rw [List.foldl_cons, List.any_cons]
      cases acc with
      | true =>
          show List.foldl _ (some true) l = _
          rw [ihl true]
          simp
      | false =>
          by_cases hhas : e.2.has cp
          · show List.foldl _ (if e.2.has cp then matchFuel h final chars fuel (index + 1) e.1 else some false) l = _
            rw [if_pos hhas, hrec e.1, ihl]
            simp [hhas]
          · show List.foldl _ (if e.2.has cp then matchFuel h final chars fuel (index + 1) e.1 else some false) l = _
            rw [if_neg hhas, ihl]
            simp only [Bool.false_or]
            have hb : (e.2.has cp && matchW h final (chars.drop (index + 1)) e.1) = false := by
              rw [Bool.and_eq_false_iff]
              left
              simpa using hhas
            rw [hb, Bool.false_or]

theorem matchFuel_spec (h : Heap) (final : List NodeRef) (chars : List ℚ) :
    ∀ fuel index node, chars.length < index + fuel → index ≤ chars.length →
      matchFuel h final chars fuel index node =
        some (matchW h final (chars.drop index) node) := by
  intro fuel
  induction fuel with
  | zero => intro index node hle hix; omega
  | succ fuel ih =>
      intro index node hle hix
      rw [matchFuel]
      by_cases hidx : chars.length ≤ index
      · rw [if_pos hidx, List.drop_eq_nil_of_le hidx, matchW]
      · rw [if_neg hidx]
        push_neg at hidx
        have hcp : chars.get? index = some (chars.get ⟨index, hidx⟩) :=
          List.get?_eq_get hidx
        rw [hcp]
        have hdrop : chars.drop index = chars.get ⟨index, hidx⟩ :: chars.drop (index + 1) :=
          List.drop_eq_get_cons hidx
        rw [hdrop, matchW]
        exact matchFuel_fold h final chars fuel index _
          (fun m => ih (index + 1) m (by omega) (by omega)) (h.out node) false

/-- C10: `test(word)` is a total function: the recursive `match` procedure finishes
within a recursion budget bounded by the word's length (each call strictly
increases the index, which is bounded by `characters.length`, and each level
iterates a finite out-edge map), and computes exactly `test`. -/
theorem C10_test_terminates (A : NFA) (h : Heap) (w : List ℚ) :
    matchFuel h A.nodes.final w (w.length + 1) 0 A.nodes.initial =
      some (A.test h w) := by
  have hs := matchFuel_spec h A.nodes.final w (w.length + 1) 0 A.nodes.initial
    (by omega) (by omega)
  simpa [NFA.test] using hs

/-! Claim C1: `concat` on two distinct NFAs.  The source passes `nfa.nodes` itself
to `baseConcat` instead of the `localCopy` the spec prescribes, so the first
`linkNodes` from a final of `A` into a node of `B` trips the cross-list guard. -/

/-- C1 (failing-input evaluation): for the concrete distinct NFAs
`A = fromWords([[1]])` (list id 0) and `B = fromWords([[2]])` (list id 1), both
with `maxCharacter 3`, `A.concat(B)` throws the cross-list-link error instead of
concatenating via a local copy of `B`'s nodes as the claim and the spec state. -/
theorem C1_concat_cross_list_error :
    (NFA.fromWords [[1]] ⟨3⟩ 0 Heap.emptyH).toOption.bind (fun sA =>
      (NFA.fromWords [[2]] ⟨3⟩ 1 sA.2).toOption.map (fun sB =>
        NFA.concat sA.1 sB.1 sB.2)) = some (.error .crossListLink) := by
  rfl

/-! Claim C8: the `fromWords` code-point validation. -/

/-- C8 (counterexample): the negative integer code point `-1` is not rejected —
`fromWords [[-1]]` with `maxCharacter 3` succeeds, because `getNext` only checks
`char > maxCharacter` and `Number.isInteger(char)`, never the lower bound. -/
theorem C8_counterexample_negative_accepted :
    isOkE (NFA.fromWords [[-1]] ⟨3⟩ 0 Heap.emptyH) = true := by
  rfl

/-! Generic `Except` and `foldlM` reasoning. -/

@[simp]
theorem exceptPure {β : Type} (b : β) : (pure b : Except Err β) = .ok b := rfl

@[simp]
theorem exceptBind_okL {α β : Type} (a : α) (g : α → Except Err β) :
    (Except.ok a >>= g) = g a := rfl

@[simp]
theorem exceptBind_errL {α β : Type} (e : Err) (g : α → Except Err β) :
    ((Except.error e : Except Err α) >>= g) = .error e := rfl

theorem exceptBind_eq_ok {α β : Type} {x : Except Err α} {g : α → Except Err β} {c : β} :
    x >>= g = .ok c ↔ ∃ b, x = .ok b ∧ g b = .ok c := by
  cases x <;> simp

theorem exceptBind_eq_error {α β : Type} {x : Except Err α} {g : α → Except Err β}
    {e : Err} :
    x >>= g = .error e ↔ x = .error e ∨ ∃ b, x = .ok b ∧ g b = .error e := by
  cases x <;> simp

/-- Invariant preservation through a successful `foldlM`, together with the fact
that every list element was processed successfully from an invariant-satisfying
state. -/
theorem foldlM_inv {α β : Type} {P : β → Prop} {f : β → α → Except Err β}
    {l : List α} {b c : β}
    (hP : P b)
    (hpres : ∀ s x, x ∈ l → P s → ∀ s2, f s x = .ok s2 → P s2)
    (hok : l.foldlM f b = .ok c) :
    P c ∧ ∀ x ∈ l, ∃ s s2, P s ∧ f s x = .ok s2 := by
  induction l generalizing b with
  | nil =>
      rw [List.foldlM_nil] at hok
      exact ⟨by simpa using (Except.ok.inj hok) ▸ hP, by simp⟩
  | cons x xs ih =>
      rw [List.foldlM_cons] at hok
      rw [exceptBind_eq_ok] at hok
      obtain ⟨b1, hb1, hrest⟩ := hok
      have hPb1 : P b1 := hpres b x (by simp) hP b1 hb1
      obtain ⟨hPc, hall⟩ := ih hPb1
        (fun s y hy hs s2 hs2 => hpres s y (by simp [hy]) hs s2 hs2) hrest
      refine ⟨hPc, ?_⟩
      intro y hy
      rcases List.mem_cons.mp hy with rfl | hy2
      · exact ⟨b, b1, hP, hb1⟩
      · exact hall y hy2

/-- Error analysis of a `foldlM`: a failing fold pins the error on some element,
processed from an invariant-satisfying state. -/
theorem foldlM_error_inv {α β : Type} {P : β → Prop} {f : β → α → Except Err β}
    {l : List α} {b : β} {e : Err}
    (hP : P b)
    (hpres : ∀ s x, x ∈ l → P s → ∀ s2, f s x = .ok s2 → P s2)
    (herr : l.foldlM f b = .error e) :
    ∃ x ∈ l, ∃ s, P s ∧ f s x = .error e := by
  induction l generalizing b with
  | nil => rw [List.foldlM_nil] at herr; cases herr
  | cons x xs ih =>
      rw [List.foldlM_cons] at herr
      rw [exceptBind_eq_error] at herr
      rcases herr with hx | ⟨b1, hb1, hrest⟩
      · exact ⟨x, by simp, b, hP, hx⟩
      · have hPb1 : P b1 := hpres b x (by simp) hP b1 hb1
        obtain ⟨y, hy, s, hs, hfy⟩ := ih hPb1
          (fun s y hy hs s2 hs2 => hpres s y (by simp [hy]) hs s2 hs2) hrest
        exact ⟨y, by simp [hy], s, hs, hfy⟩

/-! Membership and key lemmas for the association-list maps and the final sets. -/

theorem lookupA_eq_none_iff (m : List (NodeRef × CharSet)) (k : NodeRef) :
    lookupA m k = none ↔ k ∉ m.map (fun e => e.1) := by
  induction m with
  | nil => simp
  | cons e m ih =>
      rw [lookupA_cons]
      by_cases hek : e.1 = k
      · simp [hek]
      · simp [hek, ih, Ne.symm hek]

theorem lookupA_isSome_iff (m : List (NodeRef × CharSet)) (k : NodeRef) :
    (lookupA m k).isSome = true ↔ k ∈ m.map (fun e => e.1) := by
  constructor
  · intro hs
    by_contra hk
    rw [← lookupA_eq_none_iff] at hk
    rw [hk] at hs
    simp at hs
  · intro hk
    cases hl : lookupA m k with
    | some v => rfl
    | none => exact absurd hk ((lookupA_eq_none_iff m k).mp hl)

theorem mem_of_lookupA_some {m : List (NodeRef × CharSet)} {k : NodeRef} {v : CharSet}
    (hl : lookupA m k = some v) : (k, v) ∈ m := by
  induction m with
  | nil => cases hl
  | cons e m ih =>
      rw [lookupA_cons] at hl
      by_cases hek : e.1 = k
      · rw [if_pos hek] at hl
        rw [List.mem_cons]
        left
        obtain ⟨e1, e2⟩ := e
        simp only at hek
        have hv : e2 = v := Option.some.inj hl
        subst hek
        subst hv
        rfl
      · rw [if_neg hek] at hl
        exact List.mem_cons_of_mem e (ih hl)

theorem lookupA_some_of_mem {m : List (NodeRef × CharSet)} {k : NodeRef} {v : CharSet}
    (hmem : (k, v) ∈ m) (hnd : (m.map (fun e => e.1)).Nodup) :
    lookupA m k = some v := by
  induction m with
  | nil => cases hmem
  | cons e m ih =>
      rw [List.map_cons, List.nodup_cons] at hnd
      rw [lookupA_cons]
      rcases List.mem_cons.mp hmem with rfl | hmem2
      · simp
      · by_cases hek : e.1 = k
        · exfalso
          apply hnd.1
          rw [hek]
          exact List.mem_map.mpr ⟨(k, v), hmem2, rfl⟩
        · rw [if_neg hek]
          exact ih hmem2 hnd.2

theorem mem_setA {m : List (NodeRef × CharSet)} {k : NodeRef} {v : CharSet}
    {e : NodeRef × CharSet} (he : e ∈ setA m k v) : e ∈ m ∨ e = (k, v) := by
  unfold setA at he
  by_cases hs : (lookupA m k).isSome = true
  · rw [if_pos hs] at he
    obtain ⟨e0, he0, heq⟩ := List.mem_map.mp he
    by_cases hek : e0.1 = k
    · right; rw [if_pos hek] at heq; exact heq.symm
    · left; rw [if_neg hek] at heq; exact heq ▸ he0
  · rw [if_neg hs] at he
    rcases List.mem_append.mp he with h1 | h2
    · exact Or.inl h1
    · right; simpa using h2

theorem mem_addA {m : List (NodeRef × CharSet)} {b : NodeRef} {cs : CharSet}
    {e : NodeRef × CharSet} (he : e ∈ addA m b cs) :
    e ∈ m ∨ (e.1 = b ∧ (e.2 = cs ∨ ∃ c : CharSet, e.2 = c.union cs)) := by
  unfold addA at he
  cases hl : lookupA m b with
  | none =>
      rw [hl] at he
      rcases List.mem_append.mp he with h1 | h2
      · exact Or.inl h1
      · right
        have : e = (b, cs) := by simpa using h2
        rw [this]
        exact ⟨rfl, Or.inl rfl⟩
  | some c =>
      rw [hl] at he
      rcases mem_setA he with h1 | h2
      · exact Or.inl h1
      · right; rw [h2]; exact ⟨rfl, Or.inr ⟨c, rfl⟩⟩

theorem keys_setA (m : List (NodeRef × CharSet)) (k : NodeRef) (v : CharSet)
    (hs : (lookupA m k).isSome = true) :
    (setA m k v).map (fun e => e.1) = m.map (fun e => e.1) := by
  unfold setA
  rw [if_pos hs, List.map_map]
  apply List.map_congr_left
  intro e he
  by_cases hek : e.1 = k
  · simp [hek]
  · simp [hek]

theorem keys_addA (m : List (NodeRef × CharSet)) (b : NodeRef) (cs : CharSet) :
    (addA m b cs).map (fun e => e.1) =
      if (lookupA m b).isSome = true then m.map (fun e => e.1)
      else m.map (fun e => e.1) ++ [b] := by
  unfold addA
  cases hl : lookupA m b with
  | none => simp [hl]
  | some c => simp [hl, keys_setA m b _ (by simp [hl])]

theorem keys_removeA (m : List (NodeRef × CharSet)) (k : NodeRef) :
    (removeA m k).map (fun e => e.1) =
      (m.map (fun e => e.1)).filter (fun x => decide (x ≠ k)) := by
  induction m with
  | nil => rfl
  | cons e m ih =>
      rw [removeA, List.filter_cons, List.map_cons, List.filter_cons]
      by_cases hek : e.1 = k
      · have hd : decide (e.1 ≠ k) = false := by simp [hek]
        rw [hd]
        simpa [removeA] using ih
      · have hd : decide (e.1 ≠ k) = true := by simp [hek]
        rw [hd]
        simp only [if_true, List.map_cons]
        rw [show removeA m k = m.filter (fun e => decide (e.1 ≠ k)) from rfl] at ih
        rw [ih]

theorem nodup_keys_addA {m : List (NodeRef × CharSet)} {b : NodeRef} {cs : CharSet}
    (hnd : (m.map (fun e => e.1)).Nodup) :
    ((addA m b cs).map (fun e => e.1)).Nodup := by
  rw [keys_addA]
  by_cases hs : (lookupA m b).isSome = true
  · rw [if_pos hs]; exact hnd
  · rw [if_neg hs]
    rw [List.nodup_append]
    refine ⟨hnd, List.nodup_singleton b, ?_⟩
    intro x hx hxb
    have hxb2 : x = b := by simpa using hxb
    subst hxb2
    rw [← lookupA_isSome_iff] at hx
    exact hs hx

theorem nodup_keys_removeA {m : List (NodeRef × CharSet)} {k : NodeRef}
    (hnd : (m.map (fun e => e.1)).Nodup) :
    ((removeA m k).map (fun e => e.1)).Nodup := by
  rw [keys_removeA]
  exact List.Nodup.filter _ hnd

theorem mem_removeA {m : List (NodeRef × CharSet)} {k : NodeRef}
    {e : NodeRef × CharSet} (he : e ∈ removeA m k) : e ∈ m :=
  List.mem_of_mem_filter he

/-! Final-set (`JS Set`) helpers. -/

theorem mem_addFinal {s : List NodeRef} {n x : NodeRef} :
    x ∈ addFinal s n ↔ x ∈ s ∨ x = n := by
  unfold addFinal
  by_cases hn : n ∈ s
  · rw [if_pos hn]
    constructor
    · exact Or.inl
    · rintro (hx | rfl)
      · exact hx
      · exact hn
  · rw [if_neg hn]
    simp

theorem nodup_addFinal {s : List NodeRef} {n : NodeRef} (hnd : s.Nodup) :
    (addFinal s n).Nodup := by
  unfold addFinal
  by_cases hn : n ∈ s
  · rw [if_pos hn]; exact hnd
  · rw [if_neg hn]
    rw [List.nodup_append]
    exact ⟨hnd, List.nodup_singleton n, by
      intro x hx hxn
      have : x = n := by simpa using hxn
      subst this
      exact hn hx⟩

theorem mem_delFinal {s : List NodeRef} {n x : NodeRef} :
    x ∈ delFinal s n ↔ x ∈ s ∧ x ≠ n := by
  unfold delFinal
  rw [List.mem_filter]
  simp

theorem nodup_delFinal {s : List NodeRef} {n : NodeRef} (hnd : s.Nodup) :
    (delFinal s n).Nodup :=
  List.Nodup.filter _ hnd

/-- A union with a non-empty `CharSet` is non-empty. -/
theorem union_isEmpty_false {c cs : CharSet} (hcs : cs.isEmpty = false) :
    (c.union cs).isEmpty = false := by
  unfold CharSet.isEmpty at hcs ⊢
  rw [decide_eq_false_iff_not] at hcs ⊢
  intro hcon
  apply hcs
  rw [CharSet.union] at hcon
  simp only at hcon
  rw [Finset.union_eq_empty] at hcon
  exact hcon.2

/-! Preservation of the `WF` invariants by the heap primitives. -/

theorem Alloc_mono {nl nl' : NodeList} {n : NodeRef} (hid : nl'.listId = nl.listId)
    (hc : nl.nodeCounter ≤ nl'.nodeCounter) (ha : Alloc nl n) : Alloc nl' n :=
  ⟨hid ▸ ha.1, lt_of_lt_of_le ha.2 hc⟩

theorem lookupA_out_not_alloc {nl : NodeList} {h : Heap} (hwf : WF nl h)
    {n x : NodeRef} (hn : Alloc nl n) (hx : ¬ Alloc nl x) :
    lookupA (h.out n) x = none := by
  rw [lookupA_eq_none_iff]
  intro hmem
  obtain ⟨e, he, rfl⟩ := List.mem_map.mp hmem
  exact hx (hwf.outAlloc n hn e he)

theorem lookupA_inn_not_alloc {nl : NodeList} {h : Heap} (hwf : WF nl h)
    {n x : NodeRef} (hn : Alloc nl n) (hx : ¬ Alloc nl x) :
    lookupA (h.inn n) x = none := by
  rw [lookupA_eq_none_iff]
  intro hmem
  obtain ⟨e, he, rfl⟩ := List.mem_map.mp hmem
  exact hx (hwf.innAlloc n hn e he)

theorem WF_withFinal {nl : NodeList} {h : Heap} (hwf : WF nl h) {fs : List NodeRef}
    (hfa : ∀ f ∈ fs, Alloc nl f) (hnd : fs.Nodup) : WF { nl with final := fs } h where
  finalAlloc := hfa
  finalNodup := hnd
  outAlloc := hwf.outAlloc
  innAlloc := hwf.innAlloc
  outLabel := hwf.outLabel
  innLabel := hwf.innLabel
  outNodup := hwf.outNodup
  innNodup := hwf.innNodup
  sym := hwf.sym

theorem Alloc_createNode_iff {nl : NodeList} {h : Heap} {n : NodeRef} :
    Alloc (createNode nl h).2.1 n ↔ Alloc nl n ∨ n = ⟨nl.listId, nl.nodeCounter⟩ := by
  unfold createNode Alloc
  simp only
  constructor
  · rintro ⟨hl, hc⟩
    by_cases hid : n.id = nl.nodeCounter
    · right
      obtain ⟨n1, n2⟩ := n
      simp only at hl hid
      rw [hl, hid]
    · left; exact ⟨hl, by omega⟩
  · rintro (⟨hl, hc⟩ | rfl)
    · exact ⟨hl, by omega⟩
    · exact ⟨rfl, by simp⟩

theorem WF_createNode {nl : NodeList} {h : Heap} (hwf : WF nl h) :
    WF (createNode nl h).2.1 (createNode nl h).2.2 := by
  set node : NodeRef := ⟨nl.listId, nl.nodeCounter⟩ with hnode
  have hAlloc : ∀ n, Alloc (createNode nl h).2.1 n ↔ Alloc nl n ∨ n = node :=
    fun n => Alloc_createNode_iff
  have hnotnode : ¬ Alloc nl node := fun hcon => by
    have := hcon.2
    simp [hnode] at this
  have hout : ∀ n, (createNode nl h).2.2.out n = if n = node then [] else h.out n := by
    intro n
    show ((h.setOut node []).setInn node []).out n = _
    simp
  have hinn : ∀ n, (createNode nl h).2.2.inn n = if n = node then [] else h.inn n := by
    intro n
    show ((h.setOut node []).setInn node []).inn n = _
    simp
  have hmono : ∀ x, Alloc nl x → Alloc (createNode nl h).2.1 x :=
    fun x hx => (hAlloc x).mpr (Or.inl hx)
  refine ⟨?_, ?_, ?_, ?_, ?_, ?_, ?_, ?_, ?_⟩
  · intro f hf
    exact hmono f (hwf.finalAlloc f hf)
  · exact hwf.finalNodup
  · intro n hn e he
    rw [hout] at he
    by_cases hne : n = node
    · rw [if_pos hne] at he; cases he
    · rw [if_neg hne] at he
      rcases (hAlloc n).mp hn with hold | rfl
      · exact hmono _ (hwf.outAlloc n hold e he)
      · exact absurd rfl hne
  · intro n hn e he
    rw [hinn] at he
    by_cases hne : n = node
    · rw [if_pos hne] at he; cases he
    · rw [if_neg hne] at he
      rcases (hAlloc n).mp hn with hold | rfl
      · exact hmono _ (hwf.innAlloc n hold e he)
      · exact absurd rfl hne
  · intro n hn e he
    rw [hout] at he
    by_cases hne : n = node
    · rw [if_pos hne] at he; cases he
    · rw [if_neg hne] at he
      rcases (hAlloc n).mp hn with hold | rfl
      · exact hwf.outLabel n hold e he
      · exact absurd rfl hne
  · intro n hn e he
    rw [hinn] at he
    by_cases hne : n = node
    · rw [if_pos hne] at he; cases he
    · rw [if_neg hne] at he
      rcases (hAlloc n).mp hn with hold | rfl
      · exact hwf.innLabel n hold e he
      · exact absurd rfl hne
  · intro n hn
    rw [hout]
    by_cases hne : n = node
    · rw [if_pos hne]; simp
    · rw [if_neg hne]
      rcases (hAlloc n).mp hn with hold | rfl
      · exact hwf.outNodup n hold
      · exact absurd rfl hne
  · intro n hn
    rw [hinn]
    by_cases hne : n = node
    · rw [if_pos hne]; simp
    · rw [if_neg hne]
      rcases (hAlloc n).mp hn with hold | rfl
      · exact hwf.innNodup n hold
      · exact absurd rfl hne
  · intro a b ha hb
    rw [hout, hinn]
    by_cases hae : a = node
    · rw [if_pos hae]
      by_cases hbe : b = node
      · rw [if_pos hbe]; rfl
      · rw [if_neg hbe]
        rcases (hAlloc b).mp hb with hbold | rfl
        · rw [show lookupA [] b = none from rfl,
            lookupA_inn_not_alloc hwf hbold (hae ▸ hnotnode)]
        · exact absurd rfl hbe
    · rw [if_neg hae]
      rcases (hAlloc a).mp ha with haold | rfl
      · by_cases hbe : b = node
        · rw [if_pos hbe]
          rw [show lookupA [] a = none from rfl,
            lookupA_out_not_alloc hwf haold (hbe ▸ hnotnode)]
        · rw [if_neg hbe]
          rcases (hAlloc b).mp hb with hbold | rfl
          · exact hwf.sym a b haold hbold
          · exact absurd rfl hbe
      · exact absurd rfl hae

theorem WF_linkNodes {nl : NodeList} {h : Heap} {a b : NodeRef} {cs : CharSet}
    {h2 : Heap} (hwf : WF nl h) (ha : Alloc nl a) (hb : Alloc nl b)
    (hok : linkNodes nl h a b cs = .ok h2) : WF nl h2 := by
  rw [linkNodes_ok_iff] at hok
  obtain ⟨-, -, hcs, rfl⟩ := hok
  have hout : ∀ n, ((h.setOut a (addA (h.out a) b cs)).setInn b
      (addA (h.inn b) a cs)).out n = if n = a then addA (h.out a) b cs else h.out n := by
    intro n; simp
  have hinn : ∀ n, ((h.setOut a (addA (h.out a) b cs)).setInn b
      (addA (h.inn b) a cs)).inn n = if n = b then addA (h.inn b) a cs else h.inn n := by
    intro n; simp
  refine ⟨hwf.finalAlloc, hwf.finalNodup, ?_, ?_, ?_, ?_, ?_, ?_, ?_⟩
  · intro n hn e he
    rw [hout] at he
    by_cases hne : n = a
    · rw [if_pos hne] at he
      rcases mem_addA he with hold | ⟨hb1, -⟩
      · exact hwf.outAlloc a (hne ▸ hn) e hold
      · exact hb1 ▸ hb
    · rw [if_neg hne] at he
      exact hwf.outAlloc n hn e he
  · intro n hn e he
    rw [hinn] at he
    by_cases hne : n = b
    · rw [if_pos hne] at he
      rcases mem_addA he with hold | ⟨ha1, -⟩
      · exact hwf.innAlloc b (hne ▸ hn) e hold
      · exact ha1 ▸ ha
    · rw [if_neg hne] at he
      exact hwf.innAlloc n hn e he
  · intro n hn e he
    rw [hout] at he
    by_cases hne : n = a
    · rw [if_pos hne] at he
      rcases mem_addA he with hold | ⟨-, hv⟩
      · exact hwf.outLabel a (hne ▸ hn) e hold
      · rcases hv with hv | ⟨c, hv⟩
        · rw [hv]; simpa using hcs
        · rw [hv]; exact union_isEmpty_false hcs
    · rw [if_neg hne] at he
      exact hwf.outLabel n hn e he
  · intro n hn e he
    rw [hinn] at he
    by_cases hne : n = b
    · rw [if_pos hne] at he
      rcases mem_addA he with hold | ⟨-, hv⟩
      · exact hwf.innLabel b (hne ▸ hn) e hold
      · rcases hv with hv | ⟨c, hv⟩
        · rw [hv]; simpa using hcs
        · rw [hv]; exact union_isEmpty_false hcs
    · rw [if_neg hne] at he
      exact hwf.innLabel n hn e he
  · intro n hn
    rw [hout]
    by_cases hne : n = a
    · rw [if_pos hne]
      exact nodup_keys_addA (hwf.outNodup a (hne ▸ hn))
    · rw [if_neg hne]
      exact hwf.outNodup n hn
  · intro n hn
    rw [hinn]
    by_cases hne : n = b
    · rw [if_pos hne]
      exact nodup_keys_addA (hwf.innNodup b (hne ▸ hn))
    · rw [if_neg hne]
      exact hwf.innNodup n hn
  · intro x y hx hy
    rw [hout, hinn]
    by_cases hxa : x = a
    · subst hxa
      by_cases hyb : y = b
      · subst hyb
        rw [if_pos rfl, if_pos rfl, lookupA_addA_self, lookupA_addA_self,
          hwf.sym x y hx hy]
      · rw [if_pos rfl, if_neg hyb, lookupA_addA_ne _ _ _ _ hyb,
          hwf.sym x y hx hy]
    · rw [if_neg hxa]
      by_cases hyb : y = b
      · subst hyb
        rw [if_pos rfl, lookupA_addA_ne _ _ _ _ hxa, hwf.sym x y hx hy]
      · rw [if_neg hyb]
        exact hwf.sym x y hx hy

theorem WF_unlinkNodes {nl : NodeList} {h : Heap} {a b : NodeRef} {h2 : Heap}
    (hwf : WF nl h) (hok : unlinkNodes nl h a b = .ok h2) : WF nl h2 := by
  rw [unlinkNodes_ok_iff] at hok
  obtain ⟨-, -, -, rfl⟩ := hok
  have hout : ∀ n, ((h.setOut a (removeA (h.out a) b)).setInn b
      (removeA (h.inn b) a)).out n = if n = a then removeA (h.out a) b else h.out n := by
    intro n; simp
  have hinn : ∀ n, ((h.setOut a (removeA (h.out a) b)).setInn b
      (removeA (h.inn b) a)).inn n = if n = b then removeA (h.inn b) a else h.inn n := by
    intro n; simp
  refine ⟨hwf.finalAlloc, hwf.finalNodup, ?_, ?_, ?_, ?_, ?_, ?_, ?_⟩
  · intro n hn e he
    rw [hout] at he
    by_cases hne : n = a
    · rw [if_pos hne] at he
      exact hwf.outAlloc a (hne ▸ hn) e (mem_removeA he)
    · rw [if_neg hne] at he
      exact hwf.outAlloc n hn e he
  · intro n hn e he
    rw [hinn] at he
    by_cases hne : n = b
    · rw [if_pos hne] at he
      exact hwf.innAlloc b (hne ▸ hn) e (mem_removeA he)
    · rw [if_neg hne] at he
      exact hwf.innAlloc n hn e he
  · intro n hn e he
    rw [hout] at he
    by_cases hne : n = a
    · rw [if_pos hne] at he
      exact hwf.outLabel a (hne ▸ hn) e (mem_removeA he)
    · rw [if_neg hne] at he
      exact hwf.outLabel n hn e he
  · intro n hn e he
    rw [hinn] at he
    by_cases hne : n = b
    · rw [if_pos hne] at he
      exact hwf.innLabel b (hne ▸ hn) e (mem_removeA he)
    · rw [if_neg hne] at he
      exact hwf.innLabel n hn e he
  · intro n hn
    rw [hout]
    by_cases hne : n = a
    · rw [if_pos hne]
      exact nodup_keys_removeA (hwf.outNodup a (hne ▸ hn))
    · rw [if_neg hne]
      exact hwf.outNodup n hn
  · intro n hn
    rw [hinn]
    by_cases hne : n = b
    · rw [if_pos hne]
      exact nodup_keys_removeA (hwf.innNodup b (hne ▸ hn))
    · rw [if_neg hne]
      exact hwf.innNodup n hn
  · intro x y hx hy
    rw [hout, hinn]
    by_cases hxa : x = a
    · subst hxa
      by_cases hyb : y = b
      · subst hyb
        rw [if_pos rfl, if_pos rfl, lookupA_removeA_self, lookupA_removeA_self]
      · rw [if_pos rfl, if_neg hyb, lookupA_removeA_ne _ _ _ hyb,
          hwf.sym x y hx hy]
    · rw [if_neg hxa]
      by_cases hyb : y = b
      · subst hyb
        rw [if_pos rfl, lookupA_removeA_ne _ _ _ hxa, hwf.sym x y hx hy]
      · rw [if_neg hyb]
        exact hwf.sym x y hx hy

theorem WF_trivial (listId counter : Nat) (h : Heap)
    (hc : counter = 0) : WF ⟨listId, counter, []⟩ h := by
  have hno : ∀ n, ¬ Alloc (⟨listId, counter, []⟩ : NodeList) n := by
    rintro n ⟨-, hlt⟩
    simp only at hlt
    omega
  exact ⟨by simp, List.nodup_nil,
    fun n hn => absurd hn (hno n), fun n hn => absurd hn (hno n),
    fun n hn => absurd hn (hno n), fun n hn => absurd hn (hno n),
    fun n hn => absurd hn (hno n), fun n hn => absurd hn (hno n),
    fun a b ha => absurd ha (hno a)⟩

theorem WF_new (listId : Nat) (h : Heap) :
    WF (NodeList.new listId h).1 (NodeList.new listId h).2 := by
  unfold NodeList.new
  exact WF_createNode (WF_trivial listId 0 h rfl)

/-- Totality of a `foldlM` whose steps always succeed from invariant states. -/
theorem foldlM_total {α β : Type} {P : β → Prop} {f : β → α → Except Err β}
    {l : List α} {b : β}
    (hP : P b)
    (hstep : ∀ s x, x ∈ l → P s → ∃ s2, f s x = .ok s2 ∧ P s2) :
    ∃ c, l.foldlM f b = .ok c ∧ P c := by
  induction l generalizing b with
  | nil => exact ⟨b, by simp, hP⟩
  | cons x xs ih =>
      obtain ⟨b1, hb1, hPb1⟩ := hstep b x (by simp) hP
      obtain ⟨c, hc, hPc⟩ := ih hPb1
        (fun s y hy hs => hstep s y (by simp [hy]) hs)
      exact ⟨c, by rw [List.foldlM_cons, hb1, exceptBind_okL, hc], hPc⟩

theorem removeA_eq_self_of_not_mem {m : List (NodeRef × CharSet)} {k : NodeRef}
    (hk : k ∉ m.map (fun e => e.1)) : removeA m k = m := by
  unfold removeA
  apply List.filter_eq_self.mpr
  intro e he
  have : e.1 ≠ k := fun hc => hk (List.mem_map.mpr ⟨e, he, hc⟩)
  simpa using this

theorem removeA_cons_head {e : NodeRef × CharSet} {rest : List (NodeRef × CharSet)}
    (hk : e.1 ∉ rest.map (fun x => x.1)) : removeA (e :: rest) e.1 = rest := by
  rw [removeA, List.filter_cons]
  have hd : decide (e.1 ≠ e.1) = false := by simp
  rw [hd]
  simp only [Bool.false_eq_true, if_false]
  exact removeA_eq_self_of_not_mem hk

/-- The per-`toRemove` inner loop of `baseOptimizationReuseFinalStates` always
succeeds from a well-formed heap whose `toRemove.in` row is the iterated snapshot. -/
theorem baseOptInner {nl : NodeList} {master toRemove : NodeRef}
    (hmaster : Alloc nl master) (hne : toRemove ≠ master) :
    ∀ (snap : List (NodeRef × CharSet)) (h' : Heap), WF nl h' →
      Alloc nl toRemove → h'.inn toRemove = snap →
      ∃ h2, snap.foldlM (fun h3 e => do
          let h4 ← linkNodes nl h3 e.1 master e.2
          unlinkNodes nl h4 e.1 toRemove) h' = .ok h2 ∧ WF nl h2 := by
  intro snap
  induction snap with
  | nil => intro h' hwf htr hrow; exact ⟨h', by simp, hwf⟩
  | cons e rest ih =>
      intro h' hwf htr hrow
      have hmemrow : e ∈ h'.inn toRemove := by rw [hrow]; simp
      have hto : Alloc nl e.1 := hwf.innAlloc toRemove htr e hmemrow
      have hcs : e.2.isEmpty = false := hwf.innLabel toRemove htr e hmemrow
      have hlink : linkNodes nl h' e.1 master e.2 =
          .ok ((h'.setOut e.1 (addA (h'.out e.1) master e.2)).setInn master
            (addA (h'.inn master) e.1 e.2)) := by
        rw [linkNodes_ok_iff]
        exact ⟨hto.1.trans hmaster.1.symm, hto.1, hcs, rfl⟩
      set h4 := (h'.setOut e.1 (addA (h'.out e.1) master e.2)).setInn master
        (addA (h'.inn master) e.1 e.2) with hh4
      have hwf4 : WF nl h4 := WF_linkNodes hwf hto hmaster hlink
      have hrow4 : h4.inn toRemove = e :: rest := by
        rw [hh4]
        simp only [setInn_inn, setOut_inn]
        rw [if_neg hne]
        exact hrow
      have hkeys : ((h'.inn toRemove).map (fun x => x.1)).Nodup :=
        hwf.innNodup toRemove htr
      rw [hrow, List.map_cons, List.nodup_cons] at hkeys
      have hlookout : lookupA (h4.out e.1) toRemove = some e.2 := by
        have hs := hwf4.sym e.1 toRemove hto htr
        rw [hs, hrow4, lookupA_cons]
        simp
      have hunlink : unlinkNodes nl h4 e.1 toRemove =
          .ok ((h4.setOut e.1 (removeA (h4.out e.1) toRemove)).setInn toRemove
            (removeA (h4.inn toRemove) e.1)) := by
        rw [unlinkNodes_ok_iff]
        exact ⟨hto.1.trans htr.1.symm, hto.1, by simp [hlookout], rfl⟩
      set h5 := (h4.setOut e.1 (removeA (h4.out e.1) toRemove)).setInn toRemove
        (removeA (h4.inn toRemove) e.1) with hh5
      have hwf5 : WF nl h5 := WF_unlinkNodes hwf4 hunlink
      have hrow5 : h5.inn toRemove = rest := by
        rw [hh5]
        simp only [setInn_inn, eq_self_iff_true, if_true]
        rw [hrow4]
        exact removeA_cons_head hkeys.1
      obtain ⟨h2, hfold, hwf2⟩ := ih h5 hwf5 htr hrow5
      refine ⟨h2, ?_, hwf2⟩
      rw [List.foldlM_cons]
      have hbody : (do
          let h4x ← linkNodes nl h' e.1 master e.2
          unlinkNodes nl h4x e.1 toRemove) = Except.ok h5 := by
        rw [hlink, exceptBind_okL, hunlink]
      rw [hbody, exceptBind_okL]
      exact hfold

/-- `baseOptimizationReuseFinalStates` always succeeds on a well-formed state and
preserves well-formedness; the resulting final set is a duplicate-free subset of
the input final set. -/
theorem baseOpt_ok {nl : NodeList} {h : Heap} {base : SubList}
    (hwf : WF nl h) (hfin : ∀ f ∈ base.final, Alloc nl f) (hnd : base.final.Nodup) :
    ∃ h2 base2, baseOptimizationReuseFinalStates nl h base = .ok (h2, base2) ∧
      WF nl h2 ∧ (∀ f ∈ base2.final, f ∈ base.final) ∧ base2.final.Nodup ∧
      base2.initial = base.initial := by
  unfold baseOptimizationReuseFinalStates
  set reusable := base.final.filter
    (fun f => decide (f ≠ base.initial) && decide (h.out f = [])) with hreus
  by_cases hlen : reusable.length ≤ 1
  · rw [if_pos hlen]
    exact ⟨h, base, rfl, hwf, fun f hf => hf, hnd, rfl⟩
  · rw [if_neg hlen]
    have hne : reusable ≠ [] := by
      intro hcon
      rw [hcon] at hlen
      simp at hlen
    cases hlast : reusable.getLast? with
    | none => exact absurd (List.getLast?_eq_none_iff.mp hlast) hne
    | some masterFinal =>
        have hmasterEq : masterFinal = reusable.getLast hne := by
          have h1 := List.getLast?_eq_getLast reusable hne
          rw [hlast] at h1
          exact Option.some.inj h1
        have hmasterMem : masterFinal ∈ reusable := by
          rw [hmasterEq]
          exact List.getLast_mem hne
        have hmasterfin : masterFinal ∈ base.final := List.mem_of_mem_filter hmasterMem
        have hmaster : Alloc nl masterFinal := hfin masterFinal hmasterfin
        have hreusnd : reusable.Nodup := List.Nodup.filter _ hnd
        have hmasterNotDrop : ∀ x ∈ reusable.dropLast, x ≠ masterFinal := by
          intro x hx hcon
          have hsplit := List.dropLast_append_getLast hne
          have hndsplit : (reusable.dropLast ++ [reusable.getLast hne]).Nodup := by
            rw [hsplit]; exact hreusnd
          rw [List.nodup_append] at hndsplit
          exact hndsplit.2.2 hx (by rw [← hmasterEq, ← hcon]; simp)
        have hstep : ∀ (s : Heap × SubList) toRemove, toRemove ∈ reusable.dropLast →
            (WF nl s.1 ∧ (∀ f ∈ s.2.final, f ∈ base.final) ∧ s.2.final.Nodup ∧
              s.2.initial = base.initial) →
            ∃ s2, (do
                let base2 : SubList := { s.2 with final := delFinal s.2.final toRemove }
                let h2 ← (s.1.inn toRemove).foldlM
                  (fun h3 (e : NodeRef × CharSet) => do
                    let h4 ← linkNodes nl h3 e.1 masterFinal e.2
                    unlinkNodes nl h4 e.1 toRemove) s.1
                Except.ok (h2, base2)) = .ok s2 ∧
              (WF nl s2.1 ∧ (∀ f ∈ s2.2.final, f ∈ base.final) ∧ s2.2.final.Nodup ∧
                s2.2.initial = base.initial) := by
          intro s toRemove htrMem hP
          obtain ⟨hwfs, hsub, hnds, hinit⟩ := hP
          have htrReus : toRemove ∈ reusable := List.dropLast_subset reusable htrMem
          have htrFin : toRemove ∈ base.final := List.mem_of_mem_filter htrReus
          have htrAlloc : Alloc nl toRemove := hfin toRemove htrFin
          have htrNe : toRemove ≠ masterFinal := hmasterNotDrop toRemove htrMem
          obtain ⟨h2, hfold, hwf2⟩ := baseOptInner hmaster htrNe (s.1.inn toRemove)
            s.1 hwfs htrAlloc rfl
          refine ⟨(h2, { s.2 with final := delFinal s.2.final toRemove }), ?_, hwf2,
            ?_, nodup_delFinal hnds, hinit⟩
          · show ((s.1.inn toRemove).foldlM
                (fun h3 (e : NodeRef × CharSet) => do
                  let h4 ← linkNodes nl h3 e.1 masterFinal e.2
                  unlinkNodes nl h4 e.1 toRemove) s.1) >>=
                (fun h2 => Except.ok (h2, { s.2 with final := delFinal s.2.final toRemove })) =
              _
            rw [hfold, exceptBind_okL]
          · intro f hf
            exact hsub f (mem_delFinal.mp hf).1
        obtain ⟨c, hc, hPc⟩ := @foldlM_total NodeRef (Heap × SubList)
          (fun s => WF nl s.1 ∧ (∀ f ∈ s.2.final, f ∈ base.final) ∧
            s.2.final.Nodup ∧ s.2.initial = base.initial)
          _ reusable.dropLast (h, base)
          ⟨hwf, fun f hf => hf, hnd, rfl⟩ hstep
        exact ⟨c.1, c.2, hc, hPc.1, hPc.2.1, hPc.2.2.1, hPc.2.2.2⟩

theorem bind_ok_elim {α β : Type} {x : Except Err α} {v : α} (hx : x = .ok v)
    (g : α → Except Err β) : (x >>= g) = g v := by
  rw [hx]
  rfl

/-! `getNext` (inside `fromWords`): totality, error kinds, invariant preservation. -/

theorem getNext_ok_good {maxC : ℚ} {nl : NodeList} {h : Heap} {node : NodeRef} {c : ℚ}
    {res : NodeRef × NodeList × Heap}
    (hok : getNext maxC nl h node c = .ok res) :
    ¬ c > maxC ∧ isIntQ c = true := by
  by_cases h1 : c > maxC
  · unfold getNext at hok
    rw [if_pos h1] at hok
    cases hok
  · by_cases h2 : isIntQ c = true
    · exact ⟨h1, h2⟩
    · unfold getNext at hok
      rw [if_neg h1, if_neg h2] at hok
      cases hok

theorem getNext_total {maxC : ℚ} {nl : NodeList} {h : Heap} {node : NodeRef} {c : ℚ}
    (h1 : ¬ c > maxC) (h2 : isIntQ c = true) (hnode : node.list = nl.listId) :
    ∃ res, getNext maxC nl h node c = .ok res := by
  unfold getNext
  rw [if_neg h1, if_pos h2]
  cases hfind : (h.out node).find? (fun e => e.2.has c) with
  | some e2 => exact ⟨_, rfl⟩
  | none =>
      have hlink : linkNodes { nl with nodeCounter := nl.nodeCounter + 1 }
          ((h.setOut ⟨nl.listId, nl.nodeCounter⟩ []).setInn ⟨nl.listId, nl.nodeCounter⟩ [])
          node ⟨nl.listId, nl.nodeCounter⟩ (CharSet.singletonRange maxC c) =
          .ok ((((h.setOut ⟨nl.listId, nl.nodeCounter⟩ []).setInn
              ⟨nl.listId, nl.nodeCounter⟩ []).setOut node
              (addA (((h.setOut ⟨nl.listId, nl.nodeCounter⟩ []).setInn
                ⟨nl.listId, nl.nodeCounter⟩ []).out node) ⟨nl.listId, nl.nodeCounter⟩
                (CharSet.singletonRange maxC c))).setInn ⟨nl.listId, nl.nodeCounter⟩
              (addA (((h.setOut ⟨nl.listId, nl.nodeCounter⟩ []).setInn
                ⟨nl.listId, nl.nodeCounter⟩ []).inn ⟨nl.listId, nl.nodeCounter⟩) node
                (CharSet.singletonRange maxC c))) := by
        rw [linkNodes_ok_iff]
        refine ⟨hnode, hnode, ?_, rfl⟩
        simp [CharSet.singletonRange, CharSet.isEmpty]
      exact ⟨_, bind_ok_elim hlink
        (fun h2 => Except.ok ((⟨nl.listId, nl.nodeCounter⟩ : NodeRef),
          ({ nl with nodeCounter := nl.nodeCounter + 1 } : NodeList), h2))⟩

theorem getNext_error_kinds {maxC : ℚ} {nl : NodeList} {h : Heap} {node : NodeRef}
    {c : ℚ} {e : Err} (hnode : node.list = nl.listId)
    (herr : getNext maxC nl h node c = .error e) :
    (e = .invalidCodepointMax ∧ c > maxC) ∨
      (e = .invalidCodepointInt ∧ isIntQ c = false) := by
  by_cases h1 : c > maxC
  · left
    refine ⟨?_, h1⟩
    unfold getNext at herr
    rw [if_pos h1] at herr
    exact (Except.error.inj herr).symm
  · by_cases h2 : isIntQ c = true
    · exfalso
      obtain ⟨res, hres⟩ := getNext_total h1 h2 hnode
      rw [hres] at herr
      cases herr
    · right
      refine ⟨?_, by simpa using h2⟩
      unfold getNext at herr
      rw [if_neg h1, if_neg h2] at herr
      exact (Except.error.inj herr).symm

theorem getNext_ok_inv {maxC : ℚ} {nl : NodeList} {h : Heap} {node : NodeRef} {c : ℚ}
    {res : NodeRef × NodeList × Heap}
    (hwf : WF nl h) (hnode : Alloc nl node)
    (hok : getNext maxC nl h node c = .ok res) :
    WF res.2.1 res.2.2 ∧ Alloc res.2.1 res.1 ∧ res.2.1.listId = nl.listId ∧
      nl.nodeCounter ≤ res.2.1.nodeCounter ∧ res.2.1.final = nl.final := by
  obtain ⟨h1, h2⟩ := getNext_ok_good hok
  unfold getNext at hok
  rw [if_neg h1, if_pos h2] at hok
  cases hfind : (h.out node).find? (fun e => e.2.has c) with
  | some e2 =>
      rw [hfind] at hok
      obtain rfl := Except.ok.inj hok
      refine ⟨hwf, ?_, rfl, le_refl _, rfl⟩
      exact hwf.outAlloc node hnode e2 (List.mem_of_find?_eq_some hfind)
  | none =>
      rw [hfind] at hok
      have hok2 : (linkNodes { nl with nodeCounter := nl.nodeCounter + 1 }
          ((h.setOut ⟨nl.listId, nl.nodeCounter⟩ []).setInn ⟨nl.listId, nl.nodeCounter⟩ [])
          node ⟨nl.listId, nl.nodeCounter⟩ (CharSet.singletonRange maxC c) >>=
          fun h2 => Except.ok (⟨nl.listId, nl.nodeCounter⟩,
            { nl with nodeCounter := nl.nodeCounter + 1 }, h2)) = Except.ok res := hok
      rw [exceptBind_eq_ok] at hok2
      obtain ⟨hlinked, hlinkok, hpure⟩ := hok2
      obtain rfl := Except.ok.inj hpure
      have hwf1 : WF { nl with nodeCounter := nl.nodeCounter + 1 }
          ((h.setOut ⟨nl.listId, nl.nodeCounter⟩ []).setInn
            ⟨nl.listId, nl.nodeCounter⟩ []) := WF_createNode hwf
      have hnode1 : Alloc { nl with nodeCounter := nl.nodeCounter + 1 } node :=
        ⟨hnode.1, by have := hnode.2; simp only; omega⟩
      have hnew1 : Alloc { nl with nodeCounter := nl.nodeCounter + 1 }
          ⟨nl.listId, nl.nodeCounter⟩ := ⟨rfl, by simp⟩
      have hwf2 := WF_linkNodes hwf1 hnode1 hnew1 hlinkok
      exact ⟨hwf2, hnew1, rfl, by simp, rfl⟩

/-- One word of the `fromWords` trie loop: invariant preservation plus validity of
every code point it consumed. -/
theorem fromWordsWord_ok {listId : Nat} {maxC : ℚ} {s s2 : NodeList × Heap}
    {word : List ℚ}
    (hP : WF s.1 s.2 ∧ s.1.listId = listId ∧ 1 ≤ s.1.nodeCounter)
    (hok : ((word.foldlM (fun (t : NodeRef × NodeList × Heap) charCode =>
        getNext maxC t.2.1 t.2.2 t.1 charCode) (s.1.initial, s.1, s.2)) >>=
        fun t => Except.ok ({ t.2.1 with final := addFinal t.2.1.final t.1 }, t.2.2)) =
        .ok s2) :
    (WF s2.1 s2.2 ∧ s2.1.listId = listId ∧ 1 ≤ s2.1.nodeCounter) ∧
      ∀ c ∈ word, ¬ c > maxC ∧ isIntQ c = true := by
  obtain ⟨hwfs, hlist, hcount⟩ := hP
  rw [exceptBind_eq_ok] at hok
  obtain ⟨t, htfold, hpure⟩ := hok
  obtain rfl := Except.ok.inj hpure
  have hQ0 : WF s.1 s.2 ∧ Alloc s.1 (s.1.initial) ∧ s.1.listId = listId ∧
      1 ≤ s.1.nodeCounter :=
    ⟨hwfs, ⟨rfl, by simp only [NodeList.initial]; omega⟩, hlist, hcount⟩
  have hQpres : ∀ (t1 : NodeRef × NodeList × Heap) c, c ∈ word →
      (WF t1.2.1 t1.2.2 ∧ Alloc t1.2.1 t1.1 ∧ t1.2.1.listId = listId ∧
        1 ≤ t1.2.1.nodeCounter) →
      ∀ t2, getNext maxC t1.2.1 t1.2.2 t1.1 c = .ok t2 →
      (WF t2.2.1 t2.2.2 ∧ Alloc t2.2.1 t2.1 ∧ t2.2.1.listId = listId ∧
        1 ≤ t2.2.1.nodeCounter) := by
    intro t1 c hc hQ t2 hg
    obtain ⟨hwf1, hal1, hl1, hc1⟩ := hQ
    obtain ⟨hwf2, hal2, hl2, hc2, -⟩ := getNext_ok_inv hwf1 hal1 hg
    exact ⟨hwf2, hal2, hl2.trans hl1, by omega⟩
  obtain ⟨hQt, hall⟩ := @foldlM_inv ℚ (NodeRef × NodeList × Heap)
    (fun t1 => WF t1.2.1 t1.2.2 ∧ Alloc t1.2.1 t1.1 ∧ t1.2.1.listId = listId ∧
      1 ≤ t1.2.1.nodeCounter) _ word _ _ hQ0 hQpres htfold
  obtain ⟨hwft, halt, hlt, hct⟩ := hQt
  refine ⟨⟨?_, hlt, hct⟩, ?_⟩
  · refine WF_withFinal hwft ?_ (nodup_addFinal hwft.finalNodup)
    intro f hf
    rcases mem_addFinal.mp hf with hf2 | rfl
    · exact hwft.finalAlloc f hf2
    · exact halt
  · intro c hc
    obtain ⟨t1, t2, -, hg⟩ := hall c hc
    exact getNext_ok_good hg

/-- C8 (amended): `NFA.fromWords(words, options)` fails with invalid-codepoint
exactly when some code point in some word is not an integer or is greater than
`options.maxCharacter` — and with no other error kind.  The lower bound is never
checked, so negative integer code points are accepted. -/
theorem C8_fromWords_invalid_codepoint (words : List (List ℚ)) (options : NFAOptions)
    (listId : Nat) (h : Heap) :
    ((∃ e, NFA.fromWords words options listId h = .error e) ↔
      ∃ w ∈ words, ∃ c ∈ w, (isIntQ c = false ∨ c > options.maxCharacter)) ∧
    (∀ e, NFA.fromWords words options listId h = .error e →
      e = .invalidCodepointMax ∨ e = .invalidCodepointInt) := by
  have hwf0 : WF (⟨listId, 1, []⟩ : NodeList)
      ((h.setOut ⟨listId, 0⟩ []).setInn ⟨listId, 0⟩ []) := WF_new listId h
  have hunfold : NFA.fromWords words options listId h =
      ((words.foldlM (fun (s : NodeList × Heap) word => do
          let t ← word.foldlM
              (fun (t : NodeRef × NodeList × Heap) charCode =>
                getNext options.maxCharacter t.2.1 t.2.2 t.1 charCode)
              (s.1.initial, s.1, s.2)
          Except.ok ({ t.2.1 with final := addFinal t.2.1.final t.1 }, t.2.2))
          ((⟨listId, 1, []⟩ : NodeList),
            (h.setOut ⟨listId, 0⟩ []).setInn ⟨listId, 0⟩ [])) >>= fun x =>
        (baseOptimizationReuseFinalStates x.1 x.2 ⟨x.1.initial, x.1.final⟩) >>= fun y =>
          Except.ok (⟨{ x.1 with final := y.2.final }, options⟩, y.1)) := rfl
  have hP0 : WF (⟨listId, 1, []⟩ : NodeList)
      ((h.setOut ⟨listId, 0⟩ []).setInn ⟨listId, 0⟩ []) ∧
      (⟨listId, 1, []⟩ : NodeList).listId = listId ∧
      1 ≤ (⟨listId, 1, []⟩ : NodeList).nodeCounter := ⟨hwf0, rfl, by simp⟩
  have hFpres : ∀ (s : NodeList × Heap) (x : List ℚ), x ∈ words →
      (WF s.1 s.2 ∧ s.1.listId = listId ∧ 1 ≤ s.1.nodeCounter) →
      ∀ s2, (do
          let t ← x.foldlM
              (fun (t : NodeRef × NodeList × Heap) charCode =>
                getNext options.maxCharacter t.2.1 t.2.2 t.1 charCode)
              (s.1.initial, s.1, s.2)
          Except.ok ({ t.2.1 with final := addFinal t.2.1.final t.1 }, t.2.2)) = .ok s2 →
      (WF s2.1 s2.2 ∧ s2.1.listId = listId ∧ 1 ≤ s2.1.nodeCounter) := by
    intro s x hx hP s2 hok
    exact (fromWordsWord_ok hP hok).1
  cases hfold : words.foldlM (fun (s : NodeList × Heap) word => do
      let t ← word.foldlM
          (fun (t : NodeRef × NodeList × Heap) charCode =>
            getNext options.maxCharacter t.2.1 t.2.2 t.1 charCode)
          (s.1.initial, s.1, s.2)
      Except.ok ({ t.2.1 with final := addFinal t.2.1.final t.1 }, t.2.2))
      ((⟨listId, 1, []⟩ : NodeList),
        (h.setOut ⟨listId, 0⟩ []).setInn ⟨listId, 0⟩ []) with
  | ok s =>
      obtain ⟨hPs, hallw⟩ := @foldlM_inv (List ℚ) (NodeList × Heap)
        (fun s => WF s.1 s.2 ∧ s.1.listId = listId ∧ 1 ≤ s.1.nodeCounter)
        _ words _ _ hP0 hFpres hfold
      have hgood : ∀ w ∈ words, ∀ c ∈ w, isIntQ c = true ∧ ¬ c > options.maxCharacter := by
        intro w hw c hc
        obtain ⟨s1, s2, hPs1, hoks1⟩ := hallw w hw
        have := (fromWordsWord_ok hPs1 hoks1).2 c hc
        exact ⟨this.2, this.1⟩
      obtain ⟨h2, base2, hbo, -, -, -, -⟩ := @baseOpt_ok s.1 s.2
        ⟨s.1.initial, s.1.final⟩ hPs.1
        (fun f hf => hPs.1.finalAlloc f hf) hPs.1.finalNodup
      have hres : NFA.fromWords words options listId h =
          .ok (⟨{ s.1 with final := base2.final }, options⟩, h2) := by
        rw [hunfold, hfold, exceptBind_okL]
        rw [show baseOptimizationReuseFinalStates s.1 s.2 ⟨s.1.initial, s.1.final⟩ =
          baseOptimizationReuseFinalStates s.1 s.2 ⟨s.1.initial, s.1.final⟩ from rfl]
        rw [hbo, exceptBind_okL]
      constructor
      · constructor
        · rintro ⟨e, he⟩
          rw [hres] at he
          cases he
        · rintro ⟨w, hw, c, hc, hbad⟩
          obtain ⟨hint, hmax⟩ := hgood w hw c hc
          rcases hbad with hbad | hbad
          · rw [hint] at hbad; cases hbad
          · exact absurd hbad hmax
      · intro e he
        rw [hres] at he
        cases he
  | error e =>
      have hres : NFA.fromWords words options listId h = .error e := by
        rw [hunfold, hfold]
        rfl
      obtain ⟨w, hw, s1, hPs1, herrw⟩ := @foldlM_error_inv (List ℚ) (NodeList × Heap)
        (fun s => WF s.1 s.2 ∧ s.1.listId = listId ∧ 1 ≤ s.1.nodeCounter)
        _ words _ _ hP0 hFpres hfold
      have herr2 : ((w.foldlM (fun (t : NodeRef × NodeList × Heap) charCode =>
          getNext options.maxCharacter t.2.1 t.2.2 t.1 charCode)
          (s1.1.initial, s1.1, s1.2)) >>=
          fun t => Except.ok ({ t.2.1 with final := addFinal t.2.1.final t.1 }, t.2.2)) =
          .error e := herrw
      rw [exceptBind_eq_error] at herr2
      have hinner : (w.foldlM (fun (t : NodeRef × NodeList × Heap) charCode =>
          getNext options.maxCharacter t.2.1 t.2.2 t.1 charCode)
          (s1.1.initial, s1.1, s1.2)) = .error e := by
        rcases herr2 with hfo | ⟨b, -, hpure⟩
        · exact hfo
        · cases hpure
      have hQ0 : WF s1.1 s1.2 ∧ Alloc s1.1 (s1.1.initial) ∧ s1.1.listId = listId ∧
          1 ≤ s1.1.nodeCounter :=
        ⟨hPs1.1, ⟨rfl, by have := hPs1.2.2; simp only [NodeList.initial]; omega⟩,
          hPs1.2.1, hPs1.2.2⟩
      have hQpres : ∀ (t1 : NodeRef × NodeList × Heap) c, c ∈ w →
          (WF t1.2.1 t1.2.2 ∧ Alloc t1.2.1 t1.1 ∧ t1.2.1.listId = listId ∧
            1 ≤ t1.2.1.nodeCounter) →
          ∀ t2, getNext options.maxCharacter t1.2.1 t1.2.2 t1.1 c = .ok t2 →
          (WF t2.2.1 t2.2.2 ∧ Alloc t2.2.1 t2.1 ∧ t2.2.1.listId = listId ∧
            1 ≤ t2.2.1.nodeCounter) := by
        intro t1 c hc hQ t2 hg
        obtain ⟨hwf1, hal1, hl1, hc1⟩ := hQ
        obtain ⟨hwf2, hal2, hl2, hc2, -⟩ := getNext_ok_inv hwf1 hal1 hg
        exact ⟨hwf2, hal2, hl2.trans hl1, by omega⟩
      obtain ⟨c, hc, t1, hQt1, hgerr⟩ := @foldlM_error_inv ℚ (NodeRef × NodeList × Heap)
        (fun t1 => WF t1.2.1 t1.2.2 ∧ Alloc t1.2.1 t1.1 ∧ t1.2.1.listId = listId ∧
          1 ≤ t1.2.1.nodeCounter) _ w _ _ hQ0 hQpres hinner
      have hkinds := getNext_error_kinds (hQt1.2.1.1) hgerr
      constructor
      · constructor
        · intro _
          refine ⟨w, hw, c, hc, ?_⟩
          rcases hkinds with ⟨-, hgt⟩ | ⟨-, hint⟩
          · exact Or.inr hgt
          · exact Or.inl hint
        · intro _
          exact ⟨e, hres⟩
      · intro e2 he2
        rw [hres] at he2
        obtain rfl := Except.error.inj he2
        rcases hkinds with ⟨hk, -⟩ | ⟨hk, -⟩
        · exact Or.inl hk
        · exact Or.inr hk

/-- Witness for C8 at a concrete input: `fromWords [[5]]` with `maxCharacter 3`
fails, and the amended characterization pins the error kind. -/
theorem C8_fromWords_invalid_codepoint_witness :
    NFA.fromWords [[(5 : ℚ)]] ⟨3⟩ 0 Heap.emptyH = .error Err.invalidCodepointMax ∨
    NFA.fromWords [[(5 : ℚ)]] ⟨3⟩ 0 Heap.emptyH = .error Err.invalidCodepointInt := by
  have hthm := C8_fromWords_invalid_codepoint [[(5 : ℚ)]] ⟨3⟩ 0 Heap.emptyH
  have herr : NFA.fromWords [[(5 : ℚ)]] ⟨3⟩ 0 Heap.emptyH =
      .error Err.invalidCodepointMax := by rfl
  rcases hthm.2 _ herr with hk | hk
  · exact Or.inl (by rw [herr, hk])
  · exact Or.inr (by rw [herr, hk])

/-! Claim C9: adjacency symmetry. -/

/-- C9 (counterexample): build a list with one edge `initial → x` by public
operations (`createNode`, `linkNodes`) and no finals, then call
`removeUnreachable`.  The empty-language reset clears only the initial node's own
adjacency maps, so afterwards `initial.out[x]` is gone while `x.in[initial]`
still holds the label: the two directions disagree. -/
theorem C9_counterexample_reset_breaks_symmetry :
    (linkNodes ⟨0, 2, []⟩
        (createNode (NodeList.new 0 Heap.emptyH).1 (NodeList.new 0 Heap.emptyH).2).2.2
        ⟨0, 0⟩ ⟨0, 1⟩ ⟨3, {1}⟩).toOption.bind (fun h1 =>
      (removeUnreachable ⟨0, 2, []⟩ h1).toOption.map (fun p =>
        (lookupA (p.2.out ⟨0, 0⟩) ⟨0, 1⟩, lookupA (p.2.inn ⟨0, 1⟩) ⟨0, 0⟩))) =
      some (none, some ⟨3, {1}⟩) := by
  rfl

theorem SymH_linkNodes {nl : NodeList} {h : Heap} {a b : NodeRef} {cs : CharSet}
    {h2 : Heap} (hs : SymH h) (hok : linkNodes nl h a b cs = .ok h2) : SymH h2 := by
  rw [linkNodes_ok_iff] at hok
  obtain ⟨-, -, -, rfl⟩ := hok
  intro x y
  simp only [setInn_inn, setInn_out, setOut_out, setOut_inn]
  by_cases hxa : x = a
  · subst hxa
    by_cases hyb : y = b
    · subst hyb
      rw [if_pos rfl, if_pos rfl, lookupA_addA_self, lookupA_addA_self, hs x y]
    · rw [if_pos rfl, if_neg hyb, lookupA_addA_ne _ _ _ _ hyb, hs x y]
  · rw [if_neg hxa]
    by_cases hyb : y = b
    · subst hyb
      rw [if_pos rfl, lookupA_addA_ne _ _ _ _ hxa, hs x y]
    · rw [if_neg hyb]
      exact hs x y

theorem SymH_unlinkNodes {nl : NodeList} {h : Heap} {a b : NodeRef} {h2 : Heap}
    (hs : SymH h) (hok : unlinkNodes nl h a b = .ok h2) : SymH h2 := by
  rw [unlinkNodes_ok_iff] at hok
  obtain ⟨-, -, -, rfl⟩ := hok
  intro x y
  simp only [setInn_inn, setInn_out, setOut_out, setOut_inn]
  by_cases hxa : x = a
  · subst hxa
    by_cases hyb : y = b
    · subst hyb
      rw [if_pos rfl, if_pos rfl, lookupA_removeA_self, lookupA_removeA_self]
    · rw [if_pos rfl, if_neg hyb, lookupA_removeA_ne _ _ _ hyb, hs x y]
  · rw [if_neg hxa]
    by_cases hyb : y = b
    · subst hyb
      rw [if_pos rfl, lookupA_removeA_ne _ _ _ hxa, hs x y]
    · rw [if_neg hyb]
      exact hs x y

theorem removeNode_sym {nl : NodeList} {h : Heap} {node : NodeRef}
    {p : NodeList × Heap} (hs : SymH h) (hok : removeNode nl h node = .ok p) :
    SymH p.2 ∧ p.1.listId = nl.listId ∧ p.1.nodeCounter = nl.nodeCounter := by
  unfold removeNode at hok
  by_cases hini : node = nl.initial
  · rw [if_pos hini] at hok; cases hok
  · rw [if_neg hini] at hok
    have hok2 : ((succOut h node).foldlM
        (fun h2 t => unlinkNodes { nl with final := delFinal nl.final node } h2 node t) h
        >>= fun h3 => ((succInn h3 node).foldlM
          (fun h2 s => unlinkNodes { nl with final := delFinal nl.final node } h2 s node) h3
          >>= fun h4 => Except.ok ({ nl with final := delFinal nl.final node }, h4))) =
        Except.ok p := hok
    rw [exceptBind_eq_ok] at hok2
    obtain ⟨h3, hfold1, hrest⟩ := hok2
    rw [exceptBind_eq_ok] at hrest
    obtain ⟨h4, hfold2, hpure⟩ := hrest
    obtain rfl := Except.ok.inj hpure
    have hs3 : SymH h3 :=
      (foldlM_inv hs (fun s x hx hsym s2 hstep => SymH_unlinkNodes hsym hstep) hfold1).1
    have hs4 : SymH h4 :=
      (foldlM_inv hs3 (fun s x hx hsym s2 hstep => SymH_unlinkNodes hsym hstep) hfold2).1
    exact ⟨hs4, rfl, rfl⟩

/-- Restricted symmetry after `removeUnreachable`: every pair of nodes both
different from the initial node still agrees; pairs involving the initial node may
be left asymmetric by the empty-language reset. -/
theorem removeUnreachable_sym {nl : NodeList} {h : Heap} {p : NodeList × Heap}
    (hs : SymH h) (hok : removeUnreachable nl h = .ok p) :
    ∀ a b : NodeRef, a ≠ nl.initial → b ≠ nl.initial →
      lookupA (p.2.out a) b = lookupA (p.2.inn b) a := by
  have hmk : ∀ (nl2 : NodeList) (h2 : Heap), SymH h2 → nl2.initial = nl.initial →
      ∀ a b : NodeRef, a ≠ nl.initial → b ≠ nl.initial →
      lookupA ((makeEmpty nl2 h2).2.out a) b = lookupA ((makeEmpty nl2 h2).2.inn b) a := by
    intro nl2 h2 hsym hini a b ha hb
    unfold makeEmpty
    simp only [setOut_out, setOut_inn, setInn_inn, setInn_out]
    rw [if_neg (hini ▸ ha), if_neg (hini ▸ hb)]
    exact hsym a b
  unfold removeUnreachable at hok
  by_cases hfin : nl.final = []
  · rw [if_pos hfin] at hok
    obtain rfl := Except.ok.inj hok
    exact hmk nl h hs rfl
  · rw [if_neg hfin] at hok
    have hok2 : (((closIter (fun n => succInn h n ++ succOut h n) nl.nodeCounter
          [nl.initial]).foldl addFinal nl.final).foldlM
        (fun (s : NodeList × Heap) n =>
          if n ∈ closIter (succOut h) nl.nodeCounter [nl.initial] then .ok s
          else removeNode s.1 s.2 n) (nl, h) >>= fun s =>
        if s.1.final = [] then Except.ok (makeEmpty s.1 s.2)
        else (closIter (succOut h) nl.nodeCounter [nl.initial]).foldlM
          (fun (s2 : NodeList × Heap) n =>
            if n ∈ closIter (succInn s.2) nl.nodeCounter s.1.final then .ok s2
            else removeNode s2.1 s2.2 n) s) = Except.ok p := hok
    rw [exceptBind_eq_ok] at hok2
    obtain ⟨s, hfold1, hrest⟩ := hok2
    have hstep : ∀ (t : NodeList × Heap) (n : NodeRef),
        (SymH t.2 ∧ t.1.initial = nl.initial) →
        ∀ t2, (if n ∈ closIter (succOut h) nl.nodeCounter [nl.initial] then Except.ok t
          else removeNode t.1 t.2 n) = .ok t2 → (SymH t2.2 ∧ t2.1.initial = nl.initial) := by
      intro t n hP t2 hstep
      by_cases hmem : n ∈ closIter (succOut h) nl.nodeCounter [nl.initial]
      · rw [if_pos hmem] at hstep
        obtain rfl := Except.ok.inj hstep
        exact hP
      · rw [if_neg hmem] at hstep
        obtain ⟨hsym2, hlid, -⟩ := removeNode_sym hP.1 hstep
        refine ⟨hsym2, ?_⟩
        show (⟨t2.1.listId, 0⟩ : NodeRef) = nl.initial
        rw [hlid]
        exact hP.2
    have hPs : SymH s.2 ∧ s.1.initial = nl.initial :=
      (foldlM_inv ⟨hs, rfl⟩ (fun t n hn hP t2 h2 => hstep t n hP t2 h2) hfold1).1
    by_cases hfin2 : s.1.final = []
    · rw [if_pos hfin2] at hrest
      obtain rfl := Except.ok.inj hrest
      exact hmk s.1 s.2 hPs.1 hPs.2
    · rw [if_neg hfin2] at hrest
      have hstep2 : ∀ (t : NodeList × Heap) (n : NodeRef), n ∈ closIter (succOut h)
          nl.nodeCounter [nl.initial] →
          (SymH t.2 ∧ t.1.initial = nl.initial) →
          ∀ t2, (if n ∈ closIter (succInn s.2) nl.nodeCounter s.1.final then Except.ok t
            else removeNode t.1 t.2 n) = .ok t2 →
          (SymH t2.2 ∧ t2.1.initial = nl.initial) := by
        intro t n hn hP t2 h2
        by_cases hmem : n ∈ closIter (succInn s.2) nl.nodeCounter s.1.final
        · rw [if_pos hmem] at h2
          obtain rfl := Except.ok.inj h2
          exact hP
        · rw [if_neg hmem] at h2
          obtain ⟨hsym2, hlid, -⟩ := removeNode_sym hP.1 h2
          refine ⟨hsym2, ?_⟩
          show (⟨t2.1.listId, 0⟩ : NodeRef) = nl.initial
          rw [hlid]
          exact hP.2
      have hPp : SymH p.2 ∧ p.1.initial = nl.initial :=
        (@foldlM_inv NodeRef (NodeList × Heap)
          (fun t => SymH t.2 ∧ t.1.initial = nl.initial) _ _ _ _ hPs hstep2 hrest).1
      intro a b ha hb
      exact hPp.1 a b

/-- C9 (amended): `linkNodes` and `unlinkNodes` preserve adjacency symmetry for
every pair of nodes; after `removeUnreachable` symmetry holds for every pair of
nodes both different from the initial node — the empty-language reset clears only
the initial node's own adjacency maps, so a node detached by the reset may keep a
stale entry pointing at the initial node. -/
theorem C9_adjacency_symmetry :
    (∀ (nl : NodeList) (h : Heap) (a b : NodeRef) (cs : CharSet) (h2 : Heap),
      SymH h → linkNodes nl h a b cs = .ok h2 → SymH h2) ∧
    (∀ (nl : NodeList) (h : Heap) (a b : NodeRef) (h2 : Heap),
      SymH h → unlinkNodes nl h a b = .ok h2 → SymH h2) ∧
    (∀ (nl : NodeList) (h : Heap) (p : NodeList × Heap),
      SymH h → removeUnreachable nl h = .ok p →
      ∀ a b : NodeRef, a ≠ nl.initial → b ≠ nl.initial →
        lookupA (p.2.out a) b = lookupA (p.2.inn b) a) :=
  ⟨fun nl h a b cs h2 hs hok => SymH_linkNodes hs hok,
   fun nl h a b h2 hs hok => SymH_unlinkNodes hs hok,
   fun nl h p hs hok => removeUnreachable_sym hs hok⟩

/-- Witness for C9 at a concrete input: linking two nodes of a fresh list from the
empty (symmetric) heap keeps the two directions of the new edge in agreement. -/
theorem C9_adjacency_symmetry_witness :
    (linkNodes ⟨0, 2, []⟩ Heap.emptyH ⟨0, 0⟩ ⟨0, 1⟩ ⟨3, {2}⟩).toOption.map
        (fun h2 => decide (lookupA (h2.out ⟨0, 0⟩) ⟨0, 1⟩ =
          lookupA (h2.inn ⟨0, 1⟩) ⟨0, 0⟩)) = some true := by
  have hlink : linkNodes ⟨0, 2, []⟩ Heap.emptyH ⟨0, 0⟩ ⟨0, 1⟩ ⟨3, {2}⟩ =
      .ok ((Heap.emptyH.setOut ⟨0, 0⟩
          (addA (Heap.emptyH.out ⟨0, 0⟩) ⟨0, 1⟩ ⟨3, {2}⟩)).setInn
        ⟨0, 1⟩ (addA (Heap.emptyH.inn ⟨0, 1⟩) ⟨0, 0⟩ ⟨3, {2}⟩)) := by
    rw [linkNodes_ok_iff]
    exact ⟨rfl, rfl, by simp [CharSet.isEmpty], rfl⟩
  have hsym := C9_adjacency_symmetry.1 _ _ _ _ _ _ (fun a b => rfl) hlink
  have hpair := hsym ⟨0, 0⟩ ⟨0, 1⟩
  rw [hlink]
  exact congrArg some (decide_eq_true hpair)

/-! Claim C6: theory of the round-based closure `closIter` and of reachability. -/

theorem ReachL_head {α : Type} {next : α → List α} {a b c : α}
    (hab : b ∈ next a) (hbc : ReachL next b c) : ReachL next a c := by
  induction hbc with
  | refl => exact ReachL.tail (ReachL.refl a) hab
  | tail h1 hmem ih => exact ReachL.tail ih hmem

theorem ReachL_trans {α : Type} {next : α → List α} {a b c : α}
    (hab : ReachL next a b) (hbc : ReachL next b c) : ReachL next a c := by
  induction hbc with
  | refl => exact hab
  | tail h1 hmem ih => exact ReachL.tail ih hmem

/-- Properties preserved along one successor step are preserved along reachability. -/
theorem ReachL_pred {α : Type} {next : α → List α} {P : α → Prop}
    (hstep : ∀ x y, P x → y ∈ next x → P y) {a b : α}
    (ha : P a) (hr : ReachL next a b) : P b := by
  induction hr with
  | refl => exact ha
  | tail h1 hmem ih => exact hstep _ _ ih hmem

/-- Transfer a reachability path to another successor function that keeps all the
edges out of `P`-nodes. -/
theorem ReachL_transfer {α : Type} {next next' : α → List α} {P : α → Prop}
    (hstep : ∀ x y, P x → y ∈ next x → P y)
    (hedge : ∀ x y, P x → y ∈ next x → y ∈ next' x)
    {a b : α} (ha : P a) (hr : ReachL next a b) : ReachL next' a b := by
  induction hr with
  | refl => exact ReachL.refl _
  | tail h1 hmem ih =>
      rename_i x y
      exact ReachL.tail ih (hedge x y (ReachL_pred hstep ha h1) hmem)

/-- Reverse a reachability path along a flipped successor function. -/
theorem ReachL_flip {α : Type} {next next' : α → List α} {P : α → Prop}
    (hstep : ∀ x y, P x → y ∈ next x → P y)
    (hflip : ∀ x y, P x → y ∈ next x → x ∈ next' y)
    {a b : α} (ha : P a) (hr : ReachL next a b) : ReachL next' b a := by
  induction hr with
  | refl => exact ReachL.refl _
  | tail h1 hmem ih =>
      rename_i x y
      exact ReachL_head (hflip x y (ReachL_pred hstep ha h1) hmem) ih

theorem foldl_dedup_append {α : Type} [DecidableEq α] (l : List α) :
    ∀ acc : List α, ∃ ex : List α,
      l.foldl (fun acc m => if m ∈ acc then acc else acc ++ [m]) acc = acc ++ ex := by
  induction l with
  | nil => intro acc; exact ⟨[], by simp⟩
  | cons x l ih =>
      intro acc
      rw [List.foldl_cons]
      by_cases hx : x ∈ acc
      · rw [if_pos hx]; exact ih acc
      · rw [if_neg hx]
        obtain ⟨ex, hex⟩ := ih (acc ++ [x])
        exact ⟨x :: ex, by rw [hex, List.append_assoc]; rfl⟩

theorem mem_foldl_dedup {α : Type} [DecidableEq α] (l : List α) :
    ∀ (acc : List α) (x : α),
      x ∈ l.foldl (fun acc m => if m ∈ acc then acc else acc ++ [m]) acc ↔
        x ∈ acc ∨ x ∈ l := by
  induction l with
  | nil => intro acc x; simp
  | cons y l ih =>
      intro acc x
      rw [List.foldl_cons]
      by_cases hy : y ∈ acc
      · rw [if_pos hy, ih]
        simp only [List.mem_cons]
        constructor
        · rintro (hx | hx)
          · exact Or.inl hx
          · exact Or.inr (Or.inr hx)
        · rintro (hx | rfl | hx)
          · exact Or.inl hx
          · exact Or.inl hy
          · exact Or.inr hx
      · rw [if_neg hy, ih]
        simp only [List.mem_append, List.mem_singleton, List.mem_cons]
        tauto

theorem nodup_foldl_dedup {α : Type} [DecidableEq α] (l : List α) :
    ∀ acc : List α, acc.Nodup →
      (l.foldl (fun acc m => if m ∈ acc then acc else acc ++ [m]) acc).Nodup := by
  induction l with
  | nil => intro acc h; exact h
  | cons y l ih =>
      intro acc h
      rw [List.foldl_cons]
      by_cases hy : y ∈ acc
      · rw [if_pos hy]; exact ih acc h
      · rw [if_neg hy]
        refine ih (acc ++ [y]) ?_
        rw [List.nodup_append]
        refine ⟨h, List.nodup_singleton y, ?_⟩
        intro a ha hb
        rw [List.mem_singleton] at hb
        subst hb
        exact hy ha

theorem foldl_dedup_of_subset {α : Type} [DecidableEq α] (l : List α) :
    ∀ acc : List α, (∀ m ∈ l, m ∈ acc) →
      l.foldl (fun acc m => if m ∈ acc then acc else acc ++ [m]) acc = acc := by
  induction l with
  | nil => intro acc _; rfl
  | cons y l ih =>
      intro acc h
      rw [List.foldl_cons, if_pos (h y (List.mem_cons_self y l))]
      exact ih acc (fun m hm => h m (List.mem_cons_of_mem y hm))

theorem closStep_mem {α : Type} [DecidableEq α] (next : α → List α) (cur : List α)
    (x : α) :
    x ∈ closStep next cur ↔ x ∈ cur ∨ ∃ c ∈ cur, x ∈ next c := by
  unfold closStep
  rw [mem_foldl_dedup]
  simp [List.mem_flatMap]

theorem closStep_nodup {α : Type} [DecidableEq α] {next : α → List α} {cur : List α}
    (h : cur.Nodup) : (closStep next cur).Nodup :=
  nodup_foldl_dedup _ _ h

theorem closStep_prefix {α : Type} [DecidableEq α] (next : α → List α) (cur : List α) :
    ∃ ex, closStep next cur = cur ++ ex :=
  foldl_dedup_append _ _

theorem closStep_eq_of_closed {α : Type} [DecidableEq α] {next : α → List α}
    {cur : List α} (h : ∀ c ∈ cur, ∀ y ∈ next c, y ∈ cur) :
    closStep next cur = cur := by
  unfold closStep
  refine foldl_dedup_of_subset _ cur ?_
  intro m hm
  obtain ⟨c, hc, hmc⟩ := List.mem_flatMap.mp hm
  exact h c hc m hmc

theorem closed_of_closStep_eq {α : Type} [DecidableEq α] {next : α → List α}
    {cur : List α} (h : closStep next cur = cur) :
    ∀ c ∈ cur, ∀ y ∈ next c, y ∈ cur := by
  intro c hc y hy
  have hmem : y ∈ closStep next cur := (closStep_mem next cur y).mpr (Or.inr ⟨c, hc, hy⟩)
  rwa [h] at hmem

theorem closIter_of_fix {α : Type} [DecidableEq α] {next : α → List α} {cur : List α}
    (h : closStep next cur = cur) :
    ∀ fuel, closIter next fuel cur = cur := by
  intro fuel
  induction fuel with
  | zero => rfl
  | succ n ih =>
      show closIter next n (closStep next cur) = cur
      rw [h]
      exact ih

theorem mem_closIter_of_mem {α : Type} [DecidableEq α] {next : α → List α}
    {cur : List α} {x : α} (hx : x ∈ cur) (fuel : Nat) :
    x ∈ closIter next fuel cur := by
  induction fuel generalizing cur with
  | zero => exact hx
  | succ n ih =>
      show x ∈ closIter next n (closStep next cur)
      exact ih ((closStep_mem next cur x).mpr (Or.inl hx))

theorem closIter_sound {α : Type} [DecidableEq α] {next : α → List α} :
    ∀ (fuel : Nat) (cur : List α) (x : α), x ∈ closIter next fuel cur →
      ∃ s ∈ cur, ReachL next s x := by
  intro fuel
  induction fuel with
  | zero =>
      intro cur x hx
      exact ⟨x, hx, ReachL.refl x⟩
  | succ n ih =>
      intro cur x hx
      obtain ⟨s, hs, hr⟩ := ih (closStep next cur) x hx
      rcases (closStep_mem next cur s).mp hs with hs1 | ⟨c, hc, hsc⟩
      · exact ⟨s, hs1, hr⟩
      · exact ⟨c, hc, ReachL_trans (ReachL.tail (ReachL.refl c) hsc) hr⟩

theorem closIter_nodup {α : Type} [DecidableEq α] {next : α → List α} :
    ∀ (fuel : Nat) (cur : List α), cur.Nodup → (closIter next fuel cur).Nodup := by
  intro fuel
  induction fuel with
  | zero => intro cur h; exact h
  | succ n ih =>
      intro cur h
      exact ih (closStep next cur) (closStep_nodup h)

theorem closStep_length_lt {α : Type} [DecidableEq α] {next : α → List α}
    {cur : List α} (h : closStep next cur ≠ cur) :
    cur.length < (closStep next cur).length := by
  obtain ⟨ex, hex⟩ := closStep_prefix next cur
  rw [hex] at h ⊢
  cases ex with
  | nil => simp at h
  | cons e ex =>
      rw [List.length_append]
      simp only [List.length_cons]
      omega

/-- With fuel at least the size of a finite universe that contains the closure of
the seeds, `closIter` reaches a fixpoint of `closStep`. -/
theorem closIter_fix {α : Type} [DecidableEq α] {next : α → List α} (U : Finset α) :
    ∀ (fuel : Nat) (cur : List α), cur.Nodup →
      (∀ x ∈ cur, ∀ y, ReachL next x y → y ∈ U) →
      U.card ≤ fuel + cur.length →
      closStep next (closIter next fuel cur) = closIter next fuel cur := by
  intro fuel
  induction fuel with
  | zero =>
      intro cur hnd hU hcard
      show closStep next cur = cur
      have hsub : ∀ x ∈ cur, x ∈ U := fun x hx => hU x hx x (ReachL.refl x)
      have hfin : cur.toFinset = U := by
        apply Finset.eq_of_subset_of_card_le
        · intro x hx
          exact hsub x (List.mem_toFinset.mp hx)
        · rw [List.toFinset_card_of_nodup hnd]
          simpa using hcard
      apply closStep_eq_of_closed
      intro c hc y hy
      have hyU : y ∈ U := hU c hc y (ReachL.tail (ReachL.refl c) hy)
      rw [← hfin] at hyU
      exact List.mem_toFinset.mp hyU
  | succ n ih =>
      intro cur hnd hU hcard
      by_cases hfix : closStep next cur = cur
      · have h1 : closIter next (n + 1) cur = cur := closIter_of_fix hfix (n + 1)
        rw [h1]
        exact hfix
      · show closStep next (closIter next n (closStep next cur)) =
          closIter next n (closStep next cur)
        apply ih (closStep next cur) (closStep_nodup hnd)
        · intro x hx y hr
          rcases (closStep_mem next cur x).mp hx with hx1 | ⟨c, hc, hxc⟩
          · exact hU x hx1 y hr
          · exact hU c hc y (ReachL_trans (ReachL.tail (ReachL.refl c) hxc) hr)
        · have := closStep_length_lt hfix
          omega

/-- Completeness: under the fixpoint conditions, `closIter` contains everything
reachable from a seed. -/
theorem closIter_complete {α : Type} [DecidableEq α] {next : α → List α}
    {U : Finset α} {fuel : Nat} {cur : List α}
    (hnd : cur.Nodup)
    (hU : ∀ x ∈ cur, ∀ y, ReachL next x y → y ∈ U)
    (hcard : U.card ≤ fuel + cur.length)
    {s x : α} (hs : s ∈ cur) (hr : ReachL next s x) :
    x ∈ closIter next fuel cur := by
  have hfix := closIter_fix U fuel cur hnd hU hcard
  have hclosed := closed_of_closStep_eq hfix
  induction hr with
  | refl => exact mem_closIter_of_mem hs fuel
  | tail h1 hmem ih => exact hclosed _ ih _ hmem

theorem mem_succOut_iff (h : Heap) (n x : NodeRef) :
    x ∈ succOut h n ↔ (lookupA (h.out n) x).isSome = true := by
  rw [lookupA_isSome_iff]
  exact Iff.rfl

theorem mem_succInn_iff (h : Heap) (n x : NodeRef) :
    x ∈ succInn h n ↔ (lookupA (h.inn n) x).isSome = true := by
  rw [lookupA_isSome_iff]
  exact Iff.rfl

theorem Alloc_succOut {nl : NodeList} {h : Heap} (hwf : WF nl h) {x y : NodeRef}
    (hx : Alloc nl x) (hy : y ∈ succOut h x) : Alloc nl y := by
  obtain ⟨e, he, rfl⟩ := List.mem_map.mp hy
  exact hwf.outAlloc x hx e he

theorem Alloc_succInn {nl : NodeList} {h : Heap} (hwf : WF nl h) {x y : NodeRef}
    (hx : Alloc nl x) (hy : y ∈ succInn h x) : Alloc nl y := by
  obtain ⟨e, he, rfl⟩ := List.mem_map.mp hy
  exact hwf.innAlloc x hx e he

theorem mem_foldl_addFinal (l acc : List NodeRef) (x : NodeRef) :
    x ∈ l.foldl addFinal acc ↔ x ∈ acc ∨ x ∈ l :=
  mem_foldl_dedup l acc x

/-- The first loop of `removeNode`: unlinking `node → t` for each `t` in a
duplicate-free list of targets present in `node`'s `out` row succeeds and removes
exactly those `out` entries of `node` (and the matching `in` entries). -/
theorem unlinkOutLoop {nl2 : NodeList} {node : NodeRef} (hnode : Alloc nl2 node) :
    ∀ (rem : List NodeRef) (h1 : Heap), WF nl2 h1 → rem.Nodup →
      (∀ t ∈ rem, Alloc nl2 t) →
      (∀ t ∈ rem, (lookupA (h1.out node) t).isSome = true) →
      ∃ h2, rem.foldlM (fun hh t => unlinkNodes nl2 hh node t) h1 = .ok h2 ∧
        WF nl2 h2 ∧
        (∀ a b : NodeRef, lookupA (h2.out a) b =
          if a = node ∧ b ∈ rem then none else lookupA (h1.out a) b) ∧
        (∀ a b : NodeRef, lookupA (h2.inn a) b =
          if b = node ∧ a ∈ rem then none else lookupA (h1.inn a) b) := by
  intro rem
  induction rem with
  | nil =>
      intro h1 hwf _ _ _
      exact ⟨h1, by simp, hwf, by intro a b; simp, by intro a b; simp⟩
  | cons t rest ih =>
      intro h1 hwf hnd halloc hpres
      have htA : Alloc nl2 t := halloc t (List.mem_cons_self t rest)
      have hstep : unlinkNodes nl2 h1 node t =
          .ok ((h1.setOut node (removeA (h1.out node) t)).setInn t
            (removeA (h1.inn t) node)) := by
        rw [unlinkNodes_ok_iff]
        exact ⟨hnode.1.trans htA.1.symm, hnode.1,
          hpres t (List.mem_cons_self t rest), rfl⟩
      have hwf1 : WF nl2 ((h1.setOut node (removeA (h1.out node) t)).setInn t
          (removeA (h1.inn t) node)) := WF_unlinkNodes hwf hstep
      have hndrest : rest.Nodup := (List.nodup_cons.mp hnd).2
      have htnotin : t ∉ rest := (List.nodup_cons.mp hnd).1
      obtain ⟨h2, hfold, hwf2, hOut, hInn⟩ := ih
        ((h1.setOut node (removeA (h1.out node) t)).setInn t (removeA (h1.inn t) node))
        hwf1 hndrest (fun t' ht' => halloc t' (List.mem_cons_of_mem t ht'))
        (by
          intro t' ht'
          have hne : t' ≠ t := fun hc => htnotin (hc ▸ ht')
          have hrow : ((h1.setOut node (removeA (h1.out node) t)).setInn t
              (removeA (h1.inn t) node)).out node = removeA (h1.out node) t := by
            simp
          rw [hrow, lookupA_removeA_ne _ _ _ hne]
          exact hpres t' (List.mem_cons_of_mem t ht'))
      refine ⟨h2, ?_, hwf2, ?_, ?_⟩
      · rw [List.foldlM_cons, hstep, exceptBind_okL, hfold]
      · intro a b
        rw [hOut a b]
        have hrowa : ((h1.setOut node (removeA (h1.out node) t)).setInn t
            (removeA (h1.inn t) node)).out a =
            if a = node then removeA (h1.out node) t else h1.out a := by
          by_cases ha : a = node
          · subst ha; simp
          · simp [ha]
        by_cases ha : a = node
        · subst ha
          by_cases hb : b ∈ rest
          · rw [if_pos ⟨rfl, hb⟩, if_pos ⟨rfl, List.mem_cons_of_mem t hb⟩]
          · rw [if_neg (fun hc => hb hc.2), hrowa, if_pos rfl]
            by_cases hbt : b = t
            · subst hbt
              rw [lookupA_removeA_self, if_pos ⟨rfl, List.mem_cons_self b rest⟩]
            · rw [lookupA_removeA_ne _ _ _ hbt, if_neg]
              rintro ⟨-, hmem⟩
              rcases List.mem_cons.mp hmem with hc | hc
              · exact hbt hc
              · exact hb hc
        · rw [if_neg (fun hc => ha hc.1), if_neg (fun hc => ha hc.1), hrowa, if_neg ha]
      · intro a b
        rw [hInn a b]
        have hrowa : ((h1.setOut node (removeA (h1.out node) t)).setInn t
            (removeA (h1.inn t) node)).inn a =
            if a = t then removeA (h1.inn t) node else h1.inn a := by
          by_cases ha : a = t
          · subst ha; simp
          · simp [ha]
        by_cases hb : b = node
        · subst hb
          by_cases ha : a ∈ rest
          · rw [if_pos ⟨rfl, ha⟩, if_pos ⟨rfl, List.mem_cons_of_mem t ha⟩]
          · rw [if_neg (fun hc => ha hc.2), hrowa]
            by_cases hat : a = t
            · subst hat
              rw [if_pos rfl, lookupA_removeA_self,
                if_pos ⟨rfl, List.mem_cons_self a rest⟩]
            · rw [if_neg hat, if_neg]
              rintro ⟨-, hmem⟩
              rcases List.mem_cons.mp hmem with hc | hc
              · exact hat hc
              · exact ha hc
        · rw [if_neg (fun hc => hb hc.1), if_neg (fun hc => hb hc.1), hrowa]
          by_cases hat : a = t
          · subst hat
            rw [if_pos rfl, lookupA_removeA_ne _ _ _ hb]
          · rw [if_neg hat]

/-- The second loop of `removeNode`: unlinking `s → node` for each `s` in a
duplicate-free list of sources whose `out` rows hold `node`. -/
theorem unlinkInnLoop {nl2 : NodeList} {node : NodeRef} (hnode : Alloc nl2 node) :
    ∀ (rem : List NodeRef) (h1 : Heap), WF nl2 h1 → rem.Nodup →
      (∀ s ∈ rem, Alloc nl2 s) →
      (∀ s ∈ rem, (lookupA (h1.out s) node).isSome = true) →
      ∃ h2, rem.foldlM (fun hh s => unlinkNodes nl2 hh s node) h1 = .ok h2 ∧
        WF nl2 h2 ∧
        (∀ a b : NodeRef, lookupA (h2.out a) b =
          if b = node ∧ a ∈ rem then none else lookupA (h1.out a) b) ∧
        (∀ a b : NodeRef, lookupA (h2.inn a) b =
          if a = node ∧ b ∈ rem then none else lookupA (h1.inn a) b) := by
  intro rem
  induction rem with
  | nil =>
      intro h1 hwf _ _ _
      exact ⟨h1, by simp, hwf, by intro a b; simp, by intro a b; simp⟩
  | cons t rest ih =>
      intro h1 hwf hnd halloc hpres
      have htA : Alloc nl2 t := halloc t (List.mem_cons_self t rest)
      have hstep : unlinkNodes nl2 h1 t node =
          .ok ((h1.setOut t (removeA (h1.out t) node)).setInn node
            (removeA (h1.inn node) t)) := by
        rw [unlinkNodes_ok_iff]
        exact ⟨htA.1.trans hnode.1.symm, htA.1,
          hpres t (List.mem_cons_self t rest), rfl⟩
      have hwf1 : WF nl2 ((h1.setOut t (removeA (h1.out t) node)).setInn node
          (removeA (h1.inn node) t)) := WF_unlinkNodes hwf hstep
      have hndrest : rest.Nodup := (List.nodup_cons.mp hnd).2
      have htnotin : t ∉ rest := (List.nodup_cons.mp hnd).1
      obtain ⟨h2, hfold, hwf2, hOut, hInn⟩ := ih
        ((h1.setOut t (removeA (h1.out t) node)).setInn node (removeA (h1.inn node) t))
        hwf1 hndrest (fun t' ht' => halloc t' (List.mem_cons_of_mem t ht'))
        (by
          intro t' ht'
          have hne : t' ≠ t := fun hc => htnotin (hc ▸ ht')
          have hrow : ((h1.setOut t (removeA (h1.out t) node)).setInn node
              (removeA (h1.inn node) t)).out t' = h1.out t' := by
            simp [hne]
          rw [hrow]
          exact hpres t' (List.mem_cons_of_mem t ht'))
      refine ⟨h2, ?_, hwf2, ?_, ?_⟩
      · rw [List.foldlM_cons, hstep, exceptBind_okL, hfold]
      · intro a b
        rw [hOut a b]
        have hrowa : ((h1.setOut t (removeA (h1.out t) node)).setInn node
            (removeA (h1.inn node) t)).out a =
            if a = t then removeA (h1.out t) node else h1.out a := by
          by_cases ha : a = t
          · subst ha; simp
          · simp [ha]
        by_cases hb : b = node
        · subst hb
          by_cases ha : a ∈ rest
          · rw [if_pos ⟨rfl, ha⟩, if_pos ⟨rfl, List.mem_cons_of_mem t ha⟩]
          · rw [if_neg (fun hc => ha hc.2), hrowa]
            by_cases hat : a = t
            · subst hat
              rw [if_pos rfl, lookupA_removeA_self,
                if_pos ⟨rfl, List.mem_cons_self a rest⟩]
            · rw [if_neg hat, if_neg]
              rintro ⟨-, hmem⟩
              rcases List.mem_cons.mp hmem with hc | hc
              · exact hat hc
              · exact ha hc
        · rw [if_neg (fun hc => hb hc.1), if_neg (fun hc => hb hc.1), hrowa]
          by_cases hat : a = t
          · subst hat
            rw [if_pos rfl, lookupA_removeA_ne _ _ _ hb]
          · rw [if_neg hat]
      · intro a b
        rw [hInn a b]
        have hrowa : ((h1.setOut t (removeA (h1.out t) node)).setInn node
            (removeA (h1.inn node) t)).inn a =
            if a = node then removeA (h1.inn node) t else h1.inn a := by
          by_cases ha : a = node
          · subst ha; simp
          · simp [ha]
        by_cases ha : a = node
        · subst ha
          by_cases hb : b ∈ rest
          · rw [if_pos ⟨rfl, hb⟩, if_pos ⟨rfl, List.mem_cons_of_mem t hb⟩]
          · rw [if_neg (fun hc => hb hc.2), hrowa, if_pos rfl]
            by_cases hbt : b = t
            · subst hbt
              rw [lookupA_removeA_self, if_pos ⟨rfl, List.mem_cons_self b rest⟩]
            · rw [lookupA_removeA_ne _ _ _ hbt, if_neg]
              rintro ⟨-, hmem⟩
              rcases List.mem_cons.mp hmem with hc | hc
              · exact hbt hc
              · exact hb hc
        · rw [if_neg (fun hc => ha hc.1), if_neg (fun hc => ha hc.1), hrowa, if_neg ha]

/-- `removeNode` on an allocated non-initial node always succeeds; it drops the
node from `final` and clears exactly the adjacency entries incident to it. -/
theorem removeNode_ok {nl : NodeList} {h : Heap} {node : NodeRef}
    (hwf : WF nl h) (halloc : Alloc nl node) (hne : node ≠ nl.initial) :
    ∃ h2, removeNode nl h node =
        .ok ({ nl with final := delFinal nl.final node }, h2) ∧
      WF { nl with final := delFinal nl.final node } h2 ∧
      (∀ a b : NodeRef, Alloc nl a → Alloc nl b →
        lookupA (h2.out a) b =
          if a = node ∨ b = node then none else lookupA (h.out a) b) ∧
      (∀ a b : NodeRef, Alloc nl a → Alloc nl b →
        lookupA (h2.inn a) b =
          if a = node ∨ b = node then none else lookupA (h.inn a) b) := by
  have hwf2 : WF { nl with final := delFinal nl.final node } h :=
    WF_withFinal hwf (fun f hf => hwf.finalAlloc f (mem_delFinal.mp hf).1)
      (nodup_delFinal hwf.finalNodup)
  obtain ⟨hA, hfold1, hwfA, hOut1, hInn1⟩ :=
    unlinkOutLoop (show Alloc { nl with final := delFinal nl.final node } node
        from halloc)
      (succOut h node) h hwf2 (hwf.outNodup node halloc)
      (fun t ht => Alloc_succOut hwf halloc ht)
      (fun t ht => (mem_succOut_iff h node t).mp ht)
  obtain ⟨hB, hfold2, hwfB, hOut2, hInn2⟩ :=
    unlinkInnLoop (show Alloc { nl with final := delFinal nl.final node } node
        from halloc)
      (succInn hA node) hA hwfA (hwfA.innNodup node halloc)
      (fun s hs => Alloc_succInn hwfA halloc hs)
      (fun s hs => by
        rw [hwfA.sym s node (Alloc_succInn hwfA halloc hs) halloc]
        exact (mem_succInn_iff hA node s).mp hs)
  refine ⟨hB, ?_, hwfB, ?_, ?_⟩
  · have hres : (if node = nl.initial then
        (Except.error Err.initialRemoval : Except Err (NodeList × Heap)) else
        ((succOut h node).foldlM (fun h2 t =>
            unlinkNodes { nl with final := delFinal nl.final node } h2 node t) h >>=
          fun hh =>
            (succInn hh node).foldlM (fun h2 s =>
              unlinkNodes { nl with final := delFinal nl.final node } h2 s node) hh >>=
            fun hh2 =>
              Except.ok ({ nl with final := delFinal nl.final node }, hh2))) =
      Except.ok ({ nl with final := delFinal nl.final node }, hB) := by
      rw [if_neg hne, hfold1, exceptBind_okL]
      show ((succInn hA node).foldlM (fun h2 s =>
          unlinkNodes { nl with final := delFinal nl.final node } h2 s node) hA >>=
        fun hh2 => Except.ok ({ nl with final := delFinal nl.final node }, hh2)) =
        Except.ok ({ nl with final := delFinal nl.final node }, hB)
      rw [hfold2, exceptBind_okL]
    exact hres
  · intro a b haA hbA
    rw [hOut2 a b, hOut1 a b]
    by_cases hbn : b = node
    · by_cases ha2 : a ∈ succInn hA node
      · rw [if_pos ⟨hbn, ha2⟩, if_pos (Or.inr hbn)]
      · rw [if_neg (fun hc => ha2 hc.2), if_pos (Or.inr hbn)]
        by_cases hcond : a = node ∧ b ∈ succOut h node
        · rw [if_pos hcond]
        · rw [if_neg hcond]
          by_cases han : a = node
          · have hbnot : b ∉ succOut h node := fun hc => hcond ⟨han, hc⟩
            rw [han, lookupA_eq_none_iff]
            exact fun hc => hbnot (han ▸ hc)
          · have h1 : lookupA (hA.inn node) a = none := by
              rw [lookupA_eq_none_iff]
              exact ha2
            have h2 : lookupA (hA.out a) node = none := by
              rw [hwfA.sym a node haA halloc]
              exact h1
            rw [hOut1 a node, if_neg (fun hc => han hc.1)] at h2
            rw [hbn]
            exact h2
    · rw [if_neg (fun hc => hbn hc.1)]
      by_cases han : a = node
      · rw [if_pos (Or.inl han)]
        by_cases hbr : b ∈ succOut h node
        · rw [if_pos ⟨han, hbr⟩]
        · rw [if_neg (fun hc => hbr hc.2), han, lookupA_eq_none_iff]
          exact fun hc => hbr (han ▸ hc)
      · rw [if_neg (fun hc => han hc.1),
          if_neg (fun hc : a = node ∨ b = node => hc.elim han hbn)]
  · intro a b haA hbA
    rw [hInn2 a b, hInn1 a b]
    by_cases han : a = node
    · by_cases hb2 : b ∈ succInn hA node
      · rw [if_pos ⟨han, hb2⟩, if_pos (Or.inl han)]
      · rw [if_neg (fun hc => hb2 hc.2), if_pos (Or.inl han)]
        by_cases hcond : b = node ∧ a ∈ succOut h node
        · rw [if_pos hcond]
        · rw [if_neg hcond]
          have h1 : lookupA (hA.inn a) b = none := by
            rw [han, lookupA_eq_none_iff]
            exact fun hc => hb2 (han ▸ hc)
          rw [hInn1 a b, if_neg hcond] at h1
          exact h1
    · rw [if_neg (fun hc => han hc.1)]
      by_cases hbn : b = node
      · rw [if_pos (Or.inr hbn)]
        by_cases ha1 : a ∈ succOut h node
        · rw [if_pos ⟨hbn, ha1⟩]
        · rw [if_neg (fun hc => ha1 hc.2)]
          have h1 : lookupA (h.out node) a = none := by
            rw [lookupA_eq_none_iff]
            exact ha1
          rw [hbn, ← hwf.sym node a halloc haA]
          exact h1
      · rw [if_neg (fun hc : a = node ∨ b = node => hc.elim han hbn),
          if_neg (fun hc => hbn hc.1)]

/-- The two pruning folds of `removeUnreachable`: removing every listed node that
is not in `keep` succeeds (provided the initial node is kept), and the result is
the original state with some kill-set `K` of non-kept nodes erased: all their
adjacency entries gone, everything else untouched. -/
theorem removeNodes_fold (keep : List NodeRef) :
    ∀ (l : List NodeRef) (nl0 : NodeList) (h0 : Heap), WF nl0 h0 →
      (∀ n ∈ l, Alloc nl0 n) → nl0.initial ∈ keep →
      ∃ p : NodeList × Heap,
        l.foldlM (fun (s : NodeList × Heap) n =>
          if n ∈ keep then Except.ok s else removeNode s.1 s.2 n) (nl0, h0) = .ok p ∧
        WF p.1 p.2 ∧ p.1.listId = nl0.listId ∧ p.1.nodeCounter = nl0.nodeCounter ∧
        ∃ K : List NodeRef,
          (∀ k ∈ K, k ∉ keep) ∧
          (∀ n ∈ l, n ∉ keep → n ∈ K) ∧
          (∀ a b : NodeRef, Alloc nl0 a → Alloc nl0 b →
            lookupA (p.2.out a) b =
              if a ∈ K ∨ b ∈ K then none else lookupA (h0.out a) b) ∧
          (∀ a b : NodeRef, Alloc nl0 a → Alloc nl0 b →
            lookupA (p.2.inn a) b =
              if a ∈ K ∨ b ∈ K then none else lookupA (h0.inn a) b) ∧
          (∀ g : NodeRef, g ∈ p.1.final ↔ g ∈ nl0.final ∧ g ∉ K) := by
  intro l
  induction l with
  | nil =>
      intro nl0 h0 hwf _ _
      refine ⟨(nl0, h0), by simp, hwf, rfl, rfl, [], by simp, by simp, ?_, ?_, by simp⟩
      · intro a b _ _
        simp
      · intro a b _ _
        simp
  | cons n l ih =>
      intro nl0 h0 hwf halloc hinit
      by_cases hn : n ∈ keep
      · obtain ⟨p, hfold, hwfP, hlid, hcnt, K, hK1, hK2, hO, hI, hF⟩ :=
          ih nl0 h0 hwf (fun m hm => halloc m (List.mem_cons_of_mem n hm)) hinit
        refine ⟨p, ?_, hwfP, hlid, hcnt, K, hK1, ?_, hO, hI, hF⟩
        · rw [List.foldlM_cons, if_pos hn, exceptBind_okL]
          exact hfold
        · intro m hm hmk
          rcases List.mem_cons.mp hm with rfl | hm2
          · exact absurd hn hmk
          · exact hK2 m hm2 hmk
      · have hnAlloc : Alloc nl0 n := halloc n (List.mem_cons_self n l)
        have hnne : n ≠ nl0.initial := fun hc => hn (hc ▸ hinit)
        obtain ⟨h1, hstep, hwf1, hOs, hIs⟩ := removeNode_ok hwf hnAlloc hnne
        obtain ⟨p, hfold, hwfP, hlid, hcnt, K, hK1, hK2, hO, hI, hF⟩ :=
          ih { nl0 with final := delFinal nl0.final n } h1 hwf1
            (fun m hm => halloc m (List.mem_cons_of_mem n hm)) hinit
        refine ⟨p, ?_, hwfP, hlid, hcnt, n :: K, ?_, ?_, ?_, ?_, ?_⟩
        · rw [List.foldlM_cons, if_neg hn]
          have hstep2 : removeNode (nl0, h0).1 (nl0, h0).2 n =
              Except.ok (({ nl0 with final := delFinal nl0.final n } : NodeList),
                h1) := hstep
          rw [hstep2, exceptBind_okL]
          exact hfold
        · intro k hk
          rcases List.mem_cons.mp hk with rfl | hk2
          · exact hn
          · exact hK1 k hk2
        · intro m hm hmk
          rcases List.mem_cons.mp hm with rfl | hm2
          · exact List.mem_cons_self m K
          · exact List.mem_cons_of_mem n (hK2 m hm2 hmk)
        · intro a b ha hb
          rw [hO a b ha hb]
          by_cases hK : a ∈ K ∨ b ∈ K
          · rw [if_pos hK,
              if_pos (hK.imp (List.mem_cons_of_mem n) (List.mem_cons_of_mem n))]
          · rw [if_neg hK, hOs a b ha hb]
            by_cases hab : a = n ∨ b = n
            · rw [if_pos hab, if_pos (hab.imp
                (fun hc => by rw [hc]; exact List.mem_cons_self n K)
                (fun hc => by rw [hc]; exact List.mem_cons_self n K))]
            · rw [if_neg hab, if_neg (fun hc => hc.elim
                (fun hc2 => (List.mem_cons.mp hc2).elim
                  (fun he => hab (Or.inl he)) (fun hm => hK (Or.inl hm)))
                (fun hc2 => (List.mem_cons.mp hc2).elim
                  (fun he => hab (Or.inr he)) (fun hm => hK (Or.inr hm))))]
        · intro a b ha hb
          rw [hI a b ha hb]
          by_cases hK : a ∈ K ∨ b ∈ K
          · rw [if_pos hK,
              if_pos (hK.imp (List.mem_cons_of_mem n) (List.mem_cons_of_mem n))]
          · rw [if_neg hK, hIs a b ha hb]
            by_cases hab : a = n ∨ b = n
            · rw [if_pos hab, if_pos (hab.imp
                (fun hc => by rw [hc]; exact List.mem_cons_self n K)
                (fun hc => by rw [hc]; exact List.mem_cons_self n K))]
            · rw [if_neg hab, if_neg (fun hc => hc.elim
                (fun hc2 => (List.mem_cons.mp hc2).elim
                  (fun he => hab (Or.inl he)) (fun hm => hK (Or.inl hm)))
                (fun hc2 => (List.mem_cons.mp hc2).elim
                  (fun he => hab (Or.inr he)) (fun hm => hK (Or.inr hm))))]
        · intro g
          rw [hF g]
          constructor
          · rintro ⟨hgd, hgK⟩
            obtain ⟨hg0, hgn⟩ := mem_delFinal.mp hgd
            exact ⟨hg0, fun hc => (List.mem_cons.mp hc).elim hgn hgK⟩
          · rintro ⟨hg0, hgnK⟩
            exact ⟨mem_delFinal.mpr ⟨hg0,
                fun hc => hgnK (by rw [hc]; exact List.mem_cons_self n K)⟩,
              fun hc => hgnK (List.mem_cons_of_mem n hc)⟩

/-- After the empty-language reset, the breadth-first node enumeration sees the
initial node alone. -/
theorem nodesBFS_makeEmpty (nl : NodeList) (h : Heap) :
    nodesBFS (makeEmpty nl h).1 (makeEmpty nl h).2 = [(makeEmpty nl h).1.initial] := by
  have hsuc : succOut (makeEmpty nl h).2 nl.initial = [] := by
    show (((h.setInn nl.initial []).setOut nl.initial []).out nl.initial).map
      (fun e => e.1) = []
    simp
  show bfsAux (makeEmpty nl h).2 (nl.nodeCounter + 1) [nl.initial] [] = [nl.initial]
  simp [bfsAux, hsuc]

/-- C6: `removeUnreachable()` always returns; afterwards every node
forward-reachable from the initial node can also reach some final node, unless the
resulting final set is empty, in which case the `NodeList` consists of the initial
node alone (the iterator sees only it) with no outgoing edges; furthermore the
initial node is never deleted — `removeNode` on it raises the initial-removal
error. -/
theorem C6_removeUnreachable_prunes (nl : NodeList) (h : Heap)
    (hwf : WF nl h) (hcnt : 1 ≤ nl.nodeCounter) :
    (∃ p : NodeList × Heap, removeUnreachable nl h = .ok p ∧
      p.1.initial = nl.initial ∧
      (p.1.final = [] → p.2.out p.1.initial = [] ∧
        nodesBFS p.1 p.2 = [p.1.initial]) ∧
      (p.1.final ≠ [] → ∀ x : NodeRef, ReachL (succOut p.2) p.1.initial x →
        ∃ f ∈ p.1.final, ReachL (succOut p.2) x f)) ∧
    removeNode nl h nl.initial = .error .initialRemoval := by
  refine ⟨?_, ?_⟩
  · unfold removeUnreachable
    by_cases hfin : nl.final = []
    · rw [if_pos hfin]
      refine ⟨makeEmpty nl h, rfl, rfl, ?_, ?_⟩
      · intro _
        constructor
        · show ((h.setInn nl.initial []).setOut nl.initial []).out nl.initial = []
          simp
        · exact nodesBFS_makeEmpty nl h
      · intro hne
        exact absurd rfl hne
    · rw [if_neg hfin]
      have hinitAlloc : Alloc nl nl.initial := ⟨rfl, hcnt⟩
      have hUmem : ∀ x : NodeRef, Alloc nl x →
          x ∈ (Finset.range nl.nodeCounter).image
            (fun i => (⟨nl.listId, i⟩ : NodeRef)) := by
        intro x hx
        obtain ⟨xl, xi⟩ := x
        obtain ⟨hx1, hx2⟩ := hx
        apply Finset.mem_image.mpr
        refine ⟨xi, Finset.mem_range.mpr hx2, ?_⟩
        simp only at hx1
        rw [hx1]
      have hUcard : ((Finset.range nl.nodeCounter).image
          (fun i => (⟨nl.listId, i⟩ : NodeRef))).card ≤ nl.nodeCounter := by
        refine le_trans Finset.card_image_le ?_
        rw [Finset.card_range]
      have hstepW : ∀ x y : NodeRef, Alloc nl x →
          y ∈ (fun n => succInn h n ++ succOut h n) x → Alloc nl y := by
        intro x y hx hy
        rcases List.mem_append.mp hy with hy1 | hy1
        · exact Alloc_succInn hwf hx hy1
        · exact Alloc_succOut hwf hx hy1
      have hstepO : ∀ x y : NodeRef, Alloc nl x → y ∈ succOut h x → Alloc nl y :=
        fun x y hx hy => Alloc_succOut hwf hx hy
      have hANalloc : ∀ n ∈ (closIter (fun n => succInn h n ++ succOut h n)
          nl.nodeCounter [nl.initial]).foldl addFinal nl.final, Alloc nl n := by
        intro n hn
        rcases (mem_foldl_addFinal _ _ n).mp hn with hn1 | hn1
        · exact hwf.finalAlloc n hn1
        · obtain ⟨sd, hsd, hr⟩ := closIter_sound _ _ _ hn1
          rw [List.mem_singleton] at hsd
          subst hsd
          exact ReachL_pred hstepW hinitAlloc hr
      have hinitR : nl.initial ∈ closIter (succOut h) nl.nodeCounter [nl.initial] :=
        mem_closIter_of_mem (List.mem_singleton_self nl.initial) _
      have hRnodup : ([nl.initial] : List NodeRef).Nodup := List.nodup_singleton _
      have hRU : ∀ x ∈ [nl.initial], ∀ y, ReachL (succOut h) x y →
          y ∈ (Finset.range nl.nodeCounter).image
            (fun i => (⟨nl.listId, i⟩ : NodeRef)) := by
        intro x hx y hr
        rw [List.mem_singleton] at hx
        subst hx
        exact hUmem y (ReachL_pred hstepO hinitAlloc hr)
      have hRcard : ((Finset.range nl.nodeCounter).image
          (fun i => (⟨nl.listId, i⟩ : NodeRef))).card ≤
          nl.nodeCounter + ([nl.initial] : List NodeRef).length :=
        le_trans hUcard (Nat.le_add_right _ _)
      have hRfix := closIter_fix ((Finset.range nl.nodeCounter).image
          (fun i => (⟨nl.listId, i⟩ : NodeRef))) nl.nodeCounter [nl.initial]
          hRnodup hRU hRcard
      have hRclosed := closed_of_closStep_eq hRfix
      have hRsound : ∀ x, x ∈ closIter (succOut h) nl.nodeCounter [nl.initial] →
          ReachL (succOut h) nl.initial x := by
        intro x hx
        obtain ⟨sd, hsd, hr⟩ := closIter_sound _ _ _ hx
        rw [List.mem_singleton] at hsd
        subst hsd
        exact hr
      have hRalloc : ∀ n ∈ closIter (succOut h) nl.nodeCounter [nl.initial],
          Alloc nl n :=
        fun n hn => ReachL_pred hstepO hinitAlloc (hRsound n hn)
      obtain ⟨t, hfold1, hwfT, hlidT, hcntT, K1, hK1keep, hK1comp, hO1, hI1, hF1⟩ :=
        removeNodes_fold (closIter (succOut h) nl.nodeCounter [nl.initial])
          ((closIter (fun n => succInn h n ++ succOut h n) nl.nodeCounter
            [nl.initial]).foldl addFinal nl.final) nl h hwf hANalloc hinitR
      have hAllocT : ∀ x : NodeRef, Alloc t.1 x ↔ Alloc nl x := by
        intro x
        unfold Alloc
        rw [hlidT, hcntT]
      have hinitT : t.1.initial = nl.initial := by
        show (⟨t.1.listId, 0⟩ : NodeRef) = (⟨nl.listId, 0⟩ : NodeRef)
        rw [hlidT]
      by_cases hsf : t.1.final = []
      · refine ⟨makeEmpty t.1 t.2, ?_, ?_, ?_, ?_⟩
        · have hres : (((closIter (fun n => succInn h n ++ succOut h n) nl.nodeCounter
                [nl.initial]).foldl addFinal nl.final).foldlM
              (fun (s : NodeList × Heap) n =>
                if n ∈ closIter (succOut h) nl.nodeCounter [nl.initial] then .ok s
                else removeNode s.1 s.2 n) (nl, h) >>= fun s =>
              if s.1.final = [] then Except.ok (makeEmpty s.1 s.2)
              else (closIter (succOut h) nl.nodeCounter [nl.initial]).foldlM
                (fun (s2 : NodeList × Heap) n =>
                  if n ∈ closIter (succInn s.2) nl.nodeCounter s.1.final then .ok s2
                  else removeNode s2.1 s2.2 n) s) =
              Except.ok (makeEmpty t.1 t.2) := by
            rw [exceptBind_eq_ok]
            refine ⟨t, hfold1, ?_⟩
            show (if t.1.final = [] then Except.ok (makeEmpty t.1 t.2)
              else (closIter (succOut h) nl.nodeCounter [nl.initial]).foldlM
                (fun (s2 : NodeList × Heap) n =>
                  if n ∈ closIter (succInn t.2) nl.nodeCounter t.1.final then .ok s2
                  else removeNode s2.1 s2.2 n) t) = Except.ok (makeEmpty t.1 t.2)
            rw [if_pos hsf]
          exact hres
        · exact hinitT
        · intro _
          constructor
          · show ((t.2.setInn t.1.initial []).setOut t.1.initial []).out
              t.1.initial = []
            simp
          · exact nodesBFS_makeEmpty t.1 t.2
        · intro hne
          exact absurd rfl hne
      · have hfinAllocT : ∀ f ∈ t.1.final, Alloc nl f := by
          intro f hf
          exact hwf.finalAlloc f ((hF1 f).mp hf).1
        have hstepI : ∀ x y : NodeRef, Alloc nl x → y ∈ succInn t.2 x →
            Alloc nl y := by
          intro x y hx hy
          exact (hAllocT y).mp (Alloc_succInn hwfT ((hAllocT x).mpr hx) hy)
        have hCnodup : t.1.final.Nodup := hwfT.finalNodup
        have hCU : ∀ x ∈ t.1.final, ∀ y, ReachL (succInn t.2) x y →
            y ∈ (Finset.range nl.nodeCounter).image
              (fun i => (⟨nl.listId, i⟩ : NodeRef)) := by
          intro x hx y hr
          exact hUmem y (ReachL_pred hstepI (hfinAllocT x hx) hr)
        have hCcard : ((Finset.range nl.nodeCounter).image
            (fun i => (⟨nl.listId, i⟩ : NodeRef))).card ≤
            nl.nodeCounter + t.1.final.length :=
          le_trans hUcard (Nat.le_add_right _ _)
        have hCfix := closIter_fix ((Finset.range nl.nodeCounter).image
            (fun i => (⟨nl.listId, i⟩ : NodeRef))) nl.nodeCounter t.1.final
            hCnodup hCU hCcard
        have hCclosed := closed_of_closStep_eq hCfix
        have hCsound : ∀ x, x ∈ closIter (succInn t.2) nl.nodeCounter t.1.final →
            ∃ f ∈ t.1.final, ReachL (succInn t.2) f x :=
          fun x hx => closIter_sound _ _ _ hx
        have hCcomplete : ∀ f ∈ t.1.final, ∀ x, ReachL (succInn t.2) f x →
            x ∈ closIter (succInn t.2) nl.nodeCounter t.1.final :=
          fun f hf x hr => closIter_complete hCnodup hCU hCcard hf hr
        have hfinC : ∀ f ∈ t.1.final,
            f ∈ closIter (succInn t.2) nl.nodeCounter t.1.final :=
          fun f hf => mem_closIter_of_mem hf _
        obtain ⟨f0, hf0⟩ := List.exists_mem_of_ne_nil _ hsf
        have hf0p := (hF1 f0).mp hf0
        have hf0R : f0 ∈ closIter (succOut h) nl.nodeCounter [nl.initial] := by
          by_contra hcon
          exact hf0p.2 (hK1comp f0
            ((mem_foldl_addFinal _ _ f0).mpr (Or.inl hf0p.1)) hcon)
        have hPtrans : ∀ x, ReachL (succOut h) nl.initial x →
            ReachL (succOut t.2) nl.initial x := by
          intro x hx
          refine @ReachL_transfer NodeRef (succOut h) (succOut t.2)
            (fun z => Alloc nl z ∧
              z ∈ closIter (succOut h) nl.nodeCounter [nl.initial])
            ?_ ?_ nl.initial x ⟨hinitAlloc, hinitR⟩ hx
          · intro u v hu hv
            exact ⟨Alloc_succOut hwf hu.1 hv, hRclosed u hu.2 v hv⟩
          · intro u v hu hv
            have hvA : Alloc nl v := Alloc_succOut hwf hu.1 hv
            have hvR : v ∈ closIter (succOut h) nl.nodeCounter [nl.initial] :=
              hRclosed u hu.2 v hv
            have huK : u ∉ K1 := fun hk => hK1keep u hk hu.2
            have hvK : v ∉ K1 := fun hk => hK1keep v hk hvR
            rw [mem_succOut_iff, hO1 u v hu.1 hvA,
              if_neg (fun hc => hc.elim huK hvK)]
            exact (mem_succOut_iff h u v).mp hv
        have hstepOT : ∀ x y : NodeRef, Alloc nl x → y ∈ succOut t.2 x →
            Alloc nl y := by
          intro x y hx hy
          exact (hAllocT y).mp (Alloc_succOut hwfT ((hAllocT x).mpr hx) hy)
        have hflipT : ∀ x y : NodeRef, Alloc nl x → y ∈ succOut t.2 x →
            x ∈ succInn t.2 y := by
          intro x y hx hy
          have hyA : Alloc nl y := hstepOT x y hx hy
          rw [mem_succInn_iff, ← hwfT.sym x y ((hAllocT x).mpr hx)
            ((hAllocT y).mpr hyA)]
          exact (mem_succOut_iff t.2 x y).mp hy
        have hinnReach : ReachL (succInn t.2) f0 nl.initial :=
          @ReachL_flip NodeRef (succOut t.2) (succInn t.2) (Alloc nl)
            hstepOT hflipT nl.initial f0 hinitAlloc
            (hPtrans f0 (hRsound f0 hf0R))
        have hinitC : nl.initial ∈ closIter (succInn t.2) nl.nodeCounter t.1.final :=
          hCcomplete f0 hf0 nl.initial hinnReach
        obtain ⟨p, hfold2, hwfP, hlidP, hcntP, K2, hK2keep, hK2comp, hO2, hI2, hF2⟩ :=
          removeNodes_fold (closIter (succInn t.2) nl.nodeCounter t.1.final)
            (closIter (succOut h) nl.nodeCounter [nl.initial]) t.1 t.2 hwfT
            (fun n hn => (hAllocT n).mpr (hRalloc n hn))
            (by rw [hinitT]; exact hinitC)
        have hAllocP : ∀ x : NodeRef, Alloc p.1 x ↔ Alloc nl x := by
          intro x
          unfold Alloc
          rw [hlidP, hcntP, hlidT, hcntT]
        have hinitP : p.1.initial = nl.initial := by
          show (⟨p.1.listId, 0⟩ : NodeRef) = (⟨nl.listId, 0⟩ : NodeRef)
          rw [hlidP, hlidT]
        have hfinP : ∀ g : NodeRef, g ∈ p.1.final ↔ g ∈ t.1.final := by
          intro g
          rw [hF2 g]
          constructor
          · exact fun hg => hg.1
          · intro hg
            exact ⟨hg, fun hk => hK2keep g hk (hfinC g hg)⟩
        refine ⟨p, ?_, hinitP, ?_, ?_⟩
        · have hres : (((closIter (fun n => succInn h n ++ succOut h n) nl.nodeCounter
                [nl.initial]).foldl addFinal nl.final).foldlM
              (fun (s : NodeList × Heap) n =>
                if n ∈ closIter (succOut h) nl.nodeCounter [nl.initial] then .ok s
                else removeNode s.1 s.2 n) (nl, h) >>= fun s =>
              if s.1.final = [] then Except.ok (makeEmpty s.1 s.2)
              else (closIter (succOut h) nl.nodeCounter [nl.initial]).foldlM
                (fun (s2 : NodeList × Heap) n =>
                  if n ∈ closIter (succInn s.2) nl.nodeCounter s.1.final then .ok s2
                  else removeNode s2.1 s2.2 n) s) = Except.ok p := by
            rw [exceptBind_eq_ok]
            refine ⟨t, hfold1, ?_⟩
            show (if t.1.final = [] then Except.ok (makeEmpty t.1 t.2)
              else (closIter (succOut h) nl.nodeCounter [nl.initial]).foldlM
                (fun (s2 : NodeList × Heap) n =>
                  if n ∈ closIter (succInn t.2) nl.nodeCounter t.1.final then .ok s2
                  else removeNode s2.1 s2.2 n) t) = Except.ok p
            rw [if_neg hsf]
            exact hfold2
          exact hres
        · intro hPempty
          exact absurd ((hfinP f0).mpr hf0)
            (by rw [hPempty]; exact List.not_mem_nil f0)
        · intro _ x hx
          rw [hinitP] at hx
          have hstepP : ∀ u v : NodeRef,
              (Alloc nl u ∧ u ∈ closIter (succOut h) nl.nodeCounter [nl.initial] ∧
                u ∉ K2) →
              v ∈ succOut p.2 u →
              (Alloc nl v ∧ v ∈ closIter (succOut h) nl.nodeCounter [nl.initial] ∧
                v ∉ K2) := by
            intro u v hu hv
            have hvA : Alloc nl v :=
              (hAllocP v).mp (Alloc_succOut hwfP ((hAllocP u).mpr hu.1) hv)
            have hvSome := (mem_succOut_iff p.2 u v).mp hv
            rw [hO2 u v ((hAllocT u).mpr hu.1) ((hAllocT v).mpr hvA)] at hvSome
            by_cases hK : u ∈ K2 ∨ v ∈ K2
            · rw [if_pos hK] at hvSome
              simp at hvSome
            · rw [if_neg hK] at hvSome
              have hvSome2 := hvSome
              rw [hO1 u v hu.1 hvA] at hvSome2
              by_cases hK1c : u ∈ K1 ∨ v ∈ K1
              · rw [if_pos hK1c] at hvSome2
                simp at hvSome2
              · rw [if_neg hK1c] at hvSome2
                exact ⟨hvA,
                  hRclosed u hu.2.1 v ((mem_succOut_iff h u v).mpr hvSome2),
                  fun hk => hK (Or.inr hk)⟩
          have hPx : Alloc nl x ∧
              x ∈ closIter (succOut h) nl.nodeCounter [nl.initial] ∧ x ∉ K2 :=
            ReachL_pred hstepP
              ⟨hinitAlloc, hinitR, fun hk => hK2keep nl.initial hk hinitC⟩ hx
          have hxC : x ∈ closIter (succInn t.2) nl.nodeCounter t.1.final := by
            by_contra hcon
            exact hPx.2.2 (hK2comp x hPx.2.1 hcon)
          obtain ⟨f, hf, hrIf⟩ := hCsound x hxC
          refine ⟨f, (hfinP f).mpr hf, ?_⟩
          have hstepC : ∀ u v : NodeRef,
              (Alloc nl u ∧ u ∈ closIter (succInn t.2) nl.nodeCounter t.1.final) →
              v ∈ succInn t.2 u →
              (Alloc nl v ∧ v ∈ closIter (succInn t.2) nl.nodeCounter t.1.final) := by
            intro u v hu hv
            exact ⟨hstepI u v hu.1 hv, hCclosed u hu.2 v hv⟩
          have hflipC : ∀ u v : NodeRef,
              (Alloc nl u ∧ u ∈ closIter (succInn t.2) nl.nodeCounter t.1.final) →
              v ∈ succInn t.2 u → u ∈ succOut p.2 v := by
            intro u v hu hv
            have hvA : Alloc nl v := hstepI u v hu.1 hv
            have hvC : v ∈ closIter (succInn t.2) nl.nodeCounter t.1.final :=
              hCclosed u hu.2 v hv
            have hSome : (lookupA (t.2.out v) u).isSome = true := by
              rw [hwfT.sym v u ((hAllocT v).mpr hvA) ((hAllocT u).mpr hu.1)]
              exact (mem_succInn_iff t.2 u v).mp hv
            have hvK : v ∉ K2 := fun hk => hK2keep v hk hvC
            have huK : u ∉ K2 := fun hk => hK2keep u hk hu.2
            rw [mem_succOut_iff, hO2 v u ((hAllocT v).mpr hvA)
              ((hAllocT u).mpr hu.1), if_neg (fun hc => hc.elim hvK huK)]
            exact hSome
          exact @ReachL_flip NodeRef (succInn t.2) (succOut p.2)
            (fun z => Alloc nl z ∧
              z ∈ closIter (succInn t.2) nl.nodeCounter t.1.final)
            hstepC hflipC f x ⟨hfinAllocT f hf, hfinC f hf⟩ hrIf
  · unfold removeNode
    rw [if_pos rfl]

/-- Witness for C6 at a concrete input: the one-node list a fresh `NodeList`
holds, over the empty heap. -/
theorem C6_removeUnreachable_prunes_witness :
    WF ⟨0, 1, []⟩ Heap.emptyH ∧
    1 ≤ (⟨0, 1, ([] : List NodeRef)⟩ : NodeList).nodeCounter ∧
    ((∃ p : NodeList × Heap,
        removeUnreachable ⟨0, 1, []⟩ Heap.emptyH = .ok p ∧
        p.1.initial = (⟨0, 1, ([] : List NodeRef)⟩ : NodeList).initial ∧
        (p.1.final = [] → p.2.out p.1.initial = [] ∧
          nodesBFS p.1 p.2 = [p.1.initial]) ∧
        (p.1.final ≠ [] → ∀ x : NodeRef, ReachL (succOut p.2) p.1.initial x →
          ∃ f ∈ p.1.final, ReachL (succOut p.2) x f)) ∧
      removeNode ⟨0, 1, []⟩ Heap.emptyH
        (⟨0, 1, ([] : List NodeRef)⟩ : NodeList).initial = .error .initialRemoval) := by
  have hwf0 : WF ⟨0, 1, []⟩ Heap.emptyH :=
    ⟨fun f hf => absurd hf (List.not_mem_nil f), List.nodup_nil,
      fun n _ e he => absurd he (List.not_mem_nil e),
      fun n _ e he => absurd he (List.not_mem_nil e),
      fun n _ e he => absurd he (List.not_mem_nil e),
      fun n _ e he => absurd he (List.not_mem_nil e),
      fun n _ => List.nodup_nil, fun n _ => List.nodup_nil,
      fun a b _ _ => rfl⟩
  exact ⟨hwf0, Nat.le_refl 1,
    C6_removeUnreachable_prunes ⟨0, 1, []⟩ Heap.emptyH hwf0 (Nat.le_refl 1)⟩

/-! Claim C3: the normalization invariant (`Normalized`) through the primitives
and the base transformers. -/

theorem ne_of_lookupA_none {m : List (NodeRef × CharSet)} {i : NodeRef}
    (hm : lookupA m i = none) {e : NodeRef × CharSet} (he : e ∈ m) : e.1 ≠ i := by
  intro hc
  rw [lookupA_eq_none_iff] at hm
  exact hm (List.mem_map.mpr ⟨e, he, hc⟩)

theorem Normalized_linkNodes {i : NodeRef} {nl : NodeList} {h : Heap}
    {a b : NodeRef} {cs : CharSet} {h2 : Heap}
    (hN : Normalized i h) (hb : b ≠ i) (hok : linkNodes nl h a b cs = .ok h2) :
    Normalized i h2 := by
  rw [linkNodes_ok_iff] at hok
  obtain ⟨-, -, -, rfl⟩ := hok
  constructor
  · show ((h.setOut a (addA (h.out a) b cs)).setInn b (addA (h.inn b) a cs)).inn i = []
    simp only [setInn_inn]
    rw [if_neg (fun hc => hb hc.symm)]
    exact hN.1
  · intro x
    show lookupA (((h.setOut a (addA (h.out a) b cs)).setInn b
        (addA (h.inn b) a cs)).out x) i = none
    simp only [setInn_out, setOut_out]
    by_cases hx : x = a
    · rw [if_pos hx, lookupA_addA_ne _ _ _ _ (Ne.symm hb)]
      exact hN.2 a
    · rw [if_neg hx]
      exact hN.2 x

theorem Normalized_unlinkNodes {i : NodeRef} {nl : NodeList} {h : Heap}
    {a b : NodeRef} {h2 : Heap}
    (hN : Normalized i h) (hok : unlinkNodes nl h a b = .ok h2) : Normalized i h2 := by
  rw [unlinkNodes_ok_iff] at hok
  obtain ⟨-, -, -, rfl⟩ := hok
  constructor
  · show ((h.setOut a (removeA (h.out a) b)).setInn b (removeA (h.inn b) a)).inn i = []
    simp only [setInn_inn]
    by_cases hib : i = b
    · rw [if_pos hib, ← hib, hN.1]
      rfl
    · rw [if_neg hib]
      exact hN.1
  · intro x
    show lookupA (((h.setOut a (removeA (h.out a) b)).setInn b
        (removeA (h.inn b) a)).out x) i = none
    simp only [setInn_out, setOut_out]
    by_cases hx : x = a
    · rw [if_pos hx]
      by_cases hib : i = b
      · rw [hib, lookupA_removeA_self]
      · rw [lookupA_removeA_ne _ _ _ hib]
        exact hN.2 a
    · rw [if_neg hx]
      exact hN.2 x

theorem Normalized_setBoth {i : NodeRef} {h : Heap} (n : NodeRef)
    (hN : Normalized i h) : Normalized i ((h.setOut n []).setInn n []) := by
  constructor
  · show ((h.setOut n []).setInn n []).inn i = []
    simp only [setInn_inn]
    by_cases hin : i = n
    · rw [if_pos hin]
    · rw [if_neg hin]
      exact hN.1
  · intro x
    show lookupA (((h.setOut n []).setInn n []).out x) i = none
    simp only [setInn_out, setOut_out]
    by_cases hx : x = n
    · rw [if_pos hx]
      rfl
    · rw [if_neg hx]
      exact hN.2 x

theorem Normalized_createNode {i : NodeRef} {nl : NodeList} {h : Heap}
    (hN : Normalized i h) : Normalized i (createNode nl h).2.2 :=
  Normalized_setBoth _ hN

theorem Normalized_resetFold {i : NodeRef} (g : Nat → NodeRef) (l : List Nat) :
    ∀ h : Heap, Normalized i h →
      Normalized i (l.foldl (fun h2 k => ((h2.setOut (g k) []).setInn (g k) [])) h) := by
  induction l with
  | nil => intro h hN; exact hN
  | cons k l ih =>
      intro h hN
      rw [List.foldl_cons]
      exact ih _ (Normalized_setBoth (g k) hN)

theorem Normalized_baseMakeEmpty {i : NodeRef} {nl : NodeList} {h : Heap}
    {base : SubList} {h2 : Heap} {base2 : SubList}
    (hN : Normalized i h) (hok : baseMakeEmpty nl h base = .ok (h2, base2)) :
    Normalized i h2 ∧ base2 = { base with final := [] } := by
  have hok2 : ((succOut h base.initial).foldlM
      (fun h2 t => unlinkNodes nl h2 base.initial t) h >>= fun hh =>
      Except.ok (hh, { base with final := ([] : List NodeRef) })) =
      Except.ok (h2, base2) := hok
  rw [exceptBind_eq_ok] at hok2
  obtain ⟨hh, hfold, hfin⟩ := hok2
  have hp := Except.ok.inj hfin
  rw [Prod.mk.injEq] at hp
  obtain ⟨rfl, rfl⟩ := hp
  refine ⟨?_, rfl⟩
  exact (@foldlM_inv NodeRef Heap (fun hh => Normalized i hh) _ _ _ _ hN
    (fun s x _ hP s2 hs2 => Normalized_unlinkNodes hP hs2) hfold).1

theorem mem_foldl_addFinal_filter (l : List NodeRef) (ex : NodeRef) :
    ∀ (acc : List NodeRef) (x : NodeRef),
      x ∈ l.foldl (fun acc n => if n = ex then acc else addFinal acc n) acc →
        x ∈ acc ∨ x ∈ l := by
  induction l with
  | nil => intro acc x hx; exact Or.inl hx
  | cons y l ih =>
      intro acc x hx
      rw [List.foldl_cons] at hx
      by_cases hy : y = ex
      · rw [if_pos hy] at hx
        rcases ih acc x hx with h1 | h1
        · exact Or.inl h1
        · exact Or.inr (List.mem_cons_of_mem y h1)
      · rw [if_neg hy] at hx
        rcases ih (addFinal acc y) x hx with h1 | h1
        · rcases mem_addFinal.mp h1 with h2 | h2
          · exact Or.inl h2
          · exact Or.inr (h2 ▸ List.mem_cons_self y l)
        · exact Or.inr (List.mem_cons_of_mem y h1)

theorem mem_foldl_addFinal_subst (l : List NodeRef) (rep tgt : NodeRef) :
    ∀ (acc : List NodeRef) (x : NodeRef),
      x ∈ l.foldl (fun acc n => addFinal acc (if n = rep then tgt else n)) acc →
        x ∈ acc ∨ x = tgt ∨ x ∈ l := by
  induction l with
  | nil => intro acc x hx; exact Or.inl hx
  | cons y l ih =>
      intro acc x hx
      rw [List.foldl_cons] at hx
      rcases ih _ x hx with h1 | h1 | h1
      · rcases mem_addFinal.mp h1 with h2 | h2
        · exact Or.inl h2
        · by_cases hy : y = rep
          · rw [if_pos hy] at h2
            exact Or.inr (Or.inl h2)
          · rw [if_neg hy] at h2
            exact Or.inr (Or.inr (h2 ▸ List.mem_cons_self y l))
      · exact Or.inr (Or.inl h1)
      · exact Or.inr (Or.inr (List.mem_cons_of_mem y h1))

theorem mem_of_getLast_opt {α : Type} {l : List α} {a : α}
    (h : l.getLast? = some a) : a ∈ l := by
  induction l with
  | nil => cases h
  | cons x l ih =>
      cases l with
      | nil =>
          rw [List.getLast?_singleton] at h
          rw [List.mem_singleton]
          exact (Option.some.inj h).symm
      | cons y l =>
          rw [List.getLast?_cons_cons] at h
          exact List.mem_cons_of_mem x (ih h)

theorem Normalized_baseConcat {i : NodeRef} {nl : NodeList} {h : Heap}
    {base after : SubList} {h2 : Heap} {base2 : SubList}
    (hN : Normalized i h) (hok : baseConcat nl h base after = .ok (h2, base2)) :
    Normalized i h2 ∧ base2.initial = base.initial ∧
      (∀ f ∈ base2.final, f ∈ base.final ∨ f ∈ after.final) := by
  unfold baseConcat at hok
  by_cases hb : base.final = []
  · rw [if_pos hb] at hok
    have hp := Except.ok.inj hok
    rw [Prod.mk.injEq] at hp
    obtain ⟨rfl, rfl⟩ := hp
    exact ⟨hN, rfl, fun f hf => Or.inl hf⟩
  · rw [if_neg hb] at hok
    by_cases ha : after.final = []
    · rw [if_pos ha] at hok
      obtain ⟨hN2, hbase2⟩ := Normalized_baseMakeEmpty hN hok
      refine ⟨hN2, by rw [hbase2], ?_⟩
      intro f hf
      rw [hbase2] at hf
      exact absurd hf (List.not_mem_nil f)
    · rw [if_neg ha] at hok
      have hok2 : (base.final.foldlM (fun h2 f =>
            (h.out after.initial).foldlM (fun h3 e => linkNodes nl h3 f e.1 e.2) h2)
            h >>= fun hA =>
          (h.out after.initial).foldlM
            (fun h2 e => unlinkNodes nl h2 after.initial e.1) hA >>= fun hB =>
          Except.ok (hB,
            { (if after.initial ∈ after.final then base
                else { base with final := [] }) with
              final := after.final.foldl
                (fun acc n => if n = after.initial then acc else addFinal acc n)
                (if after.initial ∈ after.final then base
                  else { base with final := [] }).final })) =
          Except.ok (h2, base2) := hok
      rw [exceptBind_eq_ok] at hok2
      obtain ⟨hA, hfold1, hrest⟩ := hok2
      rw [exceptBind_eq_ok] at hrest
      obtain ⟨hB, hfold2, hfin⟩ := hrest
      have hp := Except.ok.inj hfin
      rw [Prod.mk.injEq] at hp
      obtain ⟨rfl, rfl⟩ := hp
      have hne : ∀ e ∈ h.out after.initial, e.1 ≠ i :=
        fun e he => ne_of_lookupA_none (hN.2 after.initial) he
      have hNA : Normalized i hA :=
        (@foldlM_inv NodeRef Heap (fun s => Normalized i s) _ _ _ _ hN
          (fun s f _ hP s2 hs2 =>
            (@foldlM_inv (NodeRef × CharSet) Heap (fun s => Normalized i s) _ _ _ _ hP
              (fun s3 e he hP3 s4 hs4 => Normalized_linkNodes hP3 (hne e he) hs4)
              hs2).1)
          hfold1).1
      have hNB : Normalized i hB :=
        (@foldlM_inv (NodeRef × CharSet) Heap (fun s => Normalized i s) _ _ _ _ hNA
          (fun s e _ hP s2 hs2 => Normalized_unlinkNodes hP hs2) hfold2).1
      refine ⟨hNB, ?_, ?_⟩
      · show (if after.initial ∈ after.final then base
            else { base with final := [] }).initial = base.initial
        by_cases hc : after.initial ∈ after.final
        · rw [if_pos hc]
        · rw [if_neg hc]
      · intro f hf
        rcases mem_foldl_addFinal_filter _ _ _ f hf with h1 | h1
        · by_cases hc : after.initial ∈ after.final
          · rw [if_pos hc] at h1
            exact Or.inl h1
          · rw [if_neg hc] at h1
            exact absurd h1 (List.not_mem_nil f)
        · exact Or.inr h1

theorem Normalized_baseOpt {i : NodeRef} {nl : NodeList} {h : Heap}
    {base : SubList} {h2 : Heap} {base2 : SubList}
    (hN : Normalized i h)
    (hml : ∀ f ∈ base.final, f ≠ base.initial → f ≠ i)
    (hok : baseOptimizationReuseFinalStates nl h base = .ok (h2, base2)) :
    Normalized i h2 ∧ base2.initial = base.initial ∧
      (∀ f ∈ base2.final, f ∈ base.final) := by
  unfold baseOptimizationReuseFinalStates at hok
  by_cases hlen : (base.final.filter (fun f => decide (f ≠ base.initial) &&
      decide (h.out f = []))).length ≤ 1
  · rw [if_pos hlen] at hok
    have hp := Except.ok.inj hok
    rw [Prod.mk.injEq] at hp
    obtain ⟨rfl, rfl⟩ := hp
    exact ⟨hN, rfl, fun f hf => hf⟩
  · rw [if_neg hlen] at hok
    cases hlast : (base.final.filter (fun f => decide (f ≠ base.initial) &&
        decide (h.out f = []))).getLast? with
    | none =>
        rw [hlast] at hok
        have hok2 : Except.ok (h, base) = Except.ok (h2, base2) := hok
        have hp := Except.ok.inj hok2
        rw [Prod.mk.injEq] at hp
        obtain ⟨rfl, rfl⟩ := hp
        exact ⟨hN, rfl, fun f hf => hf⟩
    | some masterFinal =>
        rw [hlast] at hok
        have hMmem : masterFinal ∈ base.final.filter (fun f =>
            decide (f ≠ base.initial) && decide (h.out f = [])) :=
          mem_of_getLast_opt hlast
        rw [List.mem_filter] at hMmem
        have hMne : masterFinal ≠ i := by
          apply hml masterFinal hMmem.1
          have := hMmem.2
          rw [Bool.and_eq_true, decide_eq_true_eq, decide_eq_true_eq] at this
          exact this.1
        have hok2 : ((base.final.filter (fun f => decide (f ≠ base.initial) &&
              decide (h.out f = []))).dropLast.foldlM
            (fun (s : Heap × SubList) toRemove =>
              (s.1.inn toRemove).foldlM (fun h3 e =>
                linkNodes nl h3 e.1 masterFinal e.2 >>= fun h4 =>
                  unlinkNodes nl h4 e.1 toRemove) s.1 >>= fun hh =>
                Except.ok (hh, { s.2 with final := delFinal s.2.final toRemove }))
            (h, base)) = Except.ok (h2, base2) := hok
        have hinv := @foldlM_inv NodeRef (Heap × SubList)
          (fun s => Normalized i s.1 ∧ s.2.initial = base.initial ∧
            ∀ f ∈ s.2.final, f ∈ base.final) _ _ _ _
          ⟨hN, rfl, fun f hf => hf⟩
          (fun s toRemove _ hP s2 hs2 => by
            rw [exceptBind_eq_ok] at hs2
            obtain ⟨hh, hinner, hfin⟩ := hs2
            have hp := Except.ok.inj hfin
            subst hp
            refine ⟨?_, hP.2.1, ?_⟩
            · exact (@foldlM_inv (NodeRef × CharSet) Heap (fun s => Normalized i s)
                _ _ _ _ hP.1
                (fun s3 e _ hP3 s4 hs4 => by
                  rw [exceptBind_eq_ok] at hs4
                  obtain ⟨h4, hlink, hunlink⟩ := hs4
                  exact Normalized_unlinkNodes
                    (Normalized_linkNodes hP3 hMne hlink) hunlink)
                hinner).1
            · intro f hf
              exact hP.2.2 f (mem_delFinal.mp hf).1)
          hok2
        exact ⟨(hinv.1).1, (hinv.1).2.1, (hinv.1).2.2⟩

theorem Normalized_baseUnion {i : NodeRef} {nl : NodeList} {h : Heap}
    {base alternative : SubList} {h2 : Heap} {base2 : SubList}
    (hN : Normalized i h)
    (hbase : ∀ f ∈ base.final, f ≠ base.initial → f ≠ i)
    (halt : ∀ f ∈ alternative.final, f ≠ i)
    (hok : baseUnion nl h base alternative = .ok (h2, base2)) :
    Normalized i h2 ∧ base2.initial = base.initial ∧
      (∀ f ∈ base2.final, f ∈ base.final ∨ f = base.initial ∨
        f ∈ alternative.final) := by
  have hok2 : ((h.out alternative.initial).foldlM (fun hh e =>
        linkNodes nl hh base.initial e.1 e.2 >>= fun h3 =>
          unlinkNodes nl h3 alternative.initial e.1) h >>= fun hA =>
      baseOptimizationReuseFinalStates nl hA { base with final :=
        (alternative.final.foldl (fun acc n =>
          addFinal acc (if n = alternative.initial then base.initial else n))
          base.final) }) = Except.ok (h2, base2) := hok
  rw [exceptBind_eq_ok] at hok2
  obtain ⟨hA, hfold, hopt⟩ := hok2
  have hne : ∀ e ∈ h.out alternative.initial, e.1 ≠ i :=
    fun e he => ne_of_lookupA_none (hN.2 alternative.initial) he
  have hNA : Normalized i hA :=
    (@foldlM_inv (NodeRef × CharSet) Heap (fun s => Normalized i s) _ _ _ _ hN
      (fun s e he hP s2 hs2 => by
        rw [exceptBind_eq_ok] at hs2
        obtain ⟨h3, hlink, hunlink⟩ := hs2
        exact Normalized_unlinkNodes
          (Normalized_linkNodes hP (hne e he) hlink) hunlink)
      hfold).1
  have hmlM : ∀ f ∈ ({ base with final :=
      (alternative.final.foldl (fun acc n =>
        addFinal acc (if n = alternative.initial then base.initial else n))
        base.final) } : SubList).final,
      f ≠ ({ base with final :=
        (alternative.final.foldl (fun acc n =>
          addFinal acc (if n = alternative.initial then base.initial else n))
          base.final) } : SubList).initial → f ≠ i := by
    intro f hf hne2
    rcases mem_foldl_addFinal_subst _ _ _ _ f hf with h1 | h1 | h1
    · exact hbase f h1 hne2
    · exact absurd h1 hne2
    · exact halt f h1
  obtain ⟨hN2, hini, hsub⟩ := Normalized_baseOpt hNA hmlM hopt
  refine ⟨hN2, hini, ?_⟩
  intro f hf
  exact mem_foldl_addFinal_subst _ _ _ _ f (hsub f hf)

theorem Normalized_basePlus {i : NodeRef} {nl : NodeList} {h : Heap}
    {base : SubList} {h2 : Heap}
    (hN : Normalized i h) (hok : basePlus nl h base = .ok h2) : Normalized i h2 :=
  (@foldlM_inv NodeRef Heap (fun s => Normalized i s) _ _ _ _ hN
    (fun s f _ hP s2 hs2 => by
      by_cases hfi : f = base.initial
      · rw [if_pos hfi] at hs2
        obtain rfl := Except.ok.inj hs2
        exact hP
      · rw [if_neg hfi] at hs2
        have hne : ∀ e ∈ s.out base.initial, e.1 ≠ i :=
          fun e he => ne_of_lookupA_none (hP.2 base.initial) he
        exact (@foldlM_inv (NodeRef × CharSet) Heap (fun s => Normalized i s)
          _ _ _ _ hP
          (fun s3 e he hP3 s4 hs4 => Normalized_linkNodes hP3 (hne e he) hs4)
          hs2).1)
    hok).1

theorem Normalized_localCopy {i : NodeRef} {nl : NodeList} {h : Heap}
    {toCopy : SubList} {copy : SubList} {nl2 : NodeList} {h2 : Heap}
    (hN : Normalized i h) (hi : i.id = 0) (hcnt : 1 ≤ nl.nodeCounter)
    (hok : localCopy nl h toCopy = .ok (copy, nl2, h2)) :
    Normalized i h2 ∧ nl2.listId = nl.listId ∧ nl.nodeCounter ≤ nl2.nodeCounter ∧
      1 ≤ nl2.nodeCounter ∧ copy.initial ≠ i ∧ (∀ f ∈ copy.final, f ≠ i) := by
  have hok2 : ((closIter (succOut h) nl.nodeCounter [toCopy.initial]).foldlM
      (fun hh n => (hh.out n).foldlM (fun h3 e =>
          linkNodes { nl with nodeCounter := nl.nodeCounter +
              (closIter (succOut h) nl.nodeCounter [toCopy.initial]).length } h3
            ⟨nl.listId, nl.nodeCounter +
              idxA (closIter (succOut h) nl.nodeCounter [toCopy.initial]) n⟩
            ⟨nl.listId, nl.nodeCounter +
              idxA (closIter (succOut h) nl.nodeCounter [toCopy.initial]) e.1⟩
            e.2) hh)
      ((List.range (closIter (succOut h) nl.nodeCounter [toCopy.initial]).length).foldl
        (fun h2 j => ((h2.setOut ⟨nl.listId, nl.nodeCounter + j⟩ []).setInn
          ⟨nl.listId, nl.nodeCounter + j⟩ [])) h) >>= fun hC =>
      Except.ok ((⟨⟨nl.listId, nl.nodeCounter +
          idxA (closIter (succOut h) nl.nodeCounter [toCopy.initial]) toCopy.initial⟩,
        ((closIter (succOut h) nl.nodeCounter [toCopy.initial]).filter
            (fun n => decide (n ∈ toCopy.final))).map
          (fun n => (⟨nl.listId, nl.nodeCounter +
            idxA (closIter (succOut h) nl.nodeCounter [toCopy.initial]) n⟩ :
              NodeRef))⟩ : SubList),
        ({ nl with nodeCounter := nl.nodeCounter +
          (closIter (succOut h) nl.nodeCounter [toCopy.initial]).length } : NodeList),
        hC)) = Except.ok (copy, nl2, h2) := hok
  rw [exceptBind_eq_ok] at hok2
  obtain ⟨hC, hfold, hfin⟩ := hok2
  have hp := Except.ok.inj hfin
  rw [Prod.mk.injEq, Prod.mk.injEq] at hp
  obtain ⟨rfl, rfl, rfl⟩ := hp
  have htr_ne : ∀ x : NodeRef, (⟨nl.listId, nl.nodeCounter +
      idxA (closIter (succOut h) nl.nodeCounter [toCopy.initial]) x⟩ : NodeRef) ≠ i := by
    intro x hc
    have hid := congrArg NodeRef.id hc
    simp only at hid
    rw [hi] at hid
    omega
  have hNreset : Normalized i
      ((List.range (closIter (succOut h) nl.nodeCounter [toCopy.initial]).length).foldl
        (fun h2 j => ((h2.setOut ⟨nl.listId, nl.nodeCounter + j⟩ []).setInn
          ⟨nl.listId, nl.nodeCounter + j⟩ [])) h) :=
    Normalized_resetFold (fun j => ⟨nl.listId, nl.nodeCounter + j⟩) _ h hN
  have hNC : Normalized i hC :=
    (@foldlM_inv NodeRef Heap (fun s => Normalized i s) _ _ _ _ hNreset
      (fun s n _ hP s2 hs2 =>
        (@foldlM_inv (NodeRef × CharSet) Heap (fun s => Normalized i s) _ _ _ _ hP
          (fun s3 e _ hP3 s4 hs4 => Normalized_linkNodes hP3 (htr_ne e.1) hs4)
          hs2).1)
      hfold).1
  refine ⟨hNC, rfl, Nat.le_add_right _ _, le_trans hcnt (Nat.le_add_right _ _),
    htr_ne toCopy.initial, ?_⟩
  intro f hf
  obtain ⟨x, hx, rfl⟩ := List.mem_map.mp hf
  exact htr_ne x

theorem Normalized_baseRepeatLoop {i : NodeRef} :
    ∀ (k : Nat) (nl : NodeList) (h : Heap) (base copy : SubList) (nl2 : NodeList)
      (h2 : Heap) (base2 : SubList),
      Normalized i h → i.id = 0 → 1 ≤ nl.nodeCounter →
      baseRepeatLoop k nl h base copy = .ok (nl2, h2, base2) →
      Normalized i h2 ∧ nl2.listId = nl.listId ∧ nl.nodeCounter ≤ nl2.nodeCounter ∧
        1 ≤ nl2.nodeCounter ∧ base2.initial = base.initial ∧
        (∀ f ∈ base2.final, f ∈ base.final ∨ f ≠ i) := by
  intro k
  induction k with
  | zero =>
      intro nl h base copy nl2 h2 base2 hN hi hcnt hok
      have hp := Except.ok.inj hok
      rw [Prod.mk.injEq, Prod.mk.injEq] at hp
      obtain ⟨rfl, rfl, rfl⟩ := hp
      exact ⟨hN, rfl, le_refl _, hcnt, rfl, fun f hf => Or.inl hf⟩
  | succ k ih =>
      intro nl h base copy nl2 h2 base2 hN hi hcnt hok
      have hok2 : (localCopy nl h copy >>= fun s1 =>
          baseConcat s1.2.1 s1.2.2 base s1.1 >>= fun s2 =>
          baseRepeatLoop k s1.2.1 s2.1 s2.2 copy) = .ok (nl2, h2, base2) := hok
      rw [exceptBind_eq_ok] at hok2
      obtain ⟨s1, hcopy, hrest⟩ := hok2
      rw [exceptBind_eq_ok] at hrest
      obtain ⟨s2, hconcat, hloop⟩ := hrest
      obtain ⟨c, nl1, h1⟩ := s1
      obtain ⟨hA, baseB⟩ := s2
      obtain ⟨hN1, hlid1, hmono1, hcnt1, hcine, hcfne⟩ :=
        Normalized_localCopy hN hi hcnt hcopy
      obtain ⟨hNA, hiniB, hfinB⟩ := Normalized_baseConcat hN1 hconcat
      obtain ⟨hN2, hlid2, hmono2, hcnt2, hini2, hfin2⟩ :=
        ih nl1 hA baseB copy nl2 h2 base2 hNA hi hcnt1 hloop
      refine ⟨hN2, hlid2.trans hlid1, le_trans hmono1 hmono2, hcnt2,
        hini2.trans hiniB, ?_⟩
      intro f hf
      rcases hfin2 f hf with h1' | h1'
      · rcases hfinB f h1' with h2' | h2'
        · exact Or.inl h2'
        · exact Or.inr (hcfne f h2')
      · exact Or.inr h1'

theorem Normalized_baseRepeatLoopAcc {i : NodeRef} :
    ∀ (k : Nat) (nl : NodeList) (h : Heap) (base copy : SubList)
      (realFinal : List NodeRef) (nl2 : NodeList) (h2 : Heap) (base2 : SubList)
      (realFinal2 : List NodeRef),
      Normalized i h → i.id = 0 → 1 ≤ nl.nodeCounter →
      baseRepeatLoopAcc k nl h base copy realFinal = .ok (nl2, h2, base2, realFinal2) →
      Normalized i h2 ∧ nl2.listId = nl.listId ∧ nl.nodeCounter ≤ nl2.nodeCounter ∧
        1 ≤ nl2.nodeCounter ∧ base2.initial = base.initial ∧
        (∀ f ∈ base2.final, f ∈ base.final ∨ f ≠ i) ∧
        (∀ f ∈ realFinal2, f ∈ realFinal ∨ f ∈ base.final ∨ f ≠ i) := by
  intro k
  induction k with
  | zero =>
      intro nl h base copy realFinal nl2 h2 base2 realFinal2 hN hi hcnt hok
      have hp := Except.ok.inj hok
      rw [Prod.mk.injEq, Prod.mk.injEq, Prod.mk.injEq] at hp
      obtain ⟨rfl, rfl, rfl, rfl⟩ := hp
      exact ⟨hN, rfl, le_refl _, hcnt, rfl, fun f hf => Or.inl hf,
        fun f hf => Or.inl hf⟩
  | succ k ih =>
      intro nl h base copy realFinal nl2 h2 base2 realFinal2 hN hi hcnt hok
      have hok2 : (localCopy nl h copy >>= fun s1 =>
          baseConcat s1.2.1 s1.2.2 base s1.1 >>= fun s2 =>
          baseRepeatLoopAcc k s1.2.1 s2.1 s2.2 copy
            (s2.2.final.foldl addFinal realFinal)) = .ok (nl2, h2, base2, realFinal2) :=
        hok
      rw [exceptBind_eq_ok] at hok2
      obtain ⟨s1, hcopy, hrest⟩ := hok2
      rw [exceptBind_eq_ok] at hrest
      obtain ⟨s2, hconcat, hloop⟩ := hrest
      obtain ⟨c, nl1, h1⟩ := s1
      obtain ⟨hA, baseB⟩ := s2
      obtain ⟨hN1, hlid1, hmono1, hcnt1, hcine, hcfne⟩ :=
        Normalized_localCopy hN hi hcnt hcopy
      obtain ⟨hNA, hiniB, hfinB⟩ := Normalized_baseConcat hN1 hconcat
      obtain ⟨hN2, hlid2, hmono2, hcnt2, hini2, hfin2, hreal2⟩ :=
        ih nl1 hA baseB copy (baseB.final.foldl addFinal realFinal) nl2 h2 base2
          realFinal2 hNA hi hcnt1 hloop
      have hBfin : ∀ f ∈ baseB.final, f ∈ base.final ∨ f ≠ i := by
        intro f hf
        rcases hfinB f hf with h1' | h1'
        · exact Or.inl h1'
        · exact Or.inr (hcfne f h1')
      refine ⟨hN2, hlid2.trans hlid1, le_trans hmono1 hmono2, hcnt2,
        hini2.trans hiniB, ?_, ?_⟩
      · intro f hf
        rcases hfin2 f hf with h1' | h1'
        · exact hBfin f h1'
        · exact Or.inr h1'
      · intro f hf
        rcases hreal2 f hf with h1' | h1' | h1'
        · rcases (mem_foldl_addFinal _ _ f).mp h1' with h2' | h2'
          · exact Or.inl h2'
          · rcases hBfin f h2' with h3' | h3'
            · exact Or.inr (Or.inl h3')
            · exact Or.inr (Or.inr h3')
        · rcases hBfin f h1' with h3' | h3'
          · exact Or.inr (Or.inl h3')
          · exact Or.inr (Or.inr h3')
        · exact Or.inr (Or.inr h1')

theorem Normalized_baseRepeat {i : NodeRef} {nl : NodeList} {h : Heap}
    {base : SubList} {times : Nat} {nl2 : NodeList} {h2 : Heap} {base2 : SubList}
    (hN : Normalized i h) (hi : i.id = 0) (hcnt : 1 ≤ nl.nodeCounter)
    (hok : baseRepeat nl h base times = .ok (nl2, h2, base2)) :
    Normalized i h2 ∧ nl2.listId = nl.listId ∧ nl.nodeCounter ≤ nl2.nodeCounter ∧
      1 ≤ nl2.nodeCounter ∧ base2.initial = base.initial ∧
      (∀ f ∈ base2.final, f ∈ base.final ∨ f = base.initial ∨ f ≠ i) := by
  unfold baseRepeat at hok
  by_cases ht0 : times = 0
  · rw [if_pos ht0] at hok
    have hok2 : (baseMakeEmpty nl h base >>= fun s =>
        Except.ok (nl, s.1, { s.2 with final := addFinal s.2.final s.2.initial })) =
        Except.ok (nl2, h2, base2) := hok
    rw [exceptBind_eq_ok] at hok2
    obtain ⟨s, hmk, hfin⟩ := hok2
    obtain ⟨h1, base1⟩ := s
    obtain ⟨hN1, hb1⟩ := Normalized_baseMakeEmpty hN hmk
    have hp := Except.ok.inj hfin
    rw [Prod.mk.injEq, Prod.mk.injEq] at hp
    obtain ⟨rfl, rfl, rfl⟩ := hp
    refine ⟨hN1, rfl, le_refl _, hcnt, by rw [hb1], ?_⟩
    intro f hf
    simp only at hf
    rw [hb1] at hf
    rcases mem_addFinal.mp hf with h1' | h1'
    · exact absurd h1' (List.not_mem_nil f)
    · exact Or.inr (Or.inl h1')
  · rw [if_neg ht0] at hok
    by_cases ht1 : times = 1
    · rw [if_pos ht1] at hok
      have hp := Except.ok.inj hok
      rw [Prod.mk.injEq, Prod.mk.injEq] at hp
      obtain ⟨rfl, rfl, rfl⟩ := hp
      exact ⟨hN, rfl, le_refl _, hcnt, rfl, fun f hf => Or.inl hf⟩
    · rw [if_neg ht1] at hok
      by_cases hts : base.final.length = 1 ∧ base.initial ∈ base.final
      · rw [if_pos hts] at hok
        have hp := Except.ok.inj hok
        rw [Prod.mk.injEq, Prod.mk.injEq] at hp
        obtain ⟨rfl, rfl, rfl⟩ := hp
        exact ⟨hN, rfl, le_refl _, hcnt, rfl, fun f hf => Or.inl hf⟩
      · rw [if_neg hts] at hok
        by_cases hfe : base.final = []
        · rw [if_pos hfe] at hok
          have hp := Except.ok.inj hok
          rw [Prod.mk.injEq, Prod.mk.injEq] at hp
          obtain ⟨rfl, rfl, rfl⟩ := hp
          exact ⟨hN, rfl, le_refl _, hcnt, rfl, fun f hf => Or.inl hf⟩
        · rw [if_neg hfe] at hok
          by_cases hini : base.initial ∉ base.final
          · rw [if_pos hini] at hok
            have hok2 : (localCopy nl h base >>= fun s1 =>
                baseRepeatLoop (times - 2) s1.2.1 s1.2.2 base s1.1 >>= fun s2 =>
                baseConcat s2.1 s2.2.1 s2.2.2 s1.1 >>= fun s3 =>
                Except.ok (s2.1, s3.1, s3.2)) = Except.ok (nl2, h2, base2) := hok
            rw [exceptBind_eq_ok] at hok2
            obtain ⟨s1, hcopy, hrest⟩ := hok2
            rw [exceptBind_eq_ok] at hrest
            obtain ⟨s2, hloop, hrest2⟩ := hrest
            rw [exceptBind_eq_ok] at hrest2
            obtain ⟨s3, hconcat, hfin⟩ := hrest2
            obtain ⟨c, nl1, h1⟩ := s1
            obtain ⟨nlL, hL, baseL⟩ := s2
            obtain ⟨hD, baseD⟩ := s3
            obtain ⟨hN1, hlid1, hmono1, hcnt1, hcine, hcfne⟩ :=
              Normalized_localCopy hN hi hcnt hcopy
            obtain ⟨hNL, hlidL, hmonoL, hcntL, hiniL, hfinL⟩ :=
              Normalized_baseRepeatLoop (times - 2) nl1 h1 base c nlL hL baseL
                hN1 hi hcnt1 hloop
            obtain ⟨hND, hiniD, hfinD⟩ := Normalized_baseConcat hNL hconcat
            have hp := Except.ok.inj hfin
            rw [Prod.mk.injEq, Prod.mk.injEq] at hp
            obtain ⟨rfl, rfl, rfl⟩ := hp
            refine ⟨hND, hlidL.trans hlid1, le_trans hmono1 hmonoL, hcntL,
              hiniD.trans hiniL, ?_⟩
            intro f hf
            rcases hfinD f hf with h1' | h1'
            · rcases hfinL f h1' with h2' | h2'
              · exact Or.inl h2'
              · exact Or.inr (Or.inr h2')
            · exact Or.inr (Or.inr (hcfne f h1'))
          · rw [if_neg hini] at hok
            have hok2 : (localCopy nl h
                  { base with final := delFinal base.final base.initial } >>= fun s1 =>
                baseRepeatLoopAcc (times - 2) s1.2.1 s1.2.2
                  { base with final := delFinal base.final base.initial } s1.1
                  base.final >>= fun s2 =>
                baseConcat s2.1 s2.2.1 s2.2.2.1 s1.1 >>= fun s3 =>
                Except.ok (s2.1, s3.1,
                  { s3.2 with final := s3.2.final.foldl addFinal s2.2.2.2 })) =
                Except.ok (nl2, h2, base2) := hok
            rw [exceptBind_eq_ok] at hok2
            obtain ⟨s1, hcopy, hrest⟩ := hok2
            rw [exceptBind_eq_ok] at hrest
            obtain ⟨s2, hloop, hrest2⟩ := hrest
            rw [exceptBind_eq_ok] at hrest2
            obtain ⟨s3, hconcat, hfin⟩ := hrest2
            obtain ⟨c, nl1, h1⟩ := s1
            obtain ⟨nlL, hL, baseL, realL⟩ := s2
            obtain ⟨hD, baseD⟩ := s3
            obtain ⟨hN1, hlid1, hmono1, hcnt1, hcine, hcfne⟩ :=
              Normalized_localCopy hN hi hcnt hcopy
            obtain ⟨hNL, hlidL, hmonoL, hcntL, hiniL, hfinL, hrealL⟩ :=
              Normalized_baseRepeatLoopAcc (times - 2) nl1 h1
                { base with final := delFinal base.final base.initial } c base.final
                nlL hL baseL realL hN1 hi hcnt1 hloop
            obtain ⟨hND, hiniD, hfinD⟩ := Normalized_baseConcat hNL hconcat
            have hp := Except.ok.inj hfin
            rw [Prod.mk.injEq, Prod.mk.injEq] at hp
            obtain ⟨rfl, rfl, rfl⟩ := hp
            have hBfin : ∀ f ∈ baseD.final, f ∈ base.final ∨ f ≠ i := by
              intro f hf
              rcases hfinD f hf with h1' | h1'
              · rcases hfinL f h1' with h2' | h2'
                · exact Or.inl (mem_delFinal.mp h2').1
                · exact Or.inr h2'
              · exact Or.inr (hcfne f h1')
            refine ⟨hND, hlidL.trans hlid1, le_trans hmono1 hmonoL, hcntL,
              hiniD.trans hiniL, ?_⟩
            intro f hf
            simp only at hf
            rcases (mem_foldl_addFinal _ _ f).mp hf with h1' | h1'
            · rcases hrealL f h1' with h2' | h2' | h2'
              · exact Or.inl h2'
              · exact Or.inl (mem_delFinal.mp h2').1
              · exact Or.inr (Or.inr h2')
            · rcases hBfin f h1' with h2' | h2'
              · exact Or.inl h2'
              · exact Or.inr (Or.inr h2')

theorem Normalized_baseQuantify {i : NodeRef} {nl : NodeList} {h : Heap}
    {base : SubList} {mn : Nat} {mx : Option Nat} {nl2 : NodeList} {h2 : Heap}
    {base2 : SubList}
    (hN : Normalized i h) (hi : i.id = 0) (hcnt : 1 ≤ nl.nodeCounter)
    (hok : baseQuantify nl h base mn mx = .ok (nl2, h2, base2)) :
    Normalized i h2 ∧ nl2.listId = nl.listId ∧ nl.nodeCounter ≤ nl2.nodeCounter ∧
      1 ≤ nl2.nodeCounter ∧ base2.initial = base.initial ∧
      (∀ f ∈ base2.final, f ∈ base.final ∨ f = base.initial ∨ f ≠ i) := by
  unfold baseQuantify at hok
  by_cases hm0 : mx = some 0
  · rw [if_pos hm0] at hok
    have hok : (baseMakeEmpty nl h base >>= fun s =>
        Except.ok (nl, s.1, { s.2 with final := addFinal s.2.final s.2.initial })) =
        Except.ok (nl2, h2, base2) := hok
    rw [exceptBind_eq_ok] at hok
    obtain ⟨s, hmk, hfin⟩ := hok
    obtain ⟨h1, base1⟩ := s
    obtain ⟨hN1, hb1⟩ := Normalized_baseMakeEmpty hN hmk
    have hp := Except.ok.inj hfin
    rw [Prod.mk.injEq, Prod.mk.injEq] at hp
    obtain ⟨rfl, rfl, rfl⟩ := hp
    refine ⟨hN1, rfl, le_refl _, hcnt, by rw [hb1], ?_⟩
    intro f hf
    simp only at hf
    rw [hb1] at hf
    rcases mem_addFinal.mp hf with h1' | h1'
    · exact absurd h1' (List.not_mem_nil f)
    · exact Or.inr (Or.inl h1')
  · rw [if_neg hm0] at hok
    have hBini : (if base.initial ∈ base.final then base
        else if mn = 0 then { base with final := addFinal base.final base.initial }
        else base).initial = base.initial := by
      by_cases h1 : base.initial ∈ base.final
      · rw [if_pos h1]
      · rw [if_neg h1]
        by_cases h2 : mn = 0
        · rw [if_pos h2]
        · rw [if_neg h2]
    have hBfin : ∀ f ∈ (if base.initial ∈ base.final then base
        else if mn = 0 then { base with final := addFinal base.final base.initial }
        else base).final, f ∈ base.final ∨ f = base.initial := by
      intro f hf
      by_cases h1 : base.initial ∈ base.final
      · rw [if_pos h1] at hf
        exact Or.inl hf
      · rw [if_neg h1] at hf
        by_cases h2 : mn = 0
        · rw [if_pos h2] at hf
          simp only at hf
          rcases mem_addFinal.mp hf with h3 | h3
          · exact Or.inl h3
          · exact Or.inr h3
        · rw [if_neg h2] at hf
          exact Or.inl hf
    simp only [] at hok
    by_cases hm1 : mx = some 1
    · rw [if_pos hm1] at hok
      have hp := Except.ok.inj hok
      rw [Prod.mk.injEq, Prod.mk.injEq] at hp
      obtain ⟨rfl, rfl, rfl⟩ := hp
      refine ⟨hN, rfl, le_refl _, hcnt, hBini, ?_⟩
      intro f hf
      rcases hBfin f hf with h1 | h1
      · exact Or.inl h1
      · exact Or.inr (Or.inl h1)
    · rw [if_neg hm1] at hok
      by_cases hmm : some (if base.initial ∈ base.final then 0 else mn) = mx
      · rw [if_pos hmm] at hok
        obtain ⟨hN2, hlid, hmono, hcnt2, hini, hfin⟩ :=
          Normalized_baseRepeat hN hi hcnt hok
        refine ⟨hN2, hlid, hmono, hcnt2, hini.trans hBini, ?_⟩
        intro f hf
        rcases hfin f hf with h1 | h1 | h1
        · rcases hBfin f h1 with h2 | h2
          · exact Or.inl h2
          · exact Or.inr (Or.inl h2)
        · rw [hBini] at h1
          exact Or.inr (Or.inl h1)
        · exact Or.inr (Or.inr h1)
      · rw [if_neg hmm] at hok
        cases mx with
        | some m =>
            have hok3 : (localCopy nl h (if base.initial ∈ base.final then base
                  else if mn = 0 then
                    { base with final := addFinal base.final base.initial }
                  else base) >>= fun s1 =>
                baseRepeat s1.2.1 s1.2.2
                  { s1.1 with final := addFinal s1.1.final s1.1.initial }
                  (m - (if base.initial ∈ base.final then 0 else mn)) >>= fun s2 =>
                baseRepeat s2.1 s2.2.1 (if base.initial ∈ base.final then base
                  else if mn = 0 then
                    { base with final := addFinal base.final base.initial }
                  else base) (if base.initial ∈ base.final then 0 else mn) >>=
                  fun s3 =>
                baseConcat s3.1 s3.2.1 s3.2.2 s2.2.2 >>= fun s4 =>
                Except.ok (s3.1, s4.1, s4.2)) = Except.ok (nl2, h2, base2) := hok
            rw [exceptBind_eq_ok] at hok3
            obtain ⟨s1, hcopy, hrest⟩ := hok3
            rw [exceptBind_eq_ok] at hrest
            obtain ⟨s2, hrep1, hrest2⟩ := hrest
            rw [exceptBind_eq_ok] at hrest2
            obtain ⟨s3, hrep2, hrest3⟩ := hrest2
            rw [exceptBind_eq_ok] at hrest3
            obtain ⟨s4, hconcat, hfin⟩ := hrest3
            obtain ⟨c, nl1, h1⟩ := s1
            obtain ⟨nlA, hA, copy2⟩ := s2
            obtain ⟨nlB, hB, base3⟩ := s3
            obtain ⟨hC, base4⟩ := s4
            obtain ⟨hN1, hlid1, hmono1, hcnt1, hcine, hcfne⟩ :=
              Normalized_localCopy hN hi hcnt hcopy
            obtain ⟨hNA, hlidA, hmonoA, hcntA, hiniA, hfinA⟩ :=
              Normalized_baseRepeat hN1 hi hcnt1 hrep1
            obtain ⟨hNB, hlidB, hmonoB, hcntB, hiniB, hfinB⟩ :=
              Normalized_baseRepeat hNA hi hcntA hrep2
            obtain ⟨hNC, hiniC, hfinC⟩ := Normalized_baseConcat hNB hconcat
            have hp := Except.ok.inj hfin
            rw [Prod.mk.injEq, Prod.mk.injEq] at hp
            obtain ⟨rfl, rfl, rfl⟩ := hp
            have hc2ne : ∀ f ∈ copy2.final, f ≠ i := by
              intro f hf
              rcases hfinA f hf with h1' | h1' | h1'
              · simp only at h1'
                rcases mem_addFinal.mp h1' with h2' | h2'
                · exact hcfne f h2'
                · exact h2' ▸ hcine
              · exact h1' ▸ hcine
              · exact h1'
            refine ⟨hNC, (hlidB.trans hlidA).trans hlid1,
              le_trans hmono1 (le_trans hmonoA hmonoB), hcntB,
              (hiniC.trans hiniB).trans hBini, ?_⟩
            intro f hf
            rcases hfinC f hf with h1' | h1'
            · rcases hfinB f h1' with h2' | h2' | h2'
              · rcases hBfin f h2' with h3' | h3'
                · exact Or.inl h3'
                · exact Or.inr (Or.inl h3')
              · rw [hBini] at h2'
                exact Or.inr (Or.inl h2')
              · exact Or.inr (Or.inr h2')
            · exact Or.inr (Or.inr (hc2ne f h1'))
        | none =>
            have hok4 : (if (if base.initial ∈ base.final then 0 else mn) > 1 then
                  localCopy nl h (if base.initial ∈ base.final then base
                    else if mn = 0 then
                      { base with final := addFinal base.final base.initial }
                    else base) >>= fun s1 =>
                  basePlus s1.2.1 s1.2.2 s1.1 >>= fun hh2 =>
                  baseRepeat s1.2.1 hh2 (if base.initial ∈ base.final then base
                    else if mn = 0 then
                      { base with final := addFinal base.final base.initial }
                    else base)
                    ((if base.initial ∈ base.final then 0 else mn) - 1) >>= fun s2 =>
                  baseConcat s2.1 s2.2.1 s2.2.2 s1.1 >>= fun s3 =>
                  Except.ok (s2.1, s3.1, s3.2)
                else
                  basePlus nl h (if base.initial ∈ base.final then base
                    else if mn = 0 then
                      { base with final := addFinal base.final base.initial }
                    else base) >>= fun hh2 =>
                  Except.ok (nl, hh2, (if base.initial ∈ base.final then base
                    else if mn = 0 then
                      { base with final := addFinal base.final base.initial }
                    else base))) = Except.ok (nl2, h2, base2) := hok
            by_cases hgt : (if base.initial ∈ base.final then 0 else mn) > 1
            · rw [if_pos hgt] at hok4
              have hok3 := hok4
              rw [exceptBind_eq_ok] at hok3
              obtain ⟨s1, hcopy, hrest⟩ := hok3
              rw [exceptBind_eq_ok] at hrest
              obtain ⟨hh2, hplus, hrest2⟩ := hrest
              rw [exceptBind_eq_ok] at hrest2
              obtain ⟨s2, hrep, hrest3⟩ := hrest2
              rw [exceptBind_eq_ok] at hrest3
              obtain ⟨s3, hconcat, hfin⟩ := hrest3
              obtain ⟨c, nl1, h1⟩ := s1
              obtain ⟨nlA, hA, baseA⟩ := s2
              obtain ⟨hB, baseB⟩ := s3
              obtain ⟨hN1, hlid1, hmono1, hcnt1, hcine, hcfne⟩ :=
                Normalized_localCopy hN hi hcnt hcopy
              have hNP : Normalized i hh2 := Normalized_basePlus hN1 hplus
              obtain ⟨hNA, hlidA, hmonoA, hcntA, hiniA, hfinA⟩ :=
                Normalized_baseRepeat hNP hi hcnt1 hrep
              obtain ⟨hNB, hiniB, hfinB⟩ := Normalized_baseConcat hNA hconcat
              have hp := Except.ok.inj hfin
              rw [Prod.mk.injEq, Prod.mk.injEq] at hp
              obtain ⟨rfl, rfl, rfl⟩ := hp
              refine ⟨hNB, hlidA.trans hlid1, le_trans hmono1 hmonoA, hcntA,
                (hiniB.trans hiniA).trans hBini, ?_⟩
              intro f hf
              rcases hfinB f hf with h1' | h1'
              · rcases hfinA f h1' with h2' | h2' | h2'
                · rcases hBfin f h2' with h3' | h3'
                  · exact Or.inl h3'
                  · exact Or.inr (Or.inl h3')
                · rw [hBini] at h2'
                  exact Or.inr (Or.inl h2')
                · exact Or.inr (Or.inr h2')
              · exact Or.inr (Or.inr (hcfne f h1'))
            · rw [if_neg hgt] at hok4
              have hok3 := hok4
              rw [exceptBind_eq_ok] at hok3
              obtain ⟨hh2, hplus, hfin⟩ := hok3
              have hNP : Normalized i hh2 := Normalized_basePlus hN hplus
              have hp := Except.ok.inj hfin
              rw [Prod.mk.injEq, Prod.mk.injEq] at hp
              obtain ⟨rfl, rfl, rfl⟩ := hp
              refine ⟨hNP, rfl, le_refl _, hcnt, hBini, ?_⟩
              intro f hf
              rcases hBfin f hf with h1 | h1
              · exact Or.inl h1
              · exact Or.inr (Or.inl h1)

theorem Normalized_getNext {i : NodeRef} {maxC : ℚ} {nl : NodeList} {h : Heap}
    {node : NodeRef} {c : ℚ} {res : NodeRef × NodeList × Heap}
    (hN : Normalized i h) (hi : i.id = 0) (hcnt : 1 ≤ nl.nodeCounter)
    (hok : getNext maxC nl h node c = .ok res) :
    Normalized i res.2.2 ∧ res.2.1.listId = nl.listId ∧ 1 ≤ res.2.1.nodeCounter := by
  unfold getNext at hok
  by_cases h1 : c > maxC
  · rw [if_pos h1] at hok
    exact (Except.noConfusion hok)
  · rw [if_neg h1] at hok
    by_cases h2 : isIntQ c = true
    · rw [if_pos h2] at hok
      cases hfind : (h.out node).find? (fun e => e.2.has c) with
      | some e2 =>
          rw [hfind] at hok
          obtain rfl := Except.ok.inj hok
          exact ⟨hN, rfl, hcnt⟩
      | none =>
          rw [hfind] at hok
          have hok2 : (linkNodes { nl with nodeCounter := nl.nodeCounter + 1 }
              ((h.setOut ⟨nl.listId, nl.nodeCounter⟩ []).setInn
                ⟨nl.listId, nl.nodeCounter⟩ []) node ⟨nl.listId, nl.nodeCounter⟩
              (CharSet.singletonRange maxC c) >>= fun hh =>
              Except.ok ((⟨nl.listId, nl.nodeCounter⟩ : NodeRef),
                ({ nl with nodeCounter := nl.nodeCounter + 1 } : NodeList), hh)) =
              Except.ok res := hok
          rw [exceptBind_eq_ok] at hok2
          obtain ⟨hh, hlink, hpure⟩ := hok2
          obtain rfl := Except.ok.inj hpure
          have hNr : Normalized i ((h.setOut ⟨nl.listId, nl.nodeCounter⟩ []).setInn
              ⟨nl.listId, nl.nodeCounter⟩ []) := Normalized_setBoth _ hN
          have hne : (⟨nl.listId, nl.nodeCounter⟩ : NodeRef) ≠ i := by
            intro hc2
            have hid := congrArg NodeRef.id hc2
            simp only at hid
            rw [hi] at hid
            omega
          refine ⟨Normalized_linkNodes hNr hne hlink, rfl, ?_⟩
          simp only
          omega
    · rw [if_neg h2] at hok
      exact (Except.noConfusion hok)

/-- C3, `fromWords`: the result's initial node has no incoming edges (given that
nothing in the input heap already points at the fresh list's initial ref). -/
theorem Normalized_fromWords {words : List (List ℚ)} {options : NFAOptions}
    {listId : Nat} {h : Heap} {A : NFA} {h2 : Heap}
    (hfresh : ∀ x : NodeRef, lookupA (h.out x) ⟨listId, 0⟩ = none)
    (hok : NFA.fromWords words options listId h = .ok (A, h2)) :
    A.nodes.initial = (⟨listId, 0⟩ : NodeRef) ∧
      Normalized (⟨listId, 0⟩ : NodeRef) h2 := by
  have hok2 : ((words.foldlM (fun (s : NodeList × Heap) word =>
        word.foldlM (fun (t : NodeRef × NodeList × Heap) charCode =>
            getNext options.maxCharacter t.2.1 t.2.2 t.1 charCode)
          (s.1.initial, s.1, s.2) >>= fun t =>
        Except.ok ({ t.2.1 with final := addFinal t.2.1.final t.1 }, t.2.2))
      ((⟨listId, 1, []⟩ : NodeList),
        (h.setOut ⟨listId, 0⟩ []).setInn ⟨listId, 0⟩ [])) >>= fun s =>
      baseOptimizationReuseFinalStates s.1 s.2 ⟨s.1.initial, s.1.final⟩ >>= fun p =>
      Except.ok ((⟨{ s.1 with final := p.2.final }, options⟩ : NFA), p.1)) =
      Except.ok (A, h2) := hok
  rw [exceptBind_eq_ok] at hok2
  obtain ⟨s, hfold, hrest⟩ := hok2
  rw [exceptBind_eq_ok] at hrest
  obtain ⟨p, hopt, hfin⟩ := hrest
  have hp := Except.ok.inj hfin
  rw [Prod.mk.injEq] at hp
  obtain ⟨rfl, rfl⟩ := hp
  have hN0 : Normalized (⟨listId, 0⟩ : NodeRef)
      ((h.setOut ⟨listId, 0⟩ []).setInn ⟨listId, 0⟩ []) := by
    constructor
    · simp
    · intro x
      show lookupA (((h.setOut ⟨listId, 0⟩ []).setInn ⟨listId, 0⟩ []).out x)
        ⟨listId, 0⟩ = none
      simp only [setInn_out, setOut_out]
      by_cases hx : x = (⟨listId, 0⟩ : NodeRef)
      · rw [if_pos hx]
        rfl
      · rw [if_neg hx]
        exact hfresh x
  have hPs := @foldlM_inv (List ℚ) (NodeList × Heap)
    (fun s => s.1.listId = listId ∧ 1 ≤ s.1.nodeCounter ∧
      Normalized (⟨listId, 0⟩ : NodeRef) s.2) _ words _ _
    ⟨rfl, le_refl 1, hN0⟩
    (fun s1 word _ hP s2 hs2 => by
      rw [exceptBind_eq_ok] at hs2
      obtain ⟨t, htf, hpure⟩ := hs2
      obtain rfl := Except.ok.inj hpure
      have hQ := @foldlM_inv ℚ (NodeRef × NodeList × Heap)
        (fun t => t.2.1.listId = listId ∧ 1 ≤ t.2.1.nodeCounter ∧
          Normalized (⟨listId, 0⟩ : NodeRef) t.2.2) _ word _ _
        ⟨hP.1, hP.2.1, hP.2.2⟩
        (fun t1 c _ hQ1 t2 hg => by
          obtain ⟨hN2, hlid2, hcnt2⟩ :=
            Normalized_getNext hQ1.2.2 rfl hQ1.2.1 hg
          exact ⟨hlid2.trans hQ1.1, hcnt2, hN2⟩)
        htf
      exact ⟨hQ.1.1, hQ.1.2.1, hQ.1.2.2⟩)
    hfold
  obtain ⟨hlidS, hcntS, hNS⟩ := hPs.1
  have hiniS : s.1.initial = (⟨listId, 0⟩ : NodeRef) := by
    show (⟨s.1.listId, 0⟩ : NodeRef) = (⟨listId, 0⟩ : NodeRef)
    rw [hlidS]
  obtain ⟨hNP, -, -⟩ := Normalized_baseOpt hNS
    (fun f _ hne => by
      show f ≠ (⟨listId, 0⟩ : NodeRef)
      rw [← hiniS]
      exact hne)
    hopt
  constructor
  · show (⟨s.1.listId, 0⟩ : NodeRef) = (⟨listId, 0⟩ : NodeRef)
    rw [hlidS]
  · exact hNP

theorem Normalized_baseReplaceWith {i : NodeRef} {nl : NodeList} {h : Heap}
    {base replacement : SubList} {h2 : Heap} {base2 : SubList}
    (hN : Normalized i h)
    (hok : baseReplaceWith nl h base replacement = .ok (h2, base2)) :
    Normalized i h2 := by
  have hok2 : (baseMakeEmpty nl h base >>= fun s =>
      (s.1.out replacement.initial).foldlM (fun hh e =>
        linkNodes nl hh s.2.initial e.1 e.2 >>= fun h3 =>
          unlinkNodes nl h3 replacement.initial e.1) s.1 >>= fun hB =>
      Except.ok (hB, { s.2 with final := (replacement.final.foldl (fun acc f =>
        addFinal acc (if f = replacement.initial then s.2.initial else f))
        s.2.final) })) = Except.ok (h2, base2) := hok
  rw [exceptBind_eq_ok] at hok2
  obtain ⟨s, hmk, hrest⟩ := hok2
  rw [exceptBind_eq_ok] at hrest
  obtain ⟨hB, hfold, hfin⟩ := hrest
  have hp := Except.ok.inj hfin
  rw [Prod.mk.injEq] at hp
  obtain ⟨rfl, rfl⟩ := hp
  obtain ⟨c1, c2⟩ := s
  obtain ⟨hN1, -⟩ := Normalized_baseMakeEmpty hN hmk
  have hne : ∀ e ∈ c1.out replacement.initial, e.1 ≠ i :=
    fun e he => ne_of_lookupA_none (hN1.2 replacement.initial) he
  exact (@foldlM_inv (NodeRef × CharSet) Heap (fun s => Normalized i s) _ _ _ _ hN1
    (fun s3 e he hP3 s4 hs4 => by
      rw [exceptBind_eq_ok] at hs4
      obtain ⟨h3, hlink, hunlink⟩ := hs4
      exact Normalized_unlinkNodes
        (Normalized_linkNodes hP3 (hne e he) hlink) hunlink)
    hfold).1

/-- C3, `quantify`: normalization is preserved. -/
theorem Normalized_quantify {A : NFA} {h : Heap} {mn : Nat} {mx : Option Nat}
    {B : NFA} {h2 : Heap}
    (hN : Normalized A.nodes.initial h) (hcnt : 1 ≤ A.nodes.nodeCounter)
    (hok : NFA.quantify A h mn mx = .ok (B, h2)) :
    B.nodes.initial = A.nodes.initial ∧ Normalized B.nodes.initial h2 := by
  unfold NFA.quantify at hok
  by_cases hg : minGtMax mn mx = true
  · rw [if_pos hg] at hok
    exact (Except.noConfusion hok)
  · rw [if_neg hg] at hok
    have hok2 : (baseQuantify A.nodes h ⟨A.nodes.initial, A.nodes.final⟩ mn mx >>=
        fun s => Except.ok (({ A with
          nodes := { s.1 with final := s.2.2.final } } : NFA), s.2.1)) =
        Except.ok (B, h2) := hok
    rw [exceptBind_eq_ok] at hok2
    obtain ⟨s, hq, hfin⟩ := hok2
    obtain ⟨nl1, h1, base1⟩ := s
    obtain ⟨hN2, hlid, hmono, hcnt2, hini, hfinm⟩ :=
      Normalized_baseQuantify hN rfl hcnt hq
    have hp := Except.ok.inj hfin
    rw [Prod.mk.injEq] at hp
    obtain ⟨rfl, rfl⟩ := hp
    have hiniB : (⟨nl1.listId, 0⟩ : NodeRef) = A.nodes.initial := by
      show (⟨nl1.listId, 0⟩ : NodeRef) = (⟨A.nodes.listId, 0⟩ : NodeRef)
      rw [hlid]
    refine ⟨hiniB, ?_⟩
    show Normalized (⟨nl1.listId, 0⟩ : NodeRef) h1
    rw [hiniB]
    exact hN2

/-- C3, `concat`: normalization is preserved (both the self-delegation to
`quantify(2,2)` and the plain `baseConcat` path). -/
theorem Normalized_concat {A B : NFA} {h : Heap} {C : NFA} {h2 : Heap}
    (hN : Normalized A.nodes.initial h) (hcnt : 1 ≤ A.nodes.nodeCounter)
    (hok : NFA.concat A B h = .ok (C, h2)) :
    C.nodes.initial = A.nodes.initial ∧ Normalized C.nodes.initial h2 := by
  unfold NFA.concat at hok
  by_cases hid : B.nodes.listId = A.nodes.listId
  · rw [if_pos hid] at hok
    exact Normalized_quantify hN hcnt hok
  · rw [if_neg hid] at hok
    have hok2 : (checkOptionsCompatibility A.options B.options >>= fun _ =>
        baseConcat A.nodes h ⟨A.nodes.initial, A.nodes.final⟩
          ⟨B.nodes.initial, B.nodes.final⟩ >>= fun s =>
        Except.ok (({ A with
          nodes := { A.nodes with final := s.2.final } } : NFA), s.1)) =
        Except.ok (C, h2) := hok
    rw [exceptBind_eq_ok] at hok2
    obtain ⟨u, hchk, hrest⟩ := hok2
    rw [exceptBind_eq_ok] at hrest
    obtain ⟨s, hcat, hfin⟩ := hrest
    obtain ⟨hN2, -, -⟩ := Normalized_baseConcat hN hcat
    have hp := Except.ok.inj hfin
    rw [Prod.mk.injEq] at hp
    obtain ⟨rfl, rfl⟩ := hp
    exact ⟨rfl, hN2⟩

/-- C3, `union`: normalization is preserved (given it holds for the mutated NFA). -/
theorem Normalized_union {A B : NFA} {h : Heap} {C : NFA} {h2 : Heap}
    (hN : Normalized A.nodes.initial h) (hcnt : 1 ≤ A.nodes.nodeCounter)
    (hok : NFA.union A B h = .ok (C, h2)) :
    C.nodes.initial = A.nodes.initial ∧ Normalized C.nodes.initial h2 := by
  unfold NFA.union at hok
  by_cases hid : B.nodes.listId = A.nodes.listId
  · rw [if_pos hid] at hok
    have hp := Except.ok.inj hok
    rw [Prod.mk.injEq] at hp
    obtain ⟨rfl, rfl⟩ := hp
    exact ⟨rfl, hN⟩
  · rw [if_neg hid] at hok
    have hok2 : (checkOptionsCompatibility A.options B.options >>= fun _ =>
        localCopy A.nodes h ⟨B.nodes.initial, B.nodes.final⟩ >>= fun s1 =>
        baseUnion s1.2.1 s1.2.2 ⟨s1.2.1.initial, s1.2.1.final⟩ s1.1 >>= fun s2 =>
        Except.ok (({ A with
          nodes := { s1.2.1 with final := s2.2.final } } : NFA), s2.1)) =
        Except.ok (C, h2) := hok
    rw [exceptBind_eq_ok] at hok2
    obtain ⟨u, hchk, hrest⟩ := hok2
    rw [exceptBind_eq_ok] at hrest
    obtain ⟨s1, hcopy, hrest2⟩ := hrest
    rw [exceptBind_eq_ok] at hrest2
    obtain ⟨s2, hunion, hfin⟩ := hrest2
    obtain ⟨cs, nl1, h1⟩ := s1
    obtain ⟨hN1, hlid1, hmono1, hcnt1, hcine, hcfne⟩ :=
      Normalized_localCopy hN rfl hcnt hcopy
    have hini1 : (⟨nl1.listId, 0⟩ : NodeRef) = A.nodes.initial := by
      show (⟨nl1.listId, 0⟩ : NodeRef) = (⟨A.nodes.listId, 0⟩ : NodeRef)
      rw [hlid1]
    obtain ⟨hN2, -, -⟩ := Normalized_baseUnion hN1
      (fun f _ hne => by
        show f ≠ A.nodes.initial
        rw [← hini1]
        exact hne)
      hcfne hunion
    have hp := Except.ok.inj hfin
    rw [Prod.mk.injEq] at hp
    obtain ⟨rfl, rfl⟩ := hp
    refine ⟨hini1, ?_⟩
    show Normalized (⟨nl1.listId, 0⟩ : NodeRef) s2.1
    rw [hini1]
    exact hN2

/-- C3, `copy`: the fresh NFA produced by `copy()` is normalized (given that
nothing in the input heap already points at the fresh list's initial ref). -/
theorem Normalized_copy {A : NFA} {h : Heap} {freshId : Nat} {C : NFA} {h2 : Heap}
    (hfresh : ∀ x : NodeRef, lookupA (h.out x) ⟨freshId, 0⟩ = none)
    (hok : NFA.copy A h freshId = .ok (C, h2)) :
    C.nodes.initial = (⟨freshId, 0⟩ : NodeRef) ∧ Normalized C.nodes.initial h2 := by
  unfold NFA.copy at hok
  have hN0 : Normalized ((⟨(NodeList.new freshId h).1.listId, 0⟩ : NodeRef))
      (NodeList.new freshId h).2 := by
    constructor
    · show ((h.setOut ⟨freshId, 0⟩ []).setInn ⟨freshId, 0⟩ []).inn ⟨freshId, 0⟩ = []
      simp
    · intro x
      show lookupA (((h.setOut ⟨freshId, 0⟩ []).setInn ⟨freshId, 0⟩ []).out x)
        ⟨freshId, 0⟩ = none
      simp only [setInn_out, setOut_out]
      by_cases hx : x = (⟨freshId, 0⟩ : NodeRef)
      · rw [if_pos hx]
        rfl
      · rw [if_neg hx]
        exact hfresh x
  obtain ⟨hini, hN2⟩ := @Normalized_union ⟨(NodeList.new freshId h).1, A.options⟩ A
    (NodeList.new freshId h).2 C h2 hN0 (le_refl 1) hok
  exact ⟨hini, hN2⟩

/-- C3, the regex compiler: every `handle*` function of `createNodeList` preserves
normalization; the `SubList`s it produces never involve the node with id 0 (the
root initial), so the later `baseUnion` merges cannot link into it.  Proved by
strong induction on the combined measure `5 * sizeOf + rank` that also drives the
functions' termination. -/
theorem compiler_normalized (opts : NFAOptions) {i : NodeRef} (hi : i.id = 0) :
    ∀ N : Nat,
    ((∀ (alts : List (List Element)) (nl : NodeList) (h : Heap) (sub : SubList)
        (nl2 : NodeList) (h2 : Heap),
        5 * sizeOf alts + 3 ≤ N →
        1 ≤ nl.nodeCounter → Normalized i h →
        handleAlternation opts alts nl h = .ok (sub, nl2, h2) →
        nl2.listId = nl.listId ∧ nl.nodeCounter ≤ nl2.nodeCounter ∧
          1 ≤ nl2.nodeCounter ∧ Normalized i h2 ∧ sub.initial ≠ i ∧
          ∀ f ∈ sub.final, f ≠ i) ∧
      (∀ (alts : List (List Element)) (base : SubList) (nl : NodeList) (h : Heap)
        (sub : SubList) (nl2 : NodeList) (h2 : Heap),
        5 * sizeOf alts + 2 ≤ N →
        1 ≤ nl.nodeCounter → Normalized i h →
        base.initial ≠ i → (∀ f ∈ base.final, f ≠ i) →
        handleAlternationRest opts alts base nl h = .ok (sub, nl2, h2) →
        nl2.listId = nl.listId ∧ nl.nodeCounter ≤ nl2.nodeCounter ∧
          1 ≤ nl2.nodeCounter ∧ Normalized i h2 ∧ sub.initial ≠ i ∧
          ∀ f ∈ sub.final, f ≠ i) ∧
      (∀ (es : List Element) (nl : NodeList) (h : Heap) (sub : SubList)
        (nl2 : NodeList) (h2 : Heap),
        5 * sizeOf es + 2 ≤ N →
        1 ≤ nl.nodeCounter → Normalized i h →
        handleConcatenation opts es nl h = .ok (sub, nl2, h2) →
        nl2.listId = nl.listId ∧ nl.nodeCounter ≤ nl2.nodeCounter ∧
          1 ≤ nl2.nodeCounter ∧ Normalized i h2 ∧ sub.initial ≠ i ∧
          ∀ f ∈ sub.final, f ≠ i) ∧
      (∀ (es : List Element) (base : SubList) (nl : NodeList) (h : Heap)
        (sub : SubList) (nl2 : NodeList) (h2 : Heap),
        5 * sizeOf es + 1 ≤ N →
        1 ≤ nl.nodeCounter → Normalized i h →
        base.initial ≠ i → (∀ f ∈ base.final, f ≠ i) →
        handleConcatElements opts es base nl h = .ok (sub, nl2, h2) →
        nl2.listId = nl.listId ∧ nl.nodeCounter ≤ nl2.nodeCounter ∧
          1 ≤ nl2.nodeCounter ∧ Normalized i h2 ∧ sub.initial ≠ i ∧
          ∀ f ∈ sub.final, f ≠ i) ∧
      (∀ (e : Element) (base : SubList) (nl : NodeList) (h : Heap) (sub : SubList)
        (nl2 : NodeList) (h2 : Heap),
        5 * sizeOf e + 4 ≤ N →
        1 ≤ nl.nodeCounter → Normalized i h →
        base.initial ≠ i → (∀ f ∈ base.final, f ≠ i) →
        handleElement opts e base nl h = .ok (sub, nl2, h2) →
        nl2.listId = nl.listId ∧ nl.nodeCounter ≤ nl2.nodeCounter ∧
          1 ≤ nl2.nodeCounter ∧ Normalized i h2 ∧ sub.initial ≠ i ∧
          ∀ f ∈ sub.final, f ≠ i) ∧
      (∀ (alts : List (List Element)) (mn : Nat) (mx : Option Nat) (nl : NodeList)
        (h : Heap) (sub : SubList) (nl2 : NodeList) (h2 : Heap),
        5 * sizeOf alts + 4 ≤ N →
        1 ≤ nl.nodeCounter → Normalized i h →
        handleQuantifier opts alts mn mx nl h = .ok (sub, nl2, h2) →
        nl2.listId = nl.listId ∧ nl.nodeCounter ≤ nl2.nodeCounter ∧
          1 ≤ nl2.nodeCounter ∧ Normalized i h2 ∧ sub.initial ≠ i ∧
          ∀ f ∈ sub.final, f ≠ i)) := by
  intro N
  induction N using Nat.strong_induction_on with
  | _ N ih =>
  have hfreshne : ∀ (nl : NodeList), 1 ≤ nl.nodeCounter →
      (⟨nl.listId, nl.nodeCounter⟩ : NodeRef) ≠ i := by
    intro nl hcnt hc
    have hid := congrArg NodeRef.id hc
    simp only at hid
    rw [hi] at hid
    omega
  refine ⟨?_, ?_, ?_, ?_, ?_, ?_⟩
  · -- handleAlternation
    intro alts nl h sub nl2 h2 hb hcnt hN hok
    cases alts with
    | nil =>
        unfold handleAlternation at hok
        have hok2 : Except.ok ((⟨(createNode nl h).1, []⟩ : SubList),
            (createNode nl h).2.1, (createNode nl h).2.2) =
            Except.ok (sub, nl2, h2) := hok
        have hp := Except.ok.inj hok2
        rw [Prod.mk.injEq, Prod.mk.injEq] at hp
        obtain ⟨rfl, rfl, rfl⟩ := hp
        refine ⟨rfl, Nat.le_succ nl.nodeCounter, Nat.le_add_left 1 nl.nodeCounter,
          Normalized_createNode hN, hfreshne nl hcnt, ?_⟩
        intro f hf
        exact absurd hf (List.not_mem_nil f)
    | cons c rest =>
        unfold handleAlternation at hok
        have hok2 : (handleConcatenation opts c nl h >>= fun s1 =>
            handleAlternationRest opts rest s1.1 s1.2.1 s1.2.2) =
            Except.ok (sub, nl2, h2) := hok
        rw [exceptBind_eq_ok] at hok2
        obtain ⟨s1, hc1, hrest⟩ := hok2
        obtain ⟨sub1, nlA, hA⟩ := s1
        have hsz : sizeOf (c :: rest) = 1 + sizeOf c + sizeOf rest := by simp
        obtain ⟨hlidA, hmonoA, hcntA, hNA, hiniA, hfinA⟩ :=
          (ih (5 * sizeOf c + 2) (by omega)).2.2.1 c nl h sub1 nlA hA
            (le_refl _) hcnt hN hc1
        obtain ⟨hlidB, hmonoB, hcntB, hNB, hiniB, hfinB⟩ :=
          (ih (5 * sizeOf rest + 2) (by omega)).2.1 rest sub1 nlA hA sub nl2 h2
            (le_refl _) hcntA hNA hiniA hfinA hrest
        exact ⟨hlidB.trans hlidA, le_trans hmonoA hmonoB, hcntB, hNB, hiniB, hfinB⟩
  · -- handleAlternationRest
    intro alts base nl h sub nl2 h2 hb hcnt hN hbi hbf hok
    cases alts with
    | nil =>
        unfold handleAlternationRest at hok
        have hp := Except.ok.inj hok
        rw [Prod.mk.injEq, Prod.mk.injEq] at hp
        obtain ⟨rfl, rfl, rfl⟩ := hp
        exact ⟨rfl, le_refl _, hcnt, hN, hbi, hbf⟩
    | cons c rest =>
        unfold handleAlternationRest at hok
        have hok2 : (handleConcatenation opts c nl h >>= fun s1 =>
            baseUnion s1.2.1 s1.2.2 base s1.1 >>= fun s2 =>
            handleAlternationRest opts rest s2.2 s1.2.1 s2.1) =
            Except.ok (sub, nl2, h2) := hok
        rw [exceptBind_eq_ok] at hok2
        obtain ⟨s1, hc1, hrest⟩ := hok2
        rw [exceptBind_eq_ok] at hrest
        obtain ⟨s2, hun, hrest2⟩ := hrest
        obtain ⟨sub1, nlA, hA⟩ := s1
        obtain ⟨hB, base2⟩ := s2
        have hsz : sizeOf (c :: rest) = 1 + sizeOf c + sizeOf rest := by simp
        obtain ⟨hlidA, hmonoA, hcntA, hNA, hiniA, hfinA⟩ :=
          (ih (5 * sizeOf c + 2) (by omega)).2.2.1 c nl h sub1 nlA hA
            (le_refl _) hcnt hN hc1
        obtain ⟨hNB, hini2, hfin2⟩ :=
          Normalized_baseUnion hNA (fun f hf _ => hbf f hf) hfinA hun
        have hbase2i : base2.initial ≠ i := by
          rw [hini2]
          exact hbi
        have hbase2f : ∀ f ∈ base2.final, f ≠ i := by
          intro f hf
          rcases hfin2 f hf with h1 | h1 | h1
          · exact hbf f h1
          · exact h1 ▸ hbi
          · exact hfinA f h1
        obtain ⟨hlidC, hmonoC, hcntC, hNC, hiniC, hfinC⟩ :=
          (ih (5 * sizeOf rest + 2) (by omega)).2.1 rest base2 nlA hB sub nl2 h2
            (le_refl _) hcntA hNB hbase2i hbase2f hrest2
        exact ⟨hlidC.trans hlidA, le_trans hmonoA hmonoC, hcntC, hNC, hiniC, hfinC⟩
  · -- handleConcatenation
    intro es nl h sub nl2 h2 hb hcnt hN hok
    unfold handleConcatenation at hok
    have hok2 : handleConcatElements opts es
        ⟨(createNode nl h).1, [(createNode nl h).1]⟩ (createNode nl h).2.1
        (createNode nl h).2.2 = Except.ok (sub, nl2, h2) := hok
    have hfres := hfreshne nl hcnt
    obtain ⟨hlidA, hmonoA, hcntA, hNA, hiniA, hfinA⟩ :=
      (ih (5 * sizeOf es + 1) (by omega)).2.2.2.1 es
        ⟨(createNode nl h).1, [(createNode nl h).1]⟩ (createNode nl h).2.1
        (createNode nl h).2.2 sub nl2 h2 (le_refl _)
        (by show 1 ≤ nl.nodeCounter + 1; omega)
        (Normalized_createNode hN) hfres
        (by
          intro f hf
          rw [List.mem_singleton] at hf
          exact hf ▸ hfres)
        hok2
    refine ⟨hlidA, ?_, hcntA, hNA, hiniA, hfinA⟩
    exact le_trans (Nat.le_succ _) hmonoA
  · -- handleConcatElements
    intro es base nl h sub nl2 h2 hb hcnt hN hbi hbf hok
    cases es with
    | nil =>
        unfold handleConcatElements at hok
        have hp := Except.ok.inj hok
        rw [Prod.mk.injEq, Prod.mk.injEq] at hp
        obtain ⟨rfl, rfl, rfl⟩ := hp
        exact ⟨rfl, le_refl _, hcnt, hN, hbi, hbf⟩
    | cons e rest =>
        unfold handleConcatElements at hok
        by_cases hfe : base.final = []
        · rw [if_pos hfe] at hok
          have hp := Except.ok.inj hok
          rw [Prod.mk.injEq, Prod.mk.injEq] at hp
          obtain ⟨rfl, rfl, rfl⟩ := hp
          exact ⟨rfl, le_refl _, hcnt, hN, hbi, hbf⟩
        · rw [if_neg hfe] at hok
          have hok2 : (handleElement opts e base nl h >>= fun s1 =>
              handleConcatElements opts rest s1.1 s1.2.1 s1.2.2) =
              Except.ok (sub, nl2, h2) := hok
          rw [exceptBind_eq_ok] at hok2
          obtain ⟨s1, he1, hrest⟩ := hok2
          obtain ⟨sub1, nlA, hA⟩ := s1
          have hsz : sizeOf (e :: rest) = 1 + sizeOf e + sizeOf rest := by simp
          obtain ⟨hlidA, hmonoA, hcntA, hNA, hiniA, hfinA⟩ :=
            (ih (5 * sizeOf e + 4) (by omega)).2.2.2.2.1 e base nl h sub1 nlA hA
              (le_refl _) hcnt hN hbi hbf he1
          obtain ⟨hlidB, hmonoB, hcntB, hNB, hiniB, hfinB⟩ :=
            (ih (5 * sizeOf rest + 1) (by omega)).2.2.2.1 rest sub1 nlA hA sub
              nl2 h2 (le_refl _) hcntA hNA hiniA hfinA hrest
          exact ⟨hlidB.trans hlidA, le_trans hmonoA hmonoB, hcntB, hNB, hiniB,
            hfinB⟩
  · -- handleElement
    intro e base nl h sub nl2 h2 hb hcnt hN hbi hbf hok
    cases e with
    | alternation alts =>
        unfold handleElement at hok
        have hok2 : (handleAlternation opts alts nl h >>= fun s1 =>
            baseConcat s1.2.1 s1.2.2 base s1.1 >>= fun s2 =>
            Except.ok (s2.2, s1.2.1, s2.1)) = Except.ok (sub, nl2, h2) := hok
        rw [exceptBind_eq_ok] at hok2
        obtain ⟨s1, ha1, hrest⟩ := hok2
        rw [exceptBind_eq_ok] at hrest
        obtain ⟨s2, hcat, hfin⟩ := hrest
        obtain ⟨sub1, nlA, hA⟩ := s1
        obtain ⟨hB, base2⟩ := s2
        have hsz : sizeOf (Element.alternation alts) = 1 + sizeOf alts := by simp
        obtain ⟨hlidA, hmonoA, hcntA, hNA, hiniA, hfinA⟩ :=
          (ih (5 * sizeOf alts + 3) (by omega)).1 alts nl h sub1 nlA hA
            (le_refl _) hcnt hN ha1
        obtain ⟨hNB, hini2, hfin2⟩ := Normalized_baseConcat hNA hcat
        have hp := Except.ok.inj hfin
        rw [Prod.mk.injEq, Prod.mk.injEq] at hp
        obtain ⟨rfl, rfl, rfl⟩ := hp
        refine ⟨hlidA, hmonoA, hcntA, hNB, by rw [hini2]; exact hbi, ?_⟩
        intro f hf
        rcases hfin2 f hf with h1 | h1
        · exact hbf f h1
        · exact hfinA f h1
    | assertion =>
        unfold handleElement at hok
        exact (Except.noConfusion hok)
    | characterClass chars =>
        unfold handleElement at hok
        by_cases hmc : chars.maximum ≠ opts.maxCharacter
        · rw [if_pos hmc] at hok
          exact (Except.noConfusion hok)
        · rw [if_neg hmc] at hok
          by_cases hce : chars.isEmpty = true
          · rw [if_pos hce] at hok
            have hok2 : (baseMakeEmpty nl h base >>= fun s =>
                Except.ok (s.2, nl, s.1)) = Except.ok (sub, nl2, h2) := hok
            rw [exceptBind_eq_ok] at hok2
            obtain ⟨s, hmk, hfin⟩ := hok2
            obtain ⟨hN1, hb1⟩ := Normalized_baseMakeEmpty hN hmk
            have hp := Except.ok.inj hfin
            rw [Prod.mk.injEq, Prod.mk.injEq] at hp
            obtain ⟨rfl, rfl, rfl⟩ := hp
            refine ⟨rfl, le_refl _, hcnt, hN1, by rw [hb1]; exact hbi, ?_⟩
            intro f hf
            rw [hb1] at hf
            exact absurd hf (List.not_mem_nil f)
          · rw [if_neg hce] at hok
            have hok2 : (base.final.foldlM (fun hh f =>
                linkNodes (createNode nl h).2.1 hh f (createNode nl h).1 chars)
                (createNode nl h).2.2 >>= fun hh2 =>
                Except.ok (({ base with final := [(createNode nl h).1] } : SubList),
                  (createNode nl h).2.1, hh2)) = Except.ok (sub, nl2, h2) := hok
            rw [exceptBind_eq_ok] at hok2
            obtain ⟨hh2, hfold, hfin⟩ := hok2
            have hfres := hfreshne nl hcnt
            have hN1 : Normalized i hh2 :=
              (@foldlM_inv NodeRef Heap (fun s => Normalized i s) _ _ _ _
                (Normalized_createNode hN)
                (fun s f _ hP s2 hs2 => Normalized_linkNodes hP hfres hs2)
                hfold).1
            have hp := Except.ok.inj hfin
            rw [Prod.mk.injEq, Prod.mk.injEq] at hp
            obtain ⟨rfl, rfl, rfl⟩ := hp
            refine ⟨rfl, Nat.le_succ _, by show 1 ≤ nl.nodeCounter + 1; omega,
              hN1, hbi, ?_⟩
            intro f hf
            rw [List.mem_singleton] at hf
            exact hf ▸ hfres
    | quantifier alts mn mx =>
        unfold handleElement at hok
        have hok2 : (handleQuantifier opts alts mn mx nl h >>= fun s1 =>
            baseConcat s1.2.1 s1.2.2 base s1.1 >>= fun s2 =>
            Except.ok (s2.2, s1.2.1, s2.1)) = Except.ok (sub, nl2, h2) := hok
        rw [exceptBind_eq_ok] at hok2
        obtain ⟨s1, hq1, hrest⟩ := hok2
        rw [exceptBind_eq_ok] at hrest
        obtain ⟨s2, hcat, hfin⟩ := hrest
        obtain ⟨sub1, nlA, hA⟩ := s1
        obtain ⟨hB, base2⟩ := s2
        have hsz : sizeOf (Element.quantifier alts mn mx) =
            1 + sizeOf alts + sizeOf mn + sizeOf mx := by simp
        obtain ⟨hlidA, hmonoA, hcntA, hNA, hiniA, hfinA⟩ :=
          (ih (5 * sizeOf alts + 4) (by
            have hmn : 0 ≤ sizeOf mn := Nat.zero_le _
            have hmx : 0 ≤ sizeOf mx := Nat.zero_le _
            omega)).2.2.2.2.2 alts mn mx nl h sub1 nlA hA
            (le_refl _) hcnt hN hq1
        obtain ⟨hNB, hini2, hfin2⟩ := Normalized_baseConcat hNA hcat
        have hp := Except.ok.inj hfin
        rw [Prod.mk.injEq, Prod.mk.injEq] at hp
        obtain ⟨rfl, rfl, rfl⟩ := hp
        refine ⟨hlidA, hmonoA, hcntA, hNB, by rw [hini2]; exact hbi, ?_⟩
        intro f hf
        rcases hfin2 f hf with h1 | h1
        · exact hbf f h1
        · exact hfinA f h1
  · -- handleQuantifier
    intro alts mn mx nl h sub nl2 h2 hb hcnt hN hok
    unfold handleQuantifier at hok
    have hok2 : (handleAlternation opts alts nl h >>= fun s1 =>
        baseQuantify s1.2.1 s1.2.2 s1.1 mn mx >>= fun s2 =>
        Except.ok (s2.2.2, s2.1, s2.2.1)) = Except.ok (sub, nl2, h2) := hok
    rw [exceptBind_eq_ok] at hok2
    obtain ⟨s1, ha1, hrest⟩ := hok2
    rw [exceptBind_eq_ok] at hrest
    obtain ⟨s2, hq, hfin⟩ := hrest
    obtain ⟨sub1, nlA, hA⟩ := s1
    obtain ⟨nlB, hB, base2⟩ := s2
    obtain ⟨hlidA, hmonoA, hcntA, hNA, hiniA, hfinA⟩ :=
      (ih (5 * sizeOf alts + 3) (by omega)).1 alts nl h sub1 nlA hA
        (le_refl _) hcnt hN ha1
    obtain ⟨hNB, hlidB, hmonoB, hcntB, hiniB, hfinB⟩ :=
      Normalized_baseQuantify hNA hi hcntA hq
    have hp := Except.ok.inj hfin
    rw [Prod.mk.injEq, Prod.mk.injEq] at hp
    obtain ⟨rfl, rfl, rfl⟩ := hp
    refine ⟨hlidB.trans hlidA, le_trans hmonoA hmonoB, hcntB, hNB,
      by rw [hiniB]; exact hiniA, ?_⟩
    intro f hf
    rcases hfinB f hf with h1 | h1 | h1
    · exact hfinA f h1
    · exact h1 ▸ hiniA
    · exact h1

/-- C3, `fromRegex`: the result's initial node has no incoming edges (given that
nothing in the input heap already points at the fresh list's initial ref). -/
theorem Normalized_fromRegex {alternatives : List (List Element)}
    {options : NFAOptions} {listId : Nat} {h : Heap} {A : NFA} {h2 : Heap}
    (hfresh : ∀ x : NodeRef, lookupA (h.out x) ⟨listId, 0⟩ = none)
    (hok : NFA.fromRegex alternatives options listId h = .ok (A, h2)) :
    A.nodes.initial = (⟨listId, 0⟩ : NodeRef) ∧
      Normalized (⟨listId, 0⟩ : NodeRef) h2 := by
  have hok2 : (createNodeList alternatives options listId h >>= fun q =>
      Except.ok ((⟨q.1, options⟩ : NFA), q.2)) = Except.ok (A, h2) := hok
  rw [exceptBind_eq_ok] at hok2
  obtain ⟨q, hcnl, hfin⟩ := hok2
  have hp := Except.ok.inj hfin
  rw [Prod.mk.injEq] at hp
  obtain ⟨rfl, rfl⟩ := hp
  have hcnl2 : (handleAlternation options alternatives (⟨listId, 1, []⟩ : NodeList)
      ((h.setOut ⟨listId, 0⟩ []).setInn ⟨listId, 0⟩ []) >>= fun s =>
      baseReplaceWith s.2.1 s.2.2 ⟨s.2.1.initial, s.2.1.final⟩ s.1 >>= fun p =>
      Except.ok (({ s.2.1 with final := p.2.final } : NodeList), p.1)) =
      Except.ok q := hcnl
  rw [exceptBind_eq_ok] at hcnl2
  obtain ⟨s, hha, hrest⟩ := hcnl2
  rw [exceptBind_eq_ok] at hrest
  obtain ⟨p, hrepl, hfin2⟩ := hrest
  obtain ⟨sub, nlA, hA⟩ := s
  have hN0 : Normalized (⟨listId, 0⟩ : NodeRef)
      ((h.setOut ⟨listId, 0⟩ []).setInn ⟨listId, 0⟩ []) := by
    constructor
    · simp
    · intro x
      show lookupA (((h.setOut ⟨listId, 0⟩ []).setInn ⟨listId, 0⟩ []).out x)
        ⟨listId, 0⟩ = none
      simp only [setInn_out, setOut_out]
      by_cases hx : x = (⟨listId, 0⟩ : NodeRef)
      · rw [if_pos hx]
        rfl
      · rw [if_neg hx]
        exact hfresh x
  obtain ⟨hlidA, hmonoA, hcntA, hNA, hiniA, hfinA⟩ :=
    ((compiler_normalized options rfl (5 * sizeOf alternatives + 3)).1)
      alternatives ⟨listId, 1, []⟩
      ((h.setOut ⟨listId, 0⟩ []).setInn ⟨listId, 0⟩ []) sub nlA hA
      (le_refl _) (le_refl 1) hN0 hha
  have hNB : Normalized (⟨listId, 0⟩ : NodeRef) p.1 :=
    Normalized_baseReplaceWith hNA hrepl
  obtain ⟨q1, q2⟩ := q
  have hp2 := Except.ok.inj hfin2
  rw [Prod.mk.injEq] at hp2
  obtain ⟨hq1, rfl⟩ := hp2
  subst hq1
  constructor
  · show (⟨nlA.listId, 0⟩ : NodeRef) = (⟨listId, 0⟩ : NodeRef)
    rw [hlidA]
  · show Normalized (⟨listId, 0⟩ : NodeRef) p.1
    exact hNB

theorem Normalized_removeNode {i : NodeRef} {nl : NodeList} {h : Heap}
    {node : NodeRef} {p : NodeList × Heap}
    (hN : Normalized i h) (hok : removeNode nl h node = .ok p) :
    Normalized i p.2 ∧ p.1.listId = nl.listId := by
  unfold removeNode at hok
  by_cases hne : node = nl.initial
  · rw [if_pos hne] at hok
    exact (Except.noConfusion hok)
  · rw [if_neg hne] at hok
    have hok2 : ((succOut h node).foldlM (fun h2 t =>
        unlinkNodes { nl with final := delFinal nl.final node } h2 node t) h >>=
        fun hh =>
        (succInn hh node).foldlM (fun h2 s =>
          unlinkNodes { nl with final := delFinal nl.final node } h2 s node) hh >>=
        fun hh2 =>
        Except.ok (({ nl with final := delFinal nl.final node } : NodeList), hh2)) =
        Except.ok p := hok
    rw [exceptBind_eq_ok] at hok2
    obtain ⟨hA, hfold1, hrest⟩ := hok2
    rw [exceptBind_eq_ok] at hrest
    obtain ⟨hB, hfold2, hfin⟩ := hrest
    obtain rfl := (Except.ok.inj hfin).symm
    have hNA : Normalized i hA :=
      (@foldlM_inv NodeRef Heap (fun s => Normalized i s) _ _ _ _ hN
        (fun s t _ hP s2 hs2 => Normalized_unlinkNodes hP hs2) hfold1).1
    have hNB : Normalized i hB :=
      (@foldlM_inv NodeRef Heap (fun s => Normalized i s) _ _ _ _ hNA
        (fun s t _ hP s2 hs2 => Normalized_unlinkNodes hP hs2) hfold2).1
    exact ⟨hNB, rfl⟩

theorem Normalized_makeEmpty {nl : NodeList} {h : Heap}
    (hN : Normalized (⟨nl.listId, 0⟩ : NodeRef) h) :
    Normalized (⟨nl.listId, 0⟩ : NodeRef) (makeEmpty nl h).2 := by
  constructor
  · show ((h.setInn nl.initial []).setOut nl.initial []).inn ⟨nl.listId, 0⟩ = []
    simp only [setOut_inn, setInn_inn]
    by_cases hx : (⟨nl.listId, 0⟩ : NodeRef) = nl.initial
    · rw [if_pos hx]
    · exact absurd rfl hx
  · intro x
    show lookupA (((h.setInn nl.initial []).setOut nl.initial []).out x)
      ⟨nl.listId, 0⟩ = none
    simp only [setOut_out, setInn_out]
    by_cases hx : x = nl.initial
    · rw [if_pos hx]
      rfl
    · rw [if_neg hx]
      exact hN.2 x

/-- C3: `removeUnreachable` preserves normalization (it only unlinks edges and
clears the initial node's own maps). -/
theorem Normalized_removeUnreachable {nl : NodeList} {h : Heap} {p : NodeList × Heap}
    (hN : Normalized (⟨nl.listId, 0⟩ : NodeRef) h)
    (hok : removeUnreachable nl h = .ok p) :
    Normalized (⟨nl.listId, 0⟩ : NodeRef) p.2 ∧ p.1.listId = nl.listId := by
  unfold removeUnreachable at hok
  by_cases hfin : nl.final = []
  · rw [if_pos hfin] at hok
    obtain rfl := (Except.ok.inj hok).symm
    exact ⟨Normalized_makeEmpty hN, rfl⟩
  · rw [if_neg hfin] at hok
    have hok2 : (((closIter (fun n => succInn h n ++ succOut h n) nl.nodeCounter
          [nl.initial]).foldl addFinal nl.final).foldlM
        (fun (s : NodeList × Heap) n =>
          if n ∈ closIter (succOut h) nl.nodeCounter [nl.initial] then .ok s
          else removeNode s.1 s.2 n) (nl, h) >>= fun s =>
        if s.1.final = [] then Except.ok (makeEmpty s.1 s.2)
        else (closIter (succOut h) nl.nodeCounter [nl.initial]).foldlM
          (fun (s2 : NodeList × Heap) n =>
            if n ∈ closIter (succInn s.2) nl.nodeCounter s.1.final then .ok s2
            else removeNode s2.1 s2.2 n) s) = Except.ok p := hok
    rw [exceptBind_eq_ok] at hok2
    obtain ⟨s, hfold1, hrest⟩ := hok2
    have hPs := @foldlM_inv NodeRef (NodeList × Heap)
      (fun s => Normalized (⟨nl.listId, 0⟩ : NodeRef) s.2 ∧ s.1.listId = nl.listId)
      _ _ _ _ ⟨hN, rfl⟩
      (fun t n _ hP t2 ht2 => by
        by_cases hmem : n ∈ closIter (succOut h) nl.nodeCounter [nl.initial]
        · rw [if_pos hmem] at ht2
          obtain rfl := Except.ok.inj ht2
          exact hP
        · rw [if_neg hmem] at ht2
          obtain ⟨hN2, hlid2⟩ := Normalized_removeNode hP.1 ht2
          exact ⟨hN2, hlid2.trans hP.2⟩)
      hfold1
    obtain ⟨hNs, hlids⟩ := hPs.1
    by_cases hfe : s.1.final = []
    · rw [if_pos hfe] at hrest
      obtain rfl := (Except.ok.inj hrest).symm
      have hNs2 : Normalized (⟨s.1.listId, 0⟩ : NodeRef) s.2 := by
        rw [hlids]
        exact hNs
      refine ⟨?_, ?_⟩
      · have := Normalized_makeEmpty hNs2
        rw [hlids] at this
        exact this
      · exact hlids
    · rw [if_neg hfe] at hrest
      have hPp := @foldlM_inv NodeRef (NodeList × Heap)
        (fun t => Normalized (⟨nl.listId, 0⟩ : NodeRef) t.2 ∧ t.1.listId = nl.listId)
        _ _ _ _ ⟨hNs, hlids⟩
        (fun t n _ hP t2 ht2 => by
          by_cases hmem : n ∈ closIter (succInn s.2) nl.nodeCounter s.1.final
          · rw [if_pos hmem] at ht2
            obtain rfl := Except.ok.inj ht2
            exact hP
          · rw [if_neg hmem] at ht2
            obtain ⟨hN2, hlid2⟩ := Normalized_removeNode hP.1 ht2
            exact ⟨hN2, hlid2.trans hP.2⟩)
        hrest
      exact ⟨(hPp.1).1, (hPp.1).2⟩

theorem bfsAux_prefix (h : Heap) :
    ∀ (fuel : Nat) (tv vis : List NodeRef),
      ∃ ex, bfsAux h fuel tv vis = vis ++ ex := by
  intro fuel
  induction fuel with
  | zero =>
      intro tv vis
      exact ⟨[], by simp [bfsAux]⟩
  | succ n ih =>
      intro tv vis
      have hacc : ∀ (l : List NodeRef) (acc : List NodeRef × List NodeRef),
          ∃ ex, (l.foldl (fun (p : List NodeRef × List NodeRef) n =>
            if n ∈ p.1 then p else (p.1 ++ [n], p.2 ++ succOut h n)) acc).1 =
            acc.1 ++ ex := by
        intro l
        induction l with
        | nil => intro acc; exact ⟨[], by simp⟩
        | cons x l ihl =>
            intro acc
            rw [List.foldl_cons]
            by_cases hx : x ∈ acc.1
            · rw [if_pos hx]
              exact ihl acc
            · rw [if_neg hx]
              obtain ⟨ex, hex⟩ := ihl (acc.1 ++ [x], acc.2 ++ succOut h x)
              exact ⟨x :: ex, by rw [hex]; simp⟩
      show ∃ ex, (let p := tv.foldl (fun (p : List NodeRef × List NodeRef) n =>
          if n ∈ p.1 then p else (p.1 ++ [n], p.2 ++ succOut h n)) (vis, []);
        if p.2 = [] then p.1 else bfsAux h n p.2 p.1) = vis ++ ex
      obtain ⟨ex1, hex1⟩ := hacc tv (vis, [])
      by_cases hp2 : (tv.foldl (fun (p : List NodeRef × List NodeRef) n =>
          if n ∈ p.1 then p else (p.1 ++ [n], p.2 ++ succOut h n)) (vis, [])).2 = []
      · refine ⟨ex1, ?_⟩
        show (if _ = ([] : List NodeRef) then _ else _) = vis ++ ex1
        rw [if_pos hp2]
        exact hex1
      · obtain ⟨ex2, hex2⟩ := ih
          (tv.foldl (fun (p : List NodeRef × List NodeRef) n =>
            if n ∈ p.1 then p else (p.1 ++ [n], p.2 ++ succOut h n)) (vis, [])).2
          (tv.foldl (fun (p : List NodeRef × List NodeRef) n =>
            if n ∈ p.1 then p else (p.1 ++ [n], p.2 ++ succOut h n)) (vis, [])).1
        refine ⟨ex1 ++ ex2, ?_⟩
        show (if _ = ([] : List NodeRef) then _ else _) = vis ++ (ex1 ++ ex2)
        rw [if_neg hp2, hex2, hex1, List.append_assoc]

theorem nodesBFS_head (nl : NodeList) (h : Heap) :
    ∃ ex, nodesBFS nl h = nl.initial :: ex := by
  show ∃ ex, (if succOut h nl.initial = [] then [nl.initial]
      else bfsAux h nl.nodeCounter (succOut h nl.initial) [nl.initial]) =
      nl.initial :: ex
  by_cases hempty : succOut h nl.initial = []
  · exact ⟨[], by rw [if_pos hempty]⟩
  · obtain ⟨ex, hex⟩ := bfsAux_prefix h nl.nodeCounter (succOut h nl.initial)
      [nl.initial]
    refine ⟨ex, ?_⟩
    rw [if_neg hempty, hex]
    rfl

theorem idxA_zero_eq_head {hd : NodeRef} {tl : List NodeRef} {x : NodeRef}
    (h : idxA (hd :: tl) x = 0) : hd = x := by
  unfold idxA at h
  by_cases hx : hd = x
  · exact hx
  · rw [if_neg hx] at h
    cases h

theorem lookupA_eq_none_of_forall {m : List (NodeRef × CharSet)} {k : NodeRef}
    (hm : ∀ e ∈ m, e.1 ≠ k) : lookupA m k = none := by
  rw [lookupA_eq_none_iff]
  intro hc
  obtain ⟨e, he, heq⟩ := List.mem_map.mp hc
  exact hm e he heq

theorem translatePair_ok_iff {leftList rightList : List NodeRef} {a b : NodeRef}
    {cache : List (Nat × NodeRef)} {nl : NodeList} {h : Heap}
    {r : NodeRef × List (Nat × NodeRef) × NodeList × Heap} :
    translatePair leftList rightList a b cache nl h = .ok r ↔
      a ∈ leftList ∧ b ∈ rightList ∧
        r = translateIdx (idxA leftList a * rightList.length + idxA rightList b)
          cache nl h := by
  unfold translatePair
  by_cases hc : a ∈ leftList ∧ b ∈ rightList
  · rw [if_pos hc]
    constructor
    · intro hk
      exact ⟨hc.1, hc.2, (Except.ok.inj hk).symm⟩
    · rintro ⟨-, -, rfl⟩
      rfl
  · rw [if_neg hc]
    constructor
    · intro hk
      exact Except.noConfusion hk
    · rintro ⟨h1, h2, -⟩
      exact absurd ⟨h1, h2⟩ hc

theorem translateIdx_eq_found {key : Nat} {cache : List (Nat × NodeRef)}
    (nl : NodeList) (h : Heap) {e : Nat × NodeRef}
    (hfind : cache.find? (fun kv => decide (kv.1 = key)) = some e) :
    translateIdx key cache nl h = (e.2, cache, nl, h) := by
  unfold translateIdx
  rw [hfind]

theorem translateIdx_eq_new {key : Nat} {cache : List (Nat × NodeRef)}
    (nl : NodeList) (h : Heap)
    (hfind : cache.find? (fun kv => decide (kv.1 = key)) = none) :
    translateIdx key cache nl h =
      ((⟨nl.listId, nl.nodeCounter⟩ : NodeRef),
        cache ++ [(key, (⟨nl.listId, nl.nodeCounter⟩ : NodeRef))],
        { nl with nodeCounter := nl.nodeCounter + 1 },
        (h.setOut ⟨nl.listId, nl.nodeCounter⟩ []).setInn
          ⟨nl.listId, nl.nodeCounter⟩ []) := by
  unfold translateIdx
  rw [hfind]
  rfl

theorem translateIdx_inv {freshId : Nat} {hOrig : Heap} (key : Nat)
    {cache : List (Nat × NodeRef)} {nl : NodeList} {h : Heap}
    (hI : IntersectInv freshId hOrig cache nl h) :
    IntersectInv freshId hOrig (translateIdx key cache nl h).2.1
      (translateIdx key cache nl h).2.2.1 (translateIdx key cache nl h).2.2.2 ∧
      ((translateIdx key cache nl h).1 = (⟨freshId, 0⟩ : NodeRef) → key = 0) := by
  obtain ⟨h1, h2, h3, h4, h5, h6⟩ := hI
  cases hfind : cache.find? (fun kv => decide (kv.1 = key)) with
  | some e =>
      rw [translateIdx_eq_found nl h hfind]
      refine ⟨⟨h1, h2, h3, h4, h5, h6⟩, ?_⟩
      intro hinit
      have hmem : e ∈ cache := List.mem_of_find?_eq_some hfind
      have hkey : e.1 = key := by
        have hp := List.find?_some hfind
        rw [decide_eq_true_eq] at hp
        exact hp
      rw [← hkey]
      exact h4 e hmem hinit
  | none =>
      rw [translateIdx_eq_new nl h hfind]
      have hne : (⟨nl.listId, nl.nodeCounter⟩ : NodeRef) ≠
          (⟨freshId, 0⟩ : NodeRef) := by
        intro hc
        have hc2 : nl.nodeCounter = 0 := congrArg NodeRef.id hc
        omega
      refine ⟨⟨h1, Nat.le_succ_of_le h2, Normalized_setBoth _ h3, ?_, ?_, ?_⟩,
        fun hc => absurd hc hne⟩
      · intro kv hkv hkv2
        rcases List.mem_append.mp hkv with hm | hm
        · exact h4 kv hm hkv2
        · have hkve : kv = (key, (⟨nl.listId, nl.nodeCounter⟩ : NodeRef)) := by
            simpa using hm
          rw [hkve] at hkv2
          exact absurd hkv2 hne
      · intro x hx
        show ((h.setOut (⟨nl.listId, nl.nodeCounter⟩ : NodeRef) []).setInn
            (⟨nl.listId, nl.nodeCounter⟩ : NodeRef) []).out x = hOrig.out x
        rw [setInn_out, setOut_out,
          if_neg (fun hcx : x = (⟨nl.listId, nl.nodeCounter⟩ : NodeRef) =>
            hx (by rw [hcx]; exact h1))]
        exact h5 x hx
      · intro x hx e2 he2
        have hmem : e2 ∈ ((h.setOut (⟨nl.listId, nl.nodeCounter⟩ : NodeRef)
            []).setInn (⟨nl.listId, nl.nodeCounter⟩ : NodeRef) []).out x := he2
        rw [setInn_out, setOut_out] at hmem
        by_cases hx0 : x = (⟨nl.listId, nl.nodeCounter⟩ : NodeRef)
        · rw [if_pos hx0] at hmem
          exact absurd hmem (List.not_mem_nil e2)
        · rw [if_neg hx0] at hmem
          exact h6 x hx e2 hmem

theorem IntersectInv_linkNodes {freshId : Nat} {hOrig : Heap}
    {cache : List (Nat × NodeRef)} {nl : NodeList} {h : Heap}
    {a b : NodeRef} {cs : CharSet} {h2 : Heap}
    (hI : IntersectInv freshId hOrig cache nl h)
    (hb : b ≠ (⟨freshId, 0⟩ : NodeRef))
    (hok : linkNodes nl h a b cs = .ok h2) :
    IntersectInv freshId hOrig cache nl h2 := by
  obtain ⟨h1, hc2, h3, h4, h5, h6⟩ := hI
  have hN2 := Normalized_linkNodes h3 hb hok
  rw [linkNodes_ok_iff] at hok
  obtain ⟨hab, hanl, -, rfl⟩ := hok
  have hafresh : a.list = freshId := by rw [hanl]; exact h1
  refine ⟨h1, hc2, hN2, h4, ?_, ?_⟩
  · intro x hx
    show ((h.setOut a (addA (h.out a) b cs)).setInn b
        (addA (h.inn b) a cs)).out x = hOrig.out x
    rw [setInn_out, setOut_out,
      if_neg (fun hcx : x = a => hx (by rw [hcx]; exact hafresh))]
    exact h5 x hx
  · intro x hx e he
    have hmem : e ∈ ((h.setOut a (addA (h.out a) b cs)).setInn b
        (addA (h.inn b) a cs)).out x := he
    rw [setInn_out, setOut_out] at hmem
    by_cases hxa : x = a
    · rw [if_pos hxa] at hmem
      rcases mem_addA hmem with hm | hm
      · exact h6 a hafresh e hm
      · rw [hm.1, ← hab]
        exact hafresh
    · rw [if_neg hxa] at hmem
      exact h6 x hx e hmem

/-- C3, `intersect`: the product automaton is normalized.  Every link target is a
fresh product node or a cache entry, the cache maps the product initial node only
to combined key `0`, and key `0` would force the edge's left component to be the
left automaton's initial node — impossible when the left automaton is itself
normalized. -/
theorem Normalized_intersect {left right : NFA} {h : Heap} {freshId : Nat}
    {p : NFA × Heap}
    (hLfr : left.nodes.listId ≠ freshId)
    (hJunk : ∀ x : NodeRef, x.list = freshId → h.out x = [])
    (hNoIn : ∀ x : NodeRef, ∀ e ∈ h.out x,
      e.1.list ≠ freshId ∧ e.1 ≠ left.nodes.initial)
    (hok : NFA.intersect left right h freshId = .ok p) :
    p.1.nodes.initial = (⟨freshId, 0⟩ : NodeRef) ∧
      Normalized (⟨freshId, 0⟩ : NodeRef) p.2 := by
  have hok2 : (checkOptionsCompatibility left.options right.options >>= fun _ =>
      (left.nodes.final.foldlM
        (fun (s : List (Nat × NodeRef) × NodeList × Heap) tf =>
          right.nodes.final.foldlM (fun s of2 =>
            translatePair
                (nodesBFS left.nodes ((h.setOut (⟨freshId, 0⟩ : NodeRef) []).setInn
                  (⟨freshId, 0⟩ : NodeRef) []))
                (nodesBFS right.nodes ((h.setOut (⟨freshId, 0⟩ : NodeRef) []).setInn
                  (⟨freshId, 0⟩ : NodeRef) []))
                tf of2 s.1 s.2.1 s.2.2 >>= fun q =>
              Except.ok (q.2.1,
                { q.2.2.1 with final := addFinal q.2.2.1.final q.1 }, q.2.2.2)) s)
        ([((0 : Nat), (⟨freshId, 0⟩ : NodeRef))], (⟨freshId, 1, []⟩ : NodeList),
          ((h.setOut (⟨freshId, 0⟩ : NodeRef) []).setInn
            (⟨freshId, 0⟩ : NodeRef) []))) >>= fun s1 =>
      ((nodesBFS left.nodes ((h.setOut (⟨freshId, 0⟩ : NodeRef) []).setInn
          (⟨freshId, 0⟩ : NodeRef) [])).foldlM
        (fun (s : List (Nat × NodeRef) × NodeList × Heap) a =>
          (nodesBFS right.nodes ((h.setOut (⟨freshId, 0⟩ : NodeRef) []).setInn
              (⟨freshId, 0⟩ : NodeRef) [])).foldlM (fun s b =>
            translatePair
                (nodesBFS left.nodes ((h.setOut (⟨freshId, 0⟩ : NodeRef) []).setInn
                  (⟨freshId, 0⟩ : NodeRef) []))
                (nodesBFS right.nodes ((h.setOut (⟨freshId, 0⟩ : NodeRef) []).setInn
                  (⟨freshId, 0⟩ : NodeRef) []))
                a b s.1 s.2.1 s.2.2 >>= fun q =>
              (q.2.2.2.out a).foldlM
                (fun (s2 : List (Nat × NodeRef) × NodeList × Heap) eA =>
                  (s2.2.2.out b).foldlM (fun s3 eB =>
                    if (eA.2.intersect eB.2).isEmpty then Except.ok s3
                    else
                      translatePair
                          (nodesBFS left.nodes
                            ((h.setOut (⟨freshId, 0⟩ : NodeRef) []).setInn
                              (⟨freshId, 0⟩ : NodeRef) []))
                          (nodesBFS right.nodes
                            ((h.setOut (⟨freshId, 0⟩ : NodeRef) []).setInn
                              (⟨freshId, 0⟩ : NodeRef) []))
                          eA.1 eB.1 s3.1 s3.2.1 s3.2.2 >>= fun q2 =>
                      linkNodes q2.2.2.1 q2.2.2.2 q.1 q2.1
                          (eA.2.intersect eB.2) >>= fun h3 =>
                      Except.ok (q2.2.1, q2.2.2.1, h3)) s2)
                (q.2.1, q.2.2.1, q.2.2.2)) s)
        s1) >>= fun s2 =>
      removeUnreachable s2.2.1 s2.2.2 >>= fun r =>
      baseOptimizationReuseFinalStates r.1 r.2 ⟨r.1.initial, r.1.final⟩ >>= fun pb =>
      Except.ok ((⟨{ r.1 with final := pb.2.final }, left.options⟩ : NFA), pb.1)) =
      Except.ok p := hok
  obtain ⟨exL, hexL⟩ := nodesBFS_head left.nodes
    ((h.setOut (⟨freshId, 0⟩ : NodeRef) []).setInn (⟨freshId, 0⟩ : NodeRef) [])
  generalize hLL : nodesBFS left.nodes
    ((h.setOut (⟨freshId, 0⟩ : NodeRef) []).setInn (⟨freshId, 0⟩ : NodeRef) []) =
    leftList at hok2 hexL
  generalize hRL : nodesBFS right.nodes
    ((h.setOut (⟨freshId, 0⟩ : NodeRef) []).setInn (⟨freshId, 0⟩ : NodeRef) []) =
    rightList at hok2
  rw [exceptBind_eq_ok] at hok2
  obtain ⟨u, -, hrest⟩ := hok2
  rw [exceptBind_eq_ok] at hrest
  obtain ⟨s1, hfin, hrest⟩ := hrest
  rw [exceptBind_eq_ok] at hrest
  obtain ⟨s2, hedges, hrest⟩ := hrest
  rw [exceptBind_eq_ok] at hrest
  obtain ⟨r, hru, hrest⟩ := hrest
  rw [exceptBind_eq_ok] at hrest
  obtain ⟨pb, hopt, hfinres⟩ := hrest
  obtain rfl := Except.ok.inj hfinres
  have hI0 : IntersectInv freshId h [((0 : Nat), (⟨freshId, 0⟩ : NodeRef))]
      (⟨freshId, 1, []⟩ : NodeList)
      ((h.setOut (⟨freshId, 0⟩ : NodeRef) []).setInn (⟨freshId, 0⟩ : NodeRef) []) := by
    refine ⟨rfl, le_refl 1, ⟨?_, ?_⟩, ?_, ?_, ?_⟩
    · show ((h.setOut (⟨freshId, 0⟩ : NodeRef) []).setInn
        (⟨freshId, 0⟩ : NodeRef) []).inn (⟨freshId, 0⟩ : NodeRef) = []
      simp
    · intro x
      show lookupA (((h.setOut (⟨freshId, 0⟩ : NodeRef) []).setInn
          (⟨freshId, 0⟩ : NodeRef) []).out x) (⟨freshId, 0⟩ : NodeRef) = none
      simp only [setInn_out, setOut_out]
      by_cases hx : x = (⟨freshId, 0⟩ : NodeRef)
      · rw [if_pos hx]
        rfl
      · rw [if_neg hx]
        exact lookupA_eq_none_of_forall
          (fun e he hc => (hNoIn x e he).1 (by rw [hc]))
    · intro kv hkv hkv2
      have hkve : kv = ((0 : Nat), (⟨freshId, 0⟩ : NodeRef)) := by simpa using hkv
      rw [hkve]
    · intro x hx
      show ((h.setOut (⟨freshId, 0⟩ : NodeRef) []).setInn
          (⟨freshId, 0⟩ : NodeRef) []).out x = h.out x
      rw [setInn_out, setOut_out,
        if_neg (fun hcx : x = (⟨freshId, 0⟩ : NodeRef) => hx (by rw [hcx]))]
    · intro x hx e he
      have hmem : e ∈ ((h.setOut (⟨freshId, 0⟩ : NodeRef) []).setInn
          (⟨freshId, 0⟩ : NodeRef) []).out x := he
      rw [setInn_out, setOut_out] at hmem
      by_cases hx0 : x = (⟨freshId, 0⟩ : NodeRef)
      · rw [if_pos hx0] at hmem
        exact absurd hmem (List.not_mem_nil e)
      · rw [if_neg hx0] at hmem
        rw [hJunk x hx] at hmem
        exact absurd hmem (List.not_mem_nil e)
  have hS1 := @foldlM_inv NodeRef (List (Nat × NodeRef) × NodeList × Heap)
    (fun s => IntersectInv freshId h s.1 s.2.1 s.2.2) _ left.nodes.final _ _
    hI0
    (fun s tf _ hP t2 ht2 =>
      (@foldlM_inv NodeRef (List (Nat × NodeRef) × NodeList × Heap)
        (fun s => IntersectInv freshId h s.1 s.2.1 s.2.2) _ right.nodes.final _ _
        hP
        (fun t of2 _ hQ t3 ht3 => by
          rw [exceptBind_eq_ok] at ht3
          obtain ⟨q, htp, hfin2⟩ := ht3
          obtain rfl := Except.ok.inj hfin2
          rw [translatePair_ok_iff] at htp
          obtain ⟨-, -, hq⟩ := htp
          have hTI := translateIdx_inv
            (idxA leftList tf * rightList.length + idxA rightList of2) hQ
          rw [← hq] at hTI
          exact hTI.1)
        ht2).1)
    hfin
  have hS2 := @foldlM_inv NodeRef (List (Nat × NodeRef) × NodeList × Heap)
    (fun s => IntersectInv freshId h s.1 s.2.1 s.2.2) _ leftList _ _
    hS1.1
    (fun s a _ hP t2 ht2 =>
      (@foldlM_inv NodeRef (List (Nat × NodeRef) × NodeList × Heap)
        (fun s => IntersectInv freshId h s.1 s.2.1 s.2.2) _ rightList _ _
        hP
        (fun t b _ hQ t3 ht3 => by
          rw [exceptBind_eq_ok] at ht3
          obtain ⟨q, htp, hefold⟩ := ht3
          rw [translatePair_ok_iff] at htp
          obtain ⟨-, -, hq⟩ := htp
          have hTI := translateIdx_inv
            (idxA leftList a * rightList.length + idxA rightList b) hQ
          rw [← hq] at hTI
          have hI1 := hTI.1
          have hrowa : ∀ e ∈ q.2.2.2.out a, e.1 ≠ left.nodes.initial := by
            obtain ⟨-, -, -, -, d5, d6⟩ := hI1
            intro e he
            by_cases ha : a.list = freshId
            · intro hc
              have hfl := d6 a ha e he
              rw [hc] at hfl
              exact hLfr hfl
            · rw [d5 a ha] at he
              exact (hNoIn a e he).2
          exact (@foldlM_inv (NodeRef × CharSet)
            (List (Nat × NodeRef) × NodeList × Heap)
            (fun s => IntersectInv freshId h s.1 s.2.1 s.2.2) _ (q.2.2.2.out a) _ _
            hI1
            (fun s2 eA heA hP2 t4 ht4 =>
              (@foldlM_inv (NodeRef × CharSet)
                (List (Nat × NodeRef) × NodeList × Heap)
                (fun s => IntersectInv freshId h s.1 s.2.1 s.2.2) _
                (s2.2.2.out b) _ _
                hP2
                (fun s3 eB _ hQ3 t5 ht5 => by
                  by_cases hemp : (eA.2.intersect eB.2).isEmpty
                  · rw [if_pos hemp] at ht5
                    obtain rfl := Except.ok.inj ht5
                    exact hQ3
                  · rw [if_neg hemp] at ht5
                    rw [exceptBind_eq_ok] at ht5
                    obtain ⟨q2, htp2, hrest2⟩ := ht5
                    rw [exceptBind_eq_ok] at hrest2
                    obtain ⟨h3, hlink, hfin3⟩ := hrest2
                    obtain rfl := Except.ok.inj hfin3
                    rw [translatePair_ok_iff] at htp2
                    obtain ⟨hmemA, hmemB, hq2⟩ := htp2
                    have hTI2 := translateIdx_inv
                      (idxA leftList eA.1 * rightList.length +
                        idxA rightList eB.1) hQ3
                    rw [← hq2] at hTI2
                    have htoN : q2.1 ≠ (⟨freshId, 0⟩ : NodeRef) := by
                      intro hinit
                      have hkey := hTI2.2 hinit
                      have hlen : 0 < rightList.length :=
                        List.length_pos.mpr (List.ne_nil_of_mem hmemB)
                      have hmul : idxA leftList eA.1 * rightList.length = 0 :=
                        Nat.le_zero.mp
                          (le_of_le_of_eq (Nat.le_add_right _ _) hkey)
                      have hidx0 : idxA leftList eA.1 = 0 := by
                        rcases Nat.mul_eq_zero.mp hmul with h0 | h0
                        · exact h0
                        · exact absurd h0 (Nat.pos_iff_ne_zero.mp hlen)
                      rw [hexL] at hidx0
                      exact hrowa eA heA (idxA_zero_eq_head hidx0).symm
                    exact IntersectInv_linkNodes hTI2.1 htoN hlink)
                ht4).1)
            hefold).1)
        ht2).1)
    hedges
  obtain ⟨e1, -, e3, -, -, -⟩ := hS2.1
  have hNru : Normalized (⟨s2.2.1.listId, 0⟩ : NodeRef) s2.2.2 := by
    rw [e1]
    exact e3
  obtain ⟨hNr, hlidr⟩ := Normalized_removeUnreachable hNru hru
  rw [e1] at hNr hlidr
  have hinitr : r.1.initial = (⟨freshId, 0⟩ : NodeRef) := by
    show (⟨r.1.listId, 0⟩ : NodeRef) = (⟨freshId, 0⟩ : NodeRef)
    rw [hlidr]
  obtain ⟨hNfin, -, -⟩ := Normalized_baseOpt hNr
    (fun f hf hne => by
      rw [← hinitr]
      exact hne)
    hopt
  constructor
  · show (⟨r.1.listId, 0⟩ : NodeRef) = (⟨freshId, 0⟩ : NodeRef)
    rw [hlidr]
  · exact hNfin

/-- C3 (counterexample): `fromDFA` is one of the listed public operations, yet on
the one-state DFA whose single state loops to itself it returns normally with an
edge `initial → initial`, so the resulting initial node's `in` map is not empty. -/
theorem C3_counterexample_fromDFA_initial_in :
    (NFA.fromDFA ⟨0, fun s => if s = 0 then [(0, (⟨3, {1}⟩ : CharSet))] else [],
        1, 3⟩ 5 Heap.emptyH).toOption.map
      (fun p => decide (p.2.inn p.1.nodes.initial = [])) = some false := by
  decide

/-- C3 (amended): after each of `fromRegex`, `fromWords`, `union`, `concat`,
`quantify`, `copy` and `intersect` returns normally, the initial node of the
resulting (or mutated) node list has an empty `in` map — provided the fresh list
id is genuinely fresh for the creation entry points, the mutated automaton is
itself normalized with an allocated initial node for the mutators, and the
product hypotheses hold for `intersect`.  `fromDFA` is excluded: it copies the
DFA's transition graph verbatim, so any transition into the DFA's initial state
becomes an incoming edge of the new initial node. -/
theorem C3_initial_no_incoming :
    (∀ (alternatives : List (List Element)) (options : NFAOptions) (listId : Nat)
        (h : Heap) (A : NFA) (h2 : Heap),
      (∀ x : NodeRef, lookupA (h.out x) ⟨listId, 0⟩ = none) →
      NFA.fromRegex alternatives options listId h = .ok (A, h2) →
      h2.inn A.nodes.initial = []) ∧
    (∀ (words : List (List ℚ)) (options : NFAOptions) (listId : Nat)
        (h : Heap) (A : NFA) (h2 : Heap),
      (∀ x : NodeRef, lookupA (h.out x) ⟨listId, 0⟩ = none) →
      NFA.fromWords words options listId h = .ok (A, h2) →
      h2.inn A.nodes.initial = []) ∧
    (∀ (A B : NFA) (h : Heap) (C : NFA) (h2 : Heap),
      Normalized A.nodes.initial h → 1 ≤ A.nodes.nodeCounter →
      NFA.union A B h = .ok (C, h2) →
      h2.inn C.nodes.initial = []) ∧
    (∀ (A B : NFA) (h : Heap) (C : NFA) (h2 : Heap),
      Normalized A.nodes.initial h → 1 ≤ A.nodes.nodeCounter →
      NFA.concat A B h = .ok (C, h2) →
      h2.inn C.nodes.initial = []) ∧
    (∀ (A : NFA) (h : Heap) (mn : Nat) (mx : Option Nat) (B : NFA) (h2 : Heap),
      Normalized A.nodes.initial h → 1 ≤ A.nodes.nodeCounter →
      NFA.quantify A h mn mx = .ok (B, h2) →
      h2.inn B.nodes.initial = []) ∧
    (∀ (A : NFA) (h : Heap) (freshId : Nat) (C : NFA) (h2 : Heap),
      (∀ x : NodeRef, lookupA (h.out x) ⟨freshId, 0⟩ = none) →
      NFA.copy A h freshId = .ok (C, h2) →
      h2.inn C.nodes.initial = []) ∧
    (∀ (left right : NFA) (h : Heap) (freshId : Nat) (p : NFA × Heap),
      left.nodes.listId ≠ freshId →
      (∀ x : NodeRef, x.list = freshId → h.out x = []) →
      (∀ x : NodeRef, ∀ e ∈ h.out x,
        e.1.list ≠ freshId ∧ e.1 ≠ left.nodes.initial) →
      NFA.intersect left right h freshId = .ok p →
      p.2.inn p.1.nodes.initial = []) := by
  refine ⟨?_, ?_, ?_, ?_, ?_, ?_, ?_⟩
  · intro alternatives options listId h A h2 hfresh hok
    obtain ⟨hini, hN⟩ := Normalized_fromRegex hfresh hok
    rw [hini]
    exact hN.1
  · intro words options listId h A h2 hfresh hok
    obtain ⟨hini, hN⟩ := Normalized_fromWords hfresh hok
    rw [hini]
    exact hN.1
  · intro A B h C h2 hN hcnt hok
    exact (Normalized_union hN hcnt hok).2.1
  · intro A B h C h2 hN hcnt hok
    exact (Normalized_concat hN hcnt hok).2.1
  · intro A h mn mx B h2 hN hcnt hok
    exact (Normalized_quantify hN hcnt hok).2.1
  · intro A h freshId C h2 hfresh hok
    exact (Normalized_copy hfresh hok).2.1
  · intro left right h freshId p hLfr hJunk hNoIn hok
    obtain ⟨hini, hN⟩ := Normalized_intersect hLfr hJunk hNoIn hok
    rw [hini]
    exact hN.1

/-- C3 (witness): the amended theorem applied at concrete inputs — `fromWords`
on the single word `[1]` over the empty heap, and `intersect` of two trivial
one-node NFAs — with every hypothesis discharged by evaluation. -/
theorem C3_initial_no_incoming_witness :
    ((∀ x : NodeRef, lookupA (Heap.emptyH.out x) ⟨0, 0⟩ = none) ∧
      ∃ p : NFA × Heap,
        NFA.fromWords [[(1 : ℚ)]] ⟨3⟩ 0 Heap.emptyH = .ok p ∧
        p.2.inn p.1.nodes.initial = []) ∧
    ((⟨⟨0, 1, []⟩, ⟨3⟩⟩ : NFA).nodes.listId ≠ 1 ∧
      ∃ q : NFA × Heap,
        NFA.intersect ⟨⟨0, 1, []⟩, ⟨3⟩⟩ ⟨⟨0, 1, []⟩, ⟨3⟩⟩ Heap.emptyH 1 = .ok q ∧
        q.2.inn q.1.nodes.initial = []) := by
  constructor
  · refine ⟨fun x => rfl, ?_⟩
    cases heval : NFA.fromWords [[(1 : ℚ)]] (⟨3⟩ : NFAOptions) 0 Heap.emptyH with
    | error e =>
        have hT : isOkE (NFA.fromWords [[(1 : ℚ)]] (⟨3⟩ : NFAOptions) 0
            Heap.emptyH) = true := by decide
        rw [heval] at hT
        exact Bool.noConfusion hT
    | ok p =>
        exact ⟨p, rfl,
          C3_initial_no_incoming.2.1 [[(1 : ℚ)]] ⟨3⟩ 0 Heap.emptyH p.1 p.2
            (fun x => rfl) heval⟩
  · refine ⟨by decide, ?_⟩
    cases heval : NFA.intersect (⟨⟨0, 1, []⟩, ⟨3⟩⟩ : NFA) ⟨⟨0, 1, []⟩, ⟨3⟩⟩
        Heap.emptyH 1 with
    | error e =>
        have hT : isOkE (NFA.intersect (⟨⟨0, 1, []⟩, ⟨3⟩⟩ : NFA) ⟨⟨0, 1, []⟩, ⟨3⟩⟩
            Heap.emptyH 1) = true := by decide
        rw [heval] at hT
        exact Bool.noConfusion hT
    | ok q =>
        exact ⟨q, rfl,
          C3_initial_no_incoming.2.2.2.2.2.2 ⟨⟨0, 1, []⟩, ⟨3⟩⟩ ⟨⟨0, 1, []⟩, ⟨3⟩⟩
            Heap.emptyH 1 q (by decide) (fun x _ => rfl)
            (fun x e he => absurd he (List.not_mem_nil e)) heval⟩

theorem PathW_nil_iff {h : Heap} {a c : NodeRef} : PathW h a [] c ↔ c = a := by
  constructor
  · intro hp
    cases hp
    rfl
  · rintro rfl
    exact PathW.nil _

theorem PathW_cons_iff {h : Heap} {a c : NodeRef} {cp : ℚ} {w : List ℚ} :
    PathW h a (cp :: w) c ↔ ∃ b, EdgeCh h a b cp ∧ PathW h b w c := by
  constructor
  · intro hp
    cases hp with
    | cons hmem hhas hp2 => exact ⟨_, ⟨_, hmem, rfl, hhas⟩, hp2⟩
  · rintro ⟨b, ⟨e, he, he1, he2⟩, hp⟩
    obtain ⟨t, cs⟩ := e
    cases he1
    exact PathW.cons he he2 hp

theorem PathW_append {h : Heap} {a b c : NodeRef} {u v : List ℚ}
    (h1 : PathW h a u b) (h2 : PathW h b v c) : PathW h a (u ++ v) c := by
  induction h1 with
  | nil => exact h2
  | cons hmem hhas _ ih => exact PathW.cons hmem hhas (ih h2)

theorem PathW_confine {R : NodeRef → Prop} {h : Heap} {a b : NodeRef} {w : List ℚ}
    (hcl : ∀ x y cp, R x → EdgeCh h x y cp → R y)
    (ha : R a) (hp : PathW h a w b) : R b := by
  induction hp with
  | nil => exact ha
  | cons hmem hhas _ ih => exact ih (hcl _ _ _ ha ⟨_, hmem, rfl, hhas⟩)

theorem PathW_transfer {R : NodeRef → Prop} {h h2 : Heap} {a b : NodeRef}
    {w : List ℚ}
    (hagree : ∀ x, R x → h2.out x = h.out x)
    (hcl : ∀ x y cp, R x → EdgeCh h x y cp → R y)
    (ha : R a) (hp : PathW h a w b) : PathW h2 a w b := by
  induction hp with
  | nil => exact PathW.nil _
  | cons hmem hhas hp2 ih =>
      refine PathW.cons ?_ hhas (ih (hcl _ _ _ ha ⟨_, hmem, rfl, hhas⟩))
      rw [hagree _ ha]
      exact hmem

theorem AcceptsSub_frame {R : NodeRef → Prop} {h h2 : Heap} {base : SubList}
    (hagree : ∀ x, R x → h2.out x = h.out x)
    (hcl : ∀ x y cp, R x → EdgeCh h x y cp → R y)
    (hi : R base.initial) :
    ∀ w, AcceptsSub h2 base w ↔ AcceptsSub h base w := by
  have hcl2 : ∀ x y cp, R x → EdgeCh h2 x y cp → R y := by
    intro x y cp hx he
    obtain ⟨e, he2, h1, h2b⟩ := he
    refine hcl x y cp hx ⟨e, ?_, h1, h2b⟩
    rw [← hagree x hx]
    exact he2
  intro w
  constructor
  · rintro ⟨f, hf, hp⟩
    exact ⟨f, hf, PathW_transfer (fun x hx => (hagree x hx).symm) hcl2 hi hp⟩
  · rintro ⟨f, hf, hp⟩
    exact ⟨f, hf, PathW_transfer hagree hcl hi hp⟩

theorem PathW_restrict {R : NodeRef → Prop} {h h2 : Heap} :
    ∀ {w : List ℚ} {a f : NodeRef},
    (∀ x y cp, R x → R y → (EdgeCh h2 x y cp ↔ EdgeCh h x y cp)) →
    (∀ x y cp, ¬ R x → EdgeCh h2 x y cp → ¬ R y) →
    (∀ x y cp, R x → EdgeCh h x y cp → R y) →
    R a → R f → (PathW h2 a w f ↔ PathW h a w f) := by
  intro w
  induction w with
  | nil =>
      intro a f _ _ _ _ _
      rw [PathW_nil_iff, PathW_nil_iff]
  | cons cp w ih =>
      intro a f hagree hnoret hcl ha hf
      rw [PathW_cons_iff, PathW_cons_iff]
      constructor
      · rintro ⟨b, he, hp⟩
        by_cases hb : R b
        · exact ⟨b, (hagree a b cp ha hb).mp he,
            (ih hagree hnoret hcl hb hf).mp hp⟩
        · exfalso
          exact @PathW_confine (fun x => ¬ R x) h2 b f w hnoret hb hp hf
      · rintro ⟨b, he, hp⟩
        have hb : R b := hcl a b cp ha he
        exact ⟨b, (hagree a b cp ha hb).mpr he,
          (ih hagree hnoret hcl hb hf).mpr hp⟩

theorem PathW_to_normalized {h : Heap} {i : NodeRef} :
    ∀ {a : NodeRef} {w : List ℚ}, PathW h a w i →
      (∀ x : NodeRef, lookupA (h.out x) i = none) → a = i ∧ w = [] := by
  intro a w hp
  induction hp with
  | nil => intro _; exact ⟨rfl, rfl⟩
  | cons hmem hhas hp2 ih =>
      intro hnorm
      obtain ⟨rfl, rfl⟩ := ih hnorm
      exact absurd rfl (ne_of_lookupA_none (hnorm _) hmem)

theorem PathW_reach {h : Heap} {a b : NodeRef} {w : List ℚ}
    (hp : PathW h a w b) : ReachL (succOut h) a b := by
  induction hp with
  | nil => exact ReachL.refl _
  | cons hmem hhas hp2 ih =>
      exact ReachL_trans
        (ReachL.tail (ReachL.refl _) (List.mem_map.mpr ⟨_, hmem, rfl⟩)) ih

theorem addA_none {m : List (NodeRef × CharSet)} {b : NodeRef} {cs : CharSet}
    (hl : lookupA m b = none) : addA m b cs = m ++ [(b, cs)] := by
  unfold addA
  rw [hl]

theorem idxA_inj {α : Type} [DecidableEq α] :
    ∀ {l : List α}, l.Nodup → ∀ {x y : α}, x ∈ l → y ∈ l →
      idxA l x = idxA l y → x = y := by
  intro l
  induction l with
  | nil => intro _ x y hx; cases hx
  | cons a l ih =>
      intro hnd x y hx hy heq
      obtain ⟨hna, hndl⟩ := List.nodup_cons.mp hnd
      unfold idxA at heq
      by_cases hax : a = x
      · by_cases hay : a = y
        · rw [← hax, ← hay]
        · rw [if_pos hax, if_neg hay] at heq
          cases heq
      · by_cases hay : a = y
        · rw [if_neg hax, if_pos hay] at heq
          cases heq
        · rw [if_neg hax, if_neg hay] at heq
          have hx2 : x ∈ l := by
            rcases List.mem_cons.mp hx with h1 | h1
            · exact absurd h1.symm hax
            · exact h1
          have hy2 : y ∈ l := by
            rcases List.mem_cons.mp hy with h1 | h1
            · exact absurd h1.symm hay
            · exact h1
          exact ih hndl hx2 hy2 (Nat.succ_injective heq)

theorem WordCat_eps_right {M : List ℚ → Prop} :
    ∀ w, WordCat M (fun v => v = []) w ↔ M w := by
  intro w
  constructor
  · rintro ⟨u, v, rfl, hu, rfl⟩
    simpa using hu
  · intro hw
    exact ⟨w, [], by simp, hw, rfl⟩

theorem WordCat_congr {M M2 N N2 : List ℚ → Prop}
    (hM : ∀ w, M w ↔ M2 w) (hN : ∀ w, N w ↔ N2 w) :
    ∀ w, WordCat M N w ↔ WordCat M2 N2 w := by
  intro w
  constructor
  · rintro ⟨u, v, rfl, hu, hv⟩
    exact ⟨u, v, rfl, (hM u).mp hu, (hN v).mp hv⟩
  · rintro ⟨u, v, rfl, hu, hv⟩
    exact ⟨u, v, rfl, (hM u).mpr hu, (hN v).mpr hv⟩

theorem WordCat_assoc {M N P : List ℚ → Prop} :
    ∀ w, WordCat (WordCat M N) P w ↔ WordCat M (WordCat N P) w := by
  intro w
  constructor
  · rintro ⟨u, v, rfl, ⟨u1, u2, rfl, hu1, hu2⟩, hv⟩
    exact ⟨u1, u2 ++ v, by simp, hu1, u2, v, rfl, hu2, hv⟩
  · rintro ⟨u, v, rfl, hu, v1, v2, rfl, hv1, hv2⟩
    exact ⟨u ++ v1, v2, by simp, ⟨u, v1, rfl, hu, hv1⟩, hv2⟩

theorem WordPow_succ_right {L : List ℚ → Prop} :
    ∀ (n : Nat) (w : List ℚ), WordCat (WordPow L n) L w ↔ WordPow L (n + 1) w := by
  intro n
  induction n with
  | zero =>
      intro w
      show WordCat (WordPow L 0) L w ↔ WordCat L (WordPow L 0) w
      constructor
      · rintro ⟨u, v, rfl, hu, hv⟩
        have hu2 : u = [] := hu
        subst hu2
        exact ⟨v, [], by simp, hv, rfl⟩
      · rintro ⟨u, v, rfl, hu, hv⟩
        have hv2 : v = [] := hv
        subst hv2
        exact ⟨[], u, by simp, rfl, hu⟩
  | succ n ih =>
      intro w
      show WordCat (WordCat L (WordPow L n)) L w ↔ WordCat L (WordPow L (n + 1)) w
      rw [WordCat_assoc]
      exact WordCat_congr (fun v => Iff.rfl) ih w

theorem WordPow_congr {L L2 : List ℚ → Prop} (hL : ∀ w, L w ↔ L2 w) :
    ∀ n w, WordPow L n w ↔ WordPow L2 n w := by
  intro n
  induction n with
  | zero => intro w; exact Iff.rfl
  | succ n ih =>
      intro w
      show WordCat L (WordPow L n) w ↔ WordCat L2 (WordPow L2 n) w
      exact WordCat_congr hL ih w

theorem WordPow_eps {L : List ℚ → Prop} (hL : ∀ w, L w ↔ w = []) :
    ∀ n w, WordPow L n w ↔ w = [] := by
  intro n
  induction n with
  | zero => intro w; exact Iff.rfl
  | succ n ih =>
      intro w
      show WordCat L (WordPow L n) w ↔ w = []
      constructor
      · rintro ⟨u, v, rfl, hu, hv⟩
        rw [(hL u).mp hu, (ih v).mp hv]
        rfl
      · rintro rfl
        exact ⟨[], [], rfl, (hL []).mpr rfl, (ih []).mpr rfl⟩

theorem WordPow_empty {L : List ℚ → Prop} (hL : ∀ w, ¬ L w) :
    ∀ n, 1 ≤ n → ∀ w, ¬ WordPow L n w := by
  intro n hn w hw
  cases n with
  | zero => omega
  | succ n =>
      obtain ⟨u, v, rfl, hu, hv⟩ := hw
      exact hL u hu

theorem link_row_fold {nl : NodeList} {f : NodeRef} (g : NodeRef → NodeRef) :
    ∀ (edges : List (NodeRef × CharSet)) (h0 h1 : Heap),
      edges.foldlM (fun h3 e => linkNodes nl h3 f (g e.1) e.2) h0 = .ok h1 →
      (∀ e ∈ edges, lookupA (h0.out f) (g e.1) = none) →
      (edges.map (fun e => g e.1)).Nodup →
      (∀ x, x ≠ f → h1.out x = h0.out x) ∧
      h1.out f = h0.out f ++ edges.map (fun e => (g e.1, e.2)) := by
  intro edges
  induction edges with
  | nil =>
      intro h0 h1 hok _ _
      obtain rfl := Except.ok.inj hok
      exact ⟨fun x _ => rfl, by simp⟩
  | cons e rest ih =>
      intro h0 h1 hok hfresh hnd
      rw [List.foldlM_cons, exceptBind_eq_ok] at hok
      obtain ⟨hA, hstep, hrest⟩ := hok
      rw [linkNodes_ok_iff] at hstep
      obtain ⟨-, -, -, rfl⟩ := hstep
      have hrow : ((h0.setOut f (addA (h0.out f) (g e.1) e.2)).setInn (g e.1)
          (addA (h0.inn (g e.1)) f e.2)).out f = h0.out f ++ [(g e.1, e.2)] := by
        rw [setInn_out, setOut_out, if_pos rfl,
          addA_none (hfresh e (List.mem_cons_self e rest))]
      have hother : ∀ x, x ≠ f → ((h0.setOut f (addA (h0.out f) (g e.1) e.2)).setInn
          (g e.1) (addA (h0.inn (g e.1)) f e.2)).out x = h0.out x := by
        intro x hx
        rw [setInn_out, setOut_out, if_neg hx]
      rw [List.map_cons] at hnd
      obtain ⟨hndh, hndt⟩ := List.nodup_cons.mp hnd
      obtain ⟨ih1, ih2⟩ := ih _ h1 hrest
        (fun e2 he2 => by
          rw [hrow, lookupA_append]
          rw [hfresh e2 (List.mem_cons_of_mem e he2)]
          rw [lookupA_cons]
          rw [if_neg, lookupA_nil]
          · rfl
          · intro hc
            have hc2 : g e.1 = g e2.1 := hc
            refine hndh ?_
            rw [hc2]
            exact List.mem_map.mpr ⟨e2, he2, rfl⟩)
        hndt
      refine ⟨?_, ?_⟩
      · intro x hx
        rw [ih1 x hx, hother x hx]
      · rw [ih2, hrow]
        simp

theorem unlink_row_fold {α : Type} {nl : NodeList} {src : NodeRef} (g : α → NodeRef) :
    ∀ (l : List α) (h0 h1 : Heap),
      l.foldlM (fun h2 t => unlinkNodes nl h2 src (g t)) h0 = .ok h1 →
      (∀ x, x ≠ src → h1.out x = h0.out x) ∧
      h1.out src = l.foldl (fun acc t => removeA acc (g t)) (h0.out src) := by
  intro l
  induction l with
  | nil =>
      intro h0 h1 hok
      obtain rfl := Except.ok.inj hok
      exact ⟨fun x _ => rfl, rfl⟩
  | cons t rest ih =>
      intro h0 h1 hok
      rw [List.foldlM_cons, exceptBind_eq_ok] at hok
      obtain ⟨hA, hstep, hrest⟩ := hok
      rw [unlinkNodes_ok_iff] at hstep
      obtain ⟨-, -, -, rfl⟩ := hstep
      obtain ⟨ih1, ih2⟩ := ih _ h1 hrest
      constructor
      · intro x hx
        rw [ih1 x hx, setInn_out, setOut_out, if_neg hx]
      · rw [ih2, List.foldl_cons]
        have hr : ((h0.setOut src (removeA (h0.out src) (g t))).setInn (g t)
            (removeA (h0.inn (g t)) src)).out src = removeA (h0.out src) (g t) := by
          rw [setInn_out, setOut_out, if_pos rfl]
        rw [hr]

theorem mem_removeA_iff {m : List (NodeRef × CharSet)} {k : NodeRef}
    {e : NodeRef × CharSet} : e ∈ removeA m k ↔ e ∈ m ∧ e.1 ≠ k := by
  unfold removeA
  rw [List.mem_filter]
  simp

theorem foldl_removeA_all {α : Type} (g : α → NodeRef) :
    ∀ (l : List α) (m : List (NodeRef × CharSet)),
      (∀ e ∈ m, ∃ t ∈ l, e.1 = g t) →
      l.foldl (fun acc t => removeA acc (g t)) m = [] := by
  intro l
  induction l with
  | nil =>
      intro m hm
      cases m with
      | nil => rfl
      | cons e m2 =>
          obtain ⟨t, ht, -⟩ := hm e (List.mem_cons_self e m2)
          cases ht
  | cons t rest ih =>
      intro m hm
      rw [List.foldl_cons]
      refine ih (removeA m (g t)) ?_
      intro e he
      obtain ⟨hem, hek⟩ := mem_removeA_iff.mp he
      obtain ⟨t2, ht2, het2⟩ := hm e hem
      rcases List.mem_cons.mp ht2 with rfl | ht3
      · exact absurd het2 hek
      · exact ⟨t2, ht3, het2⟩

theorem reset_fold_out (lid start : Nat) :
    ∀ (n : Nat) (h : Heap) (x : NodeRef),
      ((List.range n).foldl (fun h2 i =>
        ((h2.setOut (⟨lid, start + i⟩ : NodeRef) []).setInn
          (⟨lid, start + i⟩ : NodeRef) [])) h).out x =
      if x.list = lid ∧ start ≤ x.id ∧ x.id < start + n then [] else h.out x := by
  intro n
  induction n with
  | zero =>
      intro h x
      rw [if_neg]
      · rfl
      · rintro ⟨-, h1, h2⟩
        omega
  | succ n ih =>
      intro h x
      rw [List.range_succ, List.foldl_append, List.foldl_cons, List.foldl_nil]
      rw [setInn_out, setOut_out]
      by_cases hx : x = (⟨lid, start + n⟩ : NodeRef)
      · rw [if_pos hx, if_pos]
        rw [hx]
        exact ⟨rfl, Nat.le_add_right start n, Nat.lt_succ_self (start + n)⟩
      · rw [if_neg hx, ih]
        by_cases hcond : x.list = lid ∧ start ≤ x.id ∧ x.id < start + n
        · rw [if_pos hcond, if_pos ⟨hcond.1, hcond.2.1, by omega⟩]
        · rw [if_neg hcond, if_neg]
          rintro ⟨h1, h2, h3⟩
          by_cases hn : x.id = start + n
          · exact hx (by
              cases x with
              | mk xl xi =>
                  simp only at h1 hn
                  rw [h1, hn])
          · exact hcond ⟨h1, h2, by omega⟩

theorem idxA_lt_length {α : Type} [DecidableEq α] :
    ∀ {l : List α} {x : α}, x ∈ l → idxA l x < l.length := by
  intro l
  induction l with
  | nil => intro x hx; cases hx
  | cons a l ih =>
      intro x hx
      unfold idxA
      by_cases ha : a = x
      · rw [if_pos ha]
        simp
      · rw [if_neg ha]
        rw [List.length_cons]
        have hx2 : x ∈ l := by
          rcases List.mem_cons.mp hx with h1 | h1
          · exact absurd h1.symm ha
          · exact h1
        exact Nat.succ_lt_succ (ih hx2)

theorem mem_allocU {lid cnt : Nat} {y : NodeRef} (h1 : y.list = lid)
    (h2 : y.id < cnt) :
    y ∈ (Finset.range cnt).image (fun i => (⟨lid, i⟩ : NodeRef)) := by
  rw [Finset.mem_image]
  refine ⟨y.id, Finset.mem_range.mpr h2, ?_⟩
  cases y with
  | mk a b =>
      simp only at h1
      rw [h1]

theorem ReachL_alloc {nl : NodeList} {h : Heap} (htidy : Tidy nl h)
    {x y : NodeRef} (hx : x.list = nl.listId ∧ x.id < nl.nodeCounter)
    (hr : ReachL (succOut h) x y) :
    y.list = nl.listId ∧ y.id < nl.nodeCounter := by
  induction hr with
  | refl => exact hx
  | tail h1 hmem ih =>
      obtain ⟨e, he, rfl⟩ := List.mem_map.mp hmem
      exact htidy.2.1 _ e he

theorem localCopy_link_fold {nl2 : NodeList} (tr : NodeRef → NodeRef) (href : Heap) :
    ∀ (l : List NodeRef) (h0 h1 : Heap),
      l.foldlM (fun h2 n => (h2.out n).foldlM
        (fun h3 e => linkNodes nl2 h3 (tr n) (tr e.1) e.2) h2) h0 = .ok h1 →
      l.Nodup →
      (∀ n ∈ l, h0.out n = href.out n) →
      (∀ n ∈ l, h0.out (tr n) = []) →
      (∀ n ∈ l, ∀ m ∈ l, tr m ≠ n) →
      (∀ n ∈ l, ∀ m ∈ l, tr n = tr m → n = m) →
      (∀ n ∈ l, ((href.out n).map (fun e => tr e.1)).Nodup) →
      (∀ x, (∀ n ∈ l, x ≠ tr n) → h1.out x = h0.out x) ∧
      (∀ n ∈ l, h1.out (tr n) = (href.out n).map (fun e => (tr e.1, e.2))) := by
  intro l
  induction l with
  | nil =>
      intro h0 h1 hok _ _ _ _ _ _
      obtain rfl := Except.ok.inj hok
      exact ⟨fun x _ => rfl, fun n hn => absurd hn (List.not_mem_nil n)⟩
  | cons n rest ih =>
      intro h0 h1 hok hnd hrows hfresh hdist hinj hkeys
      rw [List.foldlM_cons, exceptBind_eq_ok] at hok
      obtain ⟨hA, hstep, hrest⟩ := hok
      have hmemn : n ∈ n :: rest := List.mem_cons_self n rest
      rw [hrows n hmemn] at hstep
      obtain ⟨hA1, hA2⟩ := link_row_fold tr (href.out n) h0 hA hstep
        (fun e _ => by rw [hfresh n hmemn]; rfl)
        (hkeys n hmemn)
      rw [hfresh n hmemn, List.nil_append] at hA2
      obtain ⟨hndn, hndrest⟩ := List.nodup_cons.mp hnd
      obtain ⟨ih1, ih2⟩ := ih hA h1 hrest hndrest
        (fun m hm => by
          rw [hA1 m (fun hc => hdist m (List.mem_cons_of_mem n hm) n hmemn
            (by rw [← hc]))]
          exact hrows m (List.mem_cons_of_mem n hm))
        (fun m hm => by
          rw [hA1 (tr m) (fun hc => hndn (by
            rw [hinj n hmemn m (List.mem_cons_of_mem n hm) hc.symm]
            exact hm))]
          exact hfresh m (List.mem_cons_of_mem n hm))
        (fun m hm m2 hm2 => hdist m (List.mem_cons_of_mem n hm) m2
          (List.mem_cons_of_mem n hm2))
        (fun m hm m2 hm2 => hinj m (List.mem_cons_of_mem n hm) m2
          (List.mem_cons_of_mem n hm2))
        (fun m hm => hkeys m (List.mem_cons_of_mem n hm))
      constructor
      · intro x hx
        rw [ih1 x (fun m hm => hx m (List.mem_cons_of_mem n hm)),
          hA1 x (hx n hmemn)]
      · intro m hm
        rcases List.mem_cons.mp hm with rfl | hm2
        · rw [ih1 (tr m) (fun m2 hm2 hc =>
            hndn (by
              rw [hinj m hmemn m2 (List.mem_cons_of_mem m hm2) hc]
              exact hm2))]
          exact hA2
        · exact ih2 m hm2

/-- The effect of `localCopy`: fresh counters, a frame on all old rows, the
clone confined to the fresh id segment, tidiness, a language isomorphism with
the copied sub-automaton, and normalization transfer. -/
theorem localCopy_spec {nl : NodeList} {h : Heap} {toCopy : SubList}
    {copy : SubList} {nl1 : NodeList} {h1 : Heap}
    (htidy : Tidy nl h)
    (hia : toCopy.initial.list = nl.listId) (hib : toCopy.initial.id < nl.nodeCounter)
    (hok : localCopy nl h toCopy = .ok (copy, nl1, h1)) :
    nl1.listId = nl.listId ∧
    nl.nodeCounter ≤ nl1.nodeCounter ∧
    (∀ x : NodeRef, (x.list = nl.listId → x.id < nl.nodeCounter) →
      h1.out x = h.out x) ∧
    (copy.initial.list = nl.listId ∧ nl.nodeCounter ≤ copy.initial.id ∧
      copy.initial.id < nl1.nodeCounter) ∧
    (∀ f ∈ copy.final, f.list = nl.listId ∧ nl.nodeCounter ≤ f.id ∧
      f.id < nl1.nodeCounter) ∧
    (∀ x : NodeRef, x.list = nl.listId → nl.nodeCounter ≤ x.id →
      ∀ e ∈ h1.out x, e.1.list = nl.listId ∧ nl.nodeCounter ≤ e.1.id ∧
        e.1.id < nl1.nodeCounter) ∧
    Tidy nl1 h1 ∧
    (∀ w, AcceptsSub h1 copy w ↔ AcceptsSub h toCopy w) ∧
    ((∀ x : NodeRef, lookupA (h.out x) toCopy.initial = none) →
      ∀ x : NodeRef, lookupA (h1.out x) copy.initial = none) := by
  have hVnd : (closIter (succOut h) nl.nodeCounter [toCopy.initial]).Nodup :=
    closIter_nodup _ _ (List.nodup_singleton _)
  have hU : ∀ x ∈ [toCopy.initial], ∀ y, ReachL (succOut h) x y →
      y ∈ (Finset.range nl.nodeCounter).image
        (fun i => (⟨nl.listId, i⟩ : NodeRef)) := by
    intro x hx y hr
    have hx2 : x = toCopy.initial := by simpa using hx
    subst hx2
    obtain ⟨hy1, hy2⟩ := ReachL_alloc htidy ⟨hia, hib⟩ hr
    exact mem_allocU hy1 hy2
  have hcard : ((Finset.range nl.nodeCounter).image
      (fun i => (⟨nl.listId, i⟩ : NodeRef))).card ≤
      nl.nodeCounter + ([toCopy.initial] : List NodeRef).length := by
    refine le_trans Finset.card_image_le ?_
    rw [Finset.card_range]
    simp
  have hVcl0 : ∀ c ∈ (closIter (succOut h) nl.nodeCounter [toCopy.initial]), ∀ y ∈ succOut h c, y ∈ (closIter (succOut h) nl.nodeCounter [toCopy.initial]) :=
    closed_of_closStep_eq (closIter_fix _ _ _ (List.nodup_singleton _) hU hcard)
  have hVcompl : ∀ x, ReachL (succOut h) toCopy.initial x → x ∈ (closIter (succOut h) nl.nodeCounter [toCopy.initial]) :=
    fun x hr => closIter_complete (List.nodup_singleton _) hU hcard
      (by simp) hr
  have hVmem : toCopy.initial ∈ (closIter (succOut h) nl.nodeCounter [toCopy.initial]) := hVcompl _ (ReachL.refl _)
  have hVall : ∀ n ∈ (closIter (succOut h) nl.nodeCounter [toCopy.initial]), n.list = nl.listId ∧ n.id < nl.nodeCounter := by
    intro n hn
    obtain ⟨s, hs, hr⟩ := closIter_sound _ _ _ hn
    have hs2 : s = toCopy.initial := by simpa using hs
    subst hs2
    exact ReachL_alloc htidy ⟨hia, hib⟩ hr
  have hok2 : ((closIter (succOut h) nl.nodeCounter [toCopy.initial]).foldlM
      (fun h2 n => (h2.out n).foldlM
        (fun h3 e => linkNodes ({ nl with nodeCounter := nl.nodeCounter + (closIter (succOut h) nl.nodeCounter [toCopy.initial]).length } : NodeList) h3
          (⟨nl.listId, nl.nodeCounter + idxA (closIter (succOut h) nl.nodeCounter [toCopy.initial]) n⟩ : NodeRef) (⟨nl.listId, nl.nodeCounter + idxA (closIter (succOut h) nl.nodeCounter [toCopy.initial]) e.1⟩ : NodeRef) e.2) h2)
      ((List.range (closIter (succOut h) nl.nodeCounter [toCopy.initial]).length).foldl (fun h2 i =>
        ((h2.setOut (⟨nl.listId, nl.nodeCounter + i⟩ : NodeRef) []).setInn
          (⟨nl.listId, nl.nodeCounter + i⟩ : NodeRef) [])) h) >>= fun hh =>
      Except.ok ((⟨(⟨nl.listId, nl.nodeCounter + idxA (closIter (succOut h) nl.nodeCounter [toCopy.initial]) toCopy.initial⟩ : NodeRef),
        ((closIter (succOut h) nl.nodeCounter [toCopy.initial]).filter (fun n => decide (n ∈ toCopy.final))).map
          (fun n => (⟨nl.listId, nl.nodeCounter + idxA (closIter (succOut h) nl.nodeCounter [toCopy.initial]) n⟩ : NodeRef))⟩ : SubList),
        ({ nl with nodeCounter := nl.nodeCounter + (closIter (succOut h) nl.nodeCounter [toCopy.initial]).length } : NodeList), hh)) = Except.ok (copy, nl1, h1) := hok
  generalize hV : closIter (succOut h) nl.nodeCounter [toCopy.initial] = V at hok2 hVnd hVcl0 hVcompl hVmem hVall
  rw [exceptBind_eq_ok] at hok2
  obtain ⟨hh, hfold, hfin⟩ := hok2
  have hp := Except.ok.inj hfin
  rw [Prod.mk.injEq, Prod.mk.injEq] at hp
  obtain ⟨rfl, rfl, rfl⟩ := hp
  have hVcl : ∀ n ∈ V, ∀ e ∈ h.out n, e.1 ∈ V :=
    fun n hn e he => hVcl0 n hn e.1 (List.mem_map.mpr ⟨e, he, rfl⟩)
  have hinj0 : ∀ n ∈ V, ∀ m ∈ V, (⟨nl.listId, nl.nodeCounter + idxA V n⟩ : NodeRef) = (⟨nl.listId, nl.nodeCounter + idxA V m⟩ : NodeRef) → n = m := by
    intro n hn m hm hc
    have hc2 : nl.nodeCounter + idxA V n = nl.nodeCounter + idxA V m :=
      congrArg NodeRef.id hc
    exact idxA_inj hVnd hn hm (Nat.add_left_cancel hc2)
  have hdist0 : ∀ n ∈ V, ∀ m ∈ V, (⟨nl.listId, nl.nodeCounter + idxA V m⟩ : NodeRef) ≠ n := by
    intro n hn m hm hc
    have hc2 : nl.nodeCounter + idxA V m = n.id := congrArg NodeRef.id hc
    have := (hVall n hn).2
    omega
  have hRrow : ∀ x : NodeRef, (((List.range V.length).foldl (fun h2 i =>
        ((h2.setOut (⟨nl.listId, nl.nodeCounter + i⟩ : NodeRef) []).setInn
          (⟨nl.listId, nl.nodeCounter + i⟩ : NodeRef) [])) h)).out x =
      if x.list = nl.listId ∧ nl.nodeCounter ≤ x.id ∧
        x.id < nl.nodeCounter + V.length then [] else h.out x :=
    fun x => reset_fold_out nl.listId nl.nodeCounter V.length h x
  have hkeys0 : ∀ n ∈ V, ((h.out n).map
      (fun e => (⟨nl.listId, nl.nodeCounter + idxA V e.1⟩ : NodeRef))).Nodup := by
    intro n hn
    have hk := htidy.2.2 n
    have hmm : (h.out n).map (fun e => (⟨nl.listId, nl.nodeCounter + idxA V e.1⟩ : NodeRef)) =
        ((h.out n).map (fun e => e.1)).map
          (fun t => (⟨nl.listId, nl.nodeCounter + idxA V t⟩ : NodeRef)) := by
      rw [List.map_map]
      rfl
    rw [hmm]
    refine List.Nodup.map_on ?_ hk
    intro x hx y hy hc
    have hxV : x ∈ V := hVcl0 n hn x hx
    have hyV : y ∈ V := hVcl0 n hn y hy
    exact idxA_inj hVnd hxV hyV (Nat.add_left_cancel (congrArg NodeRef.id hc))
  obtain ⟨hframe, hrowtr⟩ := localCopy_link_fold
    (fun n => (⟨nl.listId, nl.nodeCounter + idxA V n⟩ : NodeRef)) h V ((List.range V.length).foldl (fun h2 i =>
        ((h2.setOut (⟨nl.listId, nl.nodeCounter + i⟩ : NodeRef) []).setInn
          (⟨nl.listId, nl.nodeCounter + i⟩ : NodeRef) [])) h) hh hfold hVnd
    (fun n hn => by
      rw [hRrow n, if_neg]
      rintro ⟨-, hc, -⟩
      have := (hVall n hn).2
      omega)
    (fun n hn => by
      rw [hRrow _, if_pos]
      exact ⟨rfl, Nat.le_add_right _ _,
        Nat.add_lt_add_left (idxA_lt_length hn) _⟩)
    hdist0 hinj0 hkeys0
  have hEdge1 : ∀ n ∈ V, ∀ (b : NodeRef) (cp : ℚ),
      EdgeCh hh (⟨nl.listId, nl.nodeCounter + idxA V n⟩ : NodeRef) b cp ↔
        ∃ e ∈ h.out n, b = (⟨nl.listId, nl.nodeCounter + idxA V e.1⟩ : NodeRef) ∧ e.2.has cp = true := by
    intro n hn b cp
    constructor
    · rintro ⟨e', he', h1e, h2e⟩
      rw [hrowtr n hn] at he'
      obtain ⟨e0, he0, rfl⟩ := List.mem_map.mp he'
      exact ⟨e0, he0, h1e.symm, h2e⟩
    · rintro ⟨e0, he0, rfl, hhas⟩
      refine ⟨((⟨nl.listId, nl.nodeCounter + idxA V e0.1⟩ : NodeRef), e0.2), ?_, rfl, hhas⟩
      rw [hrowtr n hn]
      exact List.mem_map.mpr ⟨e0, he0, rfl⟩
  have hPathIso : ∀ (w : List ℚ) (n m : NodeRef), n ∈ V → m ∈ V →
      (PathW hh (⟨nl.listId, nl.nodeCounter + idxA V n⟩ : NodeRef) w (⟨nl.listId, nl.nodeCounter + idxA V m⟩ : NodeRef) ↔ PathW h n w m) := by
    intro w
    induction w with
    | nil =>
        intro n m hn hm
        rw [PathW_nil_iff, PathW_nil_iff]
        constructor
        · intro hc
          exact hinj0 m hm n hn hc
        · intro hc
          rw [hc]
    | cons cp w ih =>
        intro n m hn hm
        rw [PathW_cons_iff, PathW_cons_iff]
        constructor
        · rintro ⟨b, he, hp⟩
          obtain ⟨e0, he0, rfl, hhas⟩ := (hEdge1 n hn b cp).mp he
          have he01 : e0.1 ∈ V := hVcl n hn e0 he0
          exact ⟨e0.1, ⟨e0, he0, rfl, hhas⟩, (ih e0.1 m he01 hm).mp hp⟩
        · rintro ⟨b, ⟨e0, he0, rfl, hhas⟩, hp⟩
          have he01 : e0.1 ∈ V := hVcl n hn e0 he0
          refine ⟨(⟨nl.listId, nl.nodeCounter + idxA V e0.1⟩ : NodeRef), (hEdge1 n hn _ cp).mpr ⟨e0, he0, rfl, hhas⟩, ?_⟩
          exact (ih e0.1 m he01 hm).mpr hp
  refine ⟨rfl, Nat.le_add_right _ _, ?_, ?_, ?_, ?_, ?_, ?_, ?_⟩
  · intro x hx
    rw [hframe x (fun n hn hc => by
      have h1x : x.list = nl.listId := by rw [hc]
      have h2x : x.id = nl.nodeCounter + idxA V n := congrArg NodeRef.id hc
      have := hx h1x
      omega), hRrow x]
    rw [if_neg]
    rintro ⟨hxl, hxc, -⟩
    have := hx hxl
    omega
  · exact ⟨rfl, Nat.le_add_right _ _,
      Nat.add_lt_add_left (idxA_lt_length hVmem) _⟩
  · intro f hf
    obtain ⟨n, hnF, rfl⟩ := List.mem_map.mp hf
    obtain ⟨hnV, -⟩ := List.mem_filter.mp hnF
    exact ⟨rfl, Nat.le_add_right _ _,
      Nat.add_lt_add_left (idxA_lt_length hnV) _⟩
  · intro x hxl hxc e he
    by_cases hx : ∃ n ∈ V, x = (⟨nl.listId, nl.nodeCounter + idxA V n⟩ : NodeRef)
    · obtain ⟨n, hn, rfl⟩ := hx
      rw [hrowtr n hn] at he
      obtain ⟨e0, he0, rfl⟩ := List.mem_map.mp he
      exact ⟨rfl, Nat.le_add_right _ _,
        Nat.add_lt_add_left (idxA_lt_length (hVcl n hn e0 he0)) _⟩
    · push_neg at hx
      rw [hframe x hx, hRrow x] at he
      by_cases hcond : x.list = nl.listId ∧ nl.nodeCounter ≤ x.id ∧
          x.id < nl.nodeCounter + V.length
      · rw [if_pos hcond] at he
        exact absurd he (List.not_mem_nil e)
      · rw [if_neg hcond] at he
        rw [htidy.1 x (fun hc => absurd hc.2 (Nat.not_lt.mpr hxc))] at he
        exact absurd he (List.not_mem_nil e)
  · refine ⟨?_, ?_, ?_⟩
    · intro x hx
      have hnotr : ∀ n ∈ V, x ≠ (⟨nl.listId, nl.nodeCounter + idxA V n⟩ : NodeRef) := by
        intro n hn hc
        refine hx ?_
        refine ⟨by rw [hc], ?_⟩
        have : x.id = nl.nodeCounter + idxA V n := congrArg NodeRef.id hc
        have h2 := idxA_lt_length hn
        show x.id < nl.nodeCounter + V.length
        omega
      rw [hframe x hnotr, hRrow x, if_neg]
      · refine htidy.1 x ?_
        rintro ⟨hxl, hxc⟩
        exact hx ⟨hxl, by show x.id < nl.nodeCounter + V.length; omega⟩
      · rintro ⟨hxl, hxc, hxd⟩
        exact hx ⟨hxl, hxd⟩
    · intro x e he
      by_cases hx : ∃ n ∈ V, x = (⟨nl.listId, nl.nodeCounter + idxA V n⟩ : NodeRef)
      · obtain ⟨n, hn, rfl⟩ := hx
        rw [hrowtr n hn] at he
        obtain ⟨e0, he0, rfl⟩ := List.mem_map.mp he
        exact ⟨rfl, Nat.add_lt_add_left (idxA_lt_length (hVcl n hn e0 he0)) _⟩
      · push_neg at hx
        rw [hframe x hx, hRrow x] at he
        by_cases hcond : x.list = nl.listId ∧ nl.nodeCounter ≤ x.id ∧
            x.id < nl.nodeCounter + V.length
        · rw [if_pos hcond] at he
          exact absurd he (List.not_mem_nil e)
        · rw [if_neg hcond] at he
          obtain ⟨hb1, hb2⟩ := htidy.2.1 x e he
          exact ⟨hb1, by show e.1.id < nl.nodeCounter + V.length; omega⟩
    · intro x
      by_cases hx : ∃ n ∈ V, x = (⟨nl.listId, nl.nodeCounter + idxA V n⟩ : NodeRef)
      · obtain ⟨n, hn, rfl⟩ := hx
        rw [hrowtr n hn]
        have hmm : ((h.out n).map (fun e => ((⟨nl.listId, nl.nodeCounter + idxA V e.1⟩ : NodeRef), e.2))).map
            (fun e => e.1) = (h.out n).map (fun e => (⟨nl.listId, nl.nodeCounter + idxA V e.1⟩ : NodeRef)) := by
          rw [List.map_map]
          rfl
        rw [hmm]
        exact hkeys0 n hn
      · push_neg at hx
        rw [hframe x hx, hRrow x]
        by_cases hcond : x.list = nl.listId ∧ nl.nodeCounter ≤ x.id ∧
            x.id < nl.nodeCounter + V.length
        · rw [if_pos hcond]
          exact List.nodup_nil
        · rw [if_neg hcond]
          exact htidy.2.2 x
  · intro w
    constructor
    · rintro ⟨f', hf', hp⟩
      obtain ⟨n, hnF, rfl⟩ := List.mem_map.mp hf'
      obtain ⟨hnV, hnfin⟩ := List.mem_filter.mp hnF
      rw [decide_eq_true_eq] at hnfin
      exact ⟨n, hnfin, (hPathIso w toCopy.initial n hVmem hnV).mp hp⟩
    · rintro ⟨f, hf, hp⟩
      have hfV : f ∈ V := hVcompl f (PathW_reach hp)
      refine ⟨(⟨nl.listId, nl.nodeCounter + idxA V f⟩ : NodeRef), List.mem_map.mpr ⟨f, List.mem_filter.mpr
        ⟨hfV, by rw [decide_eq_true_eq]; exact hf⟩, rfl⟩, ?_⟩
      exact (hPathIso w toCopy.initial f hVmem hfV).mpr hp
  · intro hnormSrc x
    apply lookupA_eq_none_of_forall
    intro e' he' hc
    by_cases hx : ∃ n ∈ V, x = (⟨nl.listId, nl.nodeCounter + idxA V n⟩ : NodeRef)
    · obtain ⟨n, hn, rfl⟩ := hx
      rw [hrowtr n hn] at he'
      obtain ⟨e0, he0, rfl⟩ := List.mem_map.mp he'
      have hc2 : (⟨nl.listId, nl.nodeCounter + idxA V e0.1⟩ : NodeRef) = (⟨nl.listId, nl.nodeCounter + idxA V toCopy.initial⟩ : NodeRef) := hc
      have heq : e0.1 = toCopy.initial :=
        hinj0 e0.1 (hVcl n hn e0 he0) toCopy.initial hVmem hc2
      exact absurd heq (ne_of_lookupA_none (hnormSrc n) he0)
    · push_neg at hx
      rw [hframe x hx, hRrow x] at he'
      by_cases hcond : x.list = nl.listId ∧ nl.nodeCounter ≤ x.id ∧
          x.id < nl.nodeCounter + V.length
      · rw [if_pos hcond] at he'
        exact absurd he' (List.not_mem_nil e')
      · rw [if_neg hcond] at he'
        have hb := (htidy.2.1 x e' he').2
        have hc2 : e'.1.id = nl.nodeCounter + idxA V toCopy.initial :=
          congrArg NodeRef.id hc
        omega

theorem mem_foldl_addFinal_if {ai : NodeRef} :
    ∀ (l : List NodeRef) (acc : List NodeRef) (x : NodeRef),
      x ∈ l.foldl (fun acc n => if n = ai then acc else addFinal acc n) acc ↔
        x ∈ acc ∨ (x ∈ l ∧ x ≠ ai) := by
  intro l
  induction l with
  | nil =>
      intro acc x
      simp
  | cons n rest ih =>
      intro acc x
      rw [List.foldl_cons]
      by_cases hn : n = ai
      · rw [if_pos hn]
        rw [ih]
        subst hn
        constructor
        · rintro (hx | ⟨hx1, hx2⟩)
          · exact Or.inl hx
          · exact Or.inr ⟨List.mem_cons_of_mem n hx1, hx2⟩
        · rintro (hx | ⟨hx1, hx2⟩)
          · exact Or.inl hx
          · rcases List.mem_cons.mp hx1 with rfl | hx3
            · exact absurd rfl hx2
            · exact Or.inr ⟨hx3, hx2⟩
      · rw [if_neg hn]
        rw [ih]
        constructor
        · rintro (hx | ⟨hx1, hx2⟩)
          · rcases mem_addFinal.mp hx with hx3 | rfl
            · exact Or.inl hx3
            · exact Or.inr ⟨List.mem_cons_self x rest, hn⟩
          · exact Or.inr ⟨List.mem_cons_of_mem n hx1, hx2⟩
        · rintro (hx | ⟨hx1, hx2⟩)
          · exact Or.inl (mem_addFinal.mpr (Or.inl hx))
          · rcases List.mem_cons.mp hx1 with rfl | hx3
            · exact Or.inl (mem_addFinal.mpr (Or.inr rfl))
            · exact Or.inr ⟨hx3, hx2⟩

theorem nodup_foldl_addFinal_if {ai : NodeRef} :
    ∀ (l : List NodeRef) (acc : List NodeRef), acc.Nodup →
      (l.foldl (fun acc n => if n = ai then acc else addFinal acc n) acc).Nodup := by
  intro l
  induction l with
  | nil => intro acc h; exact h
  | cons n rest ih =>
      intro acc h
      rw [List.foldl_cons]
      by_cases hn : n = ai
      · rw [if_pos hn]
        exact ih acc h
      · rw [if_neg hn]
        exact ih _ (nodup_addFinal h)

theorem PathW_mono_edge {h h2 : Heap} {R : NodeRef → Prop} :
    ∀ {w : List ℚ} {a b : NodeRef},
      (∀ x y cp, R x → EdgeCh h x y cp → EdgeCh h2 x y cp) →
      (∀ x y cp, R x → EdgeCh h x y cp → R y) →
      R a → PathW h a w b → PathW h2 a w b := by
  intro w
  induction w with
  | nil =>
      intro a b _ _ _ hp
      rw [PathW_nil_iff] at hp ⊢
      exact hp
  | cons cp w ih =>
      intro a b htr hcl ha hp
      rw [PathW_cons_iff] at hp ⊢
      obtain ⟨c, he, hp2⟩ := hp
      exact ⟨c, htr a c cp ha he, ih htr hcl (hcl a c cp ha he) hp2⟩

theorem concat_link_fold {nl : NodeList} (edges : List (NodeRef × CharSet)) :
    ∀ (fs : List NodeRef) (h0 h1 : Heap),
      fs.foldlM (fun h2 f => edges.foldlM
        (fun h3 e => linkNodes nl h3 f e.1 e.2) h2) h0 = .ok h1 →
      fs.Nodup →
      (∀ f ∈ fs, ∀ e ∈ edges, lookupA (h0.out f) e.1 = none) →
      (edges.map (fun e => e.1)).Nodup →
      (∀ x, x ∉ fs → h1.out x = h0.out x) ∧
      (∀ f ∈ fs, h1.out f = h0.out f ++ edges) := by
  have hmapid : edges.map (fun e => ((fun b => b) e.1, e.2)) = edges := by
    induction edges with
    | nil => rfl
    | cons e es ih => rw [List.map_cons, ih]
  intro fs
  induction fs with
  | nil =>
      intro h0 h1 hok _ _ _
      obtain rfl := Except.ok.inj hok
      exact ⟨fun x _ => rfl, fun f hf => absurd hf (List.not_mem_nil f)⟩
  | cons f rest ih =>
      intro h0 h1 hok hnd hfresh hknd
      rw [List.foldlM_cons, exceptBind_eq_ok] at hok
      obtain ⟨hA, hstep, hrest⟩ := hok
      have hmemf : f ∈ f :: rest := List.mem_cons_self f rest
      obtain ⟨hA1, hA2⟩ := link_row_fold (fun b => b) edges h0 hA hstep
        (fun e he => hfresh f hmemf e he) hknd
      rw [hmapid] at hA2
      obtain ⟨hndf, hndrest⟩ := List.nodup_cons.mp hnd
      obtain ⟨ih1, ih2⟩ := ih hA h1 hrest hndrest
        (fun f2 hf2 e he => by
          rw [hA1 f2 (fun hc => hndf (hc ▸ hf2))]
          exact hfresh f2 (List.mem_cons_of_mem f hf2) e he)
        hknd
      constructor
      · intro x hx
        rw [ih1 x (fun hc => hx (List.mem_cons_of_mem f hc)),
          hA1 x (fun hc => hx (hc ▸ hmemf))]
      · intro f2 hf2
        rcases List.mem_cons.mp hf2 with rfl | hf3
        · rw [ih1 f2 hndf]
          exact hA2
        · rw [ih2 f2 hf3, hA1 f2 (fun hc => hndf (hc ▸ hf3))]

/-- The effect of `baseConcat`: the initial node is preserved, the language
becomes the concatenation of the two operand languages, finals come from the
operands, rows only gain the crossing edges, and key-tidiness is preserved —
under disjoint successor-closed regions for the operands and normalization of
`after`. -/
theorem baseConcat_spec {nl : NodeList} {h : Heap} {base after : SubList}
    {h2 : Heap} {base2 : SubList} {Rb Ra : NodeRef → Prop}
    (hok : baseConcat nl h base after = .ok (h2, base2))
    (hbi : Rb base.initial)
    (hbf : ∀ f ∈ base.final, Rb f)
    (hbc : ∀ x, Rb x → ∀ e ∈ h.out x, Rb e.1)
    (hai : Ra after.initial)
    (haf : ∀ f ∈ after.final, Ra f)
    (hac : ∀ x, Ra x → ∀ e ∈ h.out x, Ra e.1)
    (hdisj : ∀ x, Rb x → Ra x → False)
    (hanorm : ∀ x : NodeRef, lookupA (h.out x) after.initial = none)
    (hfnd : base.final.Nodup)
    (hknd : ∀ x : NodeRef, ((h.out x).map (fun e => e.1)).Nodup) :
    base2.initial = base.initial ∧
    (∀ w, AcceptsSub h2 base2 w ↔
      WordCat (AcceptsSub h base) (AcceptsSub h after) w) ∧
    (∀ f ∈ base2.final, f ∈ base.final ∨ f ∈ after.final) ∧
    base2.final.Nodup ∧
    (∀ x, x ∉ base.final → x ≠ after.initial → x ≠ base.initial →
      h2.out x = h.out x) ∧
    (∀ x, ∀ e ∈ h2.out x, e ∈ h.out x ∨
      (x ∈ base.final ∧ e ∈ h.out after.initial)) ∧
    (∀ x : NodeRef, ((h2.out x).map (fun e => e.1)).Nodup) ∧
    (base.final ≠ [] → after.final ≠ [] →
      ∀ x, x ≠ after.initial → ∀ e ∈ h.out x, e ∈ h2.out x) ∧
    (base.final ≠ [] → after.final = [] → h2.out base.initial = []) ∧
    (base.final = [] → h2 = h ∧ base2 = base) := by
  unfold baseConcat at hok
  by_cases hbfe : base.final = []
  · rw [if_pos hbfe] at hok
    have hp := Except.ok.inj hok
    rw [Prod.mk.injEq] at hp
    obtain ⟨rfl, rfl⟩ := hp
    refine ⟨rfl, ?_, fun f hf => Or.inl hf, hfnd, fun x _ _ _ => rfl,
      fun x e he => Or.inl he, hknd, fun hc => absurd hbfe hc,
      fun hc _ => absurd hbfe hc, fun _ => ⟨rfl, rfl⟩⟩
    intro w
    constructor
    · rintro ⟨f, hf, -⟩
      rw [hbfe] at hf
      exact absurd hf (List.not_mem_nil f)
    · rintro ⟨u, v, -, ⟨f, hf, -⟩, -⟩
      rw [hbfe] at hf
      exact absurd hf (List.not_mem_nil f)
  · rw [if_neg hbfe] at hok
    by_cases hafe : after.final = []
    · rw [if_pos hafe] at hok
      have hok2 : ((succOut h base.initial).foldlM
          (fun hh t => unlinkNodes nl hh base.initial t) h >>= fun hh =>
          Except.ok (hh, ({ base with final := ([] : List NodeRef) } : SubList))) =
          Except.ok (h2, base2) := hok
      rw [exceptBind_eq_ok] at hok2
      obtain ⟨hB, hfold, hfin⟩ := hok2
      have hp := Except.ok.inj hfin
      rw [Prod.mk.injEq] at hp
      obtain ⟨rfl, rfl⟩ := hp
      obtain ⟨hu1, hu2⟩ := unlink_row_fold (fun t => t)
        (succOut h base.initial) h hB hfold
      have hrow0 : hB.out base.initial = [] := by
        rw [hu2]
        refine foldl_removeA_all (fun t => t) _ _ ?_
        intro e he
        exact ⟨e.1, List.mem_map.mpr ⟨e, he, rfl⟩, rfl⟩
      refine ⟨rfl, ?_, fun f hf => absurd hf (List.not_mem_nil f),
        List.nodup_nil, fun x _ _ hx3 => hu1 x hx3, ?_, ?_,
        fun _ hc => absurd hafe hc, fun _ _ => hrow0,
        fun hc => absurd hc hbfe⟩
      · intro w
        constructor
        · rintro ⟨f, hf, -⟩
          exact absurd hf (List.not_mem_nil f)
        · rintro ⟨u, v, -, -, f, hf, -⟩
          rw [hafe] at hf
          exact absurd hf (List.not_mem_nil f)
      · intro x e he
        by_cases hx : x = base.initial
        · rw [hx, hrow0] at he
          exact absurd he (List.not_mem_nil e)
        · rw [hu1 x hx] at he
          exact Or.inl he
      · intro x
        by_cases hx : x = base.initial
        · rw [hx, hrow0]
          exact List.nodup_nil
        · rw [hu1 x hx]
          exact hknd x
    · rw [if_neg hafe] at hok
      have hok2 : (base.final.foldlM (fun hh f =>
          (h.out after.initial).foldlM (fun h3 e => linkNodes nl h3 f e.1 e.2) hh)
          h >>= fun hA =>
          (h.out after.initial).foldlM
            (fun hh e => unlinkNodes nl hh after.initial e.1) hA >>= fun hB =>
          Except.ok (hB, ({ (if after.initial ∈ after.final then base
              else { base with final := ([] : List NodeRef) }) with
            final := (after.final.foldl
              (fun acc n => if n = after.initial then acc else addFinal acc n)
              (if after.initial ∈ after.final then base
                else { base with final := ([] : List NodeRef) }).final) } :
            SubList))) = Except.ok (h2, base2) := hok
      rw [exceptBind_eq_ok] at hok2
      obtain ⟨hA, hlink, hrest⟩ := hok2
      rw [exceptBind_eq_ok] at hrest
      obtain ⟨hB, hunlink, hfin⟩ := hrest
      have hp := Except.ok.inj hfin
      rw [Prod.mk.injEq] at hp
      obtain ⟨rfl, hb2⟩ := hp
      have hnotaif : after.initial ∉ base.final := fun hc => hdisj _ (hbf _ hc) hai
      have hEb : ∀ x y cp, Rb x → EdgeCh h x y cp → Rb y := by
        rintro x y cp hx ⟨e, he, rfl, -⟩
        exact hbc x hx e he
      have hEa : ∀ x y cp, Ra x → EdgeCh h x y cp → Ra y := by
        rintro x y cp hx ⟨e, he, rfl, -⟩
        exact hac x hx e he
      obtain ⟨hL1, hL2⟩ := concat_link_fold (h.out after.initial) base.final h hA
        hlink hfnd
        (fun f hf e he => lookupA_eq_none_of_forall (fun e2 he2 hc =>
          hdisj e2.1 (hbc f (hbf f hf) e2 he2)
            (by rw [hc]; exact hac after.initial hai e he)))
        (hknd after.initial)
      obtain ⟨hU1, hU2⟩ := unlink_row_fold (fun e : NodeRef × CharSet => e.1)
        (h.out after.initial) hA hB hunlink
      have hrowai : hB.out after.initial = [] := by
        rw [hU2, hL1 after.initial hnotaif]
        refine foldl_removeA_all _ _ _ ?_
        intro e he
        exact ⟨e, he, rfl⟩
      have hrowf : ∀ f ∈ base.final, hB.out f = h.out f ++ h.out after.initial := by
        intro f hf
        rw [hU1 f (fun hc => hnotaif (hc ▸ hf)), hL2 f hf]
      have hrowo : ∀ x, x ∉ base.final → x ≠ after.initial →
          hB.out x = h.out x := by
        intro x hx1 hx2
        rw [hU1 x hx2, hL1 x hx1]
      have hedge : ∀ x b cp, EdgeCh hB x b cp ↔
          ((x ≠ after.initial ∧ EdgeCh h x b cp) ∨
            (x ∈ base.final ∧ EdgeCh h after.initial b cp)) := by
        intro x b cp
        by_cases hx1 : x ∈ base.final
        · have hxne : x ≠ after.initial := fun hc => hnotaif (hc ▸ hx1)
          constructor
          · rintro ⟨e, he, rfl, hhas⟩
            rw [hrowf x hx1] at he
            rcases List.mem_append.mp he with h1 | h1
            · exact Or.inl ⟨hxne, e, h1, rfl, hhas⟩
            · exact Or.inr ⟨hx1, e, h1, rfl, hhas⟩
          · rintro (⟨-, e, he, rfl, hhas⟩ | ⟨-, e, he, rfl, hhas⟩)
            · exact ⟨e, by rw [hrowf x hx1]; exact List.mem_append.mpr (Or.inl he),
                rfl, hhas⟩
            · exact ⟨e, by rw [hrowf x hx1]; exact List.mem_append.mpr (Or.inr he),
                rfl, hhas⟩
        · by_cases hx2 : x = after.initial
          · subst hx2
            constructor
            · rintro ⟨e, he, -, -⟩
              rw [hrowai] at he
              exact absurd he (List.not_mem_nil e)
            · rintro (⟨hc, -⟩ | ⟨hc, -⟩)
              · exact absurd rfl hc
              · exact absurd hc hx1
          · constructor
            · rintro ⟨e, he, rfl, hhas⟩
              rw [hrowo x hx1 hx2] at he
              exact Or.inl ⟨hx2, e, he, rfl, hhas⟩
            · rintro (⟨-, e, he, rfl, hhas⟩ | ⟨hc, -⟩)
              · exact ⟨e, by rw [hrowo x hx1 hx2]; exact he, rfl, hhas⟩
              · exact absurd hc hx1
      have hini : base2.initial = base.initial := by
        rw [← hb2]
        show (if after.initial ∈ after.final then base
          else { base with final := ([] : List NodeRef) }).initial = base.initial
        by_cases hcif : after.initial ∈ after.final
        · rw [if_pos hcif]
        · rw [if_neg hcif]
      have hfinmem : ∀ f, f ∈ base2.final ↔
          ((after.initial ∈ after.final ∧ f ∈ base.final) ∨
            (f ∈ after.final ∧ f ≠ after.initial)) := by
        intro f
        rw [← hb2]
        show f ∈ after.final.foldl
          (fun acc n => if n = after.initial then acc else addFinal acc n)
          (if after.initial ∈ after.final then base
            else { base with final := ([] : List NodeRef) }).final ↔ _
        rw [mem_foldl_addFinal_if]
        by_cases hcif : after.initial ∈ after.final
        · rw [if_pos hcif]
          constructor
          · rintro (hx | hx)
            · exact Or.inl ⟨hcif, hx⟩
            · exact Or.inr hx
          · rintro (⟨-, hx⟩ | hx)
            · exact Or.inl hx
            · exact Or.inr hx
        · rw [if_neg hcif]
          constructor
          · rintro (hx | hx)
            · exact absurd hx (List.not_mem_nil f)
            · exact Or.inr hx
          · rintro (⟨hc, -⟩ | hx)
            · exact absurd hc hcif
            · exact Or.inr hx
      have hYfwd : ∀ (w : List ℚ) (b f' : NodeRef), Ra b → PathW hB b w f' →
          Ra f' ∧ PathW h b w f' := by
        intro w
        induction w with
        | nil =>
            intro b f' hb hp
            rw [PathW_nil_iff] at hp
            subst hp
            exact ⟨hb, PathW.nil _⟩
        | cons cp w ih =>
            intro b f' hb hp
            rw [PathW_cons_iff] at hp
            obtain ⟨c, he, hp2⟩ := hp
            rcases (hedge b c cp).mp he with ⟨-, hE⟩ | ⟨hmem, -⟩
            · have hc : Ra c := hEa b c cp hb hE
              obtain ⟨hf', hp3⟩ := ih c f' hc hp2
              exact ⟨hf', PathW_cons_iff.mpr ⟨c, hE, hp3⟩⟩
            · exact (hdisj b (hbf b hmem) hb).elim
      have hYbwd : ∀ (w : List ℚ) (b f' : NodeRef), Ra b → b ≠ after.initial →
          PathW h b w f' → PathW hB b w f' := by
        intro w
        induction w with
        | nil =>
            intro b f' _ _ hp
            rw [PathW_nil_iff] at hp ⊢
            exact hp
        | cons cp w ih =>
            intro b f' hb hbne hp
            rw [PathW_cons_iff] at hp ⊢
            obtain ⟨c, he, hp2⟩ := hp
            have hcne : c ≠ after.initial := by
              obtain ⟨e, hee, rfl, -⟩ := he
              exact ne_of_lookupA_none (hanorm b) hee
            exact ⟨c, (hedge b c cp).mpr (Or.inl ⟨hbne, he⟩),
              ih c f' (hEa b c cp hb he) hcne hp2⟩
      have hXbwd : ∀ (w : List ℚ) (a f' : NodeRef), Rb a → PathW h a w f' →
          PathW hB a w f' :=
        fun w a f' ha hp => PathW_mono_edge
          (fun x y cp hx hE => (hedge x y cp).mpr
            (Or.inl ⟨fun hc => hdisj x hx (by rw [hc]; exact hai), hE⟩))
          hEb ha hp
      have hX : ∀ (w : List ℚ) (a : NodeRef), Rb a → ∀ f', PathW hB a w f' →
          (Rb f' ∧ PathW h a w f') ∨
          (∃ u cp v, w = u ++ cp :: v ∧ (∃ fb ∈ base.final, PathW h a u fb) ∧
            ∃ t, EdgeCh h after.initial t cp ∧ Ra f' ∧ PathW h t v f') := by
        intro w
        induction w with
        | nil =>
            intro a ha f' hp
            rw [PathW_nil_iff] at hp
            subst hp
            exact Or.inl ⟨ha, PathW.nil _⟩
        | cons cp w ih =>
            intro a ha f' hp
            rw [PathW_cons_iff] at hp
            obtain ⟨b, he, hp2⟩ := hp
            rcases (hedge a b cp).mp he with ⟨-, hE⟩ | ⟨hmem, hEa2⟩
            · have hb : Rb b := hEb a b cp ha hE
              rcases ih b hb f' hp2 with ⟨hf', hp3⟩ |
                ⟨u, cp2, v, rfl, ⟨fb, hfb, hpu⟩, t, hEt, hf', hpt⟩
              · exact Or.inl ⟨hf', PathW_cons_iff.mpr ⟨b, hE, hp3⟩⟩
              · exact Or.inr ⟨cp :: u, cp2, v, rfl,
                  ⟨fb, hfb, PathW_cons_iff.mpr ⟨b, hE, hpu⟩⟩, t, hEt, hf', hpt⟩
            · have hb : Ra b := hEa after.initial b cp hai hEa2
              obtain ⟨hf', hp3⟩ := hYfwd w b f' hb hp2
              exact Or.inr ⟨[], cp, w, rfl, ⟨a, hmem, PathW.nil _⟩, b, hEa2,
                hf', hp3⟩
      refine ⟨hini, ?_, ?_, ?_, ?_, ?_, ?_, ?_, fun _ hc => absurd hc hafe,
        fun hc => absurd hc hbfe⟩
      · intro w
        constructor
        · rintro ⟨f', hf', hp⟩
          rw [hini] at hp
          rcases (hfinmem f').mp hf' with ⟨hcif, hfb⟩ | ⟨hfa, hfne⟩
          · rcases hX w base.initial hbi f' hp with ⟨-, hp2⟩ |
              ⟨u, cp, v, rfl, -, t, -, hf'Ra, -⟩
            · exact ⟨w, [], by simp, ⟨f', hfb, hp2⟩,
                ⟨after.initial, hcif, PathW.nil _⟩⟩
            · exact (hdisj f' (hbf f' hfb) hf'Ra).elim
          · rcases hX w base.initial hbi f' hp with ⟨hf'Rb, -⟩ |
              ⟨u, cp, v, rfl, ⟨fb, hfb, hpu⟩, t, hEt, -, hpt⟩
            · exact (hdisj f' hf'Rb (haf f' hfa)).elim
            · exact ⟨u, cp :: v, rfl, ⟨fb, hfb, hpu⟩,
                ⟨f', hfa, PathW_cons_iff.mpr ⟨t, hEt, hpt⟩⟩⟩
        · rintro ⟨u, v, rfl, ⟨fb, hfb, hpu⟩, fa, hfa, hpv⟩
          cases v with
          | nil =>
              have hfaeq : fa = after.initial := by
                rw [PathW_nil_iff] at hpv
                exact hpv
              subst hfaeq
              refine ⟨fb, (hfinmem fb).mpr (Or.inl ⟨hfa, hfb⟩), ?_⟩
              rw [hini]
              rw [List.append_nil]
              exact hXbwd u base.initial fb hbi hpu
          | cons cp v2 =>
              rw [PathW_cons_iff] at hpv
              obtain ⟨t, hEt, hpt⟩ := hpv
              have htne : t ≠ after.initial := by
                obtain ⟨e, hee, rfl, -⟩ := hEt
                exact ne_of_lookupA_none (hanorm after.initial) hee
              have hfane : fa ≠ after.initial := by
                intro hc
                subst hc
                obtain ⟨rfl, -⟩ := PathW_to_normalized hpt hanorm
                exact htne rfl
              refine ⟨fa, (hfinmem fa).mpr (Or.inr ⟨hfa, hfane⟩), ?_⟩
              rw [hini]
              refine PathW_append (hXbwd u base.initial fb hbi hpu) ?_
              refine PathW_cons_iff.mpr ⟨t, (hedge fb t cp).mpr
                (Or.inr ⟨hfb, hEt⟩), ?_⟩
              exact hYbwd v2 t fa (hEa after.initial t cp hai hEt) htne hpt
      · intro f hf
        rcases (hfinmem f).mp hf with ⟨-, hx⟩ | ⟨hx, -⟩
        · exact Or.inl hx
        · exact Or.inr hx
      · rw [← hb2]
        show (after.final.foldl
          (fun acc n => if n = after.initial then acc else addFinal acc n)
          (if after.initial ∈ after.final then base
            else { base with final := ([] : List NodeRef) }).final).Nodup
        refine nodup_foldl_addFinal_if after.final _ ?_
        by_cases hcif : after.initial ∈ after.final
        · rw [if_pos hcif]
          exact hfnd
        · rw [if_neg hcif]
          exact List.nodup_nil
      · intro x hx1 hx2 _
        exact hrowo x hx1 hx2
      · intro x e he
        by_cases hx1 : x ∈ base.final
        · rw [hrowf x hx1] at he
          rcases List.mem_append.mp he with h1 | h1
          · exact Or.inl h1
          · exact Or.inr ⟨hx1, h1⟩
        · by_cases hx2 : x = after.initial
          · rw [hx2, hrowai] at he
            exact absurd he (List.not_mem_nil e)
          · rw [hrowo x hx1 hx2] at he
            exact Or.inl he
      · intro x
        by_cases hx1 : x ∈ base.final
        · rw [hrowf x hx1, List.map_append, List.nodup_append]
          refine ⟨hknd x, hknd after.initial, ?_⟩
          intro a ha1 ha2
          obtain ⟨e1, he1, rfl⟩ := List.mem_map.mp ha1
          obtain ⟨e2, he2, heq⟩ := List.mem_map.mp ha2
          refine hdisj e1.1 (hbc x (hbf x hx1) e1 he1) ?_
          rw [← heq]
          exact hac after.initial hai e2 he2
        · by_cases hx2 : x = after.initial
          · rw [hx2, hrowai]
            exact List.nodup_nil
          · rw [hrowo x hx1 hx2]
            exact hknd x
      · intro _ _ x hxne e he
        by_cases hx1 : x ∈ base.final
        · rw [hrowf x hx1]
          exact List.mem_append.mpr (Or.inl he)
        · rw [hrowo x hx1 hxne]
          exact he

theorem AccLang_step {L : List ℚ → Prop} {n : Nat} :
    ∀ w, AccLang L (n + 1) w ↔ (AccLang L n w ∨ WordPow L (n + 1) w) := by
  intro w
  constructor
  · rintro (rfl | ⟨m, h1, h2, hp⟩)
    · exact Or.inl (Or.inl rfl)
    · by_cases hm : m ≤ n
      · exact Or.inl (Or.inr ⟨m, h1, hm, hp⟩)
      · have hm2 : m = n + 1 := by omega
        subst hm2
        exact Or.inr hp
  · rintro ((rfl | ⟨m, h1, h2, hp⟩) | hp)
    · exact Or.inl rfl
    · exact Or.inr ⟨m, h1, by omega, hp⟩
    · exact Or.inr ⟨n + 1, by omega, le_refl _, hp⟩

theorem WordCat_accLang {L : List ℚ → Prop} {n : Nat} :
    ∀ w, WordCat L (AccLang L n) w ↔
      ∃ m, 1 ≤ m ∧ m ≤ n + 1 ∧ WordPow L m w := by
  intro w
  constructor
  · rintro ⟨u, v, rfl, hu, (rfl | ⟨m, h1, h2, hp⟩)⟩
    · exact ⟨1, le_refl _, by omega, ⟨u, [], rfl, hu, rfl⟩⟩
    · exact ⟨m + 1, by omega, by omega, ⟨u, v, rfl, hu, hp⟩⟩
  · rintro ⟨m, h1, h2, hp⟩
    cases m with
    | zero => omega
    | succ m =>
        obtain ⟨u, v, rfl, hu, hv⟩ := hp
        cases m with
        | zero =>
            have hv2 : v = [] := hv
            exact ⟨u, v, rfl, hu, Or.inl hv2⟩
        | succ m2 =>
            exact ⟨u, v, rfl, hu, Or.inr ⟨m2 + 1, by omega, by omega, hv⟩⟩

theorem WordPow_orEps {L : List ℚ → Prop} :
    ∀ (n : Nat) (w : List ℚ),
      WordPow (fun u => u = [] ∨ L u) n w ↔ AccLang L n w := by
  intro n
  induction n with
  | zero =>
      intro w
      constructor
      · intro hw
        exact Or.inl hw
      · rintro (rfl | ⟨m, h1, h2, -⟩)
        · rfl
        · omega
  | succ n ih =>
      intro w
      constructor
      · rintro ⟨u, v, rfl, (rfl | hu), hv⟩
        · rw [List.nil_append]
          rcases (ih v).mp hv with rfl | ⟨m, h1, h2, hp⟩
          · exact Or.inl rfl
          · exact Or.inr ⟨m, h1, by omega, hp⟩
        · rcases (WordCat_accLang (u ++ v)).mp
            ⟨u, v, rfl, hu, (ih v).mp hv⟩ with ⟨m, h1, h2, hp⟩
          exact Or.inr ⟨m, h1, h2, hp⟩
      · rintro (rfl | ⟨m, h1, h2, hp⟩)
        · exact ⟨[], [], rfl, Or.inl rfl, (ih []).mpr (Or.inl rfl)⟩
        · cases m with
          | zero => omega
          | succ m =>
              obtain ⟨u, v, rfl, hu, hv⟩ := hp
              refine ⟨u, v, rfl, Or.inr hu, (ih v).mpr ?_⟩
              cases m with
              | zero =>
                  have hv2 : v = [] := hv
                  exact Or.inl hv2
              | succ m2 => exact Or.inr ⟨m2 + 1, by omega, by omega, hv⟩

theorem RepInv_congrM {lid c0 c1 : Nat} {copy : SubList} {L M M2 : List ℚ → Prop}
    {nl : NodeList} {h : Heap} {base : SubList}
    (hI : RepInv lid c0 c1 copy L M nl h base) (hMM : ∀ w, M w ↔ M2 w) :
    RepInv lid c0 c1 copy L M2 nl h base := by
  obtain ⟨h1, h2, h3, h4, h5, h6, h7, h8, h9, h10, h11, h12, h13, h14⟩ := hI
  exact ⟨h1, h2, h3, h4, h5, h6, h7, h8, h9, h10, h11, h12,
    fun w => (h13 w).trans (hMM w), h14⟩

theorem RepInv_step {lid c0 c1 : Nat} {copy : SubList} {L M : List ℚ → Prop}
    {nlI : NodeList} {hI : Heap} {baseI : SubList}
    {c : SubList} {nlA : NodeList} {hA : Heap} {hB : Heap} {baseB : SubList}
    (hInv : RepInv lid c0 c1 copy L M nlI hI baseI)
    (hlc : localCopy nlI hI copy = .ok (c, nlA, hA))
    (hcc : baseConcat nlA hA baseI c = .ok (hB, baseB)) :
    RepInv lid c0 c1 copy L (fun w => WordCat M L w) nlA hB baseB ∧
    baseB.initial = baseI.initial ∧
    nlI.nodeCounter ≤ nlA.nodeCounter ∧
    (∀ (a f : NodeRef) (w : List ℚ),
      (a.list = lid ∧ a.id < nlI.nodeCounter ∧ ¬ (c0 ≤ a.id ∧ a.id < c1)) →
      (f.list = lid ∧ f.id < nlI.nodeCounter ∧ ¬ (c0 ≤ f.id ∧ f.id < c1)) →
      baseI.final ≠ [] → c.final ≠ [] →
      (PathW hB a w f ↔ PathW hI a w f)) ∧
    (baseI.final ≠ [] → c.final = [] →
      hB.out baseI.initial = [] ∧ (∀ v, ¬ L v)) ∧
    (baseI.final = [] → hB = hA ∧ baseB = baseI ∧
      (∀ x : NodeRef, (x.list = lid → x.id < nlI.nodeCounter) →
        hA.out x = hI.out x)) := by
  obtain ⟨i1, i2, i3, i4, i5, i6, i7, i8, i9, i10, i11, i12, i13, i14⟩ := hInv
  obtain ⟨l1, l2, l3, l4, l5, l6, l7, l8, l9⟩ := localCopy_spec i4
    (by rw [i1]; exact i8.1) (lt_of_lt_of_le i8.2.2 i2) hlc
  have haAold : ∀ x : NodeRef, (x.list = lid → x.id < nlI.nodeCounter) →
      hA.out x = hI.out x :=
    fun x hx => l3 x (fun hl => hx (hl.trans i1))
  have hnormA : ∀ x : NodeRef, lookupA (hA.out x) copy.initial = none := by
    intro x
    apply lookupA_eq_none_of_forall
    intro e he hc
    by_cases hx : x.list = nlI.listId ∧ nlI.nodeCounter ≤ x.id
    · have hb := (l6 x hx.1 hx.2 e he).2.1
      rw [hc] at hb
      have := i8.2.2
      omega
    · push_neg at hx
      rw [haAold x (fun hl => hx (by rw [i1]; exact hl))] at he
      exact ne_of_lookupA_none (i11 x) he hc
  have hbi2 : baseI.initial.list = lid ∧ baseI.initial.id < nlI.nodeCounter ∧
      ¬ (c0 ≤ baseI.initial.id ∧ baseI.initial.id < c1) := i5
  obtain ⟨cc1, cc2, cc3, cc4, cc5, cc6, cc7, cc8, cc9, cc10⟩ :=
    @baseConcat_spec nlA hA baseI c hB baseB
      (fun x => x.list = lid ∧ x.id < nlI.nodeCounter ∧
        ¬ (c0 ≤ x.id ∧ x.id < c1))
      (fun x => x.list = lid ∧ nlI.nodeCounter ≤ x.id ∧ x.id < nlA.nodeCounter)
      hcc
      ⟨i5.1, i5.2.1, i5.2.2⟩
      (fun f hf => i6 f hf)
      (fun x hx e he => by
        rw [haAold x (fun _ => hx.2.1)] at he
        have ht := i4.2.1 x e he
        exact ⟨ht.1.trans i1, ht.2, i7 x hx.2.2 e he⟩)
      ⟨l4.1.trans i1, l4.2.1, l4.2.2⟩
      (fun f hf => ⟨((l5 f hf).1).trans i1, (l5 f hf).2.1, (l5 f hf).2.2⟩)
      (fun x hx e he => by
        have ht := l6 x (by rw [← i1] at hx; exact hx.1) hx.2.1 e he
        exact ⟨ht.1.trans i1, ht.2.1, ht.2.2⟩)
      (fun x hx1 hx2 => by omega)
      (l9 i11)
      i12
      l7.2.2
  have hrowBold : ∀ x : NodeRef, x ∉ baseI.final → x ≠ c.initial →
      x ≠ baseI.initial → (x.list = lid → x.id < nlI.nodeCounter) →
      hB.out x = hI.out x :=
    fun x h1 h2 h3 h4 => (cc5 x h1 h2 h3).trans (haAold x h4)
  have hsegrow : ∀ x : NodeRef, c0 ≤ x.id → x.id < c1 → hB.out x = hI.out x := by
    intro x hx0 hx1
    refine hrowBold x ?_ ?_ ?_ (fun _ => by omega)
    · intro hc
      exact (i6 x hc).2.2 ⟨hx0, hx1⟩
    · intro hc
      rw [hc] at hx1
      have := l4.2.1
      omega
    · intro hc
      rw [hc] at hx0 hx1
      exact i5.2.2 ⟨hx0, hx1⟩
  refine ⟨⟨l1.trans i1, le_trans i2 l2, i3, ?_, ?_, ?_, ?_, i8, i9, ?_, ?_,
    cc4, ?_, ?_⟩, cc1, l2, ?_, ?_, ?_⟩
  · refine ⟨?_, ?_, cc7⟩
    · intro x hx
      have hxa : ∀ y : NodeRef, y.list = lid → y.id < nlA.nodeCounter → x ≠ y := by
        intro y hy1 hy2 hc
        subst hc
        exact hx ⟨by rw [l1.trans i1]; exact hy1, hy2⟩
      rw [cc5 x
        (fun hc => hxa x (i6 x hc).1 (lt_of_lt_of_le (i6 x hc).2.1 l2) rfl)
        (hxa c.initial (l4.1.trans i1) l4.2.2)
        (hxa baseI.initial i5.1 (lt_of_lt_of_le i5.2.1 l2))]
      exact l7.1 x hx
    · intro x e he
      rcases cc6 x e he with h1 | ⟨-, h1⟩
      · exact l7.2.1 x e h1
      · exact l7.2.1 c.initial e h1
  · rw [cc1]
    exact ⟨i5.1, lt_of_lt_of_le i5.2.1 l2, i5.2.2⟩
  · intro f hf
    rcases cc3 f hf with h1 | h1
    · exact ⟨(i6 f h1).1, lt_of_lt_of_le (i6 f h1).2.1 l2, (i6 f h1).2.2⟩
    · refine ⟨((l5 f h1).1).trans i1, (l5 f h1).2.2, ?_⟩
      have := (l5 f h1).2.1
      rintro ⟨-, hlt⟩
      omega
  · intro x hxns e he
    rcases cc6 x e he with h1 | ⟨-, h1⟩
    · by_cases hx : x.list = nlI.listId ∧ nlI.nodeCounter ≤ x.id
      · have := (l6 x hx.1 hx.2 e h1).2.1
        rintro ⟨-, hlt⟩
        omega
      · push_neg at hx
        rw [haAold x (fun hl => hx (by rw [i1]; exact hl))] at h1
        exact i7 x hxns e h1
    · have := (l6 c.initial l4.1 l4.2.1 e h1).2.1
      rintro ⟨-, hlt⟩
      omega
  · intro x hx0 hx1 e he
    rw [hsegrow x hx0 hx1] at he
    exact i10 x hx0 hx1 e he
  · intro x
    apply lookupA_eq_none_of_forall
    intro e he hc
    rcases cc6 x e he with h1 | ⟨-, h1⟩
    · exact ne_of_lookupA_none (hnormA x) h1 hc
    · exact ne_of_lookupA_none (hnormA c.initial) h1 hc
  · intro w
    refine (cc2 w).trans ?_
    refine WordCat_congr ?_ ?_ w
    · intro u
      refine (@AcceptsSub_frame (fun x => x.list = lid ∧ x.id < nlI.nodeCounter)
        hI hA baseI
        (fun x hx => haAold x (fun _ => hx.2))
        (fun x y cp hx he => by
          obtain ⟨e, hee, rfl, -⟩ := he
          have ht := i4.2.1 x e hee
          exact ⟨ht.1.trans i1, ht.2⟩)
        ⟨i5.1, i5.2.1⟩ u).trans (i13 u)
    · intro v
      exact (l8 v).trans (i14 v)
  · intro w
    refine (@AcceptsSub_frame
      (fun x => x.list = lid ∧ c0 ≤ x.id ∧ x.id < c1) hI hB copy
      (fun x hx => hsegrow x hx.2.1 hx.2.2)
      (fun x y cp hx he => by
        obtain ⟨e, hee, rfl, -⟩ := he
        have ht := i4.2.1 x e hee
        have hb := i10 x hx.2.1 hx.2.2 e hee
        exact ⟨ht.1.trans i1, hb.1, hb.2⟩)
      ⟨i8.1, i8.2.1, i8.2.2⟩ w).trans (i14 w)
  · intro a f w haR hfR hbfe hcfe
    refine @PathW_restrict (fun x => x.list = lid ∧ x.id < nlI.nodeCounter ∧
      ¬ (c0 ≤ x.id ∧ x.id < c1)) hI hB w a f ?_ ?_ ?_ haR hfR
    · intro x y cp hx hy
      constructor
      · rintro ⟨e, he, rfl, hhas⟩
        rcases cc6 x e he with h1 | ⟨hxf, h1⟩
        · rw [haAold x (fun _ => hx.2.1)] at h1
          exact ⟨e, h1, rfl, hhas⟩
        · exfalso
          have hb := (l6 c.initial l4.1 l4.2.1 e h1).2.1
          have h2y := hy.2.1
          omega
      · rintro ⟨e, he, rfl, hhas⟩
        refine ⟨e, ?_, rfl, hhas⟩
        refine cc8 hbfe hcfe x ?_ e ?_
        · intro hc
          rw [hc] at hx
          have := l4.2.1
          have h2x := hx.2.1
          omega
        · rw [haAold x (fun _ => hx.2.1)]
          exact he
    · intro x y cp hx he
      obtain ⟨e, hee, rfl, -⟩ := he
      rcases cc6 x e hee with h1 | ⟨hxf, -⟩
      · intro hyR
        by_cases hxl : x.list = lid
        · by_cases hxc : x.id < nlI.nodeCounter
          · have hxseg : c0 ≤ x.id ∧ x.id < c1 := by
              by_contra hns
              exact hx ⟨hxl, hxc, hns⟩
            rw [haAold x (fun _ => hxc)] at h1
            have hb := i10 x hxseg.1 hxseg.2 e h1
            exact hyR.2.2 hb
          · have hb := (l6 x (by rw [i1]; exact hxl)
              (Nat.le_of_not_lt hxc) e h1).2.1
            have h2y := hyR.2.1
            omega
        · have hj : hA.out x = [] :=
            l7.1 x (fun hc => hxl (hc.1.trans (l1.trans i1)))
          rw [hj] at h1
          exact absurd h1 (List.not_mem_nil e)
      · exact absurd (i6 x hxf) hx
    · intro x y cp hx he
      obtain ⟨e, hee, rfl, -⟩ := he
      have ht := i4.2.1 x e hee
      exact ⟨ht.1.trans i1, ht.2, i7 x hx.2.2 e hee⟩
  · intro hbfe hcfe
    refine ⟨cc9 hbfe hcfe, ?_⟩
    intro v hv
    have hac : AcceptsSub hA c v := (l8 v).mpr ((i14 v).mpr hv)
    obtain ⟨f, hf, -⟩ := hac
    rw [hcfe] at hf
    exact absurd hf (List.not_mem_nil f)
  · intro hbfe
    obtain ⟨h1e, h2e⟩ := cc10 hbfe
    exact ⟨h1e, h2e, haAold⟩

theorem baseRepeatLoop_spec {lid c0 c1 : Nat} {copy : SubList} {L : List ℚ → Prop} :
    ∀ (k : Nat) (M : List ℚ → Prop) (nlI : NodeList) (hI : Heap) (baseI : SubList)
      (nl2 : NodeList) (h2 : Heap) (base2 : SubList),
      baseRepeatLoop k nlI hI baseI copy = .ok (nl2, h2, base2) →
      RepInv lid c0 c1 copy L M nlI hI baseI →
      RepInv lid c0 c1 copy L (fun w => WordCat M (WordPow L k) w) nl2 h2 base2 ∧
      base2.initial = baseI.initial ∧ nlI.nodeCounter ≤ nl2.nodeCounter := by
  intro k
  induction k with
  | zero =>
      intro M nlI hI baseI nl2 h2 base2 hok hInv
      have hp := Except.ok.inj hok
      rw [Prod.mk.injEq, Prod.mk.injEq] at hp
      obtain ⟨rfl, rfl, rfl⟩ := hp
      refine ⟨RepInv_congrM hInv ?_, rfl, le_refl _⟩
      intro w
      exact (WordCat_eps_right w).symm
  | succ k ih =>
      intro M nlI hI baseI nl2 h2 base2 hok hInv
      have hok2 : (localCopy nlI hI copy >>= fun s =>
          baseConcat s.2.1 s.2.2 baseI s.1 >>= fun t =>
          baseRepeatLoop k s.2.1 t.1 t.2 copy) = .ok (nl2, h2, base2) := hok
      rw [exceptBind_eq_ok] at hok2
      obtain ⟨s, hlc, hrest⟩ := hok2
      rw [exceptBind_eq_ok] at hrest
      obtain ⟨t, hcc, hloop⟩ := hrest
      obtain ⟨c, nlA, hA⟩ := s
      obtain ⟨hB, baseB⟩ := t
      obtain ⟨hInv2, hini, hmono, -, -, -⟩ := RepInv_step hInv hlc hcc
      obtain ⟨hInv3, hini2, hmono2⟩ := ih (fun w => WordCat M L w) nlA hB baseB
        nl2 h2 base2 hloop hInv2
      refine ⟨RepInv_congrM hInv3 ?_, hini2.trans hini, le_trans hmono hmono2⟩
      intro w
      exact WordCat_assoc w

theorem RepInv_step_rf {lid c0 c1 : Nat} {copy : SubList} {L : List ℚ → Prop}
    {j : Nat} {nlI : NodeList} {hI : Heap} {baseI : SubList}
    {c : SubList} {nlA : NodeList} {hA : Heap} {hB : Heap} {baseB : SubList}
    {rfI : List NodeRef}
    (hInv : RepInv lid c0 c1 copy L (fun w => WordPow L (j + 1) w) nlI hI baseI)
    (hlc : localCopy nlI hI copy = .ok (c, nlA, hA))
    (hcc : baseConcat nlA hA baseI c = .ok (hB, baseB))
    (hrfR : ∀ f ∈ rfI, f.list = lid ∧ f.id < nlI.nodeCounter ∧
      ¬ (c0 ≤ f.id ∧ f.id < c1))
    (hrfL : ∀ w, (∃ f ∈ rfI, PathW hI baseI.initial w f) ↔ AccLang L (j + 1) w) :
    RepInv lid c0 c1 copy L (fun w => WordPow L (j + 2) w) nlA hB baseB ∧
    baseB.initial = baseI.initial ∧ nlI.nodeCounter ≤ nlA.nodeCounter ∧
    (∀ f ∈ baseB.final.foldl addFinal rfI, f.list = lid ∧
      f.id < nlA.nodeCounter ∧ ¬ (c0 ≤ f.id ∧ f.id < c1)) ∧
    (∀ w, (∃ f ∈ baseB.final.foldl addFinal rfI, PathW hB baseI.initial w f) ↔
      AccLang L (j + 2) w) := by
  obtain ⟨hS, hini, hmono, htr, hemp, hid⟩ := RepInv_step hInv hlc hcc
  have hS2 : RepInv lid c0 c1 copy L (fun w => WordPow L (j + 2) w) nlA hB baseB :=
    RepInv_congrM hS (fun w => WordPow_succ_right (j + 1) w)
  have hS2c := hS2
  obtain ⟨-, -, -, -, -, s6, -, -, -, -, -, -, s13, -⟩ := hS2c
  have hbiR : baseI.initial.list = lid ∧ baseI.initial.id < nlI.nodeCounter ∧
      ¬ (c0 ≤ baseI.initial.id ∧ baseI.initial.id < c1) := hInv.2.2.2.2.1
  have hrfB : ∀ w, (∃ f ∈ rfI, PathW hB baseI.initial w f) ↔
      AccLang L (j + 1) w := by
    by_cases hbfe : baseI.final = []
    · obtain ⟨hBA, -, hframe⟩ := hid hbfe
      have hcl : ∀ x y cp, (x.list = lid → x.id < nlI.nodeCounter) →
          EdgeCh hI x y cp → (y.list = lid → y.id < nlI.nodeCounter) := by
        intro x y cp hx he
        obtain ⟨e, hee, rfl, -⟩ := he
        exact fun _ => (hInv.2.2.2.1.2.1 x e hee).2
      intro w
      rw [hBA]
      constructor
      · rintro ⟨f, hf, hp⟩
        refine (hrfL w).mp ⟨f, hf, ?_⟩
        exact @PathW_transfer (fun x => x.list = lid → x.id < nlI.nodeCounter)
          hA hI baseI.initial f w (fun x hx => (hframe x hx).symm)
          (by
            intro x y cp hx he
            obtain ⟨e, hee, rfl, -⟩ := he
            rw [hframe x hx] at hee
            exact fun _ => (hInv.2.2.2.1.2.1 x e hee).2)
          (fun _ => hbiR.2.1) hp
      · intro hw
        obtain ⟨f, hf, hp⟩ := (hrfL w).mpr hw
        refine ⟨f, hf, @PathW_transfer
          (fun x => x.list = lid → x.id < nlI.nodeCounter)
          hI hA baseI.initial f w hframe hcl (fun _ => hbiR.2.1) hp⟩
    · by_cases hcfe : c.final = []
      · obtain ⟨hrow0, hLemp⟩ := hemp hbfe hcfe
        have hbin_rf : baseI.initial ∈ rfI := by
          obtain ⟨f, hf, hp⟩ := (hrfL []).mpr (Or.inl rfl)
          obtain rfl := PathW_nil_iff.mp hp
          exact hf
        intro w
        constructor
        · rintro ⟨f, hf, hp⟩
          cases w with
          | nil => exact Or.inl rfl
          | cons cp rest =>
              rw [PathW_cons_iff] at hp
              obtain ⟨b, he, -⟩ := hp
              obtain ⟨e, hee, -, -⟩ := he
              rw [hrow0] at hee
              exact absurd hee (List.not_mem_nil e)
        · intro hw
          rcases hw with rfl | ⟨m, h1, h2, hp⟩
          · exact ⟨baseI.initial, hbin_rf, PathW.nil _⟩
          · exact absurd hp (WordPow_empty hLemp m h1 w)
      · intro w
        constructor
        · rintro ⟨f, hf, hp⟩
          refine (hrfL w).mp ⟨f, hf, ?_⟩
          exact (htr baseI.initial f w hbiR (hrfR f hf) hbfe hcfe).mp hp
        · intro hw
          obtain ⟨f, hf, hp⟩ := (hrfL w).mpr hw
          exact ⟨f, hf, (htr baseI.initial f w hbiR (hrfR f hf) hbfe hcfe).mpr hp⟩
  refine ⟨hS2, hini, hmono, ?_, ?_⟩
  · intro f hf
    rcases (mem_foldl_addFinal _ _ _).mp hf with h1 | h1
    · obtain ⟨ha, hb, hc⟩ := hrfR f h1
      exact ⟨ha, lt_of_lt_of_le hb hmono, hc⟩
    · exact s6 f h1
  · intro w
    have hsplit : (∃ f ∈ baseB.final.foldl addFinal rfI,
        PathW hB baseI.initial w f) ↔
        ((∃ f ∈ rfI, PathW hB baseI.initial w f) ∨ AcceptsSub hB baseB w) := by
      constructor
      · rintro ⟨f, hf, hp⟩
        rcases (mem_foldl_addFinal _ _ _).mp hf with h1 | h1
        · exact Or.inl ⟨f, h1, hp⟩
        · exact Or.inr ⟨f, h1, by rw [hini]; exact hp⟩
      · rintro (⟨f, hf, hp⟩ | ⟨f, hf, hp⟩)
        · exact ⟨f, (mem_foldl_addFinal _ _ _).mpr (Or.inl hf), hp⟩
        · refine ⟨f, (mem_foldl_addFinal _ _ _).mpr (Or.inr hf), ?_⟩
          rw [← hini]
          exact hp
    exact hsplit.trans ((or_congr (hrfB w) (s13 w)).trans (AccLang_step w).symm)

theorem RepInv_final {lid c0 c1 : Nat} {copy : SubList} {L M : List ℚ → Prop}
    {nl : NodeList} {h : Heap} {base : SubList} {h3 : Heap} {base3 : SubList}
    (hInv : RepInv lid c0 c1 copy L M nl h base)
    (hcc : baseConcat nl h base copy = .ok (h3, base3)) :
    base3.initial = base.initial ∧
    (∀ w, AcceptsSub h3 base3 w ↔ WordCat M L w) ∧
    (∀ (a f : NodeRef) (w : List ℚ),
      (a.list = lid ∧ a.id < nl.nodeCounter ∧ ¬ (c0 ≤ a.id ∧ a.id < c1)) →
      (f.list = lid ∧ f.id < nl.nodeCounter ∧ ¬ (c0 ≤ f.id ∧ f.id < c1)) →
      base.final ≠ [] → copy.final ≠ [] →
      (PathW h3 a w f ↔ PathW h a w f)) ∧
    (base.final ≠ [] → copy.final = [] →
      h3.out base.initial = [] ∧ (∀ v, ¬ L v)) ∧
    (base.final = [] → h3 = h ∧ base3 = base) := by
  obtain ⟨i1, i2, i3, i4, i5, i6, i7, i8, i9, i10, i11, i12, i13, i14⟩ := hInv
  obtain ⟨cc1, cc2, cc3, cc4, cc5, cc6, cc7, cc8, cc9, cc10⟩ :=
    @baseConcat_spec nl h base copy h3 base3
      (fun x => x.list = lid ∧ x.id < nl.nodeCounter ∧
        ¬ (c0 ≤ x.id ∧ x.id < c1))
      (fun x => x.list = lid ∧ c0 ≤ x.id ∧ x.id < c1)
      hcc
      ⟨i5.1, i5.2.1, i5.2.2⟩
      (fun f hf => i6 f hf)
      (fun x hx e he => by
        have ht := i4.2.1 x e he
        exact ⟨ht.1.trans i1, ht.2, i7 x hx.2.2 e he⟩)
      ⟨i8.1, i8.2.1, i8.2.2⟩
      (fun f hf => i9 f hf)
      (fun x hx e he => by
        have ht := i4.2.1 x e he
        have hb := i10 x hx.2.1 hx.2.2 e he
        exact ⟨ht.1.trans i1, hb.1, hb.2⟩)
      (fun x hx1 hx2 => hx1.2.2 ⟨hx2.2.1, hx2.2.2⟩)
      i11
      i12
      i4.2.2
  refine ⟨cc1, ?_, ?_, ?_, cc10⟩
  · intro w
    exact (cc2 w).trans (WordCat_congr i13 i14 w)
  · intro a f w haR hfR hbfe hcfe
    refine @PathW_restrict (fun x => x.list = lid ∧ x.id < nl.nodeCounter ∧
      ¬ (c0 ≤ x.id ∧ x.id < c1)) h h3 w a f ?_ ?_ ?_ haR hfR
    · intro x y cp hx hy
      constructor
      · rintro ⟨e, he, rfl, hhas⟩
        rcases cc6 x e he with h1 | ⟨hxf, h1⟩
        · exact ⟨e, h1, rfl, hhas⟩
        · exfalso
          have hb := i10 copy.initial i8.2.1 i8.2.2 e h1
          exact hy.2.2 hb
      · rintro ⟨e, he, rfl, hhas⟩
        refine ⟨e, ?_, rfl, hhas⟩
        refine cc8 hbfe hcfe x ?_ e he
        intro hc
        rw [hc] at hx
        exact hx.2.2 ⟨i8.2.1, i8.2.2⟩
    · intro x y cp hx he
      obtain ⟨e, hee, rfl, -⟩ := he
      rcases cc6 x e hee with h1 | ⟨hxf, -⟩
      · intro hyR
        by_cases hxl : x.list = lid
        · by_cases hxc : x.id < nl.nodeCounter
          · have hxseg : c0 ≤ x.id ∧ x.id < c1 := by
              by_contra hns
              exact hx ⟨hxl, hxc, hns⟩
            have hb := i10 x hxseg.1 hxseg.2 e h1
            exact hyR.2.2 hb
          · have hj : h.out x = [] := i4.1 x (by
              rintro ⟨-, hlt⟩
              exact hxc hlt)
            rw [hj] at h1
            exact absurd h1 (List.not_mem_nil e)
        · have hj : h.out x = [] := i4.1 x (by
            rintro ⟨hl, -⟩
            exact hxl (hl.trans i1))
          rw [hj] at h1
          exact absurd h1 (List.not_mem_nil e)
      · exact absurd (i6 x hxf) hx
    · intro x y cp hx he
      obtain ⟨e, hee, rfl, -⟩ := he
      have ht := i4.2.1 x e hee
      exact ⟨ht.1.trans i1, ht.2, i7 x hx.2.2 e hee⟩
  · intro hbfe hcfe
    refine ⟨cc9 hbfe hcfe, ?_⟩
    intro v hv
    obtain ⟨f, hf, -⟩ := (i14 v).mpr hv
    rw [hcfe] at hf
    exact absurd hf (List.not_mem_nil f)

theorem baseRepeatLoopAcc_spec {lid c0 c1 : Nat} {copy : SubList}
    {L : List ℚ → Prop} :
    ∀ (k j : Nat) (nlI : NodeList) (hI : Heap) (baseI : SubList)
      (rfI : List NodeRef) (nl2 : NodeList) (h2 : Heap) (base2 : SubList)
      (rf2 : List NodeRef),
      baseRepeatLoopAcc k nlI hI baseI copy rfI = .ok (nl2, h2, base2, rf2) →
      RepInv lid c0 c1 copy L (fun w => WordPow L (j + 1) w) nlI hI baseI →
      (∀ f ∈ rfI, f.list = lid ∧ f.id < nlI.nodeCounter ∧
        ¬ (c0 ≤ f.id ∧ f.id < c1)) →
      (∀ w, (∃ f ∈ rfI, PathW hI baseI.initial w f) ↔ AccLang L (j + 1) w) →
      RepInv lid c0 c1 copy L (fun w => WordPow L (j + 1 + k) w) nl2 h2 base2 ∧
      base2.initial = baseI.initial ∧ nlI.nodeCounter ≤ nl2.nodeCounter ∧
      (∀ f ∈ rf2, f.list = lid ∧ f.id < nl2.nodeCounter ∧
        ¬ (c0 ≤ f.id ∧ f.id < c1)) ∧
      (∀ w, (∃ f ∈ rf2, PathW h2 base2.initial w f) ↔
        AccLang L (j + 1 + k) w) := by
  intro k
  induction k with
  | zero =>
      intro j nlI hI baseI rfI nl2 h2 base2 rf2 hok hInv hrfR hrfL
      have hp := Except.ok.inj hok
      rw [Prod.mk.injEq, Prod.mk.injEq, Prod.mk.injEq] at hp
      obtain ⟨rfl, rfl, rfl, rfl⟩ := hp
      exact ⟨hInv, rfl, le_refl _, hrfR, hrfL⟩
  | succ k ih =>
      intro j nlI hI baseI rfI nl2 h2 base2 rf2 hok hInv hrfR hrfL
      have hok2 : (localCopy nlI hI copy >>= fun s =>
          baseConcat s.2.1 s.2.2 baseI s.1 >>= fun t =>
          baseRepeatLoopAcc k s.2.1 t.1 t.2 copy
            (t.2.final.foldl addFinal rfI)) = .ok (nl2, h2, base2, rf2) := hok
      rw [exceptBind_eq_ok] at hok2
      obtain ⟨s, hlc, hrest⟩ := hok2
      rw [exceptBind_eq_ok] at hrest
      obtain ⟨t, hcc, hloop⟩ := hrest
      obtain ⟨c, nlA, hA⟩ := s
      obtain ⟨hB, baseB⟩ := t
      obtain ⟨hInv2, hini, hmono, hrf2R, hrf2L⟩ :=
        RepInv_step_rf hInv hlc hcc hrfR hrfL
      have he2 : j + 2 = j + 1 + 1 := by omega
      rw [he2] at hInv2 hrf2L
      have hrf2L2 : ∀ w, (∃ f ∈ baseB.final.foldl addFinal rfI,
          PathW hB baseB.initial w f) ↔ AccLang L (j + 1 + 1) w := by
        intro w
        rw [hini]
        exact hrf2L w
      obtain ⟨hI3, hini3, hmono3, hrf3R, hrf3L⟩ := ih (j + 1) nlA hB baseB
        (baseB.final.foldl addFinal rfI) nl2 h2 base2 rf2 hloop hInv2 hrf2R hrf2L2
      have heq : j + 1 + 1 + k = j + 1 + (k + 1) := by omega
      rw [heq] at hI3 hrf3L
      exact ⟨hI3, hini3.trans hini, le_trans hmono hmono3, hrf3R, hrf3L⟩

theorem RepInv_init {nl : NodeList} {h : Heap} {bs : SubList}
    {copy : SubList} {nl1 : NodeList} {h1 : Heap}
    (htidy : Tidy nl h)
    (hbi : bs.initial.list = nl.listId ∧ bs.initial.id < nl.nodeCounter)
    (hbf : ∀ f ∈ bs.final, f.list = nl.listId ∧ f.id < nl.nodeCounter)
    (hnd : bs.final.Nodup)
    (hnorm : ∀ x : NodeRef, lookupA (h.out x) bs.initial = none)
    (hlc : localCopy nl h bs = .ok (copy, nl1, h1)) :
    RepInv nl.listId nl.nodeCounter nl1.nodeCounter copy
      (AcceptsSub h bs) (AcceptsSub h bs) nl1 h1 bs ∧
    nl.nodeCounter ≤ nl1.nodeCounter ∧
    (∀ (f : NodeRef) (w : List ℚ),
      PathW h1 bs.initial w f ↔ PathW h bs.initial w f) := by
  obtain ⟨l1, l2, l3, l4, l5, l6, l7, l8, l9⟩ :=
    localCopy_spec htidy hbi.1 hbi.2 hlc
  have htrans : ∀ (f : NodeRef) (w : List ℚ),
      PathW h1 bs.initial w f ↔ PathW h bs.initial w f := by
    intro f w
    constructor
    · intro hp
      exact @PathW_transfer (fun x => x.list = nl.listId → x.id < nl.nodeCounter)
        h1 h bs.initial f w (fun x hx => (l3 x hx).symm)
        (by
          intro x y cp hx he
          obtain ⟨e, hee, rfl, -⟩ := he
          rw [l3 x hx] at hee
          exact fun _ => (htidy.2.1 x e hee).2)
        (fun _ => hbi.2) hp
    · intro hp
      exact @PathW_transfer (fun x => x.list = nl.listId → x.id < nl.nodeCounter)
        h h1 bs.initial f w l3
        (by
          intro x y cp hx he
          obtain ⟨e, hee, rfl, -⟩ := he
          exact fun _ => (htidy.2.1 x e hee).2)
        (fun _ => hbi.2) hp
  refine ⟨⟨l1, le_refl _, l2, l7,
    ⟨hbi.1, lt_of_lt_of_le hbi.2 l2, fun hc => Nat.not_le.mpr hbi.2 hc.1⟩,
    fun f hf => ⟨(hbf f hf).1, lt_of_lt_of_le (hbf f hf).2 l2,
      fun hc => Nat.not_le.mpr (hbf f hf).2 hc.1⟩,
    ?_, l4, l5, ?_, l9 hnorm, hnd, ?_, l8⟩, l2, htrans⟩
  · intro x hxns e he
    by_cases hxl : x.list = nl.listId
    · by_cases hxc : x.id < nl.nodeCounter
      · rw [l3 x (fun _ => hxc)] at he
        have ht := htidy.2.1 x e he
        exact fun hc => Nat.not_le.mpr ht.2 hc.1
      · have hge : nl1.nodeCounter ≤ x.id := by
          rcases Nat.lt_or_ge x.id nl1.nodeCounter with hlt | hge2
          · exact absurd ⟨Nat.le_of_not_lt hxc, hlt⟩ hxns
          · exact hge2
        rw [l7.1 x (fun hc => absurd hc.2 (Nat.not_lt.mpr hge))] at he
        exact absurd he (List.not_mem_nil e)
    · rw [l7.1 x (fun hc => hxl (hc.1.trans l1))] at he
      exact absurd he (List.not_mem_nil e)
  · intro x hx0 hx1 e he
    by_cases hxl : x.list = nl.listId
    · exact ⟨(l6 x hxl hx0 e he).2.1, (l6 x hxl hx0 e he).2.2⟩
    · rw [l7.1 x (fun hc => hxl (hc.1.trans l1))] at he
      exact absurd he (List.not_mem_nil e)
  · intro w
    constructor
    · rintro ⟨f, hf, hp⟩
      exact ⟨f, hf, (htrans f w).mp hp⟩
    · rintro ⟨f, hf, hp⟩
      exact ⟨f, hf, (htrans f w).mpr hp⟩


/-- C4: for every node list, every normalized sub-list `base` inside it (no
incoming edge into `base.initial` anywhere, nodes allocated, finals
duplicate-free) and every `times ≥ 0`, when `baseRepeat(nodeList, base, times)`
returns normally the resulting sub-automaton accepts exactly the `times`-fold
concatenation power of the language `base` accepted before the call
(`L⁰ = {ε}`), covering both the plain branch and the real-finals accumulator
branch taken when `base.initial` is final. -/
theorem C4_baseRepeat_power {nl : NodeList} {h : Heap} {base : SubList}
    {times : Nat} {nlF : NodeList} {hF : Heap} {baseF : SubList}
    (htidy : Tidy nl h)
    (hbi : base.initial.list = nl.listId ∧ base.initial.id < nl.nodeCounter)
    (hbf : ∀ f ∈ base.final, f.list = nl.listId ∧ f.id < nl.nodeCounter)
    (hnd : base.final.Nodup)
    (hnorm : ∀ x : NodeRef, lookupA (h.out x) base.initial = none)
    (hok : baseRepeat nl h base times = .ok (nlF, hF, baseF)) :
    ∀ w, AcceptsSub hF baseF w ↔ WordPow (AcceptsSub h base) times w := by
  unfold baseRepeat at hok
  by_cases hT0 : times = 0
  · subst hT0
    rw [if_pos rfl] at hok
    have hok2 : (baseMakeEmpty nl h base >>= fun s =>
        Except.ok (nl, s.1,
          ({ s.2 with final := addFinal s.2.final s.2.initial } : SubList))) =
        Except.ok (nlF, hF, baseF) := hok
    rw [exceptBind_eq_ok] at hok2
    obtain ⟨s, hme, hrest⟩ := hok2
    obtain ⟨sh, sb⟩ := s
    have hp := Except.ok.inj hrest
    rw [Prod.mk.injEq, Prod.mk.injEq] at hp
    obtain ⟨rfl, rfl, rfl⟩ := hp
    have hme2 : ((succOut h base.initial).foldlM
        (fun h2 t => unlinkNodes nl h2 base.initial t) h >>= fun h4 =>
        Except.ok (h4, ({ base with final := [] } : SubList))) =
        Except.ok (sh, sb) := hme
    rw [exceptBind_eq_ok] at hme2
    obtain ⟨h4, hfold, hret⟩ := hme2
    have hp2 := Except.ok.inj hret
    rw [Prod.mk.injEq] at hp2
    obtain ⟨hpa, hpb⟩ := hp2
    subst hpa
    subst hpb
    obtain ⟨-, hrow⟩ :=
      unlink_row_fold (fun t => t) (succOut h base.initial) h h4 hfold
    have hcover : ∀ e ∈ h.out base.initial, ∃ t ∈ succOut h base.initial,
        e.1 = (fun t => t) t :=
      fun e he => ⟨e.1, List.mem_map.mpr ⟨e, he, rfl⟩, rfl⟩
    have hrow0 : h4.out base.initial = [] :=
      hrow.trans (foldl_removeA_all (fun t => t) (succOut h base.initial)
        (h.out base.initial) hcover)
    intro w
    constructor
    · rintro ⟨f, hf, hp3⟩
      have hf2 : f ∈ addFinal ([] : List NodeRef) base.initial := hf
      have hf3 : f = base.initial := by
        rcases mem_addFinal.mp hf2 with hx | hx
        · exact absurd hx (List.not_mem_nil f)
        · exact hx
      subst hf3
      show w = []
      cases w with
      | nil => rfl
      | cons cp rest =>
          have hp4 : PathW h4 base.initial (cp :: rest) base.initial := hp3
          rw [PathW_cons_iff] at hp4
          obtain ⟨b, hedge, -⟩ := hp4
          obtain ⟨e, hee, -, -⟩ := hedge
          rw [hrow0] at hee
          exact absurd hee (List.not_mem_nil e)
    · intro hw
      have hw2 : w = [] := hw
      subst hw2
      refine ⟨base.initial, ?_, PathW.nil _⟩
      show base.initial ∈ addFinal ([] : List NodeRef) base.initial
      exact mem_addFinal.mpr (Or.inr rfl)
  · rw [if_neg hT0] at hok
    by_cases hT1 : times = 1
    · subst hT1
      rw [if_pos rfl] at hok
      have hp := Except.ok.inj hok
      rw [Prod.mk.injEq, Prod.mk.injEq] at hp
      obtain ⟨rfl, rfl, rfl⟩ := hp
      intro w
      exact (WordCat_eps_right w).symm
    · rw [if_neg hT1] at hok
      by_cases hC1 : base.final.length = 1 ∧ base.initial ∈ base.final
      · rw [if_pos hC1] at hok
        have hp := Except.ok.inj hok
        rw [Prod.mk.injEq, Prod.mk.injEq] at hp
        obtain ⟨rfl, rfl, rfl⟩ := hp
        have hLeps : ∀ v, AcceptsSub h base v ↔ v = [] := by
          intro v
          constructor
          · rintro ⟨f, hf, hp3⟩
            obtain ⟨a, ha⟩ := List.length_eq_one.mp hC1.1
            rw [ha, List.mem_singleton] at hf
            have hmem := hC1.2
            rw [ha, List.mem_singleton] at hmem
            rw [hf, ← hmem] at hp3
            exact (PathW_to_normalized hp3 hnorm).2
          · rintro rfl
            exact ⟨base.initial, hC1.2, PathW.nil _⟩
        intro w
        exact (hLeps w).trans (WordPow_eps hLeps times w).symm
      · rw [if_neg hC1] at hok
        by_cases hC2 : base.final = []
        · rw [if_pos hC2] at hok
          have hp := Except.ok.inj hok
          rw [Prod.mk.injEq, Prod.mk.injEq] at hp
          obtain ⟨rfl, rfl, rfl⟩ := hp
          have hLemp : ∀ v, ¬ AcceptsSub h base v := by
            rintro v ⟨f, hf, -⟩
            rw [hC2] at hf
            exact absurd hf (List.not_mem_nil f)
          intro w
          constructor
          · intro hacc
            exact absurd hacc (hLemp w)
          · intro hw
            exact absurd hw (WordPow_empty hLemp times (by omega) w)
        · rw [if_neg hC2] at hok
          by_cases hC3 : base.initial ∉ base.final
          · rw [if_pos hC3] at hok
            have hok2 : (localCopy nl h base >>= fun s =>
                baseRepeatLoop (times - 2) s.2.1 s.2.2 base s.1 >>= fun t =>
                baseConcat t.1 t.2.1 t.2.2 s.1 >>= fun u =>
                Except.ok (t.1, u.1, u.2)) = Except.ok (nlF, hF, baseF) := hok
            rw [exceptBind_eq_ok] at hok2
            obtain ⟨s, hlc, hr1⟩ := hok2
            rw [exceptBind_eq_ok] at hr1
            obtain ⟨t, hloop, hr2⟩ := hr1
            rw [exceptBind_eq_ok] at hr2
            obtain ⟨u, hcc, hr3⟩ := hr2
            obtain ⟨copy, nl1, h1⟩ := s
            obtain ⟨nl2, h2, base2⟩ := t
            obtain ⟨h3, base3⟩ := u
            have hp := Except.ok.inj hr3
            rw [Prod.mk.injEq, Prod.mk.injEq] at hp
            obtain ⟨rfl, rfl, rfl⟩ := hp
            obtain ⟨hInv0, hmono0, -⟩ := RepInv_init htidy hbi hbf hnd hnorm hlc
            obtain ⟨hInvL, hini, hmono⟩ := baseRepeatLoop_spec (times - 2)
              (AcceptsSub h base) nl1 h1 base nl2 h2 base2 hloop hInv0
            have ht21 : times - 2 + 1 = times - 1 := by omega
            have htm1 : times - 1 + 1 = times := by omega
            have hInvL2 : RepInv nl.listId nl.nodeCounter nl1.nodeCounter copy
                (AcceptsSub h base)
                (fun w => WordPow (AcceptsSub h base) (times - 1) w)
                nl2 h2 base2 := by
              refine RepInv_congrM hInvL ?_
              intro w
              show WordPow (AcceptsSub h base) (times - 2 + 1) w ↔
                WordPow (AcceptsSub h base) (times - 1) w
              rw [ht21]
            obtain ⟨-, hfin2, -, -, -⟩ := RepInv_final hInvL2 hcc
            intro w
            refine (hfin2 w).trans
              ((WordPow_succ_right (times - 1) w).trans ?_)
            rw [htm1]
          · rw [if_neg hC3] at hok
            have hbin : base.initial ∈ base.final := not_not.mp hC3
            have hok2 : (localCopy nl h ({ base with final := delFinal base.final base.initial } : SubList) >>= fun s =>
                baseRepeatLoopAcc (times - 2) s.2.1 s.2.2 ({ base with final := delFinal base.final base.initial } : SubList) s.1 base.final >>= fun t =>
                baseConcat t.1 t.2.1 t.2.2.1 s.1 >>= fun u =>
                Except.ok (t.1, u.1, ({ u.2 with final := u.2.final.foldl addFinal t.2.2.2 } : SubList))) = Except.ok (nlF, hF, baseF) := hok
            rw [exceptBind_eq_ok] at hok2
            obtain ⟨s, hlc, hr1⟩ := hok2
            rw [exceptBind_eq_ok] at hr1
            obtain ⟨t, hloop, hr2⟩ := hr1
            rw [exceptBind_eq_ok] at hr2
            obtain ⟨u, hcc, hr3⟩ := hr2
            obtain ⟨copy, nl1, h1⟩ := s
            obtain ⟨nl2, h2, base2, rf2⟩ := t
            obtain ⟨h3, base3⟩ := u
            have hp := Except.ok.inj hr3
            rw [Prod.mk.injEq, Prod.mk.injEq] at hp
            obtain ⟨rfl, rfl, rfl⟩ := hp
            have hbf2 : ∀ f ∈ delFinal base.final base.initial,
                f.list = nl.listId ∧ f.id < nl.nodeCounter :=
              fun f hf => hbf f (mem_delFinal.mp hf).1
            obtain ⟨hInv0, hmono0, htrans0⟩ :=
              @RepInv_init nl h ({ base with final := delFinal base.final base.initial } : SubList)
                copy nl1 h1 htidy hbi hbf2 (nodup_delFinal hnd) hnorm hlc
            have hLdec : ∀ v, AcceptsSub h base v ↔
                (v = [] ∨ AcceptsSub h ({ base with final := delFinal base.final base.initial } : SubList) v) := by
              intro v
              constructor
              · rintro ⟨f, hf, hp3⟩
                by_cases hfi : f = base.initial
                · subst hfi
                  exact Or.inl (PathW_to_normalized hp3 hnorm).2
                · exact Or.inr ⟨f, mem_delFinal.mpr ⟨hf, hfi⟩, hp3⟩
              · rintro (rfl | ⟨f, hf, hp3⟩)
                · exact ⟨base.initial, hbin, PathW.nil _⟩
                · exact ⟨f, (mem_delFinal.mp hf).1, hp3⟩
            have hInv1 : RepInv nl.listId nl.nodeCounter nl1.nodeCounter copy
                (AcceptsSub h ({ base with final := delFinal base.final base.initial } : SubList))
                (fun w => WordPow (AcceptsSub h ({ base with final := delFinal base.final base.initial } : SubList)) (0 + 1) w)
                nl1 h1
                ({ base with final := delFinal base.final base.initial } : SubList) :=
              RepInv_congrM hInv0 (fun w => (WordCat_eps_right w).symm)
            have hrfR0 : ∀ f ∈ base.final, f.list = nl.listId ∧
                f.id < nl1.nodeCounter ∧
                ¬ (nl.nodeCounter ≤ f.id ∧ f.id < nl1.nodeCounter) :=
              fun f hf => ⟨(hbf f hf).1, lt_of_lt_of_le (hbf f hf).2 hmono0,
                fun hc => Nat.not_le.mpr (hbf f hf).2 hc.1⟩
            have hrfL0 : ∀ w, (∃ f ∈ base.final, PathW h1 base.initial w f) ↔
                AccLang (AcceptsSub h ({ base with final := delFinal base.final base.initial } : SubList)) (0 + 1) w := by
              intro w
              constructor
              · rintro ⟨f, hf, hp3⟩
                have hp4 : PathW h base.initial w f := (htrans0 f w).mp hp3
                rcases (hLdec w).mp ⟨f, hf, hp4⟩ with rfl | hLw
                · exact Or.inl rfl
                · exact Or.inr ⟨1, le_refl _, by omega,
                    (WordCat_eps_right w).mpr hLw⟩
              · intro hw
                rcases hw with rfl | ⟨m, hm1, hm2, hp3⟩
                · exact ⟨base.initial, hbin,
                    (htrans0 base.initial []).mpr (PathW.nil _)⟩
                · have hm : m = 1 := by omega
                  subst hm
                  have hLw := (WordCat_eps_right w).mp hp3
                  obtain ⟨f, hf, hp4⟩ := hLw
                  exact ⟨f, (mem_delFinal.mp hf).1, (htrans0 f w).mpr hp4⟩
            obtain ⟨hInvL, hini, hmono, hrf2R, hrf2L⟩ :=
              baseRepeatLoopAcc_spec (times - 2) 0 nl1 h1
                ({ base with final := delFinal base.final base.initial } : SubList)
                base.final nl2 h2 base2 rf2 hloop hInv1 hrfR0 hrfL0
            have heA : 0 + 1 + (times - 2) = times - 1 := by omega
            have htm1 : times - 1 + 1 = times := by omega
            rw [heA] at hInvL hrf2L
            have hInvLc := hInvL
            obtain ⟨-, -, -, -, j5, -, -, -, -, -, -, -, -, -⟩ := hInvLc
            obtain ⟨hfin1, hfin2, hfin3, hfin4, hfin5⟩ := RepInv_final hInvL hcc
            have hrfB : ∀ w, (∃ f ∈ rf2, PathW h3 base2.initial w f) ↔
                AccLang (AcceptsSub h ({ base with final := delFinal base.final base.initial } : SubList)) (times - 1) w := by
              by_cases hb2e : base2.final = []
              · obtain ⟨hEq1, -⟩ := hfin5 hb2e
                intro w
                rw [hEq1]
                exact hrf2L w
              · by_cases hcfe : copy.final = []
                · obtain ⟨hrow0, hLemp⟩ := hfin4 hb2e hcfe
                  have hbin_rf : base2.initial ∈ rf2 := by
                    obtain ⟨f, hf, hp3⟩ := (hrf2L []).mpr (Or.inl rfl)
                    obtain rfl := PathW_nil_iff.mp hp3
                    exact hf
                  intro w
                  constructor
                  · rintro ⟨f, hf, hp3⟩
                    cases w with
                    | nil => exact Or.inl rfl
                    | cons cp rest =>
                        rw [PathW_cons_iff] at hp3
                        obtain ⟨b, hedge, -⟩ := hp3
                        obtain ⟨e, hee, -, -⟩ := hedge
                        rw [hrow0] at hee
                        exact absurd hee (List.not_mem_nil e)
                  · intro hw
                    rcases hw with rfl | ⟨m, hm1, hm2, hp3⟩
                    · exact ⟨base2.initial, hbin_rf, PathW.nil _⟩
                    · exact absurd hp3 (WordPow_empty hLemp m hm1 w)
                · intro w
                  constructor
                  · rintro ⟨f, hf, hp3⟩
                    exact (hrf2L w).mp ⟨f, hf,
                      (hfin3 base2.initial f w j5 (hrf2R f hf) hb2e hcfe).mp hp3⟩
                  · intro hw
                    obtain ⟨f, hf, hp3⟩ := (hrf2L w).mpr hw
                    exact ⟨f, hf,
                      (hfin3 base2.initial f w j5 (hrf2R f hf) hb2e hcfe).mpr hp3⟩
            intro w
            have hsplit : (∃ f ∈ base3.final.foldl addFinal rf2,
                PathW h3 base3.initial w f) ↔
                ((∃ f ∈ rf2, PathW h3 base2.initial w f) ∨
                  AcceptsSub h3 base3 w) := by
              constructor
              · rintro ⟨f, hf, hp3⟩
                rcases (mem_foldl_addFinal _ _ _).mp hf with h5 | h5
                · refine Or.inl ⟨f, h5, ?_⟩
                  rw [← hfin1]
                  exact hp3
                · exact Or.inr ⟨f, h5, hp3⟩
              · rintro (⟨f, hf, hp3⟩ | ⟨f, hf, hp3⟩)
                · refine ⟨f, (mem_foldl_addFinal _ _ _).mpr (Or.inl hf), ?_⟩
                  rw [hfin1]
                  exact hp3
                · exact ⟨f, (mem_foldl_addFinal _ _ _).mpr (Or.inr hf), hp3⟩
            have hacc3 : AcceptsSub h3 base3 w ↔
                WordPow (AcceptsSub h ({ base with final := delFinal base.final base.initial } : SubList)) times w := by
              refine (hfin2 w).trans
                ((WordPow_succ_right (times - 1) w).trans ?_)
              rw [htm1]
            have hstep := @AccLang_step (AcceptsSub h ({ base with final := delFinal base.final base.initial } : SubList)) (times - 1) w
            rw [htm1] at hstep
            refine hsplit.trans
              (((or_congr (hrfB w) hacc3).trans hstep.symm).trans ?_)
            exact ((WordPow_orEps times w).symm.trans
              (WordPow_congr hLdec times w).symm)

/-- Witness for C4: `baseRepeat` on a two-node list over the empty heap, with
`base = ⟨node 0, [node 1]⟩` and `times = 2`, returns normally, and the theorem
applies with every hypothesis discharged by evaluation. -/
theorem C4_baseRepeat_power_witness :
    ((∀ x : NodeRef, lookupA (Heap.emptyH.out x) ⟨0, 0⟩ = none) ∧
      ∃ p : NodeList × Heap × SubList,
        baseRepeat ⟨0, 2, []⟩ Heap.emptyH ⟨⟨0, 0⟩, [⟨0, 1⟩]⟩ 2 = .ok p ∧
        (AcceptsSub p.2.1 p.2.2 [] ↔
          WordPow (AcceptsSub Heap.emptyH ⟨⟨0, 0⟩, [⟨0, 1⟩]⟩) 2 [])) := by
  refine ⟨fun x => rfl, ?_⟩
  cases heval : baseRepeat (⟨0, 2, []⟩ : NodeList) Heap.emptyH
      (⟨⟨0, 0⟩, [⟨0, 1⟩]⟩ : SubList) 2 with
  | error e =>
      have hT : isOkE (baseRepeat (⟨0, 2, []⟩ : NodeList) Heap.emptyH
          (⟨⟨0, 0⟩, [⟨0, 1⟩]⟩ : SubList) 2) = true := by decide
      rw [heval] at hT
      exact Bool.noConfusion hT
  | ok p =>
      refine ⟨p, rfl, ?_⟩
      exact @C4_baseRepeat_power ⟨0, 2, []⟩ Heap.emptyH ⟨⟨0, 0⟩, [⟨0, 1⟩]⟩ 2
        p.1 p.2.1 p.2.2
        ⟨fun x hx => rfl, fun x e he => absurd he (List.not_mem_nil e),
          fun x => List.nodup_nil⟩
        ⟨rfl, by decide⟩
        (by decide)
        (by decide)
        (fun x => rfl)
        heval []

theorem foldlM_per_elem {α β : Type} {R : β → β → Prop} {P : β → Prop}
    {Q : α → β → Prop} {f : β → α → Except Err β}
    (hRtrans : ∀ {x y z : β}, R x y → R y z → R x z)
    (hRrefl : ∀ x : β, R x x)
    (hQmono : ∀ (a : α) (s s2 : β), Q a s → R s s2 → Q a s2) :
    ∀ (l : List α) (s0 s1 : β),
      (∀ s x s2, x ∈ l → f s x = .ok s2 → P s → P s2 ∧ R s s2 ∧ Q x s2) →
      l.foldlM f s0 = .ok s1 → P s0 →
      P s1 ∧ R s0 s1 ∧ ∀ x ∈ l, Q x s1 := by
  intro l
  induction l with
  | nil =>
      intro s0 s1 _ hok hP
      have hok2 : (Except.ok s0 : Except Err β) = .ok s1 := hok
      obtain rfl := Except.ok.inj hok2
      exact ⟨hP, hRrefl s0, fun x hx => absurd hx (List.not_mem_nil x)⟩
  | cons x xs ih =>
      intro s0 s1 hstep hok hP
      rw [List.foldlM_cons, exceptBind_eq_ok] at hok
      obtain ⟨sm, hfx, hrest⟩ := hok
      obtain ⟨hPm, hRm, hQx⟩ := hstep s0 x sm (List.mem_cons_self x xs) hfx hP
      obtain ⟨hP1, hR1, hQ1⟩ := ih sm s1
        (fun s y s2 hy => hstep s y s2 (List.mem_cons_of_mem x hy)) hrest hPm
      refine ⟨hP1, hRtrans hRm hR1, ?_⟩
      intro y hy
      rcases List.mem_cons.mp hy with rfl | hy2
      · exact hQmono y sm s1 hQx hR1
      · exact hQ1 y hy2

theorem nodup_map_eq {α β : Type} {f : α → β} :
    ∀ {l : List α}, (l.map f).Nodup → ∀ {x y : α}, x ∈ l → y ∈ l →
      f x = f y → x = y := by
  intro l
  induction l with
  | nil => intro _ x y hx; cases hx
  | cons a l ih =>
      intro hnd x y hx hy hf
      rw [List.map_cons, List.nodup_cons] at hnd
      rcases List.mem_cons.mp hx with rfl | hx2
      · rcases List.mem_cons.mp hy with rfl | hy2
        · rfl
        · exfalso
          apply hnd.1
          rw [hf]
          exact List.mem_map.mpr ⟨y, hy2, rfl⟩
      · rcases List.mem_cons.mp hy with rfl | hy2
        · exfalso
          apply hnd.1
          rw [← hf]
          exact List.mem_map.mpr ⟨x, hx2, rfl⟩
        · exact ih hnd.2 hx2 hy2 hf

theorem has_intersect_iff {s t : CharSet} {cp : ℚ} :
    (s.intersect t).has cp = true ↔ s.has cp = true ∧ t.has cp = true := by
  show decide (cp ∈ s.chars ∩ t.chars) = true ↔ _
  rw [decide_eq_true_eq, Finset.mem_inter]
  show _ ↔ decide (cp ∈ s.chars) = true ∧ decide (cp ∈ t.chars) = true
  rw [decide_eq_true_eq, decide_eq_true_eq]

theorem isEmpty_false_of_has {s : CharSet} {cp : ℚ} (h : s.has cp = true) :
    s.isEmpty = false := by
  rw [CharSet.has, decide_eq_true_eq] at h
  show decide (s.chars = ∅) = false
  rw [decide_eq_false_iff_not]
  exact Finset.ne_empty_of_mem h

theorem has_union_iff {s t : CharSet} {cp : ℚ} :
    (s.union t).has cp = true ↔ s.has cp = true ∨ t.has cp = true := by
  show decide (cp ∈ s.chars ∪ t.chars) = true ↔ _
  rw [decide_eq_true_eq, Finset.mem_union]
  show _ ↔ decide (cp ∈ s.chars) = true ∨ decide (cp ∈ t.chars) = true
  rw [decide_eq_true_eq, decide_eq_true_eq]

theorem addA_eq_none {m : List (NodeRef × CharSet)} {b : NodeRef} {cs : CharSet}
    (hl : lookupA m b = none) : addA m b cs = m ++ [(b, cs)] := by
  unfold addA
  rw [hl]

theorem addA_eq_some {m : List (NodeRef × CharSet)} {b : NodeRef} {cs : CharSet}
    {c : CharSet} (hl : lookupA m b = some c) :
    addA m b cs = m.map (fun e0 => if e0.1 = b then (b, c.union cs) else e0) := by
  unfold addA setA
  rw [hl]
  rfl

theorem mem_addA_strong {m : List (NodeRef × CharSet)} {b : NodeRef} {cs : CharSet}
    {e : NodeRef × CharSet} (he : e ∈ addA m b cs) :
    (e ∈ m ∧ e.1 ≠ b) ∨
    (e.1 = b ∧ ((lookupA m b = none ∧ e.2 = cs) ∨
      ∃ c, lookupA m b = some c ∧ e.2 = c.union cs)) := by
  cases hl : lookupA m b with
  | none =>
      rw [addA_eq_none hl] at he
      rcases List.mem_append.mp he with h1 | h2
      · refine Or.inl ⟨h1, ?_⟩
        intro hc
        exact ((lookupA_eq_none_iff m b).mp hl) (hc ▸ List.mem_map.mpr ⟨e, h1, rfl⟩)
      · have he2 : e = (b, cs) := by simpa using h2
        exact Or.inr ⟨by rw [he2], Or.inl ⟨rfl, by rw [he2]⟩⟩
  | some c =>
      rw [addA_eq_some hl] at he
      obtain ⟨e0, he0, heq⟩ := List.mem_map.mp he
      by_cases h0 : e0.1 = b
      · rw [if_pos h0] at heq
        exact Or.inr ⟨by rw [← heq], Or.inr ⟨c, rfl, by rw [← heq]⟩⟩
      · rw [if_neg h0] at heq
        exact Or.inl ⟨heq ▸ he0, heq ▸ h0⟩

theorem addA_entry_persist {m : List (NodeRef × CharSet)} {b : NodeRef}
    {cs : CharSet} {e : NodeRef × CharSet}
    (hnd : (m.map (fun x => x.1)).Nodup) (he : e ∈ m) :
    ∃ cs2, (e.1, cs2) ∈ addA m b cs ∧
      ∀ cp : ℚ, e.2.has cp = true → cs2.has cp = true := by
  cases hl : lookupA m b with
  | none =>
      rw [addA_eq_none hl]
      refine ⟨e.2, ?_, fun cp hcp => hcp⟩
      refine List.mem_append.mpr (Or.inl ?_)
      have heta : (e.1, e.2) = e := rfl
      rw [heta]
      exact he
  | some c =>
      rw [addA_eq_some hl]
      by_cases h0 : e.1 = b
      · refine ⟨c.union cs, ?_, ?_⟩
        · refine List.mem_map.mpr ⟨e, he, ?_⟩
          rw [if_pos h0, h0]
        · intro cp hcp
          rw [has_union_iff]
          left
          have heta : (e.1, e.2) = e := rfl
          have hee : lookupA m e.1 = some e.2 :=
            lookupA_some_of_mem (by rw [heta]; exact he) hnd
          rw [h0, hl] at hee
          rw [Option.some.inj hee]
          exact hcp
      · refine ⟨e.2, ?_, fun cp hcp => hcp⟩
        refine List.mem_map.mpr ⟨e, he, ?_⟩
        rw [if_neg h0]

theorem addA_self_entry {m : List (NodeRef × CharSet)} {b : NodeRef}
    {cs : CharSet} :
    ∃ cs2, (b, cs2) ∈ addA m b cs ∧
      ∀ cp : ℚ, cs.has cp = true → cs2.has cp = true := by
  cases hl : lookupA m b with
  | none =>
      rw [addA_eq_none hl]
      exact ⟨cs, List.mem_append.mpr (Or.inr (List.mem_singleton.mpr rfl)),
        fun cp h => h⟩
  | some c =>
      rw [addA_eq_some hl]
      refine ⟨c.union cs, ?_, ?_⟩
      · have hmem : (b, c) ∈ m := mem_of_lookupA_some hl
        refine List.mem_map.mpr ⟨(b, c), hmem, ?_⟩
        rw [if_pos rfl]
      · intro cp hcp
        rw [has_union_iff]
        exact Or.inr hcp

theorem pairKey_inj {LL RR : List NodeRef} {a b a2 b2 : NodeRef}
    (hndL : LL.Nodup) (hndR : RR.Nodup)
    (ha : a ∈ LL) (hb : b ∈ RR) (ha2 : a2 ∈ LL) (hb2 : b2 ∈ RR)
    (hk : pairKey LL RR a b = pairKey LL RR a2 b2) : a = a2 ∧ b = b2 := by
  unfold pairKey at hk
  have h1 : idxA RR b < RR.length := idxA_lt_length hb
  have h2 : idxA RR b2 < RR.length := idxA_lt_length hb2
  have hA : idxA LL a = idxA LL a2 := by
    by_contra hne
    rcases Nat.lt_or_ge (idxA LL a) (idxA LL a2) with hlt | hge
    · have hstepm : (idxA LL a + 1) * RR.length ≤ idxA LL a2 * RR.length :=
        Nat.mul_le_mul_right RR.length (by omega)
      rw [Nat.succ_mul] at hstepm
      omega
    · rcases Nat.lt_or_ge (idxA LL a2) (idxA LL a) with hlt2 | hge2
      · have hstepm : (idxA LL a2 + 1) * RR.length ≤ idxA LL a * RR.length :=
          Nat.mul_le_mul_right RR.length (by omega)
        rw [Nat.succ_mul] at hstepm
        omega
      · omega
  have hB : idxA RR b = idxA RR b2 := by
    rw [hA] at hk
    omega
  exact ⟨idxA_inj hndL ha ha2 hA, idxA_inj hndR hb hb2 hB⟩

theorem bfsAux_fold_mem (h : Heap) :
    ∀ (l : List NodeRef) (acc : List NodeRef × List NodeRef),
      (∀ x, x ∈ (l.foldl (fun (p : List NodeRef × List NodeRef) n =>
          if n ∈ p.1 then p else (p.1 ++ [n], p.2 ++ succOut h n)) acc).1 →
        x ∈ acc.1 ∨ x ∈ l) ∧
      (∀ y, y ∈ (l.foldl (fun (p : List NodeRef × List NodeRef) n =>
          if n ∈ p.1 then p else (p.1 ++ [n], p.2 ++ succOut h n)) acc).2 →
        y ∈ acc.2 ∨ ∃ s ∈ l, y ∈ succOut h s) := by
  intro l
  induction l with
  | nil => intro acc; exact ⟨fun x hx => Or.inl hx, fun y hy => Or.inl hy⟩
  | cons n l ih =>
      intro acc
      rw [List.foldl_cons]
      by_cases hn : n ∈ acc.1
      · rw [if_pos hn]
        refine ⟨fun x hx => ?_, fun y hy => ?_⟩
        · rcases (ih acc).1 x hx with h1 | h1
          · exact Or.inl h1
          · exact Or.inr (List.mem_cons_of_mem n h1)
        · rcases (ih acc).2 y hy with h1 | h1
          · exact Or.inl h1
          · obtain ⟨s, hs, hy2⟩ := h1
            exact Or.inr ⟨s, List.mem_cons_of_mem n hs, hy2⟩
      · rw [if_neg hn]
        refine ⟨fun x hx => ?_, fun y hy => ?_⟩
        · rcases (ih (acc.1 ++ [n], acc.2 ++ succOut h n)).1 x hx with h1 | h1
          · rcases List.mem_append.mp h1 with h2 | h2
            · exact Or.inl h2
            · exact Or.inr (List.mem_cons.mpr (Or.inl (by simpa using h2)))
          · exact Or.inr (List.mem_cons_of_mem n h1)
        · rcases (ih (acc.1 ++ [n], acc.2 ++ succOut h n)).2 y hy with h1 | h1
          · rcases List.mem_append.mp h1 with h2 | h2
            · exact Or.inl h2
            · exact Or.inr ⟨n, List.mem_cons_self n l, h2⟩
          · obtain ⟨s, hs, hy2⟩ := h1
            exact Or.inr ⟨s, List.mem_cons_of_mem n hs, hy2⟩

theorem bfsAux_fold_nodup (h : Heap) :
    ∀ (l : List NodeRef) (acc : List NodeRef × List NodeRef), acc.1.Nodup →
      (l.foldl (fun (p : List NodeRef × List NodeRef) n =>
        if n ∈ p.1 then p else (p.1 ++ [n], p.2 ++ succOut h n)) acc).1.Nodup := by
  intro l
  induction l with
  | nil => intro acc hnd; exact hnd
  | cons n l ih =>
      intro acc hnd
      rw [List.foldl_cons]
      by_cases hn : n ∈ acc.1
      · rw [if_pos hn]
        exact ih acc hnd
      · rw [if_neg hn]
        refine ih (acc.1 ++ [n], acc.2 ++ succOut h n) ?_
        show (acc.1 ++ [n]).Nodup
        rw [List.nodup_append]
        refine ⟨hnd, List.nodup_singleton n, ?_⟩
        intro x hx hxn
        have hxeq : x = n := by simpa using hxn
        rw [hxeq] at hx
        exact hn hx

theorem bfsAux_succ (h : Heap) (n : Nat) (tv vis : List NodeRef) :
    bfsAux h (n + 1) tv vis =
      (if (tv.foldl (fun (p : List NodeRef × List NodeRef) m =>
          if m ∈ p.1 then p else (p.1 ++ [m], p.2 ++ succOut h m))
          (vis, ([] : List NodeRef))).2 = []
      then (tv.foldl (fun (p : List NodeRef × List NodeRef) m =>
          if m ∈ p.1 then p else (p.1 ++ [m], p.2 ++ succOut h m))
          (vis, ([] : List NodeRef))).1
      else bfsAux h n
        (tv.foldl (fun (p : List NodeRef × List NodeRef) m =>
          if m ∈ p.1 then p else (p.1 ++ [m], p.2 ++ succOut h m))
          (vis, ([] : List NodeRef))).2
        (tv.foldl (fun (p : List NodeRef × List NodeRef) m =>
          if m ∈ p.1 then p else (p.1 ++ [m], p.2 ++ succOut h m))
          (vis, ([] : List NodeRef))).1) := rfl

theorem bfsAux_sound (h : Heap) :
    ∀ (fuel : Nat) (tv vis : List NodeRef), ∀ x ∈ bfsAux h fuel tv vis,
      x ∈ vis ∨ ∃ s ∈ tv, ReachL (succOut h) s x := by
  intro fuel
  induction fuel with
  | zero =>
      intro tv vis x hx
      exact Or.inl hx
  | succ n ih =>
      intro tv vis x hx
      have hfm := bfsAux_fold_mem h tv (vis, ([] : List NodeRef))
      by_cases hp2 : (tv.foldl (fun (p : List NodeRef × List NodeRef) n =>
          if n ∈ p.1 then p else (p.1 ++ [n], p.2 ++ succOut h n))
          (vis, ([] : List NodeRef))).2 = []
      · have hx2 : x ∈ (tv.foldl (fun (p : List NodeRef × List NodeRef) n =>
            if n ∈ p.1 then p else (p.1 ++ [n], p.2 ++ succOut h n))
            (vis, ([] : List NodeRef))).1 := by
          have hxx : x ∈ (if (tv.foldl (fun (p : List NodeRef × List NodeRef) n =>
              if n ∈ p.1 then p else (p.1 ++ [n], p.2 ++ succOut h n))
              (vis, ([] : List NodeRef))).2 = []
            then (tv.foldl (fun (p : List NodeRef × List NodeRef) n =>
              if n ∈ p.1 then p else (p.1 ++ [n], p.2 ++ succOut h n))
              (vis, ([] : List NodeRef))).1
            else bfsAux h n (tv.foldl (fun (p : List NodeRef × List NodeRef) n =>
              if n ∈ p.1 then p else (p.1 ++ [n], p.2 ++ succOut h n))
              (vis, ([] : List NodeRef))).2
              (tv.foldl (fun (p : List NodeRef × List NodeRef) n =>
                if n ∈ p.1 then p else (p.1 ++ [n], p.2 ++ succOut h n))
                (vis, ([] : List NodeRef))).1) := hx
          rw [if_pos hp2] at hxx
          exact hxx
        rcases hfm.1 x hx2 with h1 | h1
        · exact Or.inl h1
        · exact Or.inr ⟨x, h1, ReachL.refl x⟩
      · have hxx : x ∈ bfsAux h n
            (tv.foldl (fun (p : List NodeRef × List NodeRef) n =>
              if n ∈ p.1 then p else (p.1 ++ [n], p.2 ++ succOut h n))
              (vis, ([] : List NodeRef))).2
            (tv.foldl (fun (p : List NodeRef × List NodeRef) n =>
              if n ∈ p.1 then p else (p.1 ++ [n], p.2 ++ succOut h n))
              (vis, ([] : List NodeRef))).1 := by
          have hxx0 : x ∈ (if (tv.foldl (fun (p : List NodeRef × List NodeRef) n =>
              if n ∈ p.1 then p else (p.1 ++ [n], p.2 ++ succOut h n))
              (vis, ([] : List NodeRef))).2 = []
            then (tv.foldl (fun (p : List NodeRef × List NodeRef) n =>
              if n ∈ p.1 then p else (p.1 ++ [n], p.2 ++ succOut h n))
              (vis, ([] : List NodeRef))).1
            else bfsAux h n (tv.foldl (fun (p : List NodeRef × List NodeRef) n =>
              if n ∈ p.1 then p else (p.1 ++ [n], p.2 ++ succOut h n))
              (vis, ([] : List NodeRef))).2
              (tv.foldl (fun (p : List NodeRef × List NodeRef) n =>
                if n ∈ p.1 then p else (p.1 ++ [n], p.2 ++ succOut h n))
                (vis, ([] : List NodeRef))).1) := hx
          rw [if_neg hp2] at hxx0
          exact hxx0
        rcases ih _ _ x hxx with h1 | h1
        · rcases hfm.1 x h1 with h2 | h2
          · exact Or.inl h2
          · exact Or.inr ⟨x, h2, ReachL.refl x⟩
        · obtain ⟨s, hs, hr⟩ := h1
          rcases hfm.2 s hs with h2 | h2
          · exact absurd h2 (List.not_mem_nil s)
          · obtain ⟨t, ht, hst⟩ := h2
            exact Or.inr ⟨t, ht, ReachL_trans (ReachL.tail (ReachL.refl t) hst) hr⟩

theorem bfsAux_nodup (h : Heap) :
    ∀ (fuel : Nat) (tv vis : List NodeRef), vis.Nodup →
      (bfsAux h fuel tv vis).Nodup := by
  intro fuel
  induction fuel with
  | zero => intro tv vis hnd; exact hnd
  | succ n ih =>
      intro tv vis hnd
      have hfnd := bfsAux_fold_nodup h tv (vis, ([] : List NodeRef)) hnd
      rw [bfsAux_succ]
      by_cases hp2 : (tv.foldl (fun (p : List NodeRef × List NodeRef) m =>
          if m ∈ p.1 then p else (p.1 ++ [m], p.2 ++ succOut h m))
          (vis, ([] : List NodeRef))).2 = []
      · rw [if_pos hp2]
        exact hfnd
      · rw [if_neg hp2]
        exact ih _ _ hfnd

theorem nodesBFS_sound (nl : NodeList) (h : Heap) :
    ∀ x ∈ nodesBFS nl h, ReachL (succOut h) nl.initial x := by
  intro x hx
  rcases bfsAux_sound h (nl.nodeCounter + 1) [nl.initial] [] x hx with h1 | h1
  · exact absurd h1 (List.not_mem_nil x)
  · obtain ⟨s, hs, hr⟩ := h1
    have hs2 : s = nl.initial := by simpa using hs
    rw [← hs2]
    exact hr

theorem nodesBFS_nodup (nl : NodeList) (h : Heap) : (nodesBFS nl h).Nodup :=
  bfsAux_nodup h _ _ _ List.nodup_nil

theorem WF_congr {nl : NodeList} {h h2 : Heap} (hwf : WF nl h)
    (hout : ∀ x, Alloc nl x → h2.out x = h.out x)
    (hinn : ∀ x, Alloc nl x → h2.inn x = h.inn x) : WF nl h2 where
  finalAlloc := hwf.finalAlloc
  finalNodup := hwf.finalNodup
  outAlloc := fun n hn e he => hwf.outAlloc n hn e (by rw [← hout n hn]; exact he)
  innAlloc := fun n hn e he => hwf.innAlloc n hn e (by rw [← hinn n hn]; exact he)
  outLabel := fun n hn e he => hwf.outLabel n hn e (by rw [← hout n hn]; exact he)
  innLabel := fun n hn e he => hwf.innLabel n hn e (by rw [← hinn n hn]; exact he)
  outNodup := fun n hn => by rw [hout n hn]; exact hwf.outNodup n hn
  innNodup := fun n hn => by rw [hinn n hn]; exact hwf.innNodup n hn
  sym := fun a b ha hb => by rw [hout a ha, hinn b hb]; exact hwf.sym a b ha hb

theorem EdgeCh_lookup {h : Heap} {a b : NodeRef} {cp : ℚ}
    (hnd : ((h.out a).map (fun e => e.1)).Nodup) :
    EdgeCh h a b cp ↔ ∃ cs, lookupA (h.out a) b = some cs ∧ cs.has cp = true := by
  constructor
  · rintro ⟨e, he, heq, hhas⟩
    refine ⟨e.2, ?_, hhas⟩
    rw [← heq]
    have heta : (e.1, e.2) = e := rfl
    exact lookupA_some_of_mem (by rw [heta]; exact he) hnd
  · rintro ⟨cs, hl, hhas⟩
    exact ⟨(b, cs), mem_of_lookupA_some hl, rfl, hhas⟩

theorem ProdExt_refl (s : List (Nat × NodeRef) × NodeList × Heap) :
    ProdExt s s := by
  refine ⟨fun kv h => h, le_refl _, fun f h => h, ?_⟩
  intro v e he
  refine ⟨e.2, ?_, fun cp h => h⟩
  have heta : (e.1, e.2) = e := rfl
  rw [heta]
  exact he

theorem ProdExt_trans {s1 s2 s3 : List (Nat × NodeRef) × NodeList × Heap}
    (h12 : ProdExt s1 s2) (h23 : ProdExt s2 s3) : ProdExt s1 s3 := by
  obtain ⟨c12, n12, f12, e12⟩ := h12
  obtain ⟨c23, n23, f23, e23⟩ := h23
  refine ⟨fun kv h => c23 kv (c12 kv h), le_trans n12 n23,
    fun f h => f23 f (f12 f h), ?_⟩
  intro v e he
  obtain ⟨cs, hm, hmono⟩ := e12 v e he
  obtain ⟨cs2, hm2, hmono2⟩ := e23 v (e.1, cs) hm
  exact ⟨cs2, hm2, fun cp hcp => hmono2 cp (hmono cp hcp)⟩

theorem ProdInv_translate {freshId : Nat} {hOrig : Heap} {LL RR : List NodeRef}
    {C : List (Nat × NodeRef)} {nl : NodeList} {h : Heap} {a b : NodeRef}
    {v : NodeRef} {C2 : List (Nat × NodeRef)} {nl2 : NodeList} {h2 : Heap}
    (hI : ProdInv freshId hOrig LL RR C nl h)
    (hok : translatePair LL RR a b C nl h = .ok (v, C2, nl2, h2)) :
    ProdInv freshId hOrig LL RR C2 nl2 h2 ∧
    a ∈ LL ∧ b ∈ RR ∧
    (pairKey LL RR a b, v) ∈ C2 ∧
    (∀ kv ∈ C, kv ∈ C2) ∧
    nl.nodeCounter ≤ nl2.nodeCounter ∧
    nl2.final = nl.final ∧
    nl2.listId = nl.listId ∧
    (∀ x : NodeRef, h2.out x = h.out x) ∧
    v.list = freshId ∧ v.id < nl2.nodeCounter := by
  rw [translatePair_ok_iff] at hok
  obtain ⟨ha, hb, heq⟩ := hok
  cases hfind : C.find? (fun kv => decide (kv.1 =
      idxA LL a * RR.length + idxA RR b)) with
  | some e =>
      rw [translateIdx_eq_found nl h hfind] at heq
      rw [Prod.mk.injEq, Prod.mk.injEq, Prod.mk.injEq] at heq
      obtain ⟨rfl, rfl, rfl, rfl⟩ := heq
      have hkey : e.1 = idxA LL a * RR.length + idxA RR b := by
        have hp2 := List.find?_some hfind
        rw [decide_eq_true_eq] at hp2
        exact hp2
      have hmem : e ∈ C2 := List.mem_of_find?_eq_some hfind
      refine ⟨hI, ha, hb, ?_, fun kv hk => hk, le_refl _, rfl, rfl,
        fun x => rfl, (hI.valsAlloc e hmem).1, (hI.valsAlloc e hmem).2⟩
      show ((idxA LL a * RR.length + idxA RR b : Nat), e.2) ∈ C2
      rw [← hkey]
      have heta : (e.1, e.2) = e := rfl
      rw [heta]
      exact hmem
  | none =>
      rw [translateIdx_eq_new nl h hfind] at heq
      rw [Prod.mk.injEq, Prod.mk.injEq, Prod.mk.injEq] at heq
      obtain ⟨rfl, rfl, rfl, rfl⟩ := heq
      have hIl : nl.listId = freshId := hI.lid
      have hnotin : ∀ kv ∈ C, kv.1 ≠ idxA LL a * RR.length + idxA RR b := by
        intro kv hkv hc
        have hnp := List.find?_eq_none.mp hfind kv hkv
        simp only [decide_eq_true_eq] at hnp
        exact hnp hc
      have hrows : ∀ x : NodeRef,
          ((h.setOut (⟨nl.listId, nl.nodeCounter⟩ : NodeRef) []).setInn
            (⟨nl.listId, nl.nodeCounter⟩ : NodeRef) []).out x = h.out x := by
        intro x
        rw [setInn_out, setOut_out]
        by_cases hx : x = (⟨nl.listId, nl.nodeCounter⟩ : NodeRef)
        · rw [if_pos hx, hx]
          exact ((hI.junk ⟨nl.listId, nl.nodeCounter⟩ hIl (le_refl _)).1).symm
        · rw [if_neg hx]
      have hinnrows : ∀ x : NodeRef, x ≠ (⟨nl.listId, nl.nodeCounter⟩ : NodeRef) →
          ((h.setOut (⟨nl.listId, nl.nodeCounter⟩ : NodeRef) []).setInn
            (⟨nl.listId, nl.nodeCounter⟩ : NodeRef) []).inn x = h.inn x := by
        intro x hx
        rw [setInn_inn, if_neg hx, setOut_inn]
      refine ⟨?_, ha, hb, ?_, fun kv hk => List.mem_append.mpr (Or.inl hk),
        Nat.le_succ _, rfl, rfl, hrows, hIl, Nat.lt_succ_self _⟩
      · refine ⟨hIl, Nat.le_succ_of_le hI.cpos, ?_, ?_, ?_,
          List.mem_append.mpr (Or.inl hI.initMem), ?_, ?_, ?_, ?_, ?_⟩
        · intro kv hkv
          rcases List.mem_append.mp hkv with h1 | h1
          · obtain ⟨hl1, hl2⟩ := hI.valsAlloc kv h1
            exact ⟨hl1, Nat.lt_succ_of_lt hl2⟩
          · have hkve : kv = (idxA LL a * RR.length + idxA RR b,
                (⟨nl.listId, nl.nodeCounter⟩ : NodeRef)) := by simpa using h1
            rw [hkve]
            exact ⟨hIl, Nat.lt_succ_self _⟩
        · rw [List.map_append, List.nodup_append]
          refine ⟨hI.keysNodup, by simp, ?_⟩
          intro k hk hk2
          have hkeq : k = idxA LL a * RR.length + idxA RR b := by simpa using hk2
          obtain ⟨kv, hkv, hkveq⟩ := List.mem_map.mp hk
          exact hnotin kv hkv (by rw [hkveq, hkeq])
        · rw [List.map_append, List.nodup_append]
          refine ⟨hI.valsNodup, by simp, ?_⟩
          intro x hx hx2
          have hxeq : x = (⟨nl.listId, nl.nodeCounter⟩ : NodeRef) := by
            simpa using hx2
          obtain ⟨kv, hkv, hkveq⟩ := List.mem_map.mp hx
          have hlt := (hI.valsAlloc kv hkv).2
          rw [hkveq, hxeq] at hlt
          exact absurd hlt (lt_irrefl _)
        · intro kv hkv
          rcases List.mem_append.mp hkv with h1 | h1
          · exact hI.keysDecode kv h1
          · have hkve : kv = (idxA LL a * RR.length + idxA RR b,
                (⟨nl.listId, nl.nodeCounter⟩ : NodeRef)) := by simpa using h1
            rw [hkve]
            exact ⟨a, ha, b, hb, rfl⟩
        · intro x hx
          rw [hrows x]
          exact hI.oldOut x hx
        · intro x hx1 hx2
          have hx2b : nl.nodeCounter + 1 ≤ x.id := hx2
          have hxne : x ≠ (⟨nl.listId, nl.nodeCounter⟩ : NodeRef) := by
            intro hc
            have hid : x.id = nl.nodeCounter := by rw [hc]
            omega
          constructor
          · rw [hrows x]
            exact (hI.junk x hx1 (by omega)).1
          · rw [hinnrows x hxne]
            exact (hI.junk x hx1 (by omega)).2
        · exact WF_createNode hI.wf
        · intro v2 hv2 e he cp hcp
          rw [hrows v2] at he
          obtain ⟨a1, b1, a2, b2, m1, m2, m3, m4, m5, m6, m7, m8⟩ :=
            hI.soundRows v2 hv2 e he cp hcp
          exact ⟨a1, b1, a2, b2, m1, m2, m3, m4,
            List.mem_append.mpr (Or.inl m5), List.mem_append.mpr (Or.inl m6),
            m7, m8⟩
      · exact List.mem_append.mpr (Or.inr (List.mem_singleton.mpr rfl))

theorem ProdInv_link {freshId : Nat} {hOrig : Heap} {LL RR : List NodeRef}
    {C : List (Nat × NodeRef)} {nl : NodeList} {h : Heap}
    {fromN toN : NodeRef} {cs : CharSet} {h2 : Heap}
    (hI : ProdInv freshId hOrig LL RR C nl h)
    (hok : linkNodes nl h fromN toN cs = .ok h2)
    (hfromA : Alloc nl fromN) (htoA : Alloc nl toN)
    (hdec : ∃ a b a2 b2, a ∈ LL ∧ b ∈ RR ∧ a2 ∈ LL ∧ b2 ∈ RR ∧
      (pairKey LL RR a b, fromN) ∈ C ∧ (pairKey LL RR a2 b2, toN) ∈ C ∧
      ∀ cp : ℚ, cs.has cp = true → EdgeCh hOrig a a2 cp ∧ EdgeCh hOrig b b2 cp) :
    ProdInv freshId hOrig LL RR C nl h2 ∧
    (∀ x : NodeRef, x ≠ fromN → h2.out x = h.out x) ∧
    (∃ cs2, (toN, cs2) ∈ h2.out fromN ∧
      ∀ cp : ℚ, cs.has cp = true → cs2.has cp = true) ∧
    (∀ (v : NodeRef) (e : NodeRef × CharSet), e ∈ h.out v →
      ∃ cs2, (e.1, cs2) ∈ h2.out v ∧
        ∀ cp : ℚ, e.2.has cp = true → cs2.has cp = true) := by
  have hwf2 : WF nl h2 := WF_linkNodes hI.wf hfromA htoA hok
  rw [linkNodes_ok_iff] at hok
  obtain ⟨-, -, hcs, rfl⟩ := hok
  have hout2 : ∀ x : NodeRef, x ≠ fromN →
      ((h.setOut fromN (addA (h.out fromN) toN cs)).setInn toN
        (addA (h.inn toN) fromN cs)).out x = h.out x := by
    intro x hx
    rw [setInn_out, setOut_out, if_neg hx]
  have houtF : ((h.setOut fromN (addA (h.out fromN) toN cs)).setInn toN
      (addA (h.inn toN) fromN cs)).out fromN = addA (h.out fromN) toN cs := by
    rw [setInn_out, setOut_out, if_pos rfl]
  refine ⟨?_, hout2, ?_, ?_⟩
  · refine ⟨hI.lid, hI.cpos, hI.valsAlloc, hI.keysNodup, hI.valsNodup,
      hI.initMem, hI.keysDecode, ?_, ?_, hwf2, ?_⟩
    · intro x hx
      rw [hout2 x ?_]
      · exact hI.oldOut x hx
      · intro hc
        rw [hc] at hx
        exact hx (hfromA.1.trans hI.lid)
    · intro x hx1 hx2
      have hxneF : x ≠ fromN := by
        intro hc
        rw [hc] at hx2
        have hlt := hfromA.2
        omega
      have hxneT : x ≠ toN := by
        intro hc
        rw [hc] at hx2
        have hlt := htoA.2
        omega
      constructor
      · rw [hout2 x hxneF]
        exact (hI.junk x hx1 hx2).1
      · rw [setInn_inn, if_neg hxneT, setOut_inn]
        exact (hI.junk x hx1 hx2).2
    · intro v hv e he cp hcp
      by_cases hvF : v = fromN
      · subst hvF
        rw [houtF] at he
        rcases mem_addA_strong he with ⟨hold, -⟩ | ⟨he1, hrest⟩
        · exact hI.soundRows v hv e hold cp hcp
        · obtain ⟨a, b, a2, b2, ma, mb, ma2, mb2, mf, mt, himp⟩ := hdec
          rcases hrest with ⟨hlnone, hecs⟩ | ⟨c, hlsome, hecs⟩
          · rw [hecs] at hcp
            obtain ⟨hE1, hE2⟩ := himp cp hcp
            refine ⟨a, b, a2, b2, ma, mb, ma2, mb2, mf, ?_, hE1, hE2⟩
            rw [he1]
            exact mt
          · rw [hecs] at hcp
            rcases has_union_iff.mp hcp with hc1 | hc2
            · have holde : ((toN, c) : NodeRef × CharSet) ∈ h.out v :=
                mem_of_lookupA_some hlsome
              obtain ⟨a1, b1, a3, b3, m1, m2, m3, m4, m5, m6, m7, m8⟩ :=
                hI.soundRows v hv (toN, c) holde cp hc1
              refine ⟨a1, b1, a3, b3, m1, m2, m3, m4, m5, ?_, m7, m8⟩
              rw [he1]
              exact m6
            · obtain ⟨hE1, hE2⟩ := himp cp hc2
              refine ⟨a, b, a2, b2, ma, mb, ma2, mb2, mf, ?_, hE1, hE2⟩
              rw [he1]
              exact mt
      · rw [hout2 v hvF] at he
        exact hI.soundRows v hv e he cp hcp
  · rw [houtF]
    exact addA_self_entry
  · intro v e he
    by_cases hvF : v = fromN
    · subst hvF
      rw [houtF]
      exact addA_entry_persist (hI.wf.outNodup v hfromA) he
    · rw [hout2 v hvF]
      refine ⟨e.2, ?_, fun cp hcp => hcp⟩
      have heta : (e.1, e.2) = e := rfl
      rw [heta]
      exact he

theorem ProdInv_withFinal {freshId : Nat} {hOrig : Heap} {LL RR : List NodeRef}
    {C : List (Nat × NodeRef)} {nl : NodeList} {h : Heap} {F : List NodeRef}
    (hI : ProdInv freshId hOrig LL RR C nl h)
    (hfa : ∀ f ∈ F, Alloc nl f) (hnd : F.Nodup) :
    ProdInv freshId hOrig LL RR C { nl with final := F } h :=
  ⟨hI.lid, hI.cpos, hI.valsAlloc, hI.keysNodup, hI.valsNodup, hI.initMem,
    hI.keysDecode, hI.oldOut, hI.junk, WF_withFinal hI.wf hfa hnd, hI.soundRows⟩

theorem intersect_phaseF {freshId : Nat} {hOrig : Heap} {LL RR : List NodeRef}
    {lfin rfin : List NodeRef}
    {s0 s1 : List (Nat × NodeRef) × NodeList × Heap}
    (hok : lfin.foldlM
      (fun (s : List (Nat × NodeRef) × NodeList × Heap) tf =>
        rfin.foldlM (fun s of2 =>
          translatePair LL RR tf of2 s.1 s.2.1 s.2.2 >>= fun q =>
          Except.ok (q.2.1,
            ({ q.2.2.1 with final := addFinal q.2.2.1.final q.1 } : NodeList),
            q.2.2.2)) s) s0 = .ok s1)
    (hI : ProdInv freshId hOrig LL RR s0.1 s0.2.1 s0.2.2)
    (hFS : ∀ f ∈ s0.2.1.final, ∃ lf rf, lf ∈ lfin ∧ rf ∈ rfin ∧
      lf ∈ LL ∧ rf ∈ RR ∧ (pairKey LL RR lf rf, f) ∈ s0.1) :
    ProdInv freshId hOrig LL RR s1.1 s1.2.1 s1.2.2 ∧
    ProdExt s0 s1 ∧
    (∀ f ∈ s1.2.1.final, ∃ lf rf, lf ∈ lfin ∧ rf ∈ rfin ∧
      lf ∈ LL ∧ rf ∈ RR ∧ (pairKey LL RR lf rf, f) ∈ s1.1) ∧
    (∀ lf ∈ lfin, ∀ rf ∈ rfin, ∃ v, (pairKey LL RR lf rf, v) ∈ s1.1 ∧
      v ∈ s1.2.1.final) := by
  have hstepInner : ∀ (tf : NodeRef), tf ∈ lfin →
      ∀ (s : List (Nat × NodeRef) × NodeList × Heap) (of2 : NodeRef)
        (s2 : List (Nat × NodeRef) × NodeList × Heap), of2 ∈ rfin →
        (translatePair LL RR tf of2 s.1 s.2.1 s.2.2 >>= fun q =>
          Except.ok (q.2.1,
            ({ q.2.2.1 with final := addFinal q.2.2.1.final q.1 } : NodeList),
            q.2.2.2)) = .ok s2 →
        (ProdInv freshId hOrig LL RR s.1 s.2.1 s.2.2 ∧
          (∀ f ∈ s.2.1.final, ∃ lf rf, lf ∈ lfin ∧ rf ∈ rfin ∧
            lf ∈ LL ∧ rf ∈ RR ∧ (pairKey LL RR lf rf, f) ∈ s.1)) →
        ((ProdInv freshId hOrig LL RR s2.1 s2.2.1 s2.2.2 ∧
          (∀ f ∈ s2.2.1.final, ∃ lf rf, lf ∈ lfin ∧ rf ∈ rfin ∧
            lf ∈ LL ∧ rf ∈ RR ∧ (pairKey LL RR lf rf, f) ∈ s2.1)) ∧
          ProdExt s s2 ∧
          (∃ v, (pairKey LL RR tf of2, v) ∈ s2.1 ∧ v ∈ s2.2.1.final)) := by
    intro tf htf s of2 s2 hof heq hP
    rw [exceptBind_eq_ok] at heq
    obtain ⟨q, htr, hret⟩ := heq
    obtain ⟨n, C1, nl1, h1⟩ := q
    obtain rfl := Except.ok.inj hret
    obtain ⟨hI2, haL, hbR, hkey, hsub, hcnt, hfin, hlid, hrows, hnl, hnid⟩ :=
      ProdInv_translate hP.1 htr
    have hallocN : Alloc nl1 n := ⟨by rw [hI2.lid]; exact hnl, hnid⟩
    have hfa : ∀ f ∈ addFinal nl1.final n, Alloc nl1 f := by
      intro f hf
      rcases mem_addFinal.mp hf with h1 | h1
      · rw [hfin] at h1
        have hA := hP.1.wf.finalAlloc f h1
        exact ⟨hA.1.trans (hlid.symm), lt_of_lt_of_le hA.2 hcnt⟩
      · rw [h1]
        exact hallocN
    refine ⟨⟨ProdInv_withFinal hI2 hfa (nodup_addFinal hI2.wf.finalNodup), ?_⟩,
      ⟨hsub, hcnt, ?_, ?_⟩, ⟨n, hkey, mem_addFinal.mpr (Or.inr rfl)⟩⟩
    · intro f hf
      rcases mem_addFinal.mp hf with h1 | h1
      · rw [hfin] at h1
        obtain ⟨lf, rf, m1, m2, m3, m4, m5⟩ := hP.2 f h1
        exact ⟨lf, rf, m1, m2, m3, m4, hsub _ m5⟩
      · rw [h1]
        exact ⟨tf, of2, htf, hof, haL, hbR, hkey⟩
    · intro f hf
      rw [← hfin] at hf
      exact mem_addFinal.mpr (Or.inl hf)
    · intro v e he
      refine ⟨e.2, ?_, fun cp hcp => hcp⟩
      have heta : (e.1, e.2) = e := rfl
      rw [heta, hrows]
      exact he
  obtain ⟨hP1, hR1, hQ1⟩ :=
    @foldlM_per_elem NodeRef (List (Nat × NodeRef) × NodeList × Heap)
      ProdExt
      (fun s => ProdInv freshId hOrig LL RR s.1 s.2.1 s.2.2 ∧
        (∀ f ∈ s.2.1.final, ∃ lf rf, lf ∈ lfin ∧ rf ∈ rfin ∧
          lf ∈ LL ∧ rf ∈ RR ∧ (pairKey LL RR lf rf, f) ∈ s.1))
      (fun tf s => ∀ rf ∈ rfin, ∃ v, (pairKey LL RR tf rf, v) ∈ s.1 ∧
        v ∈ s.2.1.final)
      (fun (s : List (Nat × NodeRef) × NodeList × Heap) tf =>
        rfin.foldlM (fun s of2 =>
          translatePair LL RR tf of2 s.1 s.2.1 s.2.2 >>= fun q =>
          Except.ok (q.2.1,
            ({ q.2.2.1 with final := addFinal q.2.2.1.final q.1 } : NodeList),
            q.2.2.2)) s)
      (fun {x y z} => ProdExt_trans) ProdExt_refl
      (fun tf sA sB hQ hR => by
        intro rf hrf
        obtain ⟨v, h1, h2⟩ := hQ rf hrf
        exact ⟨v, hR.1 _ h1, hR.2.2.1 _ h2⟩)
      lfin s0 s1
      (fun s tf s2 htf heq hP => by
        obtain ⟨hPi, hRi, hQi⟩ :=
          @foldlM_per_elem NodeRef (List (Nat × NodeRef) × NodeList × Heap)
            ProdExt
            (fun s => ProdInv freshId hOrig LL RR s.1 s.2.1 s.2.2 ∧
              (∀ f ∈ s.2.1.final, ∃ lf rf, lf ∈ lfin ∧ rf ∈ rfin ∧
                lf ∈ LL ∧ rf ∈ RR ∧ (pairKey LL RR lf rf, f) ∈ s.1))
            (fun of2 s => ∃ v, (pairKey LL RR tf of2, v) ∈ s.1 ∧
              v ∈ s.2.1.final)
            (fun s of2 =>
              translatePair LL RR tf of2 s.1 s.2.1 s.2.2 >>= fun q =>
              Except.ok (q.2.1,
                ({ q.2.2.1 with final := addFinal q.2.2.1.final q.1 } :
                  NodeList), q.2.2.2))
            (fun {x y z} => ProdExt_trans) ProdExt_refl
            (fun of2 sA sB hQ hR => by
              obtain ⟨v, h1, h2⟩ := hQ
              exact ⟨v, hR.1 _ h1, hR.2.2.1 _ h2⟩)
            rfin s s2
            (fun sx of2 sy hof heq2 hPx =>
              hstepInner tf htf sx of2 sy hof heq2 hPx)
            heq hP
        exact ⟨hPi, hRi, hQi⟩)
      hok ⟨hI, hFS⟩
  exact ⟨hP1.1, hR1, hP1.2, hQ1⟩

theorem intersect_phaseE {freshId : Nat} {hOrig : Heap} {LL RR : List NodeRef}
    {s0 s1 : List (Nat × NodeRef) × NodeList × Heap}
    (hLold : ∀ x ∈ LL, x.list ≠ freshId)
    (hRold : ∀ x ∈ RR, x.list ≠ freshId)
    (hok : LL.foldlM
      (fun (s : List (Nat × NodeRef) × NodeList × Heap) a =>
        RR.foldlM (fun s b =>
          translatePair LL RR a b s.1 s.2.1 s.2.2 >>= fun q =>
          (q.2.2.2.out a).foldlM
            (fun (s2 : List (Nat × NodeRef) × NodeList × Heap) eA =>
              (s2.2.2.out b).foldlM
                (fun (s3 : List (Nat × NodeRef) × NodeList × Heap) eB =>
                  if (eA.2.intersect eB.2).isEmpty = true then Except.ok s3
                  else
                    translatePair LL RR eA.1 eB.1 s3.1 s3.2.1 s3.2.2 >>=
                      fun q2 =>
                    linkNodes q2.2.2.1 q2.2.2.2 q.1 q2.1
                      (eA.2.intersect eB.2) >>= fun h3 =>
                    Except.ok (q2.2.1, q2.2.2.1, h3)) s2)
            (q.2.1, q.2.2.1, q.2.2.2)) s) s0 = .ok s1)
    (hI : ProdInv freshId hOrig LL RR s0.1 s0.2.1 s0.2.2) :
    ProdInv freshId hOrig LL RR s1.1 s1.2.1 s1.2.2 ∧
    ProdExt s0 s1 ∧
    (∀ a ∈ LL, ∀ b ∈ RR, ∃ v, (pairKey LL RR a b, v) ∈ s1.1 ∧
      ∀ eA ∈ hOrig.out a, ∀ eB ∈ hOrig.out b,
        (eA.2.intersect eB.2).isEmpty = false →
        ∃ v2, (pairKey LL RR eA.1 eB.1, v2) ∈ s1.1 ∧ eA.1 ∈ LL ∧ eB.1 ∈ RR ∧
          ∃ cs, (v2, cs) ∈ s1.2.2.out v ∧
            ∀ cp : ℚ, (eA.2.intersect eB.2).has cp = true →
              cs.has cp = true) := by
  have hstepB : ∀ (a b : NodeRef), a ∈ LL → b ∈ RR →
      ∀ (fromN : NodeRef) (eA : NodeRef × CharSet), eA ∈ hOrig.out a →
      ∀ (s3 : List (Nat × NodeRef) × NodeList × Heap) (eB : NodeRef × CharSet)
        (s3' : List (Nat × NodeRef) × NodeList × Heap), eB ∈ hOrig.out b →
        ((if (eA.2.intersect eB.2).isEmpty = true then Except.ok s3
          else
            translatePair LL RR eA.1 eB.1 s3.1 s3.2.1 s3.2.2 >>=
              fun q2 =>
            linkNodes q2.2.2.1 q2.2.2.2 fromN q2.1
              (eA.2.intersect eB.2) >>= fun h3 =>
            Except.ok (q2.2.1, q2.2.2.1, h3)) = .ok s3') →
        (ProdInv freshId hOrig LL RR s3.1 s3.2.1 s3.2.2 ∧
          (pairKey LL RR a b, fromN) ∈ s3.1 ∧ fromN.list = freshId ∧
          fromN.id < s3.2.1.nodeCounter) →
        ((ProdInv freshId hOrig LL RR s3'.1 s3'.2.1 s3'.2.2 ∧
          (pairKey LL RR a b, fromN) ∈ s3'.1 ∧ fromN.list = freshId ∧
          fromN.id < s3'.2.1.nodeCounter) ∧
          ProdExt s3 s3' ∧
          ((eA.2.intersect eB.2).isEmpty = true ∨
            ∃ v2, (pairKey LL RR eA.1 eB.1, v2) ∈ s3'.1 ∧ eA.1 ∈ LL ∧
              eB.1 ∈ RR ∧ ∃ cs, (v2, cs) ∈ s3'.2.2.out fromN ∧
                ∀ cp : ℚ, (eA.2.intersect eB.2).has cp = true →
                  cs.has cp = true)) := by
    intro a b ha hb fromN eA heA s3 eB s3' heB heq hP2
    by_cases hemp : (eA.2.intersect eB.2).isEmpty = true
    · rw [if_pos hemp] at heq
      obtain rfl := Except.ok.inj heq
      exact ⟨hP2, ProdExt_refl s3, Or.inl hemp⟩
    · rw [if_neg hemp] at heq
      rw [exceptBind_eq_ok] at heq
      obtain ⟨q2, htr, hrest⟩ := heq
      obtain ⟨toN, C2, nl2, h2⟩ := q2
      rw [exceptBind_eq_ok] at hrest
      obtain ⟨h3, hlink, hret⟩ := hrest
      obtain rfl := Except.ok.inj hret
      obtain ⟨hI2, haL2, hbR2, hkey2, hsub2, hcnt2, hfin2, hlid2, hrows2,
        htoNl, htoNid⟩ := ProdInv_translate hP2.1 htr
      have hfromA2 : Alloc nl2 fromN :=
        ⟨by rw [hI2.lid]; exact hP2.2.2.1, lt_of_lt_of_le hP2.2.2.2 hcnt2⟩
      have htoA2 : Alloc nl2 toN := ⟨by rw [hI2.lid]; exact htoNl, htoNid⟩
      have hdec : ∃ a1 b1 a2 b2, a1 ∈ LL ∧ b1 ∈ RR ∧ a2 ∈ LL ∧ b2 ∈ RR ∧
          (pairKey LL RR a1 b1, fromN) ∈ C2 ∧
          (pairKey LL RR a2 b2, toN) ∈ C2 ∧
          ∀ cp : ℚ, (eA.2.intersect eB.2).has cp = true →
            EdgeCh hOrig a1 a2 cp ∧ EdgeCh hOrig b1 b2 cp := by
        refine ⟨a, b, eA.1, eB.1, ha, hb, haL2, hbR2, hsub2 _ hP2.2.1,
          hkey2, ?_⟩
        intro cp hcp
        obtain ⟨h1c, h2c⟩ := has_intersect_iff.mp hcp
        exact ⟨⟨eA, heA, rfl, h1c⟩, ⟨eB, heB, rfl, h2c⟩⟩
      obtain ⟨hI3, hrowsL, hself, hge⟩ := ProdInv_link hI2 hlink hfromA2 htoA2 hdec
      obtain ⟨csE, hcsEm, hcsEmono⟩ := hself
      refine ⟨⟨hI3, hsub2 _ hP2.2.1, hP2.2.2.1,
        lt_of_lt_of_le hP2.2.2.2 hcnt2⟩,
        ⟨fun kv hk => hsub2 kv hk, hcnt2, ?_, ?_⟩,
        Or.inr ⟨toN, hkey2, haL2, hbR2, csE, hcsEm, hcsEmono⟩⟩
      · intro f hf
        show f ∈ nl2.final
        rw [hfin2]
        exact hf
      · intro v e he
        have he2 : e ∈ h2.out v := by
          rw [hrows2 v]
          exact he
        exact hge v e he2
  have hstepA : ∀ (a b : NodeRef), a ∈ LL → b ∈ RR →
      ∀ (fromN : NodeRef)
        (sA : List (Nat × NodeRef) × NodeList × Heap) (eA : NodeRef × CharSet)
        (sA' : List (Nat × NodeRef) × NodeList × Heap), eA ∈ hOrig.out a →
        ((sA.2.2.out b).foldlM
          (fun (s3 : List (Nat × NodeRef) × NodeList × Heap) eB =>
            if (eA.2.intersect eB.2).isEmpty = true then Except.ok s3
            else
              translatePair LL RR eA.1 eB.1 s3.1 s3.2.1 s3.2.2 >>= fun q2 =>
              linkNodes q2.2.2.1 q2.2.2.2 fromN q2.1
                (eA.2.intersect eB.2) >>= fun h3 =>
              Except.ok (q2.2.1, q2.2.2.1, h3)) sA) = .ok sA' →
        (ProdInv freshId hOrig LL RR sA.1 sA.2.1 sA.2.2 ∧
          (pairKey LL RR a b, fromN) ∈ sA.1 ∧ fromN.list = freshId ∧
          fromN.id < sA.2.1.nodeCounter) →
        ((ProdInv freshId hOrig LL RR sA'.1 sA'.2.1 sA'.2.2 ∧
          (pairKey LL RR a b, fromN) ∈ sA'.1 ∧ fromN.list = freshId ∧
          fromN.id < sA'.2.1.nodeCounter) ∧
          ProdExt sA sA' ∧
          (∀ eB ∈ hOrig.out b,
            (eA.2.intersect eB.2).isEmpty = true ∨
            ∃ v2, (pairKey LL RR eA.1 eB.1, v2) ∈ sA'.1 ∧ eA.1 ∈ LL ∧
              eB.1 ∈ RR ∧ ∃ cs, (v2, cs) ∈ sA'.2.2.out fromN ∧
                ∀ cp : ℚ, (eA.2.intersect eB.2).has cp = true →
                  cs.has cp = true)) := by
    intro a b ha hb fromN sA eA sA' heA heq hP2
    rw [hP2.1.oldOut b (hRold b hb)] at heq
    exact @foldlM_per_elem (NodeRef × CharSet)
      (List (Nat × NodeRef) × NodeList × Heap) ProdExt
      (fun s => ProdInv freshId hOrig LL RR s.1 s.2.1 s.2.2 ∧
        (pairKey LL RR a b, fromN) ∈ s.1 ∧ fromN.list = freshId ∧
        fromN.id < s.2.1.nodeCounter)
      (fun eB s => (eA.2.intersect eB.2).isEmpty = true ∨
        ∃ v2, (pairKey LL RR eA.1 eB.1, v2) ∈ s.1 ∧ eA.1 ∈ LL ∧
          eB.1 ∈ RR ∧ ∃ cs, (v2, cs) ∈ s.2.2.out fromN ∧
            ∀ cp : ℚ, (eA.2.intersect eB.2).has cp = true → cs.has cp = true)
      (fun (s3 : List (Nat × NodeRef) × NodeList × Heap) eB =>
        if (eA.2.intersect eB.2).isEmpty = true then Except.ok s3
        else
          translatePair LL RR eA.1 eB.1 s3.1 s3.2.1 s3.2.2 >>= fun q2 =>
          linkNodes q2.2.2.1 q2.2.2.2 fromN q2.1
            (eA.2.intersect eB.2) >>= fun h3 =>
          Except.ok (q2.2.1, q2.2.2.1, h3))
      (fun {x y z} => ProdExt_trans) ProdExt_refl
      (fun eB sX sY hQ hR => by
        rcases hQ with h1 | ⟨v2, hk, hm1, hm2, cs, hcs, hmono⟩
        · exact Or.inl h1
        · obtain ⟨cs2, hcs2, hmono2⟩ := hR.2.2.2 fromN (v2, cs) hcs
          exact Or.inr ⟨v2, hR.1 _ hk, hm1, hm2, cs2, hcs2,
            fun cp hcp => hmono2 cp (hmono cp hcp)⟩)
      (hOrig.out b) sA sA'
      (fun sx eB sy heB heq2 hPx =>
        hstepB a b ha hb fromN eA heA sx eB sy heB heq2 hPx)
      heq hP2
  have hstepM : ∀ (a : NodeRef), a ∈ LL →
      ∀ (s : List (Nat × NodeRef) × NodeList × Heap) (b : NodeRef)
        (s2 : List (Nat × NodeRef) × NodeList × Heap), b ∈ RR →
        ((translatePair LL RR a b s.1 s.2.1 s.2.2 >>= fun q =>
          (q.2.2.2.out a).foldlM
            (fun (sx : List (Nat × NodeRef) × NodeList × Heap) eA =>
              (sx.2.2.out b).foldlM
                (fun (s3 : List (Nat × NodeRef) × NodeList × Heap) eB =>
                  if (eA.2.intersect eB.2).isEmpty = true then Except.ok s3
                  else
                    translatePair LL RR eA.1 eB.1 s3.1 s3.2.1 s3.2.2 >>=
                      fun q2 =>
                    linkNodes q2.2.2.1 q2.2.2.2 q.1 q2.1
                      (eA.2.intersect eB.2) >>= fun h3 =>
                    Except.ok (q2.2.1, q2.2.2.1, h3)) sx)
            (q.2.1, q.2.2.1, q.2.2.2)) = .ok s2) →
        ProdInv freshId hOrig LL RR s.1 s.2.1 s.2.2 →
        (ProdInv freshId hOrig LL RR s2.1 s2.2.1 s2.2.2 ∧
          ProdExt s s2 ∧
          (∃ v, (pairKey LL RR a b, v) ∈ s2.1 ∧
            ∀ eA ∈ hOrig.out a, ∀ eB ∈ hOrig.out b,
              (eA.2.intersect eB.2).isEmpty = true ∨
              ∃ v2, (pairKey LL RR eA.1 eB.1, v2) ∈ s2.1 ∧ eA.1 ∈ LL ∧
                eB.1 ∈ RR ∧ ∃ cs, (v2, cs) ∈ s2.2.2.out v ∧
                  ∀ cp : ℚ, (eA.2.intersect eB.2).has cp = true →
                    cs.has cp = true)) := by
    intro a ha s b s2 hb heq hP
    rw [exceptBind_eq_ok] at heq
    obtain ⟨q, htr, hrest⟩ := heq
    obtain ⟨fromN, C1, nl1, h1⟩ := q
    obtain ⟨hI1, haL1, hbR1, hkey1, hsub1, hcnt1, hfin1, hlid1, hrows1,
      hfrl, hfrid⟩ := ProdInv_translate hP htr
    have hrowA : h1.out a = hOrig.out a := hI1.oldOut a (hLold a ha)
    rw [hrowA] at hrest
    obtain ⟨hPf, hRf, hQf⟩ :=
      @foldlM_per_elem (NodeRef × CharSet)
        (List (Nat × NodeRef) × NodeList × Heap) ProdExt
        (fun sx => ProdInv freshId hOrig LL RR sx.1 sx.2.1 sx.2.2 ∧
          (pairKey LL RR a b, fromN) ∈ sx.1 ∧ fromN.list = freshId ∧
          fromN.id < sx.2.1.nodeCounter)
        (fun eA sx => ∀ eB ∈ hOrig.out b,
          (eA.2.intersect eB.2).isEmpty = true ∨
          ∃ v2, (pairKey LL RR eA.1 eB.1, v2) ∈ sx.1 ∧ eA.1 ∈ LL ∧
            eB.1 ∈ RR ∧ ∃ cs, (v2, cs) ∈ sx.2.2.out fromN ∧
              ∀ cp : ℚ, (eA.2.intersect eB.2).has cp = true →
                cs.has cp = true)
        (fun (sx : List (Nat × NodeRef) × NodeList × Heap) eA =>
          (sx.2.2.out b).foldlM
            (fun (s3 : List (Nat × NodeRef) × NodeList × Heap) eB =>
              if (eA.2.intersect eB.2).isEmpty = true then Except.ok s3
              else
                translatePair LL RR eA.1 eB.1 s3.1 s3.2.1 s3.2.2 >>=
                  fun q2 =>
                linkNodes q2.2.2.1 q2.2.2.2 fromN q2.1
                  (eA.2.intersect eB.2) >>= fun h3 =>
                Except.ok (q2.2.1, q2.2.2.1, h3)) sx)
        (fun {x y z} => ProdExt_trans) ProdExt_refl
        (fun eA sX sY hQ hR => by
          intro eB heB
          rcases hQ eB heB with h1 | ⟨v2, hk, hm1, hm2, cs, hcs, hmono⟩
          · exact Or.inl h1
          · obtain ⟨cs2, hcs2, hmono2⟩ := hR.2.2.2 fromN (v2, cs) hcs
            exact Or.inr ⟨v2, hR.1 _ hk, hm1, hm2, cs2, hcs2,
              fun cp hcp => hmono2 cp (hmono cp hcp)⟩)
        (hOrig.out a) (C1, nl1, h1) s2
        (fun sx eA sy heA heq2 hPx =>
          hstepA a b ha hb fromN sx eA sy heA heq2 hPx)
        hrest ⟨hI1, hkey1, hfrl, hfrid⟩
    refine ⟨hPf.1, ?_, ⟨fromN, hPf.2.1, ?_⟩⟩
    · refine @ProdExt_trans s (C1, nl1, h1) s2 ?_ hRf
      refine ⟨hsub1, hcnt1, ?_, ?_⟩
      · intro f hf
        show f ∈ nl1.final
        rw [hfin1]
        exact hf
      · intro v e he
        refine ⟨e.2, ?_, fun cp hcp => hcp⟩
        have heta : (e.1, e.2) = e := rfl
        show (e.1, e.2) ∈ h1.out v
        rw [heta, hrows1 v]
        exact he
    · intro eA heA eB heB
      exact hQf eA heA eB heB
  obtain ⟨hP1, hR1, hQ1⟩ :=
    @foldlM_per_elem NodeRef (List (Nat × NodeRef) × NodeList × Heap) ProdExt
      (fun s => ProdInv freshId hOrig LL RR s.1 s.2.1 s.2.2)
      (fun a s => ∀ b ∈ RR, ∃ v, (pairKey LL RR a b, v) ∈ s.1 ∧
        ∀ eA ∈ hOrig.out a, ∀ eB ∈ hOrig.out b,
          (eA.2.intersect eB.2).isEmpty = true ∨
          ∃ v2, (pairKey LL RR eA.1 eB.1, v2) ∈ s.1 ∧ eA.1 ∈ LL ∧
            eB.1 ∈ RR ∧ ∃ cs, (v2, cs) ∈ s.2.2.out v ∧
              ∀ cp : ℚ, (eA.2.intersect eB.2).has cp = true →
                cs.has cp = true)
      (fun (s : List (Nat × NodeRef) × NodeList × Heap) a =>
        RR.foldlM (fun s b =>
          translatePair LL RR a b s.1 s.2.1 s.2.2 >>= fun q =>
          (q.2.2.2.out a).foldlM
            (fun (s2 : List (Nat × NodeRef) × NodeList × Heap) eA =>
              (s2.2.2.out b).foldlM
                (fun (s3 : List (Nat × NodeRef) × NodeList × Heap) eB =>
                  if (eA.2.intersect eB.2).isEmpty = true then Except.ok s3
                  else
                    translatePair LL RR eA.1 eB.1 s3.1 s3.2.1 s3.2.2 >>=
                      fun q2 =>
                    linkNodes q2.2.2.1 q2.2.2.2 q.1 q2.1
                      (eA.2.intersect eB.2) >>= fun h3 =>
                    Except.ok (q2.2.1, q2.2.2.1, h3)) s2)
            (q.2.1, q.2.2.1, q.2.2.2)) s)
      (fun {x y z} => ProdExt_trans) ProdExt_refl
      (fun a sX sY hQ hR => by
        intro b hb
        obtain ⟨v, hkv, hall⟩ := hQ b hb
        refine ⟨v, hR.1 _ hkv, ?_⟩
        intro eA heA eB heB
        rcases hall eA heA eB heB with h1 | ⟨v2, hk, hm1, hm2, cs, hcs, hmono⟩
        · exact Or.inl h1
        · obtain ⟨cs2, hcs2, hmono2⟩ := hR.2.2.2 v (v2, cs) hcs
          exact Or.inr ⟨v2, hR.1 _ hk, hm1, hm2, cs2, hcs2,
            fun cp hcp => hmono2 cp (hmono cp hcp)⟩)
      LL s0 s1
      (fun s a s2 haL heq hPx => by
        obtain ⟨hPi, hRi, hQi⟩ :=
          @foldlM_per_elem NodeRef (List (Nat × NodeRef) × NodeList × Heap)
            ProdExt
            (fun s => ProdInv freshId hOrig LL RR s.1 s.2.1 s.2.2)
            (fun b s => ∃ v, (pairKey LL RR a b, v) ∈ s.1 ∧
              ∀ eA ∈ hOrig.out a, ∀ eB ∈ hOrig.out b,
                (eA.2.intersect eB.2).isEmpty = true ∨
                ∃ v2, (pairKey LL RR eA.1 eB.1, v2) ∈ s.1 ∧ eA.1 ∈ LL ∧
                  eB.1 ∈ RR ∧ ∃ cs, (v2, cs) ∈ s.2.2.out v ∧
                    ∀ cp : ℚ, (eA.2.intersect eB.2).has cp = true →
                      cs.has cp = true)
            (fun (s : List (Nat × NodeRef) × NodeList × Heap) b =>
              translatePair LL RR a b s.1 s.2.1 s.2.2 >>= fun q =>
              (q.2.2.2.out a).foldlM
                (fun (s2 : List (Nat × NodeRef) × NodeList × Heap) eA =>
                  (s2.2.2.out b).foldlM
                    (fun (s3 : List (Nat × NodeRef) × NodeList × Heap) eB =>
                      if (eA.2.intersect eB.2).isEmpty = true
                      then Except.ok s3
                      else
                        translatePair LL RR eA.1 eB.1 s3.1 s3.2.1
                          s3.2.2 >>= fun q2 =>
                        linkNodes q2.2.2.1 q2.2.2.2 q.1 q2.1
                          (eA.2.intersect eB.2) >>= fun h3 =>
                        Except.ok (q2.2.1, q2.2.2.1, h3)) s2)
                (q.2.1, q.2.2.1, q.2.2.2))
            (fun {x y z} => ProdExt_trans) ProdExt_refl
            (fun b sX sY hQ hR => by
              obtain ⟨v, hkv, hall⟩ := hQ
              refine ⟨v, hR.1 _ hkv, ?_⟩
              intro eA heA eB heB
              rcases hall eA heA eB heB with h1 |
                ⟨v2, hk, hm1, hm2, cs, hcs, hmono⟩
              · exact Or.inl h1
              · obtain ⟨cs2, hcs2, hmono2⟩ := hR.2.2.2 v (v2, cs) hcs
                exact Or.inr ⟨v2, hR.1 _ hk, hm1, hm2, cs2, hcs2,
                  fun cp hcp => hmono2 cp (hmono cp hcp)⟩)
            RR s s2
            (fun sx b sy hbR heq2 hPy =>
              hstepM a haL sx b sy hbR heq2 hPy)
            heq hPx
        exact ⟨hPi, hRi, hQi⟩)
      hok hI
  refine ⟨hP1, hR1, ?_⟩
  intro a ha b hb
  obtain ⟨v, hkv, hall⟩ := hQ1 a ha b hb
  refine ⟨v, hkv, ?_⟩
  intro eA heA eB heB hne
  rcases hall eA heA eB heB with h1 | h2
  · rw [hne] at h1
    cases h1
  · exact h2

theorem translatePair_final {LL RR : List NodeRef} {a b : NodeRef}
    {C : List (Nat × NodeRef)} {nl : NodeList} {h : Heap}
    {q : NodeRef × List (Nat × NodeRef) × NodeList × Heap}
    (hok : translatePair LL RR a b C nl h = .ok q) :
    q.2.2.1.final = nl.final := by
  obtain ⟨haL, hbR, hq⟩ := translatePair_ok_iff.mp hok
  subst hq
  cases hf : C.find? (fun kv =>
      decide (kv.1 = idxA LL a * RR.length + idxA RR b)) with
  | some e => rw [translateIdx_eq_found nl h hf]
  | none => rw [translateIdx_eq_new nl h hf]

theorem foldlM_final_pres {α : Type}
    {f : List (Nat × NodeRef) × NodeList × Heap → α →
      Except Err (List (Nat × NodeRef) × NodeList × Heap)} :
    ∀ {l : List α} {s0 s1 : List (Nat × NodeRef) × NodeList × Heap},
      (∀ s x s2, x ∈ l → f s x = .ok s2 → s2.2.1.final = s.2.1.final) →
      l.foldlM f s0 = .ok s1 → s1.2.1.final = s0.2.1.final := by
  intro l
  induction l with
  | nil =>
      intro s0 s1 _ hok
      rw [List.foldlM_nil] at hok
      obtain rfl := Except.ok.inj hok
      rfl
  | cons x xs ih =>
      intro s0 s1 hstep hok
      rw [List.foldlM_cons, exceptBind_eq_ok] at hok
      obtain ⟨sm, hsm, hrest⟩ := hok
      rw [ih (fun s y s2 hy h2 => hstep s y s2 (List.mem_cons_of_mem x hy) h2)
        hrest]
      exact hstep s0 x sm (List.mem_cons_self x xs) hsm

theorem intersect_phaseE_final {LL RR : List NodeRef}
    {s0 s1 : List (Nat × NodeRef) × NodeList × Heap}
    (hok : LL.foldlM
      (fun (s : List (Nat × NodeRef) × NodeList × Heap) a =>
        RR.foldlM (fun s b =>
          translatePair LL RR a b s.1 s.2.1 s.2.2 >>= fun q =>
          (q.2.2.2.out a).foldlM
            (fun (s2 : List (Nat × NodeRef) × NodeList × Heap) eA =>
              (s2.2.2.out b).foldlM
                (fun (s3 : List (Nat × NodeRef) × NodeList × Heap) eB =>
                  if (eA.2.intersect eB.2).isEmpty = true then Except.ok s3
                  else
                    translatePair LL RR eA.1 eB.1 s3.1 s3.2.1 s3.2.2 >>=
                      fun q2 =>
                    linkNodes q2.2.2.1 q2.2.2.2 q.1 q2.1
                      (eA.2.intersect eB.2) >>= fun h3 =>
                    Except.ok (q2.2.1, q2.2.2.1, h3)) s2)
            (q.2.1, q.2.2.1, q.2.2.2)) s) s0 = .ok s1) :
    s1.2.1.final = s0.2.1.final := by
  refine foldlM_final_pres ?_ hok
  intro s a s2 ha heq
  refine foldlM_final_pres ?_ heq
  intro sx b sy hb heq2
  rw [exceptBind_eq_ok] at heq2
  obtain ⟨q, htr, hrest⟩ := heq2
  have hq : q.2.2.1.final = sx.2.1.final := translatePair_final htr
  have h2 : sy.2.1.final = (q.2.1, q.2.2.1, q.2.2.2).2.1.final := by
    refine foldlM_final_pres ?_ hrest
    intro s2a eA s2b heA heq3
    refine foldlM_final_pres ?_ heq3
    intro s3a eB s3b heB heq4
    by_cases hemp : (eA.2.intersect eB.2).isEmpty = true
    · rw [if_pos hemp] at heq4
      obtain rfl := Except.ok.inj heq4
      rfl
    · rw [if_neg hemp, exceptBind_eq_ok] at heq4
      obtain ⟨q2, htr2, hrest2⟩ := heq4
      rw [exceptBind_eq_ok] at hrest2
      obtain ⟨h3, hlink, hret⟩ := hrest2
      obtain rfl := Except.ok.inj hret
      exact translatePair_final htr2
  rw [h2]
  exact hq

theorem PathW_transfer_back {A R : NodeRef → Prop} {h h2 : Heap} :
    ∀ {w : List ℚ} {a c : NodeRef}, PathW h a w c → A a → R c →
      (∀ x y cp, A x → EdgeCh h x y cp → A y) →
      (∀ x y cp, A x → EdgeCh h x y cp → R y → R x) →
      (∀ x y cp, A x → R x → R y → EdgeCh h x y cp → EdgeCh h2 x y cp) →
      R a ∧ PathW h2 a w c := by
  intro w a c hp
  induction hp with
  | nil n =>
      intro _ hc _ _ _
      exact ⟨hc, PathW.nil n⟩
  | cons hmem hhas hp2 ih =>
      rename_i x y z cp w2 cs
      intro hA hc hAcl hback htr
      have hAy : A y := hAcl x y cp hA ⟨(y, cs), hmem, rfl, hhas⟩
      obtain ⟨hRy, hp3⟩ := ih hAy hc hAcl hback htr
      have hRx : R x := hback x y cp hA ⟨(y, cs), hmem, rfl, hhas⟩ hRy
      refine ⟨hRx, ?_⟩
      obtain ⟨e, he, he1, he2⟩ := htr x y cp hA hRx hRy ⟨(y, cs), hmem, rfl, hhas⟩
      refine PathW.cons ?_ he2 hp3
      show (y, e.2) ∈ h2.out x
      rw [← he1]
      exact he

theorem prod_path_sound {freshId : Nat} {hOrig : Heap} {LL RR : List NodeRef}
    {C : List (Nat × NodeRef)} {nl : NodeList} {h : Heap}
    (hI : ProdInv freshId hOrig LL RR C nl h)
    (hndL : LL.Nodup) (hndR : RR.Nodup) :
    ∀ {v0 : NodeRef} {w : List ℚ} {v : NodeRef}, PathW h v0 w v →
      ∀ a0 b0 : NodeRef, a0 ∈ LL → b0 ∈ RR →
        (pairKey LL RR a0 b0, v0) ∈ C →
        ∃ a2 b2, a2 ∈ LL ∧ b2 ∈ RR ∧ (pairKey LL RR a2 b2, v) ∈ C ∧
          PathW hOrig a0 w a2 ∧ PathW hOrig b0 w b2 := by
  intro v0 w v hp
  induction hp with
  | nil n =>
      intro a0 b0 ha0 hb0 hk0
      exact ⟨a0, b0, ha0, hb0, hk0, PathW.nil a0, PathW.nil b0⟩
  | cons hmem hhas hp2 ih =>
      rename_i x y z cp w2 cs
      intro a0 b0 ha0 hb0 hk0
      have hxl : x.list = freshId := (hI.valsAlloc _ hk0).1
      obtain ⟨a, b, a2, b2, haL, hbR, ha2L, hb2R, hkx, hky, heA, heB⟩ :=
        hI.soundRows x hxl (y, cs) hmem cp hhas
      have heqp : ((pairKey LL RR a b : Nat), x) = (pairKey LL RR a0 b0, x) :=
        nodup_map_eq hI.valsNodup hkx hk0 rfl
      have hkeq : pairKey LL RR a b = pairKey LL RR a0 b0 := by
        injection heqp with h1 h2
      obtain ⟨rfl, rfl⟩ := pairKey_inj hndL hndR haL hbR ha0 hb0 hkeq
      obtain ⟨a3, b3, ha3, hb3, hk3, hpA, hpB⟩ := ih a2 b2 ha2L hb2R hky
      refine ⟨a3, b3, ha3, hb3, hk3, ?_, ?_⟩
      · obtain ⟨e, he, he1, he2⟩ := heA
        refine PathW.cons ?_ he2 hpA
        show (a2, e.2) ∈ hOrig.out _
        rw [← he1]
        exact he
      · obtain ⟨e, he, he1, he2⟩ := heB
        refine PathW.cons ?_ he2 hpB
        show (b2, e.2) ∈ hOrig.out _
        rw [← he1]
        exact he

theorem prod_path_complete {freshId : Nat} {hOrig : Heap} {LL RR : List NodeRef}
    {C : List (Nat × NodeRef)} {nl : NodeList} {h : Heap}
    (hI : ProdInv freshId hOrig LL RR C nl h)
    (hE : ∀ a ∈ LL, ∀ b ∈ RR, ∃ v, (pairKey LL RR a b, v) ∈ C ∧
      ∀ eA ∈ hOrig.out a, ∀ eB ∈ hOrig.out b,
        (eA.2.intersect eB.2).isEmpty = false →
        ∃ v2, (pairKey LL RR eA.1 eB.1, v2) ∈ C ∧ eA.1 ∈ LL ∧ eB.1 ∈ RR ∧
          ∃ cs, (v2, cs) ∈ h.out v ∧
            ∀ cp : ℚ, (eA.2.intersect eB.2).has cp = true →
              cs.has cp = true) :
    ∀ (w : List ℚ) (a0 b0 a2 b2 : NodeRef), a0 ∈ LL → b0 ∈ RR →
      PathW hOrig a0 w a2 → PathW hOrig b0 w b2 →
      ∀ v : NodeRef, (pairKey LL RR a0 b0, v) ∈ C →
      ∃ v2, (pairKey LL RR a2 b2, v2) ∈ C ∧ a2 ∈ LL ∧ b2 ∈ RR ∧
        PathW h v w v2 := by
  intro w
  induction w with
  | nil =>
      intro a0 b0 a2 b2 ha0 hb0 hpA hpB v hkv
      obtain rfl := PathW_nil_iff.mp hpA
      obtain rfl := PathW_nil_iff.mp hpB
      exact ⟨v, hkv, ha0, hb0, PathW.nil v⟩
  | cons cp w ih =>
      intro a0 b0 a2 b2 ha0 hb0 hpA hpB v hkv
      obtain ⟨a1, heA, hpA2⟩ := PathW_cons_iff.mp hpA
      obtain ⟨b1, heB, hpB2⟩ := PathW_cons_iff.mp hpB
      obtain ⟨eA, heAm, heA1, heA2⟩ := heA
      obtain ⟨eB, heBm, heB1, heB2⟩ := heB
      have hhasI : (eA.2.intersect eB.2).has cp = true :=
        has_intersect_iff.mpr ⟨heA2, heB2⟩
      have hneI : (eA.2.intersect eB.2).isEmpty = false :=
        isEmpty_false_of_has hhasI
      obtain ⟨v1, hkv1, hedges⟩ := hE a0 ha0 b0 hb0
      have hveq : v1 = v := by
        have heqp : ((pairKey LL RR a0 b0 : Nat), v1) =
            (pairKey LL RR a0 b0, v) := nodup_map_eq hI.keysNodup hkv1 hkv rfl
        injection heqp with h1 h2
      subst hveq
      obtain ⟨v2, hk2, ha1L, hb1R, cs, hcsm, hcsmono⟩ :=
        hedges eA heAm eB heBm hneI
      rw [heA1] at hk2 ha1L
      rw [heB1] at hk2 hb1R
      obtain ⟨v3, hk3, ha2L, hb2R, hp3⟩ :=
        ih a1 b1 a2 b2 ha1L hb1R hpA2 hpB2 v2 hk2
      exact ⟨v3, hk3, ha2L, hb2R, PathW.cons hcsm (hcsmono cp hhasI) hp3⟩

theorem removeUnreachable_lang {nl : NodeList} {h : Heap}
    (hwf : WF nl h) (hcnt : 1 ≤ nl.nodeCounter) :
    ∃ p : NodeList × Heap, removeUnreachable nl h = .ok p ∧
      p.1.listId = nl.listId ∧ p.1.nodeCounter = nl.nodeCounter ∧
      (WF p.1 p.2 ∨ p.1.final = []) ∧
      (∀ w, (∃ f ∈ p.1.final, PathW p.2 nl.initial w f) ↔
        (∃ f ∈ nl.final, PathW h nl.initial w f)) := by
  unfold removeUnreachable
  by_cases hfin : nl.final = []
  · rw [if_pos hfin]
    refine ⟨makeEmpty nl h, rfl, rfl, rfl, Or.inr rfl, ?_⟩
    intro w
    constructor
    · rintro ⟨f, hf, -⟩
      have hf2 : f ∈ ([] : List NodeRef) := hf
      exact absurd hf2 (List.not_mem_nil f)
    · rintro ⟨f, hf, -⟩
      rw [hfin] at hf
      exact absurd hf (List.not_mem_nil f)
  · rw [if_neg hfin]
    have hinitAlloc : Alloc nl nl.initial := ⟨rfl, hcnt⟩
    have hUmem : ∀ x : NodeRef, Alloc nl x →
        x ∈ (Finset.range nl.nodeCounter).image
          (fun i => (⟨nl.listId, i⟩ : NodeRef)) := by
      intro x hx
      obtain ⟨xl, xi⟩ := x
      obtain ⟨hx1, hx2⟩ := hx
      apply Finset.mem_image.mpr
      refine ⟨xi, Finset.mem_range.mpr hx2, ?_⟩
      simp only at hx1
      rw [hx1]
    have hUcard : ((Finset.range nl.nodeCounter).image
        (fun i => (⟨nl.listId, i⟩ : NodeRef))).card ≤ nl.nodeCounter := by
      refine le_trans Finset.card_image_le ?_
      rw [Finset.card_range]
    have hstepW : ∀ x y : NodeRef, Alloc nl x →
        y ∈ (fun n => succInn h n ++ succOut h n) x → Alloc nl y := by
      intro x y hx hy
      rcases List.mem_append.mp hy with hy1 | hy1
      · exact Alloc_succInn hwf hx hy1
      · exact Alloc_succOut hwf hx hy1
    have hstepO : ∀ x y : NodeRef, Alloc nl x → y ∈ succOut h x → Alloc nl y :=
      fun x y hx hy => Alloc_succOut hwf hx hy
    have hANalloc : ∀ n ∈ (closIter (fun n => succInn h n ++ succOut h n)
        nl.nodeCounter [nl.initial]).foldl addFinal nl.final, Alloc nl n := by
      intro n hn
      rcases (mem_foldl_addFinal _ _ n).mp hn with hn1 | hn1
      · exact hwf.finalAlloc n hn1
      · obtain ⟨sd, hsd, hr⟩ := closIter_sound _ _ _ hn1
        rw [List.mem_singleton] at hsd
        subst hsd
        exact ReachL_pred hstepW hinitAlloc hr
    have hinitR : nl.initial ∈ closIter (succOut h) nl.nodeCounter [nl.initial] :=
      mem_closIter_of_mem (List.mem_singleton_self nl.initial) _
    have hRnodup : ([nl.initial] : List NodeRef).Nodup := List.nodup_singleton _
    have hRU : ∀ x ∈ [nl.initial], ∀ y, ReachL (succOut h) x y →
        y ∈ (Finset.range nl.nodeCounter).image
          (fun i => (⟨nl.listId, i⟩ : NodeRef)) := by
      intro x hx y hr
      rw [List.mem_singleton] at hx
      subst hx
      exact hUmem y (ReachL_pred hstepO hinitAlloc hr)
    have hRcard : ((Finset.range nl.nodeCounter).image
        (fun i => (⟨nl.listId, i⟩ : NodeRef))).card ≤
        nl.nodeCounter + ([nl.initial] : List NodeRef).length :=
      le_trans hUcard (Nat.le_add_right _ _)
    have hRfix := closIter_fix ((Finset.range nl.nodeCounter).image
        (fun i => (⟨nl.listId, i⟩ : NodeRef))) nl.nodeCounter [nl.initial]
        hRnodup hRU hRcard
    have hRclosed := closed_of_closStep_eq hRfix
    have hRsound : ∀ x, x ∈ closIter (succOut h) nl.nodeCounter [nl.initial] →
        ReachL (succOut h) nl.initial x := by
      intro x hx
      obtain ⟨sd, hsd, hr⟩ := closIter_sound _ _ _ hx
      rw [List.mem_singleton] at hsd
      subst hsd
      exact hr
    have hRalloc : ∀ n ∈ closIter (succOut h) nl.nodeCounter [nl.initial],
        Alloc nl n :=
      fun n hn => ReachL_pred hstepO hinitAlloc (hRsound n hn)
    obtain ⟨t, hfold1, hwfT, hlidT, hcntT, K1, hK1keep, hK1comp, hO1, hI1, hF1⟩ :=
      removeNodes_fold (closIter (succOut h) nl.nodeCounter [nl.initial])
        ((closIter (fun n => succInn h n ++ succOut h n) nl.nodeCounter
          [nl.initial]).foldl addFinal nl.final) nl h hwf hANalloc hinitR
    have hAllocT : ∀ x : NodeRef, Alloc t.1 x ↔ Alloc nl x := by
      intro x
      unfold Alloc
      rw [hlidT, hcntT]
    have hclT : ∀ x y cp, (Alloc nl x ∧
        x ∈ closIter (succOut h) nl.nodeCounter [nl.initial]) →
        EdgeCh t.2 x y cp → (Alloc nl y ∧
        y ∈ closIter (succOut h) nl.nodeCounter [nl.initial]) := by
      intro x y cp hx he
      obtain ⟨cs, hlk, hcs⟩ :=
        (EdgeCh_lookup (hwfT.outNodup x ((hAllocT x).mpr hx.1))).mp he
      have hyA : Alloc nl y := (hAllocT y).mp
        (hwfT.outAlloc x ((hAllocT x).mpr hx.1) _ (mem_of_lookupA_some hlk))
      have hlk2 := hlk
      rw [hO1 x y hx.1 hyA] at hlk2
      by_cases hK : x ∈ K1 ∨ y ∈ K1
      · rw [if_pos hK] at hlk2
        cases hlk2
      · rw [if_neg hK] at hlk2
        refine ⟨hyA, hRclosed x hx.2 y ?_⟩
        rw [mem_succOut_iff, hlk2]
        rfl
    have htrT : ∀ x y cp, (Alloc nl x ∧
        x ∈ closIter (succOut h) nl.nodeCounter [nl.initial]) →
        EdgeCh t.2 x y cp → EdgeCh h x y cp := by
      intro x y cp hx he
      obtain ⟨cs, hlk, hcs⟩ :=
        (EdgeCh_lookup (hwfT.outNodup x ((hAllocT x).mpr hx.1))).mp he
      have hyA : Alloc nl y := (hAllocT y).mp
        (hwfT.outAlloc x ((hAllocT x).mpr hx.1) _ (mem_of_lookupA_some hlk))
      have hlk2 := hlk
      rw [hO1 x y hx.1 hyA] at hlk2
      by_cases hK : x ∈ K1 ∨ y ∈ K1
      · rw [if_pos hK] at hlk2
        cases hlk2
      · rw [if_neg hK] at hlk2
        exact (EdgeCh_lookup (hwf.outNodup x hx.1)).mpr ⟨cs, hlk2, hcs⟩
    have hclH : ∀ x y cp, (Alloc nl x ∧
        x ∈ closIter (succOut h) nl.nodeCounter [nl.initial]) →
        EdgeCh h x y cp → (Alloc nl y ∧
        y ∈ closIter (succOut h) nl.nodeCounter [nl.initial]) := by
      intro x y cp hx he
      obtain ⟨e, he2, he1, -⟩ := he
      have hyS : y ∈ succOut h x := List.mem_map.mpr ⟨e, he2, he1⟩
      exact ⟨Alloc_succOut hwf hx.1 hyS, hRclosed x hx.2 y hyS⟩
    have htrH : ∀ x y cp, (Alloc nl x ∧
        x ∈ closIter (succOut h) nl.nodeCounter [nl.initial]) →
        EdgeCh h x y cp → EdgeCh t.2 x y cp := by
      intro x y cp hx he
      obtain ⟨cs, hlk, hcs⟩ := (EdgeCh_lookup (hwf.outNodup x hx.1)).mp he
      have hy := hclH x y cp hx he
      refine (EdgeCh_lookup (hwfT.outNodup x ((hAllocT x).mpr hx.1))).mpr
        ⟨cs, ?_, hcs⟩
      rw [hO1 x y hx.1 hy.1, if_neg (fun hc => hc.elim
        (fun hk => hK1keep x hk hx.2) (fun hk => hK1keep y hk hy.2))]
      exact hlk
    have hlang1 : ∀ w, (∃ f ∈ t.1.final, PathW t.2 nl.initial w f) ↔
        (∃ f ∈ nl.final, PathW h nl.initial w f) := by
      intro w
      constructor
      · rintro ⟨f, hf, hp⟩
        refine ⟨f, ((hF1 f).mp hf).1, ?_⟩
        exact @PathW_mono_edge t.2 h (fun z => Alloc nl z ∧
          z ∈ closIter (succOut h) nl.nodeCounter [nl.initial]) w nl.initial f
          htrT hclT ⟨hinitAlloc, hinitR⟩ hp
      · rintro ⟨f, hf, hp⟩
        have hRf : Alloc nl f ∧
            f ∈ closIter (succOut h) nl.nodeCounter [nl.initial] :=
          PathW_confine hclH ⟨hinitAlloc, hinitR⟩ hp
        refine ⟨f, (hF1 f).mpr ⟨hf, fun hk => hK1keep f hk hRf.2⟩, ?_⟩
        exact @PathW_mono_edge h t.2 (fun z => Alloc nl z ∧
          z ∈ closIter (succOut h) nl.nodeCounter [nl.initial]) w nl.initial f
          htrH hclH ⟨hinitAlloc, hinitR⟩ hp
    by_cases hsf : t.1.final = []
    · refine ⟨makeEmpty t.1 t.2, ?_, hlidT, hcntT, Or.inr rfl, ?_⟩
      · have hres : (((closIter (fun n => succInn h n ++ succOut h n) nl.nodeCounter
              [nl.initial]).foldl addFinal nl.final).foldlM
            (fun (s : NodeList × Heap) n =>
              if n ∈ closIter (succOut h) nl.nodeCounter [nl.initial] then .ok s
              else removeNode s.1 s.2 n) (nl, h) >>= fun s =>
            if s.1.final = [] then Except.ok (makeEmpty s.1 s.2)
            else (closIter (succOut h) nl.nodeCounter [nl.initial]).foldlM
              (fun (s2 : NodeList × Heap) n =>
                if n ∈ closIter (succInn s.2) nl.nodeCounter s.1.final then .ok s2
                else removeNode s2.1 s2.2 n) s) =
            Except.ok (makeEmpty t.1 t.2) := by
          rw [exceptBind_eq_ok]
          refine ⟨t, hfold1, ?_⟩
          show (if t.1.final = [] then Except.ok (makeEmpty t.1 t.2)
            else (closIter (succOut h) nl.nodeCounter [nl.initial]).foldlM
              (fun (s2 : NodeList × Heap) n =>
                if n ∈ closIter (succInn t.2) nl.nodeCounter t.1.final then .ok s2
                else removeNode s2.1 s2.2 n) t) = Except.ok (makeEmpty t.1 t.2)
          rw [if_pos hsf]
        exact hres
      · intro w
        constructor
        · rintro ⟨f, hf, -⟩
          have hf2 : f ∈ ([] : List NodeRef) := hf
          exact absurd hf2 (List.not_mem_nil f)
        · intro hw
          obtain ⟨f, hf, -⟩ := (hlang1 w).mpr hw
          rw [hsf] at hf
          exact absurd hf (List.not_mem_nil f)
    · have hfinAllocT : ∀ f ∈ t.1.final, Alloc nl f := by
        intro f hf
        exact hwf.finalAlloc f ((hF1 f).mp hf).1
      have hstepI : ∀ x y : NodeRef, Alloc nl x → y ∈ succInn t.2 x →
          Alloc nl y := by
        intro x y hx hy
        exact (hAllocT y).mp (Alloc_succInn hwfT ((hAllocT x).mpr hx) hy)
      have hCnodup : t.1.final.Nodup := hwfT.finalNodup
      have hCU : ∀ x ∈ t.1.final, ∀ y, ReachL (succInn t.2) x y →
          y ∈ (Finset.range nl.nodeCounter).image
            (fun i => (⟨nl.listId, i⟩ : NodeRef)) := by
        intro x hx y hr
        exact hUmem y (ReachL_pred hstepI (hfinAllocT x hx) hr)
      have hCcard : ((Finset.range nl.nodeCounter).image
          (fun i => (⟨nl.listId, i⟩ : NodeRef))).card ≤
          nl.nodeCounter + t.1.final.length :=
        le_trans hUcard (Nat.le_add_right _ _)
      have hCsound : ∀ x, x ∈ closIter (succInn t.2) nl.nodeCounter t.1.final →
          ∃ f ∈ t.1.final, ReachL (succInn t.2) f x :=
        fun x hx => closIter_sound _ _ _ hx
      have hCcomplete : ∀ f ∈ t.1.final, ∀ x, ReachL (succInn t.2) f x →
          x ∈ closIter (succInn t.2) nl.nodeCounter t.1.final :=
        fun f hf x hr => closIter_complete hCnodup hCU hCcard hf hr
      have hfinC : ∀ f ∈ t.1.final,
          f ∈ closIter (succInn t.2) nl.nodeCounter t.1.final :=
        fun f hf => mem_closIter_of_mem hf _
      obtain ⟨f0, hf0⟩ := List.exists_mem_of_ne_nil _ hsf
      have hf0p := (hF1 f0).mp hf0
      have hf0R : f0 ∈ closIter (succOut h) nl.nodeCounter [nl.initial] := by
        by_contra hcon
        exact hf0p.2 (hK1comp f0
          ((mem_foldl_addFinal _ _ f0).mpr (Or.inl hf0p.1)) hcon)
      have hPtrans : ∀ x, ReachL (succOut h) nl.initial x →
          ReachL (succOut t.2) nl.initial x := by
        intro x hx
        refine @ReachL_transfer NodeRef (succOut h) (succOut t.2)
          (fun z => Alloc nl z ∧
            z ∈ closIter (succOut h) nl.nodeCounter [nl.initial])
          ?_ ?_ nl.initial x ⟨hinitAlloc, hinitR⟩ hx
        · intro u v hu hv
          exact ⟨Alloc_succOut hwf hu.1 hv, hRclosed u hu.2 v hv⟩
        · intro u v hu hv
          have hvA : Alloc nl v := Alloc_succOut hwf hu.1 hv
          have hvR : v ∈ closIter (succOut h) nl.nodeCounter [nl.initial] :=
            hRclosed u hu.2 v hv
          have huK : u ∉ K1 := fun hk => hK1keep u hk hu.2
          have hvK : v ∉ K1 := fun hk => hK1keep v hk hvR
          rw [mem_succOut_iff, hO1 u v hu.1 hvA,
            if_neg (fun hc => hc.elim (fun hk => huK hk) (fun hk => hvK hk))]
          exact (mem_succOut_iff h u v).mp hv
      have hstepOT : ∀ x y : NodeRef, Alloc nl x → y ∈ succOut t.2 x →
          Alloc nl y := by
        intro x y hx hy
        exact (hAllocT y).mp (Alloc_succOut hwfT ((hAllocT x).mpr hx) hy)
      have hflipT : ∀ x y : NodeRef, Alloc nl x → y ∈ succOut t.2 x →
          x ∈ succInn t.2 y := by
        intro x y hx hy
        have hyA : Alloc nl y := hstepOT x y hx hy
        rw [mem_succInn_iff, ← hwfT.sym x y ((hAllocT x).mpr hx)
          ((hAllocT y).mpr hyA)]
        exact (mem_succOut_iff t.2 x y).mp hy
      have hinnReach : ReachL (succInn t.2) f0 nl.initial :=
        @ReachL_flip NodeRef (succOut t.2) (succInn t.2) (Alloc nl)
          hstepOT hflipT nl.initial f0 hinitAlloc
          (hPtrans f0 (hRsound f0 hf0R))
      have hinitC : nl.initial ∈ closIter (succInn t.2) nl.nodeCounter
          t.1.final :=
        hCcomplete f0 hf0 nl.initial hinnReach
      obtain ⟨p, hfold2, hwfP, hlidP, hcntP, K2, hK2keep, hK2comp, hO2, hI2, hF2⟩ :=
        removeNodes_fold (closIter (succInn t.2) nl.nodeCounter t.1.final)
          (closIter (succOut h) nl.nodeCounter [nl.initial]) t.1 t.2 hwfT
          (fun n hn => (hAllocT n).mpr (hRalloc n hn))
          (by
            have hinitT : t.1.initial = nl.initial := by
              show (⟨t.1.listId, 0⟩ : NodeRef) = (⟨nl.listId, 0⟩ : NodeRef)
              rw [hlidT]
            rw [hinitT]
            exact hinitC)
      have hAllocP : ∀ x : NodeRef, Alloc p.1 x ↔ Alloc nl x := by
        intro x
        unfold Alloc
        rw [hlidP, hcntP, hlidT, hcntT]
      have hfinP : ∀ g : NodeRef, g ∈ p.1.final ↔ g ∈ t.1.final := by
        intro g
        rw [hF2 g]
        constructor
        · exact fun hg => hg.1
        · intro hg
          exact ⟨hg, fun hk => hK2keep g hk (hfinC g hg)⟩
      have hAclT : ∀ x y cp, Alloc nl x → EdgeCh t.2 x y cp → Alloc nl y := by
        intro x y cp hx he
        obtain ⟨e, he2, he1, -⟩ := he
        exact (hAllocT y).mp (he1 ▸ hwfT.outAlloc x ((hAllocT x).mpr hx) e he2)
      have hAclP : ∀ x y cp, Alloc nl x → EdgeCh p.2 x y cp → Alloc nl y := by
        intro x y cp hx he
        obtain ⟨e, he2, he1, -⟩ := he
        exact (hAllocP y).mp (he1 ▸ hwfP.outAlloc x ((hAllocP x).mpr hx) e he2)
      have hbackT : ∀ x y cp, Alloc nl x → EdgeCh t.2 x y cp →
          y ∈ closIter (succInn t.2) nl.nodeCounter t.1.final →
          x ∈ closIter (succInn t.2) nl.nodeCounter t.1.final := by
        intro x y cp hx he hy
        obtain ⟨cs, hlk, -⟩ :=
          (EdgeCh_lookup (hwfT.outNodup x ((hAllocT x).mpr hx))).mp he
        have hyA : Alloc nl y := (hAllocT y).mp
          (hwfT.outAlloc x ((hAllocT x).mpr hx) _ (mem_of_lookupA_some hlk))
        have hxin : x ∈ succInn t.2 y := by
          rw [mem_succInn_iff, ← hwfT.sym x y ((hAllocT x).mpr hx)
            ((hAllocT y).mpr hyA), hlk]
          rfl
        obtain ⟨f1, hf1, hr1⟩ := hCsound y hy
        exact hCcomplete f1 hf1 x (ReachL.tail hr1 hxin)
      have htrTP : ∀ x y cp, Alloc nl x →
          x ∈ closIter (succInn t.2) nl.nodeCounter t.1.final →
          y ∈ closIter (succInn t.2) nl.nodeCounter t.1.final →
          EdgeCh t.2 x y cp → EdgeCh p.2 x y cp := by
        intro x y cp hx hxC hyC he
        obtain ⟨cs, hlk, hcs⟩ :=
          (EdgeCh_lookup (hwfT.outNodup x ((hAllocT x).mpr hx))).mp he
        have hyA : Alloc nl y := (hAllocT y).mp
          (hwfT.outAlloc x ((hAllocT x).mpr hx) _ (mem_of_lookupA_some hlk))
        refine (EdgeCh_lookup (hwfP.outNodup x ((hAllocP x).mpr hx))).mpr
          ⟨cs, ?_, hcs⟩
        rw [hO2 x y ((hAllocT x).mpr hx) ((hAllocT y).mpr hyA),
          if_neg (fun hc => hc.elim (fun hk => hK2keep x hk hxC)
            (fun hk => hK2keep y hk hyC))]
        exact hlk
      have hbackP : ∀ x y cp, Alloc nl x → EdgeCh p.2 x y cp →
          y ∈ closIter (succInn t.2) nl.nodeCounter t.1.final →
          x ∈ closIter (succInn t.2) nl.nodeCounter t.1.final := by
        intro x y cp hx he hy
        obtain ⟨cs, hlk, -⟩ :=
          (EdgeCh_lookup (hwfP.outNodup x ((hAllocP x).mpr hx))).mp he
        have hyA : Alloc nl y := (hAllocP y).mp
          (hwfP.outAlloc x ((hAllocP x).mpr hx) _ (mem_of_lookupA_some hlk))
        have hlk2 := hlk
        rw [hO2 x y ((hAllocT x).mpr hx) ((hAllocT y).mpr hyA)] at hlk2
        by_cases hK : x ∈ K2 ∨ y ∈ K2
        · rw [if_pos hK] at hlk2
          cases hlk2
        · rw [if_neg hK] at hlk2
          have hxin : x ∈ succInn t.2 y := by
            rw [mem_succInn_iff, ← hwfT.sym x y ((hAllocT x).mpr hx)
              ((hAllocT y).mpr hyA), hlk2]
            rfl
          obtain ⟨f1, hf1, hr1⟩ := hCsound y hy
          exact hCcomplete f1 hf1 x (ReachL.tail hr1 hxin)
      have htrPT : ∀ x y cp, Alloc nl x →
          x ∈ closIter (succInn t.2) nl.nodeCounter t.1.final →
          y ∈ closIter (succInn t.2) nl.nodeCounter t.1.final →
          EdgeCh p.2 x y cp → EdgeCh t.2 x y cp := by
        intro x y cp hx hxC hyC he
        obtain ⟨cs, hlk, hcs⟩ :=
          (EdgeCh_lookup (hwfP.outNodup x ((hAllocP x).mpr hx))).mp he
        have hyA : Alloc nl y := (hAllocP y).mp
          (hwfP.outAlloc x ((hAllocP x).mpr hx) _ (mem_of_lookupA_some hlk))
        have hlk2 := hlk
        rw [hO2 x y ((hAllocT x).mpr hx) ((hAllocT y).mpr hyA)] at hlk2
        by_cases hK : x ∈ K2 ∨ y ∈ K2
        · rw [if_pos hK] at hlk2
          cases hlk2
        · rw [if_neg hK] at hlk2
          exact (EdgeCh_lookup (hwfT.outNodup x ((hAllocT x).mpr hx))).mpr
            ⟨cs, hlk2, hcs⟩
      have hlang2 : ∀ w, (∃ f ∈ p.1.final, PathW p.2 nl.initial w f) ↔
          (∃ f ∈ t.1.final, PathW t.2 nl.initial w f) := by
        intro w
        constructor
        · rintro ⟨f, hf, hp2⟩
          have hfT : f ∈ t.1.final := (hfinP f).mp hf
          obtain ⟨-, hp3⟩ := @PathW_transfer_back (Alloc nl)
            (fun z => z ∈ closIter (succInn t.2) nl.nodeCounter t.1.final)
            p.2 t.2 w nl.initial f hp2 hinitAlloc (hfinC f hfT)
            hAclP hbackP htrPT
          exact ⟨f, hfT, hp3⟩
        · rintro ⟨f, hf, hp2⟩
          obtain ⟨-, hp3⟩ := @PathW_transfer_back (Alloc nl)
            (fun z => z ∈ closIter (succInn t.2) nl.nodeCounter t.1.final)
            t.2 p.2 w nl.initial f hp2 hinitAlloc (hfinC f hf)
            hAclT hbackT htrTP
          exact ⟨f, (hfinP f).mpr hf, hp3⟩
      refine ⟨p, ?_, hlidP.trans hlidT, hcntP.trans hcntT, Or.inl hwfP,
        fun w => (hlang2 w).trans (hlang1 w)⟩
      have hres : (((closIter (fun n => succInn h n ++ succOut h n) nl.nodeCounter
            [nl.initial]).foldl addFinal nl.final).foldlM
          (fun (s : NodeList × Heap) n =>
            if n ∈ closIter (succOut h) nl.nodeCounter [nl.initial] then .ok s
            else removeNode s.1 s.2 n) (nl, h) >>= fun s =>
          if s.1.final = [] then Except.ok (makeEmpty s.1 s.2)
          else (closIter (succOut h) nl.nodeCounter [nl.initial]).foldlM
            (fun (s2 : NodeList × Heap) n =>
              if n ∈ closIter (succInn s.2) nl.nodeCounter s.1.final then .ok s2
              else removeNode s2.1 s2.2 n) s) = Except.ok p := by
        rw [exceptBind_eq_ok]
        refine ⟨t, hfold1, ?_⟩
        show (if t.1.final = [] then Except.ok (makeEmpty t.1 t.2)
          else (closIter (succOut h) nl.nodeCounter [nl.initial]).foldlM
            (fun (s2 : NodeList × Heap) n =>
              if n ∈ closIter (succInn t.2) nl.nodeCounter t.1.final then .ok s2
              else removeNode s2.1 s2.2 n) t) = Except.ok p
        rw [if_neg hsf]
        exact hfold2
      exact hres

theorem baseOptInner_out {nl : NodeList} {master toRemove : NodeRef}
    (hmaster : Alloc nl master) (hne : toRemove ≠ master) :
    ∀ (snap : List (NodeRef × CharSet)) (h' : Heap), WF nl h' →
      Alloc nl toRemove →
      (∀ e ∈ snap, e ∈ h'.inn toRemove) →
      (snap.map (fun e => e.1)).Nodup →
      ∀ h2, snap.foldlM (fun h3 e => do
          let h4 ← linkNodes nl h3 e.1 master e.2
          unlinkNodes nl h4 e.1 toRemove) h' = .ok h2 →
        (∀ e ∈ snap, h2.out e.1 =
          removeA (addA (h'.out e.1) master e.2) toRemove) ∧
        (∀ x : NodeRef, (∀ cs : CharSet, (x, cs) ∉ snap) →
          h2.out x = h'.out x) := by
  intro snap
  induction snap with
  | nil =>
      intro h' hwf htr hmem hnd h2 hok
      rw [List.foldlM_nil] at hok
      obtain rfl := Except.ok.inj hok
      exact ⟨fun e he => absurd he (List.not_mem_nil e), fun x _ => rfl⟩
  | cons e rest ih =>
      intro h' hwf htr hmem hnd h2 hok
      rw [List.foldlM_cons, exceptBind_eq_ok] at hok
      obtain ⟨h5, hstep1, hrest⟩ := hok
      rw [exceptBind_eq_ok] at hstep1
      obtain ⟨h4, hlink, hunlink⟩ := hstep1
      obtain ⟨-, -, -, hh4⟩ :=
        (linkNodes_ok_iff nl h' e.1 master e.2 h4).mp hlink
      obtain ⟨-, -, -, hh5⟩ :=
        (unlinkNodes_ok_iff nl h4 e.1 toRemove h5).mp hunlink
      have hmemE : e ∈ h'.inn toRemove := hmem e (List.mem_cons_self e rest)
      have htoE : Alloc nl e.1 := hwf.innAlloc toRemove htr e hmemE
      rw [List.map_cons, List.nodup_cons] at hnd
      have h5out_head : h5.out e.1 =
          removeA (addA (h'.out e.1) master e.2) toRemove := by
        rw [hh5, setInn_out, setOut_out, if_pos rfl, hh4, setInn_out,
          setOut_out, if_pos rfl]
      have h5out_other : ∀ x : NodeRef, x ≠ e.1 → h5.out x = h'.out x := by
        intro x hx
        rw [hh5, setInn_out, setOut_out, if_neg hx, hh4, setInn_out,
          setOut_out, if_neg hx]
      have h5inn_tr : h5.inn toRemove = removeA (h'.inn toRemove) e.1 := by
        rw [hh5, setInn_inn, if_pos rfl, hh4, setInn_inn, if_neg hne,
          setOut_inn]
      have hwf5 : WF nl h5 :=
        WF_unlinkNodes (WF_linkNodes hwf htoE hmaster hlink) hunlink
      have hmemRest : ∀ e2 ∈ rest, e2 ∈ h5.inn toRemove := by
        intro e2 he2
        rw [h5inn_tr, mem_removeA_iff]
        refine ⟨hmem e2 (List.mem_cons_of_mem e he2), ?_⟩
        intro hc
        exact hnd.1 (List.mem_map.mpr ⟨e2, he2, hc⟩)
      obtain ⟨ihHead, ihOther⟩ := ih h5 hwf5 htr hmemRest hnd.2 h2 hrest
      refine ⟨?_, ?_⟩
      · intro e2 he2
        rcases List.mem_cons.mp he2 with rfl | he3
        · have hnotrest : ∀ cs : CharSet, ((e2.1 : NodeRef), cs) ∉ rest := by
            intro cs hc
            exact hnd.1 (List.mem_map.mpr ⟨(e2.1, cs), hc, rfl⟩)
          rw [ihOther e2.1 hnotrest, h5out_head]
        · have hne2 : e2.1 ≠ e.1 := by
            intro hc
            exact hnd.1 (List.mem_map.mpr ⟨e2, he3, hc⟩)
          rw [ihHead e2 he3, h5out_other e2.1 hne2]
      · intro x hx
        have hxe : x ≠ e.1 := by
          intro hc
          refine hx e.2 ?_
          rw [hc]
          exact List.mem_cons_self e rest
        rw [ihOther x (fun cs hc => hx cs (List.mem_cons_of_mem e hc)),
          h5out_other x hxe]

theorem baseOpt_step_lang {nl : NodeList} {master toRemove init : NodeRef}
    {h' h2 : Heap} (hwf : WF nl h') (hInit : Alloc nl init)
    (hmaster : Alloc nl master) (htoR : Alloc nl toRemove)
    (hne : toRemove ≠ master) (hneI : toRemove ≠ init)
    (hMout : h'.out master = []) (hTout : h'.out toRemove = [])
    (hrows1 : ∀ e ∈ h'.inn toRemove,
      h2.out e.1 = removeA (addA (h'.out e.1) master e.2) toRemove)
    (hrows2 : ∀ x : NodeRef, (∀ cs : CharSet, (x, cs) ∉ h'.inn toRemove) →
      h2.out x = h'.out x)
    {F : List NodeRef} (hmF : master ∈ F) (htF : toRemove ∈ F) :
    ∀ w, (∃ f ∈ delFinal F toRemove, PathW h2 init w f) ↔
      (∃ f ∈ F, PathW h' init w f) := by
  have hNotKey : ∀ x : NodeRef, Alloc nl x → h'.out x = [] →
      ∀ cs : CharSet, (x, cs) ∉ h'.inn toRemove := by
    intro x hxA hxO cs hc
    have h1 := hwf.sym x toRemove hxA htoR
    rw [hxO, lookupA_nil] at h1
    rw [lookupA_some_of_mem hc (hwf.innNodup toRemove htoR)] at h1
    cases h1
  have hM2 : h2.out master = [] := by
    rw [hrows2 master (hNotKey master hmaster hMout), hMout]
  have hEdge : ∀ (x y : NodeRef) (csE : CharSet), Alloc nl x →
      (y, csE) ∈ h'.out x → y ≠ toRemove →
      ∃ cs2, (y, cs2) ∈ h2.out x ∧
        ∀ cpp : ℚ, csE.has cpp = true → cs2.has cpp = true := by
    intro x y csE hxA hmem hyne
    by_cases hka : ∃ csa : CharSet, ((x : NodeRef), csa) ∈ h'.inn toRemove
    · obtain ⟨csa, hka2⟩ := hka
      have hr : h2.out x = removeA (addA (h'.out x) master csa) toRemove :=
        hrows1 _ hka2
      obtain ⟨cs2, hmem2, hmono⟩ :=
        @addA_entry_persist (h'.out x) master csa (y, csE)
          (hwf.outNodup x hxA) hmem
      refine ⟨cs2, ?_, hmono⟩
      rw [hr, mem_removeA_iff]
      exact ⟨hmem2, hyne⟩
    · have hr : h2.out x = h'.out x := hrows2 x (fun cs0 hc => hka ⟨cs0, hc⟩)
      rw [hr]
      exact ⟨csE, hmem, fun cpp hcpp => hcpp⟩
  have hnoThrough : ∀ (b : NodeRef) (w2 : List ℚ) (f : NodeRef),
      PathW h' b w2 f → f ≠ toRemove → b ≠ toRemove := by
    intro b w2 f hp hf hc
    subst hc
    cases hp with
    | nil => exact hf rfl
    | cons hmem _ _ =>
        rw [hTout] at hmem
        exact absurd hmem (List.not_mem_nil _)
  have hL1 : ∀ (a : NodeRef) (w2 : List ℚ) (f : NodeRef), PathW h' a w2 f →
      Alloc nl a → f ≠ toRemove → PathW h2 a w2 f := by
    intro a w2 f hp
    induction hp with
    | nil n =>
        intro _ _
        exact PathW.nil n
    | cons hmem hhas hp2 ih =>
        rename_i x y z cp w3 cs
        intro hxA hf
        have hyne : y ≠ toRemove := hnoThrough y w3 z hp2 hf
        have hyA : Alloc nl y := hwf.outAlloc x hxA (y, cs) hmem
        obtain ⟨cs2, hmem2, hmono⟩ := hEdge x y cs hxA hmem hyne
        exact PathW.cons hmem2 (hmono cp hhas) (ih hyA hf)
  have hL2 : ∀ (w2 : List ℚ) (a : NodeRef), PathW h' a w2 toRemove →
      Alloc nl a → a ≠ toRemove → PathW h2 a w2 master := by
    intro w2
    induction w2 with
    | nil =>
        intro a hp hxA hane
        rw [PathW_nil_iff] at hp
        exact absurd hp.symm hane
    | cons cp w3 ih =>
        intro a hp hxA hane
        rw [PathW_cons_iff] at hp
        obtain ⟨b, ⟨e, hem, he1, he2⟩, hp2⟩ := hp
        by_cases hb : b = toRemove
        · have hw3 : w3 = [] := by
            rw [hb] at hp2
            cases hp2 with
            | nil => rfl
            | cons hmem2 _ _ =>
                rw [hTout] at hmem2
                exact absurd hmem2 (List.not_mem_nil _)
          subst hw3
          have he1b : e.1 = toRemove := he1.trans hb
          have hlkO : lookupA (h'.out a) toRemove = some e.2 := by
            rw [← he1b]
            exact lookupA_some_of_mem
              (show ((e.1 : NodeRef), e.2) ∈ h'.out a from hem)
              (hwf.outNodup a hxA)
          have hlkI : lookupA (h'.inn toRemove) a = some e.2 := by
            rw [← hwf.sym a toRemove hxA htoR]
            exact hlkO
          have hkey : ((a : NodeRef), e.2) ∈ h'.inn toRemove :=
            mem_of_lookupA_some hlkI
          have hr : h2.out a =
              removeA (addA (h'.out a) master e.2) toRemove := hrows1 _ hkey
          obtain ⟨cs2, hm2, hmono2⟩ := @addA_self_entry (h'.out a) master e.2
          have hm3 : ((master : NodeRef), cs2) ∈ h2.out a := by
            rw [hr, mem_removeA_iff]
            exact ⟨hm2, fun hc => hne hc.symm⟩
          exact PathW.cons hm3 (hmono2 cp he2) (PathW.nil master)
        · have hbA : Alloc nl b := he1 ▸ hwf.outAlloc a hxA e hem
          have hp3 : PathW h2 b w3 master := ih b hp2 hbA hb
          have hmemO : ((b : NodeRef), e.2) ∈ h'.out a := by
            rw [← he1]
            exact hem
          obtain ⟨cs2, hmem2, hmono⟩ := hEdge a b e.2 hxA hmemO hb
          exact PathW.cons hmem2 (hmono cp he2) hp3
  have hF : ∀ (w2 : List ℚ) (a f : NodeRef), PathW h2 a w2 f → Alloc nl a →
      PathW h' a w2 f ∨ (f = master ∧ PathW h' a w2 toRemove) := by
    intro w2
    induction w2 with
    | nil =>
        intro a f hp _
        rw [PathW_nil_iff] at hp
        rw [hp]
        exact Or.inl (PathW.nil a)
    | cons cp w3 ih =>
        intro a f hp hxA
        rw [PathW_cons_iff] at hp
        obtain ⟨b, ⟨e, hem, he1, he2⟩, hp2⟩ := hp
        by_cases hka : ∃ csa : CharSet, ((a : NodeRef), csa) ∈ h'.inn toRemove
        · obtain ⟨csa, hka2⟩ := hka
          have hr : h2.out a =
              removeA (addA (h'.out a) master csa) toRemove := hrows1 _ hka2
          rw [hr, mem_removeA_iff] at hem
          obtain ⟨hemA, hbne⟩ := hem
          rcases mem_addA_strong hemA with ⟨hemO, hbneM⟩ | ⟨hbM, hcase⟩
          · have hbAl : Alloc nl b := he1 ▸ hwf.outAlloc a hxA e hemO
            rcases ih b f hp2 hbAl with hI | ⟨hfm, hI⟩
            · refine Or.inl (PathW.cons ?_ he2 hI)
              show (b, e.2) ∈ h'.out a
              rw [← he1]
              exact hemO
            · refine Or.inr ⟨hfm, PathW.cons ?_ he2 hI⟩
              show (b, e.2) ∈ h'.out a
              rw [← he1]
              exact hemO
          · have hbM2 : b = master := he1.symm.trans hbM
            rw [hbM2] at hp2
            have hw3 : w3 = [] ∧ f = master := by
              cases hp2 with
              | nil => exact ⟨rfl, rfl⟩
              | cons hmem3 _ _ =>
                  rw [hM2] at hmem3
                  exact absurd hmem3 (List.not_mem_nil _)
            obtain ⟨hw30, hfm⟩ := hw3
            subst hw30
            rw [hfm]
            have hlkI : lookupA (h'.inn toRemove) a = some csa :=
              lookupA_some_of_mem hka2 (hwf.innNodup toRemove htoR)
            have hlkO : lookupA (h'.out a) toRemove = some csa := by
              rw [hwf.sym a toRemove hxA htoR]
              exact hlkI
            rcases hcase with ⟨hlkN, hcsEq⟩ | ⟨c, hlkS, hcsEq⟩
            · rw [hcsEq] at he2
              exact Or.inr ⟨rfl, PathW.cons (mem_of_lookupA_some hlkO) he2
                (PathW.nil toRemove)⟩
            · rw [hcsEq] at he2
              rcases has_union_iff.mp he2 with hcpc | hcpa
              · exact Or.inl (PathW.cons (mem_of_lookupA_some hlkS) hcpc
                  (PathW.nil master))
              · exact Or.inr ⟨rfl, PathW.cons (mem_of_lookupA_some hlkO) hcpa
                  (PathW.nil toRemove)⟩
        · have hr : h2.out a = h'.out a :=
            hrows2 a (fun cs0 hc => hka ⟨cs0, hc⟩)
          rw [hr] at hem
          have hbAl : Alloc nl b := he1 ▸ hwf.outAlloc a hxA e hem
          rcases ih b f hp2 hbAl with hI | ⟨hfm, hI⟩
          · refine Or.inl (PathW.cons ?_ he2 hI)
            show (b, e.2) ∈ h'.out a
            rw [← he1]
            exact hem
          · refine Or.inr ⟨hfm, PathW.cons ?_ he2 hI⟩
            show (b, e.2) ∈ h'.out a
            rw [← he1]
            exact hem
  intro w
  constructor
  · rintro ⟨f, hf, hp⟩
    rw [mem_delFinal] at hf
    rcases hF w init f hp hInit with hI | ⟨hfm, hI⟩
    · exact ⟨f, hf.1, hI⟩
    · exact ⟨toRemove, htF, hI⟩
  · rintro ⟨f, hf, hp⟩
    by_cases hfT : f = toRemove
    · subst hfT
      refine ⟨master, ?_, hL2 w init hp hInit (fun hc => hneI hc.symm)⟩
      rw [mem_delFinal]
      exact ⟨hmF, fun hc => hne hc.symm⟩
    · exact ⟨f, mem_delFinal.mpr ⟨hf, hfT⟩, hL1 init w f hp hInit hfT⟩

theorem baseOpt_fold_lang {nl : NodeList} {master init : NodeRef}
    (hmaster : Alloc nl master) (hInit : Alloc nl init) :
    ∀ (l : List NodeRef), l.Nodup →
      ∀ (h' : Heap) (bs : SubList), WF nl h' →
        (∀ f ∈ bs.final, Alloc nl f) → bs.final.Nodup → master ∈ bs.final →
        h'.out master = [] →
        (∀ r ∈ l, r ∈ bs.final ∧ h'.out r = [] ∧ r ≠ init ∧ r ≠ master) →
        ∃ p : Heap × SubList,
          l.foldlM (fun (s : Heap × SubList) toRemove =>
            (s.1.inn toRemove).foldlM (fun h3 e =>
              linkNodes nl h3 e.1 master e.2 >>= fun h4 =>
              unlinkNodes nl h4 e.1 toRemove) s.1 >>= fun h2 =>
            Except.ok (h2,
              ({ s.2 with final := delFinal s.2.final toRemove } : SubList)))
            (h', bs) = .ok p ∧
          WF nl p.1 ∧ p.2.initial = bs.initial ∧
          (∀ w, (∃ f ∈ p.2.final, PathW p.1 init w f) ↔
            (∃ f ∈ bs.final, PathW h' init w f)) := by
  intro l
  induction l with
  | nil =>
      intro hnd' h' bs hwf hfinA hfnd hmF hMout hrem
      refine ⟨(h', bs), ?_, hwf, rfl, fun w => Iff.rfl⟩
      rw [List.foldlM_nil]
      rfl
  | cons toRemove l2 ihl =>
      intro hnd' h' bs hwf hfinA hfnd hmF hMout hrem
      obtain ⟨hTF, hTout, hTneI, hTneM⟩ := hrem toRemove
        (List.mem_cons_self toRemove l2)
      have htoRA : Alloc nl toRemove := hfinA toRemove hTF
      obtain ⟨h2, hfold, hwf2⟩ :=
        baseOptInner hmaster hTneM (h'.inn toRemove) h' hwf htoRA rfl
      obtain ⟨hrowsH, hrowsO⟩ :=
        baseOptInner_out hmaster hTneM (h'.inn toRemove) h' hwf htoRA
          (fun e he => he) (hwf.innNodup toRemove htoRA) h2 hfold
      have hNotKey : ∀ x : NodeRef, Alloc nl x → h'.out x = [] →
          ∀ cs : CharSet, (x, cs) ∉ h'.inn toRemove := by
        intro x hxA hxO cs hc
        have h1 := hwf.sym x toRemove hxA htoRA
        rw [hxO, lookupA_nil] at h1
        rw [lookupA_some_of_mem hc (hwf.innNodup toRemove htoRA)] at h1
        cases h1
      have hM2 : h2.out master = [] := by
        rw [hrowsO master (hNotKey master hmaster hMout), hMout]
      obtain ⟨p, hfold2, hPwf, hPinit, hPlang⟩ :=
        ihl (List.nodup_cons.mp hnd').2 h2
          ({ bs with final := delFinal bs.final toRemove } : SubList) hwf2
          (fun f hf => hfinA f (mem_delFinal.mp hf).1)
          (nodup_delFinal hfnd)
          (mem_delFinal.mpr ⟨hmF, fun hc => hTneM hc.symm⟩)
          hM2
          (by
            intro r hr
            obtain ⟨hrF, hrO, hrI, hrM⟩ := hrem r (List.mem_cons_of_mem _ hr)
            have hrT : r ≠ toRemove := by
              intro hc
              exact (List.nodup_cons.mp hnd').1 (hc ▸ hr)
            refine ⟨mem_delFinal.mpr ⟨hrF, hrT⟩, ?_, hrI, hrM⟩
            rw [hrowsO r (hNotKey r (hfinA r hrF) hrO), hrO])
      refine ⟨p, ?_, hPwf, hPinit, ?_⟩
      · rw [List.foldlM_cons, exceptBind_eq_ok]
        refine ⟨(h2, ({ bs with final := delFinal bs.final toRemove } : SubList)),
          ?_, hfold2⟩
        show ((h'.inn toRemove).foldlM (fun h3 e =>
            linkNodes nl h3 e.1 master e.2 >>= fun h4 =>
            unlinkNodes nl h4 e.1 toRemove) h' >>= fun hh =>
          Except.ok (hh,
            ({ bs with final := delFinal bs.final toRemove } : SubList))) =
          Except.ok (h2, ({ bs with final := delFinal bs.final toRemove } : SubList))
        rw [exceptBind_eq_ok]
        exact ⟨h2, hfold, rfl⟩
      · intro w
        refine (hPlang w).trans ?_
        exact baseOpt_step_lang hwf hInit hmaster htoRA hTneM hTneI hMout
          hTout hrowsH hrowsO hmF hTF w

theorem baseOpt_lang {nl : NodeList} {h : Heap} {base : SubList}
    (hwf : WF nl h) (hfin : ∀ f ∈ base.final, Alloc nl f)
    (hnd : base.final.Nodup) (hInit : Alloc nl base.initial) :
    ∃ h2 base2, baseOptimizationReuseFinalStates nl h base = .ok (h2, base2) ∧
      WF nl h2 ∧ base2.initial = base.initial ∧
      (∀ w, (∃ f ∈ base2.final, PathW h2 base.initial w f) ↔
        (∃ f ∈ base.final, PathW h base.initial w f)) := by
  unfold baseOptimizationReuseFinalStates
  set reusable := base.final.filter
    (fun f => decide (f ≠ base.initial) && decide (h.out f = [])) with hreus
  by_cases hlen : reusable.length ≤ 1
  · rw [if_pos hlen]
    exact ⟨h, base, rfl, hwf, rfl, fun w => Iff.rfl⟩
  · rw [if_neg hlen]
    have hne0 : reusable ≠ [] := by
      intro hcon
      rw [hcon] at hlen
      simp at hlen
    cases hlast : reusable.getLast? with
    | none => exact absurd (List.getLast?_eq_none_iff.mp hlast) hne0
    | some masterFinal =>
        have hmasterEq : masterFinal = reusable.getLast hne0 := by
          have h1 := List.getLast?_eq_getLast reusable hne0
          rw [hlast] at h1
          exact Option.some.inj h1
        have hmasterMem : masterFinal ∈ reusable := by
          rw [hmasterEq]
          exact List.getLast_mem hne0
        have hmasterfin : masterFinal ∈ base.final :=
          List.mem_of_mem_filter hmasterMem
        have hmasterA : Alloc nl masterFinal := hfin masterFinal hmasterfin
        have hreusnd : reusable.Nodup := List.Nodup.filter _ hnd
        have hmasterNotDrop : ∀ x ∈ reusable.dropLast, x ≠ masterFinal := by
          intro x hx hcon
          have hsplit := List.dropLast_append_getLast hne0
          have hndsplit : (reusable.dropLast ++
              [reusable.getLast hne0]).Nodup := by
            rw [hsplit]
            exact hreusnd
          rw [List.nodup_append] at hndsplit
          refine hndsplit.2.2 hx ?_
          rw [← hmasterEq, ← hcon]
          simp
        have hdropNd : reusable.dropLast.Nodup := by
          have hsplit := List.dropLast_append_getLast hne0
          have hndsplit : (reusable.dropLast ++
              [reusable.getLast hne0]).Nodup := by
            rw [hsplit]
            exact hreusnd
          exact (List.nodup_append.mp hndsplit).1
        have hreusP : ∀ r ∈ reusable, r ∈ base.final ∧ h.out r = [] ∧
            r ≠ base.initial := by
          intro r hr
          rw [hreus, List.mem_filter] at hr
          obtain ⟨h1, h2⟩ := hr
          rw [Bool.and_eq_true, decide_eq_true_eq, decide_eq_true_eq] at h2
          exact ⟨h1, h2.2, h2.1⟩
        have hmasterOut : h.out masterFinal = [] :=
          (hreusP masterFinal hmasterMem).2.1
        have hdropP : ∀ r ∈ reusable.dropLast, r ∈ base.final ∧
            h.out r = [] ∧ r ≠ base.initial ∧ r ≠ masterFinal := by
          intro r hr
          have hsplit := List.dropLast_append_getLast hne0
          have hr2 : r ∈ reusable := by
            rw [← hsplit]
            exact List.mem_append_left _ hr
          obtain ⟨ha, hb, hc⟩ := hreusP r hr2
          exact ⟨ha, hb, hc, hmasterNotDrop r hr⟩
        obtain ⟨p, hfold, hPwf, hPinit, hPlang⟩ :=
          baseOpt_fold_lang hmasterA hInit reusable.dropLast hdropNd h base
            hwf hfin hnd hmasterfin hmasterOut hdropP
        exact ⟨p.1, p.2, hfold, hPwf, hPinit, hPlang⟩

theorem idxA_head {α : Type} [DecidableEq α] (x : α) (xs : List α) :
    idxA (x :: xs) x = 0 := by
  unfold idxA
  rw [if_pos rfl]

/-- C2: `NFA.intersect` computes the intersection language: for well-formed
operand automata living in lists different from the fresh product list, with the
fresh list's rows unused, the product automaton's `test` accepts a word exactly
when both operands' `test` accept it. -/
theorem C2_intersect_language {left right : NFA} {h : Heap} {freshId : Nat}
    {p : NFA × Heap}
    (hwfL : WF left.nodes h) (hwfR : WF right.nodes h)
    (hcntL : 1 ≤ left.nodes.nodeCounter) (hcntR : 1 ≤ right.nodes.nodeCounter)
    (hlidL : left.nodes.listId ≠ freshId) (hlidR : right.nodes.listId ≠ freshId)
    (hJunk : ∀ x : NodeRef, x.list = freshId → h.out x = [] ∧ h.inn x = [])
    (hok : NFA.intersect left right h freshId = .ok p) :
    ∀ w : List ℚ, p.1.test p.2 w = true ↔
      (left.test h w = true ∧ right.test h w = true) := by
  have hok2 : (checkOptionsCompatibility left.options right.options >>= fun _ =>
      (left.nodes.final.foldlM
        (fun (s : List (Nat × NodeRef) × NodeList × Heap) tf =>
          right.nodes.final.foldlM (fun s of2 =>
            translatePair
                (nodesBFS left.nodes ((h.setOut (⟨freshId, 0⟩ : NodeRef) []).setInn
                  (⟨freshId, 0⟩ : NodeRef) []))
                (nodesBFS right.nodes ((h.setOut (⟨freshId, 0⟩ : NodeRef) []).setInn
                  (⟨freshId, 0⟩ : NodeRef) []))
                tf of2 s.1 s.2.1 s.2.2 >>= fun q =>
              Except.ok (q.2.1,
                { q.2.2.1 with final := addFinal q.2.2.1.final q.1 }, q.2.2.2)) s)
        ([((0 : Nat), (⟨freshId, 0⟩ : NodeRef))], (⟨freshId, 1, []⟩ : NodeList),
          ((h.setOut (⟨freshId, 0⟩ : NodeRef) []).setInn
            (⟨freshId, 0⟩ : NodeRef) []))) >>= fun s1 =>
      ((nodesBFS left.nodes ((h.setOut (⟨freshId, 0⟩ : NodeRef) []).setInn
          (⟨freshId, 0⟩ : NodeRef) [])).foldlM
        (fun (s : List (Nat × NodeRef) × NodeList × Heap) a =>
          (nodesBFS right.nodes ((h.setOut (⟨freshId, 0⟩ : NodeRef) []).setInn
              (⟨freshId, 0⟩ : NodeRef) [])).foldlM (fun s b =>
            translatePair
                (nodesBFS left.nodes ((h.setOut (⟨freshId, 0⟩ : NodeRef) []).setInn
                  (⟨freshId, 0⟩ : NodeRef) []))
                (nodesBFS right.nodes ((h.setOut (⟨freshId, 0⟩ : NodeRef) []).setInn
                  (⟨freshId, 0⟩ : NodeRef) []))
                a b s.1 s.2.1 s.2.2 >>= fun q =>
              (q.2.2.2.out a).foldlM
                (fun (s2 : List (Nat × NodeRef) × NodeList × Heap) eA =>
                  (s2.2.2.out b).foldlM (fun s3 eB =>
                    if (eA.2.intersect eB.2).isEmpty = true then Except.ok s3
                    else
                      translatePair
                          (nodesBFS left.nodes
                            ((h.setOut (⟨freshId, 0⟩ : NodeRef) []).setInn
                              (⟨freshId, 0⟩ : NodeRef) []))
                          (nodesBFS right.nodes
                            ((h.setOut (⟨freshId, 0⟩ : NodeRef) []).setInn
                              (⟨freshId, 0⟩ : NodeRef) []))
                          eA.1 eB.1 s3.1 s3.2.1 s3.2.2 >>= fun q2 =>
                      linkNodes q2.2.2.1 q2.2.2.2 q.1 q2.1
                          (eA.2.intersect eB.2) >>= fun h3 =>
                      Except.ok (q2.2.1, q2.2.2.1, h3)) s2)
                (q.2.1, q.2.2.1, q.2.2.2)) s)
        s1) >>= fun s2 =>
      removeUnreachable s2.2.1 s2.2.2 >>= fun r =>
      baseOptimizationReuseFinalStates r.1 r.2 ⟨r.1.initial, r.1.final⟩ >>= fun pb =>
      Except.ok ((⟨{ r.1 with final := pb.2.final }, left.options⟩ : NFA), pb.1)) =
      Except.ok p := hok
  have hH'out : ∀ x : NodeRef,
      ((h.setOut (⟨freshId, 0⟩ : NodeRef) []).setInn
        (⟨freshId, 0⟩ : NodeRef) []).out x = h.out x := by
    intro x
    rw [setInn_out, setOut_out]
    by_cases hx : x = (⟨freshId, 0⟩ : NodeRef)
    · rw [if_pos hx, hx]
      exact ((hJunk _ rfl).1).symm
    · rw [if_neg hx]
  have hH'inn : ∀ x : NodeRef,
      ((h.setOut (⟨freshId, 0⟩ : NodeRef) []).setInn
        (⟨freshId, 0⟩ : NodeRef) []).inn x = h.inn x := by
    intro x
    rw [setInn_inn]
    by_cases hx : x = (⟨freshId, 0⟩ : NodeRef)
    · rw [if_pos hx, hx]
      exact ((hJunk _ rfl).2).symm
    · rw [if_neg hx, setOut_inn]
  have hsuccEq : ∀ x : NodeRef,
      succOut ((h.setOut (⟨freshId, 0⟩ : NodeRef) []).setInn
        (⟨freshId, 0⟩ : NodeRef) []) x = succOut h x := by
    intro x
    unfold succOut
    rw [hH'out x]
  obtain ⟨exL, hexL⟩ := nodesBFS_head left.nodes
    ((h.setOut (⟨freshId, 0⟩ : NodeRef) []).setInn (⟨freshId, 0⟩ : NodeRef) [])
  obtain ⟨exR, hexR⟩ := nodesBFS_head right.nodes
    ((h.setOut (⟨freshId, 0⟩ : NodeRef) []).setInn (⟨freshId, 0⟩ : NodeRef) [])
  have hndL0 : (nodesBFS left.nodes
      ((h.setOut (⟨freshId, 0⟩ : NodeRef) []).setInn
        (⟨freshId, 0⟩ : NodeRef) [])).Nodup := nodesBFS_nodup _ _
  have hndR0 : (nodesBFS right.nodes
      ((h.setOut (⟨freshId, 0⟩ : NodeRef) []).setInn
        (⟨freshId, 0⟩ : NodeRef) [])).Nodup := nodesBFS_nodup _ _
  have hLold0 : ∀ x ∈ nodesBFS left.nodes
      ((h.setOut (⟨freshId, 0⟩ : NodeRef) []).setInn
        (⟨freshId, 0⟩ : NodeRef) []), x.list ≠ freshId := by
    intro x hx
    have hr := nodesBFS_sound left.nodes _ x hx
    have hA0 : Alloc left.nodes left.nodes.initial := ⟨rfl, hcntL⟩
    have hA : Alloc left.nodes x := by
      refine ReachL_pred ?_ hA0 hr
      intro u v hu hv
      rw [hsuccEq u] at hv
      exact Alloc_succOut hwfL hu hv
    rw [hA.1]
    exact hlidL
  have hRold0 : ∀ x ∈ nodesBFS right.nodes
      ((h.setOut (⟨freshId, 0⟩ : NodeRef) []).setInn
        (⟨freshId, 0⟩ : NodeRef) []), x.list ≠ freshId := by
    intro x hx
    have hr := nodesBFS_sound right.nodes _ x hx
    have hA0 : Alloc right.nodes right.nodes.initial := ⟨rfl, hcntR⟩
    have hA : Alloc right.nodes x := by
      refine ReachL_pred ?_ hA0 hr
      intro u v hu hv
      rw [hsuccEq u] at hv
      exact Alloc_succOut hwfR hu hv
    rw [hA.1]
    exact hlidR
  generalize hLL : nodesBFS left.nodes
    ((h.setOut (⟨freshId, 0⟩ : NodeRef) []).setInn (⟨freshId, 0⟩ : NodeRef) []) =
    leftList at hok2 hexL hndL0 hLold0
  generalize hRL : nodesBFS right.nodes
    ((h.setOut (⟨freshId, 0⟩ : NodeRef) []).setInn (⟨freshId, 0⟩ : NodeRef) []) =
    rightList at hok2 hexR hndR0 hRold0
  rw [exceptBind_eq_ok] at hok2
  obtain ⟨u, -, hrest⟩ := hok2
  rw [exceptBind_eq_ok] at hrest
  obtain ⟨s1, hphF, hrest⟩ := hrest
  rw [exceptBind_eq_ok] at hrest
  obtain ⟨s2, hedges, hrest⟩ := hrest
  rw [exceptBind_eq_ok] at hrest
  obtain ⟨r, hru, hrest⟩ := hrest
  rw [exceptBind_eq_ok] at hrest
  obtain ⟨pb, hopt, hfinres⟩ := hrest
  obtain rfl := Except.ok.inj hfinres
  have hLinit : left.nodes.initial ∈ leftList := by
    rw [hexL]
    exact List.mem_cons_self _ _
  have hRinit : right.nodes.initial ∈ rightList := by
    rw [hexR]
    exact List.mem_cons_self _ _
  have hkey0 : pairKey leftList rightList left.nodes.initial
      right.nodes.initial = 0 := by
    unfold pairKey
    rw [hexL, hexR, idxA_head, idxA_head]
    simp
  have hI0 : ProdInv freshId h leftList rightList
      [((0 : Nat), (⟨freshId, 0⟩ : NodeRef))] (⟨freshId, 1, []⟩ : NodeList)
      ((h.setOut (⟨freshId, 0⟩ : NodeRef) []).setInn
        (⟨freshId, 0⟩ : NodeRef) []) := by
    refine ⟨rfl, le_refl 1, ?_, ?_, ?_, ?_, ?_, ?_, ?_, ?_, ?_⟩
    · intro kv hkv
      rw [List.mem_singleton] at hkv
      subst hkv
      exact ⟨rfl, Nat.zero_lt_one⟩
    · simp
    · simp
    · exact List.mem_singleton_self _
    · intro kv hkv
      rw [List.mem_singleton] at hkv
      subst hkv
      exact ⟨left.nodes.initial, hLinit, right.nodes.initial, hRinit,
        hkey0.symm⟩
    · intro x hx
      exact hH'out x
    · intro x hx hcnt2
      rw [hH'out x, hH'inn x]
      exact hJunk x hx
    · exact WF_new freshId h
    · intro v hv e he cp hcp
      rw [hH'out v, (hJunk v hv).1] at he
      exact absurd he (List.not_mem_nil e)
  obtain ⟨hI1, hExt1, hDec1, hMark1⟩ := intersect_phaseF hphF hI0 (by
    intro f hf
    have hf2 : f ∈ ([] : List NodeRef) := hf
    exact absurd hf2 (List.not_mem_nil f))
  obtain ⟨hI2, hExt2, hE2⟩ := intersect_phaseE hLold0 hRold0 hedges hI1
  have hfinE : s2.2.1.final = s1.2.1.final := intersect_phaseE_final hedges
  have hstart : (pairKey leftList rightList left.nodes.initial
      right.nodes.initial, (⟨freshId, 0⟩ : NodeRef)) ∈ s2.1 := by
    rw [hkey0]
    exact hI2.initMem
  have hcore : ∀ w : List ℚ,
      (∃ f ∈ s2.2.1.final, PathW s2.2.2 (⟨freshId, 0⟩ : NodeRef) w f) ↔
      ((∃ f ∈ left.nodes.final, PathW h left.nodes.initial w f) ∧
       (∃ f ∈ right.nodes.final, PathW h right.nodes.initial w f)) := by
    intro w
    constructor
    · rintro ⟨f, hfF, hp⟩
      obtain ⟨a2, b2, ha2, hb2, hkf, hpa, hpb⟩ :=
        prod_path_sound hI2 hndL0 hndR0 hp left.nodes.initial
          right.nodes.initial hLinit hRinit hstart
      have hfF1 : f ∈ s1.2.1.final := by
        rw [← hfinE]
        exact hfF
      obtain ⟨lf, rf, hlf, hrf, hlfL, hrfR, hkey1⟩ := hDec1 f hfF1
      have hkey1b : (pairKey leftList rightList lf rf, f) ∈ s2.1 :=
        hExt2.1 _ hkey1
      have heqp : ((pairKey leftList rightList a2 b2 : Nat), f) =
          (pairKey leftList rightList lf rf, f) :=
        nodup_map_eq hI2.valsNodup hkf hkey1b rfl
      injection heqp with hk1 hk2
      obtain ⟨rfl, rfl⟩ := pairKey_inj hndL0 hndR0 ha2 hb2 hlfL hrfR hk1
      exact ⟨⟨_, hlf, hpa⟩, ⟨_, hrf, hpb⟩⟩
    · rintro ⟨⟨fa, hfa, hpa⟩, fb, hfb, hpb⟩
      obtain ⟨vf, hvfC1, hvfFin1⟩ := hMark1 fa hfa fb hfb
      obtain ⟨v2, hv2C, hfaL, hfbR, hpath⟩ :=
        prod_path_complete hI2 hE2 w left.nodes.initial right.nodes.initial
          fa fb hLinit hRinit hpa hpb (⟨freshId, 0⟩ : NodeRef) hstart
      have hvfC2 : (pairKey leftList rightList fa fb, vf) ∈ s2.1 :=
        hExt2.1 _ hvfC1
      have heqp2 : ((pairKey leftList rightList fa fb : Nat), v2) =
          (pairKey leftList rightList fa fb, vf) :=
        nodup_map_eq hI2.keysNodup hv2C hvfC2 rfl
      injection heqp2 with hk1 hk2
      refine ⟨v2, ?_, hpath⟩
      rw [hk2, hfinE]
      exact hvfFin1
  obtain ⟨q, hqok, hqlid, hqcnt, hqwf_or, hqlang⟩ :=
    removeUnreachable_lang hI2.wf hI2.cpos
  have hqr : q = r := by
    rw [hqok] at hru
    exact Except.ok.inj hru
  subst hqr
  have hql2 : q.1.listId = freshId := hqlid.trans hI2.lid
  have hq1init : q.1.initial = (⟨freshId, 0⟩ : NodeRef) := by
    show (⟨q.1.listId, 0⟩ : NodeRef) = _
    rw [hql2]
  have hs2init : s2.2.1.initial = (⟨freshId, 0⟩ : NodeRef) := by
    show (⟨s2.2.1.listId, 0⟩ : NodeRef) = _
    rw [hI2.lid]
  rcases hqwf_or with hqwf | hqfin
  · have hInitQ : Alloc q.1 (⟨q.1.initial, q.1.final⟩ : SubList).initial := by
      refine ⟨rfl, ?_⟩
      show 0 < q.1.nodeCounter
      rw [hqcnt]
      exact hI2.cpos
    obtain ⟨h3, base2, hoptok, hwf3, hbinit, hblang⟩ :=
      baseOpt_lang hqwf hqwf.finalAlloc hqwf.finalNodup hInitQ
    have hpbeq : (h3, base2) = pb := by
      rw [hoptok] at hopt
      exact Except.ok.inj hopt
    obtain rfl := hpbeq
    intro w
    show matchW h3 base2.final w q.1.initial = true ↔
      (matchW h left.nodes.final w left.nodes.initial = true ∧
       matchW h right.nodes.final w right.nodes.initial = true)
    rw [hq1init, matchW_iff_path h3 base2.final w (⟨freshId, 0⟩ : NodeRef),
      matchW_iff_path h left.nodes.final w left.nodes.initial,
      matchW_iff_path h right.nodes.final w right.nodes.initial]
    have hbase_init : (⟨q.1.initial, q.1.final⟩ : SubList).initial =
        (⟨freshId, 0⟩ : NodeRef) := by
      show q.1.initial = _
      exact hq1init
    have hB := hblang w
    rw [hbase_init] at hB
    have hQ := hqlang w
    rw [hs2init] at hQ
    exact (hB.trans hQ).trans (hcore w)
  · have hfilt : ((⟨q.1.initial, q.1.final⟩ : SubList).final.filter
        (fun f => decide (f ≠ (⟨q.1.initial, q.1.final⟩ : SubList).initial) &&
          decide (q.2.out f = []))) = [] := by
      show q.1.final.filter (fun f =>
        decide (f ≠ (⟨q.1.initial, q.1.final⟩ : SubList).initial) &&
        decide (q.2.out f = [])) = []
      rw [hqfin]
      rfl
    have hoptok : baseOptimizationReuseFinalStates q.1 q.2
        ⟨q.1.initial, q.1.final⟩ =
        .ok (q.2, ⟨q.1.initial, q.1.final⟩) := by
      unfold baseOptimizationReuseFinalStates
      rw [hfilt, if_pos (by decide : ([] : List NodeRef).length ≤ 1)]
    have hpbeq : ((q.2, (⟨q.1.initial, q.1.final⟩ : SubList)) :
        Heap × SubList) = pb := by
      rw [hoptok] at hopt
      exact Except.ok.inj hopt
    obtain rfl := hpbeq
    intro w
    show matchW q.2 q.1.final w q.1.initial = true ↔
      (matchW h left.nodes.final w left.nodes.initial = true ∧
       matchW h right.nodes.final w right.nodes.initial = true)
    rw [hq1init, matchW_iff_path q.2 q.1.final w (⟨freshId, 0⟩ : NodeRef),
      matchW_iff_path h left.nodes.final w left.nodes.initial,
      matchW_iff_path h right.nodes.final w right.nodes.initial]
    have hQ := hqlang w
    rw [hs2init] at hQ
    constructor
    · rintro ⟨f, hfF, -⟩
      rw [hqfin] at hfF
      exact absurd hfF (List.not_mem_nil f)
    · intro hrl
      obtain ⟨f, hfF, -⟩ := hQ.mpr ((hcore w).mpr hrl)
      rw [hqfin] at hfF
      exact absurd hfF (List.not_mem_nil f)

theorem C2_intersect_language_witness :
    ∃ p : NFA × Heap,
      NFA.intersect (⟨⟨1, 1, []⟩, ⟨3⟩⟩ : NFA) (⟨⟨2, 1, []⟩, ⟨3⟩⟩ : NFA)
        Heap.emptyH 0 = .ok p ∧
      (p.1.test p.2 [] = true ↔
        ((⟨⟨1, 1, []⟩, ⟨3⟩⟩ : NFA).test Heap.emptyH [] = true ∧
         (⟨⟨2, 1, []⟩, ⟨3⟩⟩ : NFA).test Heap.emptyH [] = true)) := by
  cases heval : NFA.intersect (⟨⟨1, 1, []⟩, ⟨3⟩⟩ : NFA)
      (⟨⟨2, 1, []⟩, ⟨3⟩⟩ : NFA) Heap.emptyH 0 with
  | error e =>
      have hT : isOkE (NFA.intersect (⟨⟨1, 1, []⟩, ⟨3⟩⟩ : NFA)
          (⟨⟨2, 1, []⟩, ⟨3⟩⟩ : NFA) Heap.emptyH 0) = true := by decide
      rw [heval] at hT
      exact Bool.noConfusion hT
  | ok p =>
      refine ⟨p, rfl, ?_⟩
      exact @C2_intersect_language ⟨⟨1, 1, []⟩, ⟨3⟩⟩ ⟨⟨2, 1, []⟩, ⟨3⟩⟩
        Heap.emptyH 0 p
        ⟨fun f hf => absurd hf (List.not_mem_nil f), List.nodup_nil,
          fun n hn e he => absurd he (List.not_mem_nil e),
          fun n hn e he => absurd he (List.not_mem_nil e),
          fun n hn e he => absurd he (List.not_mem_nil e),
          fun n hn e he => absurd he (List.not_mem_nil e),
          fun n hn => List.nodup_nil,
          fun n hn => List.nodup_nil,
          fun a b ha hb => rfl⟩
        ⟨fun f hf => absurd hf (List.not_mem_nil f), List.nodup_nil,
          fun n hn e he => absurd he (List.not_mem_nil e),
          fun n hn e he => absurd he (List.not_mem_nil e),
          fun n hn e he => absurd he (List.not_mem_nil e),
          fun n hn e he => absurd he (List.not_mem_nil e),
          fun n hn => List.nodup_nil,
          fun n hn => List.nodup_nil,
          fun a b ha hb => rfl⟩
        (le_refl 1) (le_refl 1) (by decide) (by decide)
        (fun x hx => ⟨rfl, rfl⟩)
        heval []

end Theorems

end Refa
